import Mathlib

/-!
Verification development for the POPE encrypted key/value index server core
(files `ope/pope.py`, `ope/mope.py`, `ope/cheater.py`, `ope/oracle.py`).

Shallow embedding conventions:
* plaintexts, ciphertexts and values are natural numbers; the decryption
  function of the cipher is an arbitrary `dec : Nat → Nat` (encryption is
  randomized in the source, so several ciphertexts may share a plaintext,
  and the numeric order of ciphertexts stands for the byte-string order
  the source compares with);
* Python `list` is `List`, tuples of ints are `List Nat`;
* Python `assert` failures and uncaught exceptions (IndexError, ...) are
  the `Res.fail` outcome; loops whose termination is not structural get a
  fuel parameter, and exhausted fuel is also `Res.fail`;
* `bisect.bisect_left` / `bisect_right` are embedded by the linear-scan
  functions `bisl` / `bisr`, which agree with the library binary search on
  sorted input (every call site in the source passes sorted lists);
* Python `sorted(...)` (a stable sort) is `List.insertionSort`, which is
  also stable and sorts with respect to the given total preorder.
-/

/-! # Definitions -/

/-- Outcome of running embedded code that can raise (AssertionError,
IndexError) or fail to terminate within the provided fuel. -/
inductive Res (α : Type) where
  | ok (a : α)
  | fail
deriving DecidableEq

instance : Monad Res where
  pure := Res.ok
  bind := fun r f => match r with
    | .ok a => f a
    | .fail => .fail

/-- Embedding of a Python `assert b`. -/
def massert (b : Bool) : Res Unit :=
  if b then .ok () else .fail

/-- Linear-scan embedding of `bisect.bisect_left` for an arbitrary strict
order: the first index whose element is not below `x`.  On sorted input
this is exactly the library routine. -/
def bisl {α : Type} (lt : α → α → Prop) [DecidableRel lt] : List α → α → Nat
  | [], _ => 0
  | a :: rest, x => if lt a x then bisl lt rest x + 1 else 0

/-- Linear-scan embedding of `bisect.bisect_right`: the first index
whose element is above `x`. -/
def bisr {α : Type} (lt : α → α → Prop) [DecidableRel lt] : List α → α → Nat
  | [], _ => 0
  | a :: rest, x => if lt x a then 0 else bisr lt rest x + 1

/-! ## Oracle (oracle.py)

The oracle holds the cipher (embedded as the decryption map `dec`) and the
bound `L` (`max_size`).  The communication counters `_data_in`,
`_data_out`, `_rounds` influence no return value and no claim, so they
are not carried.  Needles and haystack elements are generic, with key
functions extracting the ciphertext to decrypt, as in the source. -/

/-- `Oracle.sort(L, lkey, tiebreak)` (oracle.py:42-53): stable sort by
`(decoded ciphertext, tiebreak)`; the source asserts the result fits in
`max_size` afterwards. -/
def Oracle.sort {α : Type} (dec : Nat → Nat) (L : Nat) (lkey : α → Nat)
    (tiebreak : α → Nat) (l : List α) : Res (List α) :=
  let res := List.insertionSort
    (fun a b => dec (lkey a) < dec (lkey b) ∨
      (dec (lkey a) = dec (lkey b) ∧ tiebreak a ≤ tiebreak b)) l
  massert (res.length ≤ L) >>= fun _ => .ok res

/-- `Oracle.partition(needles, haystack, nkey, haykey)` (oracle.py:55-79):
asserts the haystack fits in `max_size`, decrypts and sorts it (so the
sortedness self-check that follows in the source cannot fail), and yields
for each needle its `bisect_left` position among the decoded haystack. -/
def Oracle.partition {α β : Type} (dec : Nat → Nat) (L : Nat)
    (nkey : α → Nat) (haykey : β → Nat) (needles : List α)
    (haystack : List β) : Res (List (α × Nat)) :=
  massert (haystack.length ≤ L) >>= fun _ =>
  let sdhay := List.insertionSort (· ≤ ·)
    (haystack.map (fun x => dec (haykey x)))
  .ok (needles.map (fun n => (n, bisl (· < ·) sdhay (dec (nkey n)))))

/-- `Oracle.partition_sort` (oracle.py:81-90): sorts the haystack by
plaintext, then partitions against it; returns both. -/
def Oracle.partition_sort {α β : Type} (dec : Nat → Nat) (L : Nat)
    (nkey : α → Nat) (haykey : β → Nat) (needles : List α)
    (haystack : List β) : Res (List β × List (α × Nat)) :=
  let shay := List.insertionSort
    (fun a b => dec (haykey a) ≤ dec (haykey b)) haystack
  (Oracle.partition dec L nkey haykey needles shay) >>= fun pr =>
  .ok (shay, pr)

/-- `Oracle.find(needles, haystack, nkey, haykey)` (oracle.py:92-111):
builds the sorted list of `(decoded ciphertext, original index)` pairs and
yields, per needle, the original index of an exact plaintext match, or
`-1 - insertion_index` when absent. -/
def Oracle.find {α β : Type} (dec : Nat → Nat) (L : Nat)
    (nkey : α → Nat) (haykey : β → Nat) (needles : List α)
    (haystack : List β) : Res (List (α × Int)) :=
  massert (haystack.length ≤ L) >>= fun _ =>
  let sdhay := List.insertionSort
    (fun (p q : Nat × Nat) => p.1 < q.1 ∨ (p.1 = q.1 ∧ p.2 ≤ q.2))
    (haystack.enum.map (fun p => (dec (haykey p.2), p.1)))
  .ok (needles.map (fun n =>
    let dk := dec (nkey n)
    let found := bisl
      (fun (p q : Nat × Nat) => p.1 < q.1 ∨ (p.1 = q.1 ∧ p.2 < q.2))
      sdhay (dk, 0)
    if found < sdhay.length ∧ (sdhay.getD found (0, 0)).1 = dk then
      (n, ((sdhay.getD found (0, 0)).2 : Int))
    else
      (n, -1 - (found : Int))))

/-! ## mOPE tuple-to-integer conversion (`Mope._tuptoval`, mope.py:87-94) -/

/-- Node capacity of the mOPE B-tree (`Node.maxlen = 4`, mope.py:120). -/
def Node.maxlen : Nat := 4

/-- Loop of `Mope._tuptoval`:
`res *= power; res += x; power *= (maxlen + 1)` for each `x` in the tuple,
beginning from the accumulator pair `(res, power)`. -/
def tuptovalAux (B : Nat) : Nat → Nat → List Nat → Nat
  | res, _, [] => res
  | res, power, x :: rest => tuptovalAux B (res * power + x) (power * B) rest

/-- `Mope._tuptoval(tup)` (mope.py:87-94): starts with `res = 0`,
`power = 1`, base `maxlen + 1`. -/
def Mope.tuptoval (tup : List Nat) : Nat :=
  tuptovalAux (Node.maxlen + 1) 0 1 tup

/-- Modelled from the spec: the base-`(maxlen+1)` Horner fold the spec
describes for the tuple-to-integer conversion
(`v ← 0; for each x: v ← v * (maxlen+1) + x`).  Used to compare the
specified conversion against the one in the source. -/
def hornerValSpec (B : Nat) (tup : List Nat) : Nat :=
  tup.foldl (fun v x => v * B + x) 0

/-- Zero-padding that exhibits the positional value `Mope._tuptoval`
actually computes: `padZeros i t` places `i` zeros before the head digit
of `t`, `i+1` before the next, and so on. -/
def padZeros (i : Nat) : List Nat → List Nat
  | [] => []
  | x :: rest => List.replicate i 0 ++ x :: padZeros (i + 1) rest

/-- The digit string whose plain base-`B` Horner value equals
`Mope._tuptoval`: `k` zeros are inserted after the digit at position `k`
(equivalently, digit `k` is worth `B ^ ((k+1) + (k+2) + ⋯ + (m-1))` in a
tuple of length `m`). -/
def tupPad : List Nat → List Nat
  | [] => []
  | x :: rest => x :: padZeros 0 rest

/-- Horner evaluation continued from an accumulator. -/
def hornerFrom (B : Nat) (v : Nat) (tup : List Nat) : Nat :=
  tup.foldl (fun v x => v * B + x) v

/-! ## Cheater (cheater.py)

The cheater keeps `slst`, triples `(plaintext, ciphertext key, value)`
sorted by Python tuple order, and `ulst`, unsorted pending triples.
`noop` is `False` throughout, and `sampval` — initialised from
`type(val)()` on first insert — is the default value `0` of the embedded
value type. -/

/-- Python tuple order `(ukey, key, val) <= (ukey2, key2, val2)`. -/
def tripLe (p q : Nat × Nat × Nat) : Prop :=
  p.1 < q.1 ∨ (p.1 = q.1 ∧
    (p.2.1 < q.2.1 ∨ (p.2.1 = q.2.1 ∧ p.2.2 ≤ q.2.2)))

/-- Python tuple order `(ukey, key, val) < (ukey2, key2, val2)`. -/
def tripLt (p q : Nat × Nat × Nat) : Prop :=
  p.1 < q.1 ∨ (p.1 = q.1 ∧
    (p.2.1 < q.2.1 ∨ (p.2.1 = q.2.1 ∧ p.2.2 < q.2.2)))

instance : DecidableRel tripLe := fun p q => by
  unfold tripLe; infer_instance

instance : DecidableRel tripLt := fun p q => by
  unfold tripLt; infer_instance

/-- `heapq.merge` of two sorted runs (stable: ties taken from the left
run first). -/
def mergeTrip : List (Nat × Nat × Nat) → List (Nat × Nat × Nat) →
    List (Nat × Nat × Nat)
  | [], r => r
  | a :: l, [] => a :: l
  | a :: l, b :: r =>
      if tripLe a b then a :: mergeTrip l (b :: r)
      else b :: mergeTrip (a :: l) r
termination_by l r => l.length + r.length

/-- State of the `Cheater` backend. -/
structure Cheater where
  slst : List (Nat × Nat × Nat)
  ulst : List (Nat × Nat × Nat)
deriving DecidableEq

/-- A fresh `Cheater` (cheater.py:20-25). -/
def Cheater.init : Cheater := ⟨[], []⟩

/-- `Cheater.insert(key, val)` (cheater.py:27-33): append the decrypted
triple to the unsorted list. -/
def Cheater.insert (s : Cheater) (dec : Nat → Nat) (key val : Nat) :
    Cheater :=
  { s with ulst := s.ulst ++ [(dec key, key, val)] }

/-- The merge step shared by `lookup` and `range_search`
(cheater.py:39-42, 54-57): sort `ulst` and merge it into `slst`. -/
def Cheater.flush (s : Cheater) : Cheater :=
  if s.ulst.isEmpty then s
  else ⟨mergeTrip s.slst (List.insertionSort tripLe s.ulst), []⟩

/-- `Cheater.lookup(key)` (cheater.py:35-47): merge, `bisect_left` for
`(ukey, key, sampval)`, and return the value there when the plaintext
matches.  Also returns the mutated state. -/
def Cheater.lookup (s : Cheater) (dec : Nat → Nat) (key : Nat) :
    Option Nat × Cheater :=
  let s2 := s.flush
  let uk := dec key
  let ind := bisl tripLt s2.slst (uk, key, 0)
  if ind < s2.slst.length ∧ (s2.slst.getD ind (0, 0, 0)).1 = uk then
    (some (s2.slst.getD ind (0, 0, 0)).2.2, s2)
  else
    (none, s2)

/-- `Cheater.range_search(key1, key2)` (cheater.py:49-60): merge, then
slice `slst` between `bisect_left (uk1, key1, sampval)` and
`bisect_right (uk2, key2, sampval)`, keeping `(key, value)`. -/
def Cheater.range_search (s : Cheater) (dec : Nat → Nat)
    (key1 key2 : Nat) : List (Nat × Nat) × Cheater :=
  let s2 := s.flush
  let ind1 := bisl tripLt s2.slst (dec key1, key1, 0)
  let ind2 := bisr tripLt s2.slst (dec key2, key2, 0)
  (((s2.slst.drop ind1).take (ind2 - ind1)).map (fun t => (t.2.1, t.2.2)),
    s2)

/-- `Cheater.size()` (cheater.py:62-63). -/
def Cheater.size (s : Cheater) : Nat := s.slst.length + s.ulst.length

/-- `Cheater.traverse()` (cheater.py:65-69): sorted part then unsorted
part, as `(key, value)` pairs. -/
def Cheater.traverse (s : Cheater) : List (Nat × Nat) :=
  s.slst.map (fun t => (t.2.1, t.2.2)) ++ s.ulst.map (fun t => (t.2.1, t.2.2))

/-! ## mOPE tree (mope.py)

Node fields kept from the source: `prefix` (called `pfx` here), `suffix`
(`sfx`, omitted on leaves where it is always `()`), `keys`, `encs`.  The
`serv`, `parent` and `parind` back-references are realised by the
functional recursion structure instead of pointers; prefixes are stored
and maintained exactly as the source maintains them.  An encoding slot
holds `none` for the `None` placeholder that `LeafNode.encode` inserts
before the re-encoding pass fills it. -/

inductive MTree where
  | mleaf (pfx : List Nat) (keys : List Nat) (encs : List (Option (List Nat)))
  | mnode (pfx : List Nat) (sfx : List Nat) (keys : List Nat)
      (encs : List (Option (List Nat))) (children : List MTree)

/-- Suffix of a node (`()` at a leaf). -/
def MTree.sfxOf : MTree → List Nat
  | .mleaf _ _ _ => []
  | .mnode _ sfx _ _ _ => sfx

/-- Stored prefix of a node. -/
def MTree.pfxOf : MTree → List Nat
  | .mleaf p _ _ => p
  | .mnode p _ _ _ _ => p

/-- Leaf part of `Node.traverse` (mope.py:198-203): checks each stored
encoding against `prefix + (ii+1,)` (a `None` placeholder fails the
comparison, as in Python) and yields it. -/
def leafTravFrom (pfx : List Nat) : Nat → List (Option (List Nat)) →
    Res (List (List Nat))
  | _, [] => .ok []
  | ii, e :: rest =>
      massert (e == some (pfx ++ [ii + 1])) >>= fun _ =>
      leafTravFrom pfx (ii + 1) rest >>= fun r =>
      .ok ((pfx ++ [ii + 1]) :: r)

mutual

/-- `Node.traverse` (mope.py:198-203, 259-276) with its internal
consistency asserts (prefix/suffix bookkeeping; the parent/parind
asserts are identities of the pointer representation and have no
functional content here). -/
def mtravT : MTree → Res (List (List Nat))
  | .mleaf _pfx keys encs =>
      massert (keys.length == encs.length) >>= fun _ =>
      leafTravFrom _pfx 0 encs
  | .mnode pfx sfx keys encs cs =>
      massert (cs.length == encs.length + 1 && encs.length == keys.length)
        >>= fun _ =>
      mtravChildren pfx sfx 0 encs cs

/-- The loop inside `InternalNode.traverse`: children interleaved with
the per-key encodings, then the final child. -/
def mtravChildren (pfx sfx : List Nat) (ii : Nat) :
    List (Option (List Nat)) → List MTree → Res (List (List Nat))
  | [], [c] =>
      massert (sfx == 0 :: c.sfxOf && c.pfxOf == pfx ++ [ii]) >>= fun _ =>
      mtravT c
  | e :: erest, c :: crest =>
      massert (sfx == 0 :: c.sfxOf && c.pfxOf == pfx ++ [ii]) >>= fun _ =>
      mtravT c >>= fun ct =>
      massert (e == some (pfx ++ (ii + 1) :: sfx)) >>= fun _ =>
      mtravChildren pfx sfx (ii + 1) erest crest >>= fun rest =>
      .ok (ct ++ (pfx ++ (ii + 1) :: sfx) :: rest)
  | _, _ => .fail

end

/-- `Node.find(key)` (mope.py:135-140): one `Oracle.find` round over the
node keys; a non-negative index means an exact plaintext match. -/
def mfind (dec : Nat → Nat) (L : Nat) (keys : List Nat) (key : Nat) :
    Res (Nat × Bool) :=
  Oracle.find dec L id id [key] keys >>= fun res =>
  match res with
  | [(_, ind)] =>
      if ind ≥ 0 then .ok (ind.toNat, true) else .ok ((-1 - ind).toNat, false)
  | _ => .fail

/-- `Node.redo_encs(updates, start)` (mope.py:151-161), looping over the
encoding slots from position `ind` on: each slot becomes
`prefix + (ind+1,) + suffix`; a `None` placeholder becomes the `inserted`
result (asserted unique), any other old value is appended to `updates`. -/
def redoEncsFrom (pfx sfx : List Nat) : Nat → List (Option (List Nat)) →
    List (List Nat × List Nat) → Option (List Nat) →
    Res (List (Option (List Nat)) × List (List Nat × List Nat) ×
      Option (List Nat))
  | _, [], ups, inserted => .ok ([], ups, inserted)
  | ind, e :: rest, ups, inserted =>
      let newenc := pfx ++ (ind + 1) :: sfx
      match e with
      | none =>
          massert inserted.isNone >>= fun _ =>
          redoEncsFrom pfx sfx (ind + 1) rest ups (some newenc) >>=
            fun (r, u, i) => .ok (some newenc :: r, u, i)
      | some old =>
          redoEncsFrom pfx sfx (ind + 1) rest (ups ++ [(old, newenc)])
            inserted >>= fun (r, u, i) => .ok (some newenc :: r, u, i)

/-- Sequential collection of the unique `inserted` encoding produced by
the re-encoding passes (`if cins: assert inserted is None`). -/
def mergeIns : Option (List Nat) → Option (List Nat) →
    Res (Option (List Nat))
  | some a, none => .ok (some a)
  | some _, some _ => .fail
  | none, b => .ok b

mutual

/-- `Node.redo_all(updates)` (mope.py:192-193, 251-252) after the parent
stored the new prefix into the node: re-encode the own slots and, for an
internal node, all children recursively. -/
def redoAllT : MTree → List Nat → List (List Nat × List Nat) →
    Res (MTree × List (List Nat × List Nat) × Option (List Nat))
  | .mleaf _ keys encs, newpfx, ups =>
      redoEncsFrom newpfx [] 0 encs ups none >>= fun (r, u, i) =>
      .ok (.mleaf newpfx keys r, u, i)
  | .mnode _ sfx keys encs cs, newpfx, ups =>
      redoEncsFrom newpfx sfx 0 encs ups none >>= fun (r, u, i0) =>
      redoChildren newpfx 0 cs u >>= fun (cs2, u2, i1) =>
      mergeIns i0 i1 >>= fun i =>
      .ok (.mnode newpfx sfx keys r cs2, u2, i)

/-- Loop of `InternalNode.redo_encs_children` (mope.py:239-249) over the
children from running index `ii`: store prefix `self.prefix + (ii,)` into
child `ii` and re-encode it. -/
def redoChildren (pfx : List Nat) : Nat → List MTree →
    List (List Nat × List Nat) →
    Res (List MTree × List (List Nat × List Nat) × Option (List Nat))
  | _, [], ups => .ok ([], ups, none)
  | ii, c :: rest, ups =>
      redoAllT c (pfx ++ [ii]) ups >>= fun (c2, u1, i1) =>
      redoChildren pfx (ii + 1) rest u1 >>= fun (rest2, u2, i2) =>
      mergeIns i1 i2 >>= fun i =>
      .ok (c2 :: rest2, u2, i)

end

/-- `InternalNode.redo_encs_children(updates, start)` (mope.py:239-249):
own slots from `start`, then children from `start`, collecting the unique
`inserted` encoding. -/
def redoEncsChildrenFrom (pfx sfx : List Nat)
    (encs : List (Option (List Nat))) (cs : List MTree) (start : Nat)
    (ups : List (List Nat × List Nat)) :
    Res (List (Option (List Nat)) × List MTree ×
      List (List Nat × List Nat) × Option (List Nat)) :=
  redoEncsFrom pfx sfx start (encs.drop start) ups none >>= fun (r, u, i0) =>
  redoChildren pfx start (cs.drop start) u >>= fun (cs2, u2, i1) =>
  mergeIns i0 i1 >>= fun i =>
  .ok (encs.take start ++ r, cs.take start ++ cs2, u2, i)

/-- Result of `Node.encode` on a subtree: either the rewritten subtree
together with the returned `(enc, found)`, or a node split that the
parent absorbs through `InternalNode.add` — the burst carries the left
part, the promoted `(key, enc)` and the new right sibling.  (The split
case only arises on an inserting, not-found path, so `found` is false
there.) -/
inductive MEnc where
  | done (t : MTree) (ups : List (List Nat × List Nat)) (enc : List Nat)
      (found : Bool)
  | burst (lt : MTree) (pk : Nat) (pe : Option (List Nat)) (rt : MTree)
      (ups : List (List Nat × List Nat))

mutual

/-- `LeafNode.encode` / `InternalNode.encode` (mope.py:168-190, 211-216)
together with `InternalNode.add` (mope.py:218-237), which absorbs a
child split: insert the promoted key/enc and the new right sibling, split
this node at `maxlen // 2` if it now exceeds `maxlen`, otherwise run the
re-encoding pass from the touched position. -/
def mencodeT (dec : Nat → Nat) (L : Nat) (key : Nat) (ins : Bool) :
    MTree → List (List Nat × List Nat) → Res MEnc
  | .mleaf pfx keys encs, ups =>
      mfind dec L keys key >>= fun (ind, found) =>
      if ins && !found then
        let keys2 := keys.insertIdx ind key
        let encs2 := encs.insertIdx ind none
        if keys2.length > Node.maxlen then
          -- L-exceeding leaf split (mope.py:173-182)
          let split := Node.maxlen / 2
          match encs2.getD split none, keys2.getD split 0 with
          | pe, pk =>
            .ok (.burst (.mleaf pfx (keys2.take split) (encs2.take split))
              pk pe (.mleaf [] (keys2.drop (split + 1)) (encs2.drop (split + 1)))
              ups)
        else
          redoEncsFrom pfx [] ind (encs2.drop ind) ups none >>=
            fun (r, u, i) =>
          match i with
          | some e => .ok (.done (.mleaf pfx keys2 (encs2.take ind ++ r)) u e
              false)
          | none => .fail
      else
        if ind < encs.length then
          match encs.getD ind none with
          | some e => .ok (.done (.mleaf pfx keys encs) ups e found)
          | none => .fail
        else
          -- `self.encs[-1][:-1] + (self.maxlen+1,)`: IndexError on an
          -- empty leaf, TypeError on a placeholder
          match encs.getLast? with
          | some (some e) =>
              .ok (.done (.mleaf pfx keys encs) ups
                (e.dropLast ++ [Node.maxlen + 1]) found)
          | _ => .fail
  | .mnode pfx sfx keys encs cs, ups =>
      mfind dec L keys key >>= fun (ind, found) =>
      if found then
        match encs.getD ind none with
        | some e => .ok (.done (.mnode pfx sfx keys encs cs) ups e true)
        -- a `None` placeholder would be returned to `Mope.encode` and
        -- crash in `_tuptoval`
        | none => .fail
      else
        mencodeChildAt dec L key ins ind cs ups >>= fun r =>
        match r with
        | .done c2 u e f =>
            .ok (.done (.mnode pfx sfx keys encs (cs.set ind c2)) u e f)
        | .burst lt pk pe rt u =>
            let keys2 := keys.insertIdx ind pk
            let encs2 := encs.insertIdx ind pe
            let cs2 := (cs.set ind lt).insertIdx (ind + 1) rt
            if keys2.length > Node.maxlen then
              let split := Node.maxlen / 2
              .ok (.burst
                (.mnode pfx sfx (keys2.take split) (encs2.take split)
                  (cs2.take (split + 1)))
                (keys2.getD split 0) (encs2.getD split none)
                (.mnode [] sfx (keys2.drop (split + 1))
                  (encs2.drop (split + 1)) (cs2.drop (split + 1)))
                u)
            else
              redoEncsChildrenFrom pfx sfx encs2 cs2 ind u >>=
                fun (encs3, cs3, u2, i) =>
              match i with
              | some e =>
                  .ok (.done (.mnode pfx sfx keys2 encs3 cs3) u2 e false)
              | none => .fail

/-- Walks to the child at position `ind` (`self.children[ind]`,
mope.py:216) and encodes into it. -/
def mencodeChildAt (dec : Nat → Nat) (L : Nat) (key : Nat) (ins : Bool) :
    Nat → List MTree → List (List Nat × List Nat) → Res MEnc
  | _, [], _ => .fail
  | 0, c :: _, ups => mencodeT dec L key ins c ups
  | n + 1, _ :: rest, ups => mencodeChildAt dec L key ins n rest ups

end

/-- Top of `Mope.encode`: encode into the root; a split that reaches the
root grows a new root (`make_parent`, mope.py:142-149) whose `add` cannot
overflow, then re-encodes everything below it.  Returns the rewritten
tree, the updates, the resulting tuple and the found flag. -/
def treeEncodeTop (dec : Nat → Nat) (L : Nat) (t : MTree) (key : Nat)
    (ins : Bool) :
    Res (MTree × List (List Nat × List Nat) × List Nat × Bool) :=
  mencodeT dec L key ins t [] >>= fun r =>
  match r with
  | .done t2 u e f => .ok (t2, u, e, f)
  | .burst lt pk pe rt u =>
      let sfxR := 0 :: lt.sfxOf
      redoEncsChildrenFrom [] sfxR [pe] [lt, rt] 0 u >>=
        fun (encs2, cs2, u2, i) =>
      match i with
      | some e => .ok (.mnode [] sfxR [pk] encs2 cs2, u2, e, false)
      | none => .fail

/-! ## Mope server state (mope.py:18-116)

`_data` is a `defaultdict(list)` keyed by integer encodings; it is
embedded as an association list with unique keys (absent keys read as
`[]`, exactly the defaultdict behaviour on the paths exercised here). -/

/-- Read `data[e]` (empty for an absent key). -/
def dictGet (d : List (Nat × List (Nat × Nat))) (e : Nat) :
    List (Nat × Nat) :=
  match d.find? (fun p => p.1 == e) with
  | some p => p.2
  | none => []

/-- Write `data[e] = v`. -/
def dictSet (d : List (Nat × List (Nat × Nat))) (e : Nat)
    (v : List (Nat × Nat)) : List (Nat × List (Nat × Nat)) :=
  if d.any (fun p => p.1 == e) then
    d.map (fun p => if p.1 == e then (e, v) else p)
  else d ++ [(e, v)]

/-- `del data[e]`. -/
def dictDel (d : List (Nat × List (Nat × Nat))) (e : Nat) :
    List (Nat × List (Nat × Nat)) :=
  d.filter (fun p => !(p.1 == e))

/-- The mOPE server state: the tree, the sorted list of live integer
encodings, and the `data` map from encoding to the `(key, value)` pairs
sharing it. -/
structure Mope where
  tree : MTree
  encodings : List Nat
  data : List (Nat × List (Nat × Nat))

/-- A fresh `Mope` (mope.py:19-23). -/
def Mope.init : Mope := ⟨.mleaf [] [] [], [], []⟩

/-- `Mope.check(full=False)` (mope.py:96-105) as executed (under
`__debug__`) at the start and end of every `encode`: tree traversal with
its asserts, equal encoding lengths, the traversal mapped through
`_tuptoval` equals `encodings`, every live encoding except a
just-inserted one has data, and every non-empty data bucket is keyed by
a live encoding. -/
def Mope.check (m : Mope) (inserted : Option Nat) : Res Unit :=
  mtravT m.tree >>= fun intree =>
  massert (intree.all (fun enc => enc.length == (intree.headD []).length))
    >>= fun _ =>
  massert (intree.map Mope.tuptoval == m.encodings) >>= fun _ =>
  massert (m.encodings.all
    (fun x => some x == inserted || !(dictGet m.data x).isEmpty)) >>= fun _ =>
  massert (m.data.all (fun p => p.2.isEmpty || m.encodings.contains p.1))

/-- The update loop of `Mope.encode` (mope.py:42-49): each `(old, new)`
pair replaces `old` by `new` at its (precomputed) position in
`encodings` and queues the bucket move; the queued buckets are written
back after the loop. -/
def applyUpdates : List (Nat × Nat × Nat) → List Nat →
    List (Nat × List (Nat × Nat)) → List (Nat × List (Nat × Nat)) →
    Res (List Nat × List (Nat × List (Nat × Nat)))
  | [], encodings, data, updata =>
      .ok (encodings, updata.foldl (fun d p => dictSet d p.1 p.2) data)
  | (upind, old, new) :: rest, encodings, data, updata =>
      massert (upind < encodings.length) >>= fun _ =>
      massert (encodings.getD upind 0 == old) >>= fun _ =>
      applyUpdates rest (encodings.set upind new) (dictDel data old)
        (updata ++ [(new, dictGet data old)])

/-- `Mope.encode(key, insert)` (mope.py:25-59): entry self-check, tree
encode, then — on an inserting, not-found path — conversion of the
update pairs to integers, the update loop, and sorted insertion of the
new encoding; a final self-check in both branches. -/
def Mope.encode (m : Mope) (dec : Nat → Nat) (L : Nat) (key : Nat)
    (ins : Bool) : Res (Nat × Nat × Bool × Mope) :=
  Mope.check m none >>= fun _ =>
  treeEncodeTop dec L m.tree key ins >>= fun (t2, ups, restup, found) =>
  let res := Mope.tuptoval restup
  if ins && !found then
    let upencs := ups.map (fun p => (Mope.tuptoval p.1, Mope.tuptoval p.2))
    let upinds := upencs.map (fun p => bisl (· < ·) m.encodings p.1)
    applyUpdates (upinds.zip upencs) m.encodings m.data [] >>=
      fun (encs2, data2) =>
    let ind := bisl (· < ·) encs2 res
    massert (ind == encs2.length || !(encs2.getD ind 0 == res)) >>= fun _ =>
    let encs3 := encs2.insertIdx ind res
    massert (encs3 == List.insertionSort (· ≤ ·) encs3) >>= fun _ =>
    let m2 : Mope := ⟨t2, encs3, data2⟩
    Mope.check m2 (some res) >>= fun _ =>
    .ok (res, ind, found, m2)
  else
    let ind := bisl (· < ·) m.encodings res
    massert ups.isEmpty >>= fun _ =>
    (if found then
      massert (ind < m.encodings.length) >>= fun _ =>
      massert (m.encodings.getD ind 0 == res)
    else .ok ()) >>= fun _ =>
    let m2 : Mope := ⟨t2, m.encodings, m.data⟩
    Mope.check m2 (if ins then some res else none) >>= fun _ =>
    .ok (res, ind, found, m2)

/-- `Mope.insert(key, val)` (mope.py:61-63). -/
def Mope.insert (m : Mope) (dec : Nat → Nat) (L : Nat) (key val : Nat) :
    Res Mope :=
  Mope.encode m dec L key true >>= fun (enc, _, _, m2) =>
  .ok { m2 with data := dictSet m2.data enc (dictGet m2.data enc ++ [(key, val)]) }

/-- `Mope.lookup(key)` (mope.py:65-70): on `found`, the first value at
that encoding (an empty bucket would raise IndexError). -/
def Mope.lookup (m : Mope) (dec : Nat → Nat) (L : Nat) (key : Nat) :
    Res (Option Nat × Mope) :=
  Mope.encode m dec L key false >>= fun (ekey, _, found, m2) =>
  if found then
    match dictGet m2.data ekey with
    | [] => .fail
    | p :: _ => .ok (some p.2, m2)
  else
    .ok (none, m2)

/-- `Mope.range_search(key1, key2)` (mope.py:72-77): encode both
endpoints without inserting and stream the buckets of
`encodings[ind1..ind2)`. -/
def Mope.range_search (m : Mope) (dec : Nat → Nat) (L : Nat)
    (key1 key2 : Nat) : Res (List (Nat × Nat) × Mope) :=
  Mope.encode m dec L key1 false >>= fun (_, ind1, _, m1) =>
  Mope.encode m1 dec L key2 false >>= fun (_, ind2, _, m2) =>
  .ok ((((m2.encodings.drop ind1).take (ind2 - ind1)).map
    (fun e => dictGet m2.data e)).flatten, m2)

/-- `Mope.size()` (mope.py:79-80). -/
def Mope.size (m : Mope) : Nat :=
  (m.data.map (fun p => p.2.length)).sum

/-- `Mope.traverse()` (mope.py:82-85). -/
def Mope.traverse (m : Mope) : List (Nat × Nat) :=
  (m.encodings.map (fun e => dictGet m.data e)).flatten

/-! ## POPE buffer tree (pope.py)

`LeafNode` owns an unsorted buffer of `(key, value)` pairs; an
`InternalNode` owns the B-tree key list `sorted`, a buffer of pending
pairs, and `len(sorted) + 1` children.  Parent pointers are realised by
the recursion structure.  `random.sample(buffer, L)` is embedded by an
explicit stream of index choices: each entry of the stream selects `L`
distinct positions of the buffer (anything else, or an exhausted stream,
is a modelling artifact reported as `Res.fail`, like exhausted fuel).

In-place buffer re-sorts done by the leaf range helpers
(`self.buffer, ... = partition_sort(...)`) permute a buffer without
changing its multiset; they are not written back into the returned tree
here, which no claim can observe. -/

inductive PTree where
  | pleaf (buffer : List (Nat × Nat))
  | pnode (sorted : List Nat) (buffer : List (Nat × Nat))
      (children : List PTree)

mutual

/-- `traverse` (pope.py:147-149, 321-327): a leaf yields its buffer; an
internal node yields its buffer and then its children in order. -/
def PTree.traverse : PTree → List (Nat × Nat)
  | .pleaf buf => buf
  | .pnode _ buf cs => buf ++ PTree.traverseL cs

def PTree.traverseL : List PTree → List (Nat × Nat)
  | [] => []
  | c :: rest => PTree.traverse c ++ PTree.traverseL rest

end

mutual

/-- `size` (pope.py:106-107, 268-269). -/
def PTree.size : PTree → Nat
  | .pleaf buf => buf.length
  | .pnode _ buf cs => buf.length + PTree.sizeL cs

def PTree.sizeL : List PTree → Nat
  | [] => 0
  | c :: rest => PTree.size c + PTree.sizeL rest

end

/-- Append pairs flushed down by a parent partition to a node buffer
(`self.children[ind].insert(k, v)`, pope.py:350). -/
def PTree.addPairs : PTree → List (Nat × Nat) → PTree
  | .pleaf buf, ps => .pleaf (buf ++ ps)
  | .pnode s buf cs, ps => .pnode s (buf ++ ps) cs

/-- `random.sample(buffer, L)` under an explicit choice of `L` distinct
valid positions. -/
def sampleByIdx (L : Nat) (idxs : List Nat) (buf : List (Nat × Nat)) :
    Res (List (Nat × Nat)) :=
  if idxs.length = L ∧ idxs.Nodup ∧ (∀ i ∈ idxs, i < buf.length) then
    .ok (idxs.map (fun i => buf.getD i (0, 0)))
  else .fail

/-- The `(k, v)` pairs routed to bucket `i` by a partition round, in
partition order (`buckets[ind].append((k,v))`, pope.py:171-177). -/
def pairBucket (partitions : List ((Nat × Option Nat) × Nat)) (i : Nat) :
    List (Nat × Nat) :=
  partitions.filterMap (fun q => match q with
    | ((k, some v), j) => if j = i then some (k, v) else none
    | ((_, none), _) => none)

/-- The search keys routed to bucket `i`
(`key_buckets[ind].append(k)`). -/
def keyBucket (partitions : List ((Nat × Option Nat) × Nat)) (i : Nat) :
    List Nat :=
  partitions.filterMap (fun q => match q with
    | ((k, none), j) => if j = i then some k else none
    | _ => none)

/-- The trailing-empty-bucket elimination loop of `LeafNode.split`
(pope.py:178-184): while the last data bucket is empty, drop it, merge
its key bucket into the left neighbour, and drop the last pivot.
Indexing a missing `buckets[-1]`, `key_buckets[-2]` or `promoted[-1]`
raises as in Python.  The counter is an upper bound on iterations
(`buckets.length` suffices). -/
def trimBuckets : Nat → List (List (Nat × Nat)) → List (List Nat) →
    List Nat →
    Res (List (List (Nat × Nat)) × List (List Nat) × List Nat)
  | 0, _, _, _ => .fail
  | n + 1, buckets, kbs, promoted =>
      match buckets.getLast? with
      | none => .fail
      | some last =>
          if last.isEmpty then
            match kbs.getLast?, kbs.dropLast.getLast? with
            | some lk, some prev =>
                if promoted.isEmpty then .fail
                else
                  trimBuckets n buckets.dropLast
                    (kbs.dropLast.dropLast ++ [prev ++ lk])
                    promoted.dropLast
            | _, _ => .fail
          else
            .ok (buckets, kbs, promoted)

/-- Dispatch argument for the `LeafNode.split` recursion: either the
`while` loop itself (`main`) or the per-bucket loop of pope.py:192-196
(`buckets`).  A single dispatching function keeps the recursion
structural in the fuel. -/
inductive LSIn where
  | main (rnd : List (List Nat)) (buffer : List (Nat × Nat))
      (keys : List Nat)
  | buckets (rnd : List (List Nat))
      (items : List (List (Nat × Nat) × List Nat × Nat))

/-- `LeafNode.split(keys)` (pope.py:151-203).  In `main` mode, returns
the new sibling leaves created to the left (as `(buffer, pivot)` pairs
in left-to-right order, the pivot being the separator to the right of
that sibling), the final buffer of this leaf, the `(key, final leaf
buffer)` assignments in the order the source emits them, and the
remaining randomness stream.  In `buckets` mode (the loop over the
non-final buckets, each becoming a new left sibling and recursed into
when it received search keys), the second component is unused and
returned empty.  The fuel bounds the loop steps: the `while` loop can
run forever (for instance when more than `L` buffer pairs share one
plaintext, every partition puts everything into bucket 0). -/
def leafSplitGo (dec : Nat → Nat) (L : Nat) : Nat → LSIn →
    Res (List (List (Nat × Nat) × Nat) × List (Nat × Nat) ×
      List (Nat × List (Nat × Nat)) × List (List Nat))
  | 0, _ => .fail
  | fuel + 1, .main rnd buffer keys =>
      if keys.isEmpty || buffer.length ≤ L then
        if keys.isEmpty then .ok ([], buffer, [], rnd)
        else
          massert (buffer.length ≤ L) >>= fun _ =>
          .ok ([], buffer, keys.map (fun k => (k, buffer)), rnd)
      else
        match rnd with
        | [] => .fail
        | idxs :: rnd1 =>
            sampleByIdx L idxs buffer >>= fun sampled =>
            Oracle.partition_sort dec L (fun p => p.1) id
              (buffer.map (fun p => (p.1, some p.2)) ++
                keys.map (fun k => (k, (none : Option Nat))))
              (sampled.map (fun p => p.1)) >>= fun (promoted, partitions) =>
            let nb := promoted.length + 1
            let buckets := (List.range nb).map (pairBucket partitions)
            let kbs := (List.range nb).map (keyBucket partitions)
            trimBuckets (buckets.length + 1) buckets kbs promoted >>=
              fun (buckets, kbs, promoted) =>
            massert (buckets.all (fun b => !b.isEmpty)) >>= fun _ =>
            massert (buckets.length == kbs.length &&
              buckets.length == promoted.length + 1) >>= fun _ =>
            leafSplitGo dec L fuel (.buckets rnd1
              (buckets.dropLast.zip (kbs.dropLast.zip promoted))) >>=
              fun (sibs, _, asg1, rnd2) =>
            leafSplitGo dec L fuel (.main rnd2 (buckets.getLastD [])
              (kbs.getLastD [])) >>= fun (sibs2, fbuf, asg2, rnd3) =>
            .ok (sibs ++ sibs2, fbuf, asg1 ++ asg2, rnd3)
  | _ + 1, .buckets rnd [] => .ok ([], [], [], rnd)
  | fuel + 1, .buckets rnd ((bucket, bkeys, pkey) :: rest) =>
      ((if bkeys.isEmpty then .ok ([(bucket, pkey)], [], [], rnd)
        else
         leafSplitGo dec L fuel (.main rnd bucket bkeys) >>=
           fun (recSibs, recFinal, recAsg, rnd2) =>
         .ok (recSibs ++ [(recFinal, pkey)], [], recAsg, rnd2)) :
        Res (List (List (Nat × Nat) × Nat) × List (Nat × Nat) ×
          List (Nat × List (Nat × Nat)) × List (List Nat))) >>=
        fun (entries, _, asg1, rnd2) =>
      leafSplitGo dec L fuel (.buckets rnd2 rest) >>=
        fun (entries2, _, asg2, rnd3) =>
      .ok (entries ++ entries2, [], asg1 ++ asg2, rnd3)

/-- `LeafNode.split` entry point. -/
def leafSplit (dec : Nat → Nat) (L : Nat) (fuel : Nat)
    (rnd : List (List Nat)) (buffer : List (Nat × Nat))
    (keys : List Nat) :
    Res (List (List (Nat × Nat) × Nat) × List (Nat × Nat) ×
      List (Nat × List (Nat × Nat)) × List (List Nat)) :=
  leafSplitGo dec L fuel (.main rnd buffer keys)

mutual

/-- `InternalNode.split(keys)` (pope.py:329-361) on the node
`pnode sorted buffer cs`, with `extra` the pairs just flushed into this
node by its parent (appended to the buffer, as
`children[ind].insert(k, v)` does).  Partitions buffer and keys against
`sorted`, pushes each pair into its child, clears the buffer, and
recurses on the children that received search keys. -/
def treeSplitN (dec : Nat → Nat) (L : Nat) (fuel : Nat) :
    PTree → List (List Nat) → List (Nat × Nat) → List Nat →
    Res (PTree × List (Nat × List (Nat × Nat)) × List (List Nat))
  | .pleaf _, _, _, _ => .fail
  | .pnode sorted buffer cs, rnd, extra, keys =>
      let buf := buffer ++ extra
      massert (keys.length ≤ L) >>= fun _ =>
      massert (1 ≤ sorted.length && sorted.length ≤ L) >>= fun _ =>
      if keys.isEmpty then
        .ok (.pnode sorted buf cs, [], rnd)
      else
        -- `children[ind]` indexing requires the child-count invariant,
        -- asserted below in the source
        massert (cs.length == sorted.length + 1) >>= fun _ =>
        Oracle.partition dec L (fun p => p.1) id
          (buf.map (fun p => (p.1, some p.2)) ++
            keys.map (fun k => (k, (none : Option Nat))))
          sorted >>= fun partitions =>
        splitChildren dec L fuel rnd 0 cs sorted partitions >>=
          fun (cs2, sorted2, asg, rnd2) =>
        .ok (.pnode sorted2 [] cs2, asg, rnd2)

/-- The recursion of `InternalNode.split` over its children
(pope.py:352-359), walking children and separators left to right with
the running child index `i`: child `i` receives the flushed pairs
`pairBucket partitions i` and, if `keyBucket partitions i` is nonempty,
is split recursively; a splitting leaf child contributes new left
siblings and separator pivots in place. -/
def splitChildren (dec : Nat → Nat) (L : Nat) (fuel : Nat) :
    List (List Nat) → Nat → List PTree → List Nat →
    List ((Nat × Option Nat) × Nat) →
    Res (List PTree × List Nat × List (Nat × List (Nat × Nat)) ×
      List (List Nat))
  | rnd, i, [c], [], partitions =>
      (if (keyBucket partitions i).isEmpty then
        .ok ([c.addPairs (pairBucket partitions i)], [], [], rnd)
       else match c with
        | .pleaf buf =>
            leafSplit dec L fuel rnd (buf ++ pairBucket partitions i)
              (keyBucket partitions i) >>= fun (sibs, fbuf, asg, rnd2) =>
            .ok (sibs.map (fun e => PTree.pleaf e.1) ++ [.pleaf fbuf],
              sibs.map (fun e => e.2), asg, rnd2)
        | .pnode _ _ _ =>
            treeSplitN dec L fuel c rnd (pairBucket partitions i)
              (keyBucket partitions i) >>= fun (c2, asg, rnd2) =>
            .ok ([c2], [], asg, rnd2)) >>= fun (cseg, pivs, asg, rnd2) =>
      .ok (cseg, pivs, asg, rnd2)
  | rnd, i, c :: c2 :: cs, s :: ss, partitions =>
      (if (keyBucket partitions i).isEmpty then
        .ok ([c.addPairs (pairBucket partitions i)], [], [], rnd)
       else match c with
        | .pleaf buf =>
            leafSplit dec L fuel rnd (buf ++ pairBucket partitions i)
              (keyBucket partitions i) >>= fun (sibs, fbuf, asg, rnd2) =>
            .ok (sibs.map (fun e => PTree.pleaf e.1) ++ [.pleaf fbuf],
              sibs.map (fun e => e.2), asg, rnd2)
        | .pnode _ _ _ =>
            treeSplitN dec L fuel c rnd (pairBucket partitions i)
              (keyBucket partitions i) >>= fun (cc, asg, rnd2) =>
            .ok ([cc], [], asg, rnd2)) >>= fun (cseg, pivs, asg1, rnd2) =>
      splitChildren dec L fuel rnd2 (i + 1) (c2 :: cs) ss partitions >>=
        fun (cs2, pivs2, asg2, rnd3) =>
      .ok (cseg ++ cs2, pivs ++ s :: pivs2, asg1 ++ asg2, rnd3)
  | _, _, _, _, _ => .fail

end

/-- The root call of the split: a leaf root runs `LeafNode.split`
directly and, when that produced siblings, grows the new internal root
the source creates in pope.py:187-190; an internal root runs
`InternalNode.split`. -/
def popeSplitTop (dec : Nat → Nat) (L : Nat) (fuel : Nat)
    (rnd : List (List Nat)) (t : PTree) (keys : List Nat) :
    Res (PTree × List (Nat × List (Nat × Nat)) × List (List Nat)) :=
  match t with
  | .pleaf buf =>
      leafSplit dec L fuel rnd buf keys >>= fun (sibs, fbuf, asg, rnd2) =>
      if sibs.isEmpty then .ok (.pleaf fbuf, asg, rnd2)
      else
        .ok (.pnode (sibs.map (fun e => e.2)) []
          (sibs.map (fun e => PTree.pleaf e.1) ++ [.pleaf fbuf]), asg, rnd2)
  | .pnode s b cs =>
      treeSplitN dec L fuel (.pnode s b cs) rnd [] keys

/-- `InternalNode.split_off(n)` (pope.py:386-399): move the first `n`
sorted keys and `n+1` children into a new adjacent left sibling; the
separator is `sorted[n]` (IndexError when absent). -/
def splitOff (L : Nat) (n : Nat) (sorted : List Nat) (cs : List PTree) :
    Res ((PTree × Nat) × List Nat × List PTree) :=
  massert (n ≤ L) >>= fun _ =>
  match sorted.get? n with
  | none => .fail
  | some sep =>
      .ok ((.pnode (sorted.take n) [] (cs.take (n + 1)), sep),
        sorted.drop (n + 1), cs.drop (n + 1))

/-- The `while len(self.sorted) > 2L` loop of `rebalance`
(pope.py:377-378), splitting off `L/2` keys each time.  The counter is
an upper bound on iterations (`sorted.length` suffices, each round
removes `L/2 + 1 ≥ 1` keys). -/
def rebalWhile (L : Nat) : Nat → List Nat → List PTree →
    List (PTree × Nat) →
    Res (List (PTree × Nat) × List Nat × List PTree)
  | 0, _, _, _ => .fail
  | f + 1, sorted, cs, acc =>
      if 2 * L < sorted.length then
        splitOff L (L / 2) sorted cs >>= fun (sib, s2, c2) =>
        rebalWhile L f s2 c2 (acc ++ [sib])
      else
        .ok (acc, sorted, cs)

mutual

/-- `InternalNode.rebalance` (pope.py:372-384) run as one bottom-up pass
over the whole tree: children first, then this node splits off left
siblings while it exceeds the bounds, and finally the source's
post-conditions are asserted (`1 <= len(sorted) <= L`, and `L/2 <=
len(sorted)` on non-root nodes).  The source walks each touched leaf's
parent chain through parent pointers instead; on every untouched chain
its rebalance is a no-op, because such nodes already satisfy the bounds,
so the single pass performs the same splits.  (The source also asserts
`not self.buffer` on the chains it walks; internal nodes away from the
search paths can legitimately hold buffered pairs, and their rebalance
is never run, so no such assert is modelled in the global pass.) -/
def rebalanceT (L : Nat) : PTree → Bool →
    Res (List (PTree × Nat) × PTree)
  | .pleaf buf, _ => .ok ([], .pleaf buf)
  | .pnode sorted buffer cs, isRoot =>
      rebalanceChildren L cs sorted >>= fun (cs2, sorted2) =>
      rebalWhile L (sorted2.length + 1) sorted2 cs2 [] >>=
        fun (sibs, s3, c3) =>
      (if L < s3.length then
        splitOff L (s3.length / 2) s3 c3 >>= fun (sib, s4, c4) =>
        .ok (sibs ++ [sib], s4, c4)
      else .ok (sibs, s3, c3)) >>= fun (sibs2, s4, c4) =>
      massert (1 ≤ s4.length && s4.length ≤ L) >>= fun _ =>
      massert (isRoot || L / 2 ≤ s4.length) >>= fun _ =>
      .ok (sibs2, .pnode s4 buffer c4)

/-- Bottom-up rebalance of a child list, splicing each child's new left
siblings and separators in place. -/
def rebalanceChildren (L : Nat) : List PTree → List Nat →
    Res (List PTree × List Nat)
  | [c], [] =>
      rebalanceT L c false >>= fun (sibs, c2) =>
      .ok (sibs.map (fun e => e.1) ++ [c2], sibs.map (fun e => e.2))
  | c :: cs, s :: ss =>
      rebalanceT L c false >>= fun (sibs, c2) =>
      rebalanceChildren L cs ss >>= fun (cs2, pivs2) =>
      .ok (sibs.map (fun e => e.1) ++ c2 :: cs2,
        sibs.map (fun e => e.2) ++ s :: pivs2)
  | _, _ => .fail

end

/-- Siblings split off the root grow a new root above it
(pope.py:390-392), which may itself need rebalancing; the fuel bounds
that growth. -/
def rebalanceRoot (L : Nat) : Nat → PTree → Res PTree
  | 0, _ => .fail
  | f + 1, t =>
      rebalanceT L t true >>= fun (sibs, t2) =>
      if sibs.isEmpty then .ok t2
      else
        rebalanceRoot L f
          (.pnode (sibs.map (fun e => e.2)) []
            (sibs.map (fun e => e.1) ++ [t2]))

/-- `Pope.split(keys, in_order)` (pope.py:35-50): sort the keys unless
already in order, split from the root, then rebalance. -/
def Pope.split (dec : Nat → Nat) (L : Nat) (fuel : Nat)
    (rnd : List (List Nat)) (t : PTree) (keys : List Nat)
    (in_order : Bool) :
    Res (PTree × List (Nat × List (Nat × Nat)) × List (List Nat)) :=
  massert (keys.length ≤ L) >>= fun _ =>
  (if !in_order && keys.length > 1 then
    Oracle.sort dec L id id keys
  else .ok keys) >>= fun keys2 =>
  popeSplitTop dec L fuel rnd t keys2 >>= fun (t2, asg, rnd2) =>
  rebalanceRoot L (PTree.size t2 + 2) t2 >>= fun t3 =>
  .ok (t3, asg, rnd2)

/-- `LeafNode.lookup(key)` (pope.py:120-124): one `Oracle.find` over the
buffer; the value at a non-negative index, else `None`. -/
def leafLookup (dec : Nat → Nat) (L : Nat) (buf : List (Nat × Nat))
    (key : Nat) : Res (Option Nat) :=
  massert (buf.length ≤ L) >>= fun _ =>
  Oracle.find dec L id (fun p => p.1) [key] buf >>= fun res =>
  match res with
  | [(_, ind)] =>
      if ind ≥ 0 then .ok (some (buf.getD ind.toNat (0, 0)).2) else .ok none
  | _ => .fail

/-- `LeafNode.range_search(key1, key2)` (pope.py:126-131): sort the
buffer against both keys and return the slice between their bisect
positions. -/
def leafRangeSearch (dec : Nat → Nat) (L : Nat) (buf : List (Nat × Nat))
    (key1 key2 : Nat) : Res (List (Nat × Nat)) :=
  massert (buf.length ≤ L) >>= fun _ =>
  Oracle.partition_sort dec L id (fun p => p.1) [key1, key2] buf >>=
    fun (shay, prt) =>
  match prt with
  | [(_, i1), (_, i2)] => .ok ((shay.drop i1).take (i2 - i1))
  | _ => .fail

/-- `LeafNode.range_right(key1)` (pope.py:133-138). -/
def leafRangeRight (dec : Nat → Nat) (L : Nat) (buf : List (Nat × Nat))
    (key1 : Nat) : Res (List (Nat × Nat)) :=
  massert (buf.length ≤ L) >>= fun _ =>
  Oracle.partition_sort dec L id (fun p => p.1) [key1] buf >>=
    fun (shay, prt) =>
  match prt with
  | [(_, i1)] => .ok (shay.drop i1)
  | _ => .fail

/-- `LeafNode.range_left(key2)` (pope.py:140-145). -/
def leafRangeLeft (dec : Nat → Nat) (L : Nat) (buf : List (Nat × Nat))
    (key2 : Nat) : Res (List (Nat × Nat)) :=
  massert (buf.length ≤ L) >>= fun _ =>
  Oracle.partition_sort dec L id (fun p => p.1) [key2] buf >>=
    fun (shay, prt) =>
  match prt with
  | [(_, i2)] => .ok (shay.take i2)
  | _ => .fail

/-- The child index a partition against `sorted` sends a plaintext to —
the routing the split rounds use. -/
def routeIdx (dec : Nat → Nat) (sorted : List Nat) (key : Nat) : Nat :=
  bisl (· < ·) (List.insertionSort (· ≤ ·) (sorted.map dec)) (dec key)

mutual

/-- Root-to-leaf path of a key through the partition routing.  This
realises the source's leaf object identity: `split` hands back the very
leaf object the key was routed to, and the routing is a deterministic
function of the plaintext, so re-routing from the root reaches the same
leaf. -/
def pathOf (dec : Nat → Nat) : PTree → Nat → List Nat
  | .pleaf _, _ => []
  | .pnode sorted _ cs, k =>
      let i := routeIdx dec sorted k
      i :: pathOfL dec cs i k

/-- Child selection for `pathOf` (a missing child ends the path; the
source would raise there, and it cannot happen on a well-formed tree). -/
def pathOfL (dec : Nat → Nat) : List PTree → Nat → Nat → List Nat
  | [], _, _ => []
  | c :: _, 0, k => pathOf dec c k
  | _ :: cs, i + 1, k => pathOfL dec cs i k

end

/-- Subtree at a child-index path. -/
def subtreeAt : PTree → List Nat → Option PTree
  | t, [] => some t
  | .pleaf _, _ :: _ => none
  | .pnode _ _ cs, i :: p =>
      match cs.get? i with
      | some c => subtreeAt c p
      | none => none

/-- `InternalNode.range_right(child)` at the node on path `p1.take d`
(pope.py:297-307): everything in the children strictly right of the
path, with the source's `assert not self.buffer`; at leaf depth this is
`LeafNode.range_right(key1)`. -/
def collectRight (dec : Nat → Nat) (L : Nat) (t : PTree) (p1 : List Nat)
    (key1 : Nat) (d : Nat) : Res (List (Nat × Nat)) :=
  match subtreeAt t (p1.take d) with
  | none => .fail
  | some (.pleaf buf) =>
      if d = p1.length then leafRangeRight dec L buf key1 else .fail
  | some (.pnode _ buffer cs) =>
      if d = p1.length then .fail
      else
        massert buffer.isEmpty >>= fun _ =>
        .ok (PTree.traverseL (cs.drop (p1.getD d 0 + 1)))

/-- `InternalNode.range_left(child)` on path `p2.take d`
(pope.py:309-319); at leaf depth, `LeafNode.range_left(key2)`. -/
def collectLeft (dec : Nat → Nat) (L : Nat) (t : PTree) (p2 : List Nat)
    (key2 : Nat) (d : Nat) : Res (List (Nat × Nat)) :=
  match subtreeAt t (p2.take d) with
  | none => .fail
  | some (.pleaf buf) =>
      if d = p2.length then leafRangeLeft dec L buf key2 else .fail
  | some (.pnode _ buffer cs) =>
      if d = p2.length then .fail
      else
        massert buffer.isEmpty >>= fun _ =>
        .ok (PTree.traverseL (cs.take (p2.getD d 0)))

/-- The walk of `Pope.range_search` (pope.py:57-70), with the two leaf
objects and the parent pointers realised as root paths: climbing from
depth `d`, while the two paths still differ collect the right side of
the first and the left side of the second, then at the lowest common
ancestor either slice the single shared leaf or traverse the children
strictly between the two descent positions
(`InternalNode.range_search`, pope.py:284-295). -/
def walkLevels (dec : Nat → Nat) (L : Nat) (t : PTree)
    (key1 key2 : Nat) (p1 p2 : List Nat) : Nat → Res (List (Nat × Nat))
  | 0 =>
      if p1 == p2 then
        match subtreeAt t p1 with
        | some (.pleaf buf) => leafRangeSearch dec L buf key1 key2
        | _ => .fail
      else .fail
  | d + 1 =>
      if p1.take (d + 1) == p2.take (d + 1) then
        if p1.length = d + 1 then
          match subtreeAt t p1 with
          | some (.pleaf buf) => leafRangeSearch dec L buf key1 key2
          | _ => .fail
        else .fail
      else
        collectRight dec L t p1 key1 (d + 1) >>= fun r1 =>
        collectLeft dec L t p2 key2 (d + 1) >>= fun r2 =>
        (if p1.take d == p2.take d then
          -- lowest common ancestor reached: the middle children
          match subtreeAt t (p1.take d) with
          | some (.pnode _ buffer cs) =>
              massert buffer.isEmpty >>= fun _ =>
              .ok (PTree.traverseL
                ((cs.take (p2.getD d 0)).drop (p1.getD d 0 + 1)))
          | _ => .fail
        else
          walkLevels dec L t key1 key2 p1 p2 d) >>= fun rest =>
        .ok (r1 ++ r2 ++ rest)

/-- `Pope.lookup(key)` (pope.py:52-55). -/
def Pope.lookup (dec : Nat → Nat) (L : Nat) (fuel : Nat)
    (rnd : List (List Nat)) (t : PTree) (key : Nat) :
    Res (Option Nat × PTree × List (List Nat)) :=
  Pope.split dec L fuel rnd t [key] true >>= fun (t2, asg, rnd2) =>
  match asg with
  | [(_, leafbuf)] =>
      leafLookup dec L leafbuf key >>= fun v => .ok (v, t2, rnd2)
  | _ => .fail

/-- `Pope.range_search(key1, key2)` (pope.py:57-70): split on both keys,
then run the walk between the two leaves the split reported (in the
order the split returned them, as the source destructures them
positionally). -/
def Pope.range_search (dec : Nat → Nat) (L : Nat) (fuel : Nat)
    (rnd : List (List Nat)) (t : PTree) (key1 key2 : Nat) :
    Res (List (Nat × Nat) × PTree × List (List Nat)) :=
  Pope.split dec L fuel rnd t [key1, key2] true >>= fun (t2, asg, rnd2) =>
  match asg with
  | [(ka, _), (kb, _)] =>
      let p1 := pathOf dec t2 ka
      let p2 := pathOf dec t2 kb
      walkLevels dec L t2 key1 key2 p1 p2 p1.length >>= fun res =>
      .ok (res, t2, rnd2)
  | _ => .fail

/-- `Pope.insert(key, val)` (pope.py:31-33, 115-118, 279-282): append to
the root buffer. -/
def Pope.insert (t : PTree) (key val : Nat) : PTree :=
  t.addPairs [(key, val)]

/-- The empty `Pope` (pope.py:22-29): a single empty leaf. -/
def Pope.init : PTree := .pleaf []

mutual

/-- The buffers of all internal nodes of a tree, in preorder (used to
state dirtiness of internal nodes). -/
def internalBuffers : PTree → List (List (Nat × Nat))
  | .pleaf _ => []
  | .pnode _ buf cs => buf :: internalBuffersL cs

def internalBuffersL : List PTree → List (List (Nat × Nat))
  | [] => []
  | c :: rest => internalBuffers c ++ internalBuffersL rest

end

/-! ## Invariants and instrumented histories used by claim statements -/

/-- Lower plaintext bound test (`none` = unbounded): intervals between
POPE pivots are open below. -/
def loOk (lo : Option Nat) (x : Nat) : Bool :=
  match lo with
  | none => true
  | some a => a < x

/-- Upper plaintext bound test (`none` = unbounded): intervals between
POPE pivots are closed above, matching the left-bisect routing and the
source's full check `rec[i][1] <= s < rec[i+1][0]` (pope.py:426). -/
def hiOk (hi : Option Nat) (x : Nat) : Bool :=
  match hi with
  | none => true
  | some b => x ≤ b

mutual

/-- The order invariant of a POPE subtree within the plaintext interval
`(lo, hi]` (the property the source's `check(full=True)`,
pope.py:401-432, verifies): every buffered pair lies in the interval and
the children are separated by the pivots, each pivot lying strictly
above everything to its left and at or above everything in its own
(left) child.  `Pope.insert` trivially preserves it (the root interval
is unbounded), and a successful `Pope.split` preserves it. -/
def pord (dec : Nat → Nat) : Option Nat → Option Nat → PTree → Bool
  | lo, hi, .pleaf buf =>
      buf.all (fun p => loOk lo (dec p.1) && hiOk hi (dec p.1))
  | lo, hi, .pnode s buf cs =>
      buf.all (fun p => loOk lo (dec p.1) && hiOk hi (dec p.1)) &&
      pordL dec lo hi s cs

/-- Children/pivot alternation for `pord`: pivot plaintexts are strictly
increasing within `(lo, hi]`, child `i` lives in the interval closed at
pivot `i`, and the child count is one more than the pivot count. -/
def pordL (dec : Nat → Nat) : Option Nat → Option Nat → List Nat →
    List PTree → Bool
  | lo, hi, [], [c] => pord dec lo hi c
  | lo, hi, x :: ss, c :: c2 :: cs =>
      (loOk lo (dec x) && hiOk hi (dec x)) &&
      pord dec lo (some (dec x)) c &&
      pordL dec (some (dec x)) hi ss (c2 :: cs)
  | _, _, _, _ => false

end

mutual

/-- Structural well-formedness of a POPE subtree whose leaves sit at
depth `d`: every internal node has one more child than pivot and at
least one pivot, and all leaves are equidistant from the root.  This is
what a split preserves before the rebalance restores the size bounds. -/
def pwf : PTree → Nat → Bool
  | .pleaf _, d => d == 0
  | .pnode s _ cs, d =>
      match d with
      | 0 => false
      | dd + 1 => (cs.length == s.length + 1) && (1 ≤ s.length) &&
          pwfL cs dd

def pwfL : List PTree → Nat → Bool
  | [], _ => true
  | c :: rest, d => pwf c d && pwfL rest d

end

mutual

/-- The POPE shape invariant of the source's `check` (pope.py:401-432):
`pwf` together with the size bounds `1 ≤ len(sorted) ≤ L` at the root
and `L/2 ≤ len(sorted) ≤ L` below it. -/
def pshape (L : Nat) : PTree → Bool → Nat → Bool
  | .pleaf _, _, d => d == 0
  | .pnode s _ cs, isRoot, d =>
      match d with
      | 0 => false
      | dd + 1 =>
          (cs.length == s.length + 1) &&
          (1 ≤ s.length && s.length ≤ L) &&
          (isRoot || L / 2 ≤ s.length) &&
          pshapeL L cs dd

def pshapeL (L : Nat) : List PTree → Nat → Bool
  | [], _ => true
  | c :: rest, d => pshape L c false d && pshapeL L rest d

end

/-- Whether the root node's buffer is flushed (trivial on a leaf root,
whose buffer is the data store itself). -/
def rootClean : PTree → Bool
  | .pleaf _ => true
  | .pnode _ buf _ => buf.isEmpty

/-- A sequence of `Pope.insert` calls (pope.py:31-33). -/
def Pope.insertMany (t : PTree) (ps : List (Nat × Nat)) : PTree :=
  ps.foldl (fun t p => Pope.insert t p.1 p.2) t

mutual

/-- All keys held by the nodes of an mOPE tree (the index keys; each
`Mope.insert` places its key here). -/
def mtreeKeys : MTree → List Nat
  | .mleaf _ keys _ => keys
  | .mnode _ _ keys _ cs => keys ++ mtreeKeysL cs

def mtreeKeysL : List MTree → List Nat
  | [] => []
  | c :: rest => mtreeKeys c ++ mtreeKeysL rest

end

/-- A sequence of `Cheater.insert` calls (cheater.py:28-30). -/
def Cheater.insertMany (s : Cheater) (dec : Nat → Nat)
    (ps : List (Nat × Nat)) : Cheater :=
  ps.foldl (fun s p => Cheater.insert s dec p.1 p.2) s

/-- Interval chain of the new left-sibling leaves a leaf split produces:
starting from lower bound `lo`, each `(bucket, pivot)` entry has its
pivot plaintext inside `(lo, hi]`, its bucket inside `(lo, pivot]`, and
the chain continues above the pivot, ending at lower bound `lo2`. -/
def chain (dec : Nat → Nat) (hi : Option Nat) :
    Option Nat → List (List (Nat × Nat) × Nat) → Option Nat → Prop
  | lo, [], lo2 => lo2 = lo
  | lo, (b, piv) :: rest, lo2 =>
      loOk lo (dec piv) = true ∧ hiOk hi (dec piv) = true ∧
      (∀ p ∈ b, loOk lo (dec p.1) = true ∧ dec p.1 ≤ dec piv) ∧
      chain dec hi (some (dec piv)) rest lo2

/-- The same chain condition for the `(bucket, key bucket, pivot)` items
the per-bucket loop of `LeafNode.split` walks. -/
def itemsChain (dec : Nat → Nat) (hi : Option Nat) :
    Option Nat → List (List (Nat × Nat) × List Nat × Nat) → Option Nat →
    Prop
  | lo, [], lo2 => lo2 = lo
  | lo, (b, _, piv) :: rest, lo2 =>
      loOk lo (dec piv) = true ∧ hiOk hi (dec piv) = true ∧
      (∀ p ∈ b, loOk lo (dec p.1) = true ∧ dec p.1 ≤ dec piv) ∧
      itemsChain dec hi (some (dec piv)) rest lo2

/-- Interval chain of the `(left sibling, separator)` pairs `rebalance`
splits off an internal node. -/
def chainN (dec : Nat → Nat) (hi : Option Nat) :
    Option Nat → List (PTree × Nat) → Option Nat → Prop
  | lo, [], lo2 => lo2 = lo
  | lo, (u, piv) :: rest, lo2 =>
      loOk lo (dec piv) = true ∧ hiOk hi (dec piv) = true ∧
      pord dec lo (some (dec piv)) u = true ∧
      chainN dec hi (some (dec piv)) rest lo2

mutual

/-- A subtree a split leaves untouched away from its search paths
(except for pairs flushed onto its root buffer): every internal node
still satisfies the non-root size bounds, so `rebalance` never splits
it. -/
def psq (L : Nat) : PTree → Bool
  | .pleaf _ => true
  | .pnode s _ cs =>
      (cs.length == s.length + 1) && (L / 2 ≤ s.length && s.length ≤ L) &&
      psqL L cs

def psqL (L : Nat) : List PTree → Bool
  | [] => true
  | c :: rest => psq L c && psqL L rest

end

mutual

/-- A subtree the split descended into: its buffer is flushed and each
child is again of this kind or untouched (`psq`).  Such a node may
exceed the size bounds; `rebalance` restores them without touching any
`psq` part. -/
def pact (L : Nat) : PTree → Bool
  | .pleaf _ => true
  | .pnode s buf cs =>
      buf.isEmpty && (cs.length == s.length + 1) && (1 ≤ s.length) &&
      pactL L cs

def pactL (L : Nat) : List PTree → Bool
  | [] => true
  | c :: rest => (pact L c || psq L c) && pactL L rest

end

mutual

/-- Emptiness of every internal buffer whose node interval contains the
plaintext `w` — these are exactly the nodes a query whose key has that
plaintext descends into.  A completed `Pope.split` establishes it for
each search key and `rebalance` preserves it. -/
def cleanIn (dec : Nat → Nat) (w : Nat) :
    Option Nat → Option Nat → PTree → Prop
  | _, _, .pleaf _ => True
  | lo, hi, .pnode s buf cs =>
      ((loOk lo w = true ∧ hiOk hi w = true) → buf = []) ∧
      cleanInL dec w lo hi s cs

def cleanInL (dec : Nat → Nat) (w : Nat) :
    Option Nat → Option Nat → List Nat → List PTree → Prop
  | lo, hi, [], [c] => cleanIn dec w lo hi c
  | lo, hi, x :: ss, c :: c2 :: cs =>
      cleanIn dec w lo (some (dec x)) c ∧
      cleanInL dec w (some (dec x)) hi ss (c2 :: cs)
  | _, _, _, _ => True

end

mutual

/-- Emptiness of every internal buffer along the routing path of
plaintext `w` — the nodes a query whose key has that plaintext descends
into.  A completed `Pope.split` establishes it for each search key and
`rebalance` preserves it. -/
def cleanPath (dec : Nat → Nat) (w : Nat) : PTree → Bool
  | .pleaf _ => true
  | .pnode s buf cs =>
      buf.isEmpty && cleanPathL dec w cs (bisl (· < ·) (s.map dec) w)

def cleanPathL (dec : Nat → Nat) (w : Nat) : List PTree → Nat → Bool
  | [], _ => true
  | c :: _, 0 => cleanPath dec w c
  | _ :: cs, i + 1 => cleanPathL dec w cs i

end

/-- Cleanliness for `w` of each `(left sibling, separator)` pair
`rebalance` splits off, at the interval the separator chain gives it. -/
def chainClean (dec : Nat → Nat) (w : Nat) :
    Option Nat → List (PTree × Nat) → Prop
  | _, [] => True
  | lo, (u, piv) :: rest =>
      cleanIn dec w lo (some (dec piv)) u ∧
      chainClean dec w (some (dec piv)) rest

/-- The lower bound left after a chain of split-off siblings: the last
separator's plaintext, or the initial bound when there are none. -/
def chainLo (dec : Nat → Nat) (lo : Option Nat)
    (l : List (PTree × Nat)) : Option Nat :=
  l.foldl (fun _ e => some (dec e.2)) lo

/-- The subtree a prefix of a root path points at (an empty leaf when
the path runs off the tree, which cannot happen on a well-formed one). -/
def subAt (t : PTree) (p : List Nat) (dd : Nat) : PTree :=
  (subtreeAt t (p.take dd)).getD (.pleaf [])

/-- The pairs of a list whose plaintexts lie in the half-open query
window `[dec k1, dec k2)` of a range search. -/
def winF (dec : Nat → Nat) (k1 k2 : Nat) (l : List (Nat × Nat)) :
    List (Nat × Nat) :=
  l.filter (fun p => decide (dec k1 ≤ dec p.1) && decide (dec p.1 < dec k2))

/-! # Theorems -/

@[simp] theorem massert_true : massert true = .ok () := rfl

@[simp] theorem massert_false : massert false = .fail := rfl

@[simp] theorem bind_ok {α β : Type} (a : α) (f : α → Res β) :
    (Res.ok a >>= f) = f a := rfl

@[simp] theorem bind_fail {α β : Type} (f : α → Res β) :
    (Res.fail >>= f) = (Res.fail : Res β) := rfl

@[simp] theorem ok_bind_eq_ok {α β : Type} (r : Res α) (f : α → Res β) (b : β) :
    (r >>= f) = .ok b ↔ ∃ a, r = .ok a ∧ f a = .ok b := by
  cases r <;> simp [Bind.bind]

theorem bisl_le_length {α : Type} (lt : α → α → Prop) [DecidableRel lt]
    (l : List α) (x : α) :
    bisl lt l x ≤ l.length := by
  induction l with
  | nil => simp [bisl]
  | cons a rest ih =>
      simp only [bisl, List.length_cons]
      split <;> omega

theorem bisr_le_length {α : Type} (lt : α → α → Prop) [DecidableRel lt]
    (l : List α) (x : α) :
    bisr lt l x ≤ l.length := by
  induction l with
  | nil => simp [bisr]
  | cons a rest ih =>
      simp only [bisr, List.length_cons]
      split <;> omega

theorem bisl_prefix_lt (l : List Nat) (x : Nat) :
    ∀ j, j < bisl (· < ·) l x → l.getD j 0 < x := by
  induction l with
  | nil => intro j hj; simp [bisl] at hj
  | cons a rest ih =>
      intro j hj
      simp only [bisl] at hj
      split at hj
      · cases j with
        | zero => simpa using ‹a < x›
        | succ j => exact ih j (by omega)
      · omega

theorem bisl_at_ge (l : List Nat) (x : Nat)
    (h : bisl (· < ·) l x < l.length) :
    x ≤ l.getD (bisl (· < ·) l x) 0 := by
  induction l with
  | nil => simp [bisl] at h
  | cons a rest ih =>
      by_cases hax : a < x
      · simp only [bisl, if_pos hax, List.length_cons] at h
        simpa [bisl, if_pos hax] using ih (by omega)
      · simp [bisl, if_neg hax, Nat.le_of_not_lt hax]

theorem bisl_first_eq (l : List Nat) (x : Nat)
    (hs : List.Sorted (· ≤ ·) l) (j : Nat) (hj : j < l.length)
    (he : l.getD j 0 = x) :
    bisl (· < ·) l x ≤ j ∧ l.getD (bisl (· < ·) l x) 0 = x := by
  have hle : bisl (· < ·) l x ≤ j := by
    by_contra hcon
    exact absurd he (Nat.ne_of_lt (bisl_prefix_lt l x j (by omega)))
  have hlt : bisl (· < ·) l x < l.length := lt_of_le_of_lt hle hj
  refine ⟨hle, le_antisymm ?_ (bisl_at_ge l x hlt)⟩
  have hmono : l.get ⟨bisl (· < ·) l x, hlt⟩ ≤ l.get ⟨j, hj⟩ :=
    hs.rel_get_of_le (Fin.mk_le_mk.mpr hle)
  rw [List.getD_eq_getElem l 0 hlt]
  rw [List.getD_eq_getElem l 0 hj] at he
  simp only [List.get_eq_getElem] at hmono
  exact le_trans hmono (le_of_eq he)

theorem list_set_get_self {α : Type} :
    ∀ (l : List α) (i : Nat) (h : i < l.length), l.set i (l.get ⟨i, h⟩) = l := by
  intro l
  induction l with
  | nil => intro i h; simp at h
  | cons a rest ih =>
      intro i h
      cases i with
      | zero => rfl
      | succ i => simpa [List.set] using ih i (by simpa using h)

/-! ### Query paths of the mOPE tree do not modify it -/

mutual

theorem mencodeT_false_frame (dec : Nat → Nat) (L : Nat) (key : Nat) :
    ∀ (t : MTree) (ups : List (List Nat × List Nat)) (r : MEnc),
      mencodeT dec L key false t ups = .ok r →
      ∃ e f, r = .done t ups e f := by
  intro t
  match t with
  | .mleaf pfx keys encs =>
      intro ups r hr
      simp only [mencodeT, Bool.false_and, ok_bind_eq_ok] at hr
      obtain ⟨⟨ind, found⟩, _, hr⟩ := hr
      simp only [if_neg (by simp : ¬(false = true))] at hr
      split at hr
      · split at hr
        · exact ⟨_, _, by injection hr with h; exact h.symm⟩
        · exact absurd hr (by simp)
      · split at hr
        · exact ⟨_, _, by injection hr with h; exact h.symm⟩
        · exact absurd hr (by simp)
  | .mnode pfx sfx keys encs cs =>
      intro ups r hr
      simp only [mencodeT, ok_bind_eq_ok] at hr
      obtain ⟨⟨ind, found⟩, _, hr⟩ := hr
      split at hr
      · split at hr
        · exact ⟨_, _, by injection hr with h; exact h.symm⟩
        · exact absurd hr (by simp)
      · rw [ok_bind_eq_ok] at hr
        obtain ⟨r0, hr0, hr⟩ := hr
        obtain ⟨e, f, hlt, rfl⟩ :=
          mencodeChildAt_false_frame dec L key ind cs ups r0 hr0
        dsimp only at hr
        rw [list_set_get_self cs ind hlt] at hr
        exact ⟨e, f, by injection hr with h; exact h.symm⟩

theorem mencodeChildAt_false_frame (dec : Nat → Nat) (L : Nat) (key : Nat) :
    ∀ (ind : Nat) (cs : List MTree) (ups : List (List Nat × List Nat))
      (r : MEnc),
      mencodeChildAt dec L key false ind cs ups = .ok r →
      ∃ e f, (∃ h : ind < cs.length, r = .done (cs.get ⟨ind, h⟩) ups e f) := by
  intro ind cs
  match ind, cs with
  | _, [] => intro ups r hr; exact absurd hr (by simp [mencodeChildAt])
  | 0, c :: rest =>
      intro ups r hr
      rw [show mencodeChildAt dec L key false 0 (c :: rest) ups =
        mencodeT dec L key false c ups from rfl] at hr
      obtain ⟨e, f, rfl⟩ := mencodeT_false_frame dec L key c ups r hr
      exact ⟨e, f, by simp, rfl⟩
  | n + 1, c :: rest =>
      intro ups r hr
      rw [show mencodeChildAt dec L key false (n + 1) (c :: rest) ups =
        mencodeChildAt dec L key false n rest ups from rfl] at hr
      obtain ⟨e, f, hlt, rfl⟩ :=
        mencodeChildAt_false_frame dec L key n rest ups r hr
      exact ⟨e, f, by simpa using hlt, rfl⟩

end

theorem treeEncodeTop_false_frame (dec : Nat → Nat) (L : Nat) (t : MTree)
    (key : Nat) (out : MTree × List (List Nat × List Nat) × List Nat × Bool)
    (h : treeEncodeTop dec L t key false = .ok out) :
    out.1 = t ∧ out.2.1 = [] := by
  simp only [treeEncodeTop, ok_bind_eq_ok] at h
  obtain ⟨r, hr, h⟩ := h
  obtain ⟨e, f, rfl⟩ := mencodeT_false_frame dec L key t [] r hr
  exact ⟨by injection h with h2; rw [← h2], by injection h with h2; rw [← h2]⟩

theorem mope_encode_false_frame (m : Mope) (dec : Nat → Nat) (L : Nat)
    (key : Nat) (out : Nat × Nat × Bool × Mope)
    (h : Mope.encode m dec L key false = .ok out) :
    out.2.2.2 = m := by
  simp only [Mope.encode, ok_bind_eq_ok] at h
  obtain ⟨_, _, h⟩ := h
  obtain ⟨⟨t2, u, e, f⟩, ht, h⟩ := h
  obtain ⟨h1, h2⟩ := treeEncodeTop_false_frame dec L m.tree key _ ht
  simp only at h1 h2
  subst h1
  subst h2
  simp only [Bool.false_and, if_neg (by simp : ¬(false = true))] at h
  rw [ok_bind_eq_ok] at h
  obtain ⟨_, _, h⟩ := h
  rw [ok_bind_eq_ok] at h
  obtain ⟨_, _, h⟩ := h
  rw [ok_bind_eq_ok] at h
  obtain ⟨_, _, h⟩ := h
  injection h with h
  cases m
  simp at h
  rw [← h]

theorem bisl_below {α : Type} (lt : α → α → Prop) [DecidableRel lt]
    (l : List α) (x : α) (d : α) :
    ∀ j, j < bisl lt l x → lt (l.getD j d) x := by
  induction l with
  | nil => intro j hj; simp [bisl] at hj
  | cons a rest ih =>
      intro j hj
      simp only [bisl] at hj
      split at hj
      · cases j with
        | zero => simpa using ‹lt a x›
        | succ j => exact ih j (by omega)
      · omega

theorem bisl_at_not_lt {α : Type} (lt : α → α → Prop) [DecidableRel lt]
    (l : List α) (x : α) (d : α) (h : bisl lt l x < l.length) :
    ¬lt (l.getD (bisl lt l x) d) x := by
  induction l with
  | nil => simp [bisl] at h
  | cons a rest ih =>
      by_cases hax : lt a x
      · simp only [bisl, if_pos hax, List.length_cons] at h
        simpa [bisl, if_pos hax] using ih (by omega)
      · simp [bisl, if_neg hax, hax]

theorem bisl_le_pos {α : Type} (lt : α → α → Prop) [DecidableRel lt]
    (l : List α) (x : α) (d : α) (j : Nat) (hj : j < l.length)
    (hnot : ¬lt (l.getD j d) x) : bisl lt l x ≤ j := by
  by_contra hcon
  exact hnot (bisl_below lt l x d j (by omega))

/-- Every element of a sorted list taken at or after `bisl` is at least
the element at `bisl` (sortedness transported along `getD`). -/
theorem sorted_getD_mono {α : Type} (le : α → α → Prop) (l : List α)
    (hs : List.Sorted le l) (d : α) (i j : Nat) (hij : i ≤ j)
    (hj : j < l.length) : i = j ∨ le (l.getD i d) (l.getD j d) := by
  rcases Nat.eq_or_lt_of_le hij with rfl | hlt
  · exact Or.inl rfl
  · right
    have hi : i < l.length := by omega
    have hrel := (List.pairwise_iff_get.1 hs) ⟨i, hi⟩ ⟨j, hj⟩
      (by simpa using hlt)
    rw [List.getD_eq_getElem l d hi, List.getD_eq_getElem l d hj]
    simpa using hrel

theorem getD_mem_of_lt {α : Type} (l : List α) (n : Nat) (d : α)
    (h : n < l.length) : l.getD n d ∈ l := by
  rw [List.getD_eq_getElem l d h]
  exact List.getElem_mem h

/-- Characterisation of a single-needle `Oracle.find` round: it returns
one `(needle, index)` pair; a non-negative index points at a haystack
element whose plaintext matches the needle, and some plaintext match
forces a non-negative index. -/
theorem oracle_find_single {α β : Type} (dec : Nat → Nat) (L : Nat)
    (nkey : α → Nat) (haykey : β → Nat) (n : α) (haystack : List β)
    (dflt : β) (hL : haystack.length ≤ L) :
    ∃ ind : Int,
      Oracle.find dec L nkey haykey [n] haystack = .ok [(n, ind)] ∧
      (0 ≤ ind →
        ind.toNat < haystack.length ∧
        dec (haykey (haystack.getD ind.toNat dflt)) = dec (nkey n)) ∧
      ((∃ x ∈ haystack, dec (haykey x) = dec (nkey n)) → 0 ≤ ind) := by
  have hle2 : ∀ p q : Nat × Nat,
      (p.1 < q.1 ∨ (p.1 = q.1 ∧ p.2 ≤ q.2)) ∨
      (q.1 < p.1 ∨ (q.1 = p.1 ∧ q.2 ≤ p.2)) := by intro p q; omega
  haveI hTot : IsTotal (Nat × Nat)
      (fun p q => p.1 < q.1 ∨ (p.1 = q.1 ∧ p.2 ≤ q.2)) := ⟨hle2⟩
  haveI hTrans : IsTrans (Nat × Nat)
      (fun p q => p.1 < q.1 ∨ (p.1 = q.1 ∧ p.2 ≤ q.2)) :=
    ⟨by intro a b c hab hbc; omega⟩
  set dk := dec (nkey n) with hdk
  set ents := haystack.enum.map (fun p => (dec (haykey p.2), p.1))
    with hents
  set sdhay := List.insertionSort
    (fun (p q : Nat × Nat) => p.1 < q.1 ∨ (p.1 = q.1 ∧ p.2 ≤ q.2)) ents
    with hsdhay
  set found := bisl
    (fun (p q : Nat × Nat) => p.1 < q.1 ∨ (p.1 = q.1 ∧ p.2 < q.2))
    sdhay (dk, 0) with hfound
  have hmemsd : ∀ e ∈ sdhay, ∃ i, i < haystack.length ∧
      e = (dec (haykey (haystack.getD i dflt)), i) := by
    intro e he
    rw [hsdhay] at he
    have he2 := (List.mem_insertionSort _).1 he
    rw [hents] at he2
    obtain ⟨p, hp, rfl⟩ := List.mem_map.1 he2
    obtain ⟨hlt, hget⟩ := List.get?_eq_some.1 (List.mem_enum_iff_get?.1 hp)
    refine ⟨p.1, hlt, ?_⟩
    rw [List.getD_eq_getElem haystack dflt hlt]
    simp only [List.get_eq_getElem] at hget
    rw [hget]
  refine ⟨if found < sdhay.length ∧ (sdhay.getD found (0, 0)).1 = dk then
      ((sdhay.getD found (0, 0)).2 : Int) else -1 - (found : Int),
    ?_, ?_, ?_⟩
  · simp only [Oracle.find, massert, List.map_cons, List.map_nil,
      ← hents, ← hsdhay, ← hdk, ← hfound]
    rw [if_pos (show decide (haystack.length ≤ L) = true by simp [hL])]
    show Res.ok _ = _
    split <;> rfl
  · intro hind
    by_cases hcond : found < sdhay.length ∧ (sdhay.getD found (0, 0)).1 = dk
    · rw [if_pos hcond] at hind ⊢
      obtain ⟨hflt, hfst⟩ := hcond
      have hmem : sdhay.getD found (0, 0) ∈ sdhay :=
        getD_mem_of_lt sdhay found (0, 0) hflt
      obtain ⟨i, hi, hei⟩ := hmemsd _ hmem
      rw [hei] at hfst ⊢
      simp only [Int.toNat_natCast]
      exact ⟨hi, by simpa [hdk] using hfst⟩
    · rw [if_neg hcond] at hind
      exfalso
      omega
  · rintro ⟨x, hx, hxe⟩
    obtain ⟨ix, hixlt, hixget⟩ := List.mem_iff_getElem.1 hx
    have hget2 : haystack.get? ix = some x := by
      rw [List.get?_eq_getElem?, List.getElem?_eq_getElem hixlt, hixget]
    have hxent : (dk, ix) ∈ sdhay := by
      rw [hsdhay, List.mem_insertionSort, hents]
      exact List.mem_map.2 ⟨(ix, x), List.mem_enum_iff_get?.2 hget2,
        by simp [hxe, hdk]⟩
    obtain ⟨j, hjlt, hjget⟩ := List.mem_iff_getElem.1 hxent
    have hjgetD : sdhay.getD j (0, 0) = (dk, ix) := by
      rw [List.getD_eq_getElem _ _ hjlt, hjget]
    have hnotlt : ¬((sdhay.getD j (0, 0)).1 < dk ∨
        ((sdhay.getD j (0, 0)).1 = dk ∧ (sdhay.getD j (0, 0)).2 < 0)) := by
      rw [hjgetD]; simp
    have hfle : found ≤ j := by
      rw [hfound]
      exact bisl_le_pos _ sdhay (dk, 0) (0, 0) j hjlt (by simpa using hnotlt)
    have hflt2 : found < sdhay.length := lt_of_le_of_lt hfle hjlt
    have hbnd := bisl_at_not_lt
      (fun (p q : Nat × Nat) => p.1 < q.1 ∨ (p.1 = q.1 ∧ p.2 < q.2))
      sdhay (dk, 0) (0, 0) (hfound ▸ hflt2)
    rw [← hfound] at hbnd
    have hlb : dk ≤ (sdhay.getD found (0, 0)).1 := by
      simp only [not_or, not_and, not_lt] at hbnd
      rcases Nat.lt_or_ge (sdhay.getD found (0, 0)).1 dk with h | h
      · exact absurd h (by omega)
      · exact h
    have hub : (sdhay.getD found (0, 0)).1 ≤ dk := by
      have hs2 : List.Sorted
          (fun (p q : Nat × Nat) => p.1 < q.1 ∨ (p.1 = q.1 ∧ p.2 ≤ q.2))
          sdhay := by
        rw [hsdhay]
        exact List.sorted_insertionSort _ _
      rcases sorted_getD_mono _ sdhay hs2 (0, 0) found j hfle hjlt with
        heq | hrel
      · rw [heq, hjgetD]
      · rw [hjgetD] at hrel
        rcases hrel with h | h
        · exact le_of_lt h
        · exact le_of_eq h.1
    have hfst : (sdhay.getD found (0, 0)).1 = dk := le_antisymm hub hlb
    rw [if_pos ⟨hflt2, hfst⟩]
    exact Int.natCast_nonneg _

/-! ### Cheater lemmas -/

theorem tripLe_total (a b : Nat × Nat × Nat) : tripLe a b ∨ tripLe b a := by
  unfold tripLe; omega

theorem tripLe_trans_lem (a b c : Nat × Nat × Nat) (h1 : tripLe a b)
    (h2 : tripLe b c) : tripLe a c := by
  unfold tripLe at *; omega

theorem tripLe_of_not_lt (a b : Nat × Nat × Nat) (h : ¬tripLt a b) :
    tripLe b a := by
  unfold tripLt at h; unfold tripLe; omega

theorem tripLe_of_lt (a b : Nat × Nat × Nat) (h : tripLt a b) :
    tripLe a b := by
  unfold tripLt at h; unfold tripLe; omega

instance : IsTotal (Nat × Nat × Nat) tripLe := ⟨tripLe_total⟩

instance : IsTrans (Nat × Nat × Nat) tripLe := ⟨tripLe_trans_lem⟩

theorem mergeTrip_perm_n (n : Nat) :
    ∀ l r, l.length + r.length ≤ n →
      List.Perm (mergeTrip l r) (l ++ r) := by
  induction n with
  | zero =>
      intro l r h
      match l, r with
      | [], r => simp [mergeTrip]
      | a :: l, _ => simp at h
  | succ n ih =>
      intro l r h
      match l, r with
      | [], r => simp [mergeTrip]
      | a :: l, [] => simp [mergeTrip]
      | a :: l, b :: r =>
          rw [mergeTrip]
          split
          · exact (ih l (b :: r) (by simp at h ⊢; omega)).cons a
          · exact List.Perm.trans
              ((ih (a :: l) r (by simp at h ⊢; omega)).cons b)
              List.perm_middle.symm

theorem mergeTrip_perm (l r : List (Nat × Nat × Nat)) :
    List.Perm (mergeTrip l r) (l ++ r) :=
  mergeTrip_perm_n (l.length + r.length) l r le_rfl

theorem mergeTrip_sorted_n (n : Nat) :
    ∀ l r, l.length + r.length ≤ n → List.Sorted tripLe l →
      List.Sorted tripLe r → List.Sorted tripLe (mergeTrip l r) := by
  induction n with
  | zero =>
      intro l r h hl hr
      match l, r with
      | [], r => simpa [mergeTrip] using hr
      | a :: l, _ => simp at h
  | succ n ih =>
      intro l r h hl hr
      match l, r with
      | [], r => simpa [mergeTrip] using hr
      | a :: l, [] => simpa [mergeTrip] using hl
      | a :: l, b :: r =>
          rw [mergeTrip]
          split
          · rename_i hab
            rw [List.sorted_cons]
            refine ⟨?_, ih l (b :: r) (by simp at h ⊢; omega)
              hl.of_cons hr⟩
            intro x hx
            have hx2 := (mergeTrip_perm l (b :: r)).mem_iff.1 hx
            rcases List.mem_append.1 hx2 with hx3 | hx3
            · exact List.rel_of_sorted_cons hl x hx3
            · rcases List.mem_cons.1 hx3 with rfl | hx4
              · exact hab
              · exact tripLe_trans_lem _ _ _ hab
                  (List.rel_of_sorted_cons hr x hx4)
          · rename_i hab
            rw [List.sorted_cons]
            refine ⟨?_, ih (a :: l) r (by simp at h ⊢; omega) hl
              hr.of_cons⟩
            intro x hx
            have hx2 := (mergeTrip_perm (a :: l) r).mem_iff.1 hx
            have hba : tripLe b a := tripLe_of_not_lt a b (by
              intro hlt
              exact hab (tripLe_of_lt a b hlt))
            rcases List.mem_append.1 hx2 with hx3 | hx3
            · rcases List.mem_cons.1 hx3 with rfl | hx4
              · exact hba
              · exact tripLe_trans_lem _ _ _ hba
                  (List.rel_of_sorted_cons hl x hx4)
            · exact List.rel_of_sorted_cons hr x hx3

theorem mergeTrip_sorted (l r : List (Nat × Nat × Nat))
    (hl : List.Sorted tripLe l) (hr : List.Sorted tripLe r) :
    List.Sorted tripLe (mergeTrip l r) :=
  mergeTrip_sorted_n (l.length + r.length) l r le_rfl hl hr

/-- All triples a cheater state holds. -/
theorem cheater_flush_perm (s : Cheater) :
    List.Perm s.flush.slst (s.slst ++ s.ulst) ∧ s.flush.ulst = [] ∧
    (List.Sorted tripLe s.slst → List.Sorted tripLe s.flush.slst) := by
  unfold Cheater.flush
  split
  · rename_i hu
    rw [List.isEmpty_iff] at hu
    simp [hu]
  · refine ⟨?_, rfl, ?_⟩
    · exact List.Perm.trans (mergeTrip_perm _ _)
        (List.Perm.append_left _ (List.perm_insertionSort _ _))
    · intro hs
      exact mergeTrip_sorted _ _ hs (List.sorted_insertionSort _ _)

/-- `Cheater.lookup` on a sorted state returns the least value stored at
the probed ciphertext, whenever some pair was stored at exactly that
ciphertext. -/
theorem cheater_lookup_min (s : Cheater) (dec : Nat → Nat) (k : Nat)
    (hs : List.Sorted tripLe s.slst)
    (hmem : ∃ v, (dec k, k, v) ∈ s.slst ++ s.ulst) :
    ∃ m, (s.lookup dec k).1 = some m ∧ (dec k, k, m) ∈ s.slst ++ s.ulst ∧
      ∀ w, (dec k, k, w) ∈ s.slst ++ s.ulst → m ≤ w := by
  obtain ⟨v, hv⟩ := hmem
  obtain ⟨hperm, -, hsort⟩ := cheater_flush_perm s
  have hsort2 := hsort hs
  set sl := s.flush.slst with hsl
  have hv2 : (dec k, k, v) ∈ sl := hperm.mem_iff.2 hv
  obtain ⟨j, hjlt, hjget⟩ := List.mem_iff_getElem.1 hv2
  have hjgetD : sl.getD j (0, 0, 0) = (dec k, k, v) := by
    rw [List.getD_eq_getElem _ _ hjlt, hjget]
  set ind := bisl tripLt sl (dec k, k, 0) with hind
  have hle : ind ≤ j := by
    rw [hind]
    refine bisl_le_pos tripLt sl (dec k, k, 0) (0, 0, 0) j hjlt ?_
    rw [hjgetD]
    unfold tripLt
    dsimp only
    omega
  have hlt : ind < sl.length := lt_of_le_of_lt hle hjlt
  have hnotlt : ¬tripLt (sl.getD ind (0, 0, 0)) (dec k, k, 0) := by
    rw [hind]
    exact bisl_at_not_lt tripLt sl (dec k, k, 0) (0, 0, 0) (hind ▸ hlt)
  have hupb : ∀ w, (dec k, k, w) ∈ s.slst ++ s.ulst →
      tripLe (sl.getD ind (0, 0, 0)) (dec k, k, w) := by
    intro w hw
    obtain ⟨jw, hjwlt, hjwget⟩ := List.mem_iff_getElem.1 (hperm.mem_iff.2 hw)
    have hjwgetD : sl.getD jw (0, 0, 0) = (dec k, k, w) := by
      rw [List.getD_eq_getElem _ _ hjwlt, hjwget]
    have hlejw : ind ≤ jw := by
      rw [hind]
      refine bisl_le_pos tripLt sl (dec k, k, 0) (0, 0, 0) jw hjwlt ?_
      rw [hjwgetD]
      unfold tripLt
      dsimp only
      omega
    rcases sorted_getD_mono tripLe sl hsort2 (0, 0, 0) ind jw hlejw hjwlt
      with heq | hrel
    · rw [heq, hjwgetD]
      unfold tripLe
      dsimp only
      omega
    · rwa [hjwgetD] at hrel
  have hlow : tripLe (dec k, k, 0) (sl.getD ind (0, 0, 0)) :=
    tripLe_of_not_lt _ _ hnotlt
  have hcomp : (sl.getD ind (0, 0, 0)).1 = dec k ∧
      (sl.getD ind (0, 0, 0)).2.1 = k := by
    have h1 := hupb v hv
    unfold tripLe at hlow h1
    dsimp only at hlow h1
    omega
  refine ⟨(sl.getD ind (0, 0, 0)).2.2, ?_, ?_, ?_⟩
  · show (Cheater.lookup s dec k).1 = _
    unfold Cheater.lookup
    dsimp only
    rw [← hsl, ← hind]
    rw [if_pos ⟨hlt, hcomp.1⟩]
  · have hm : sl.getD ind (0, 0, 0) ∈ sl := getD_mem_of_lt sl ind _ hlt
    have hm2 := hperm.mem_iff.1 hm
    have : sl.getD ind (0, 0, 0) =
        (dec k, k, (sl.getD ind (0, 0, 0)).2.2) := by
      obtain ⟨h1, h2⟩ := hcomp
      exact Prod.ext h1 (Prod.ext h2 rfl)
    rwa [this] at hm2
  · intro w hw
    have := hupb w hw
    unfold tripLe at this
    dsimp only at this
    omega

/-- `Cheater.lookup` returns `None` when no stored triple has the probed
plaintext. -/
theorem cheater_lookup_absent (s : Cheater) (dec : Nat → Nat) (k : Nat)
    (habs : ∀ t ∈ s.slst ++ s.ulst, t.1 ≠ dec k) :
    (s.lookup dec k).1 = none := by
  obtain ⟨hperm, -, -⟩ := cheater_flush_perm s
  show (Cheater.lookup s dec k).1 = none
  unfold Cheater.lookup
  dsimp only
  split
  · rename_i hcond
    obtain ⟨hlt, heq⟩ := hcond
    exfalso
    have hm : s.flush.slst.getD (bisl tripLt s.flush.slst (dec k, k, 0))
        (0, 0, 0) ∈ s.flush.slst := getD_mem_of_lt _ _ _ hlt
    exact habs _ (hperm.mem_iff.1 hm) heq
  · rfl

theorem hornerFrom_append (B v : Nat) (l1 l2 : List Nat) :
    hornerFrom B v (l1 ++ l2) = hornerFrom B (hornerFrom B v l1) l2 := by
  simp [hornerFrom, List.foldl_append]

theorem hornerFrom_replicate_zero (B v k : Nat) :
    hornerFrom B v (List.replicate k 0) = v * B ^ k := by
  induction k generalizing v with
  | zero => simp [hornerFrom]
  | succ k ih =>
      simp only [List.replicate_succ, hornerFrom, List.foldl_cons] at *
      rw [ih]
      ring

/-- The loop of `Mope._tuptoval`, run from power `B ^ (i+1)`, computes the
Horner continuation (base `B`) over the zero-padded digit string. -/
theorem tuptovalAux_eq_hornerFrom_padZeros (B : Nat) :
    ∀ (s : List Nat) (acc i : Nat),
      tuptovalAux B acc (B ^ (i + 1)) s = hornerFrom B acc (padZeros i s) := by
  intro s
  induction s with
  | nil => intro acc i; rfl
  | cons x rest ih =>
      intro acc i
      have hpow : B ^ (i + 1) * B = B ^ (i + 2) := by ring
      calc tuptovalAux B acc (B ^ (i + 1)) (x :: rest)
          = tuptovalAux B (acc * B ^ (i + 1) + x) (B ^ (i + 2)) rest := by
            simp [tuptovalAux, hpow]
        _ = hornerFrom B (acc * B ^ (i + 1) + x) (padZeros (i + 1) rest) :=
            ih _ _
        _ = hornerFrom B acc (padZeros i (x :: rest)) := by
            rw [padZeros, hornerFrom_append, hornerFrom_replicate_zero]
            show hornerFrom B (acc * B ^ (i + 1) + x) _ =
              hornerFrom B (acc * B ^ i * B + x) _
            rw [show acc * B ^ (i + 1) = acc * B ^ i * B by ring]

theorem tuptovalAux_lt_of_acc_lt :
    ∀ (s1 s2 : List Nat) (r1 r2 pw : Nat),
      s1.length = s2.length → (∀ x ∈ s1, x ≤ Node.maxlen) →
      Node.maxlen < pw → r1 < r2 →
      tuptovalAux (Node.maxlen + 1) r1 pw s1 <
        tuptovalAux (Node.maxlen + 1) r2 pw s2 := by
  intro s1
  induction s1 with
  | nil =>
      intro s2 r1 r2 pw hlen _ _ hr
      cases s2 with
      | nil => simpa [tuptovalAux] using hr
      | cons y t => simp at hlen
  | cons x t1 ih =>
      intro s2 r1 r2 pw hlen hdig hpw hr
      cases s2 with
      | nil => simp at hlen
      | cons y t2 =>
          simp only [tuptovalAux]
          apply ih
          · simpa using hlen
          · exact fun z hz => hdig z (List.mem_cons_of_mem _ hz)
          · calc Node.maxlen < pw := hpw
              _ ≤ pw * (Node.maxlen + 1) := Nat.le_mul_of_pos_right _ (by omega)
          · have hx : x ≤ Node.maxlen := hdig x (List.mem_cons_self x t1)
            calc r1 * pw + x < r1 * pw + pw := by omega
              _ = (r1 + 1) * pw := by ring
              _ ≤ r2 * pw := Nat.mul_le_mul_right _ hr
              _ ≤ r2 * pw + y := Nat.le_add_right _ _

theorem tuptovalAux_lt_of_lex :
    ∀ (s1 s2 : List Nat) (r pw : Nat),
      List.Lex (· < ·) s1 s2 → s1.length = s2.length →
      (∀ x ∈ s1, x ≤ Node.maxlen) → 1 ≤ pw →
      tuptovalAux (Node.maxlen + 1) r pw s1 <
        tuptovalAux (Node.maxlen + 1) r pw s2 := by
  intro s1 s2 r pw hlex
  induction hlex generalizing r pw with
  | nil => intro hlen; simp at hlen
  | @rel a l1 b l2 hab =>
      intro hlen hdig hpw
      simp only [tuptovalAux]
      apply tuptovalAux_lt_of_acc_lt
      · simpa using hlen
      · exact fun z hz => hdig z (List.mem_cons_of_mem _ hz)
      · calc Node.maxlen < Node.maxlen + 1 := by omega
          _ ≤ pw * (Node.maxlen + 1) := Nat.le_mul_of_pos_left _ (by omega)
      · omega
  | @cons a l1 l2 _ ih =>
      intro hlen hdig hpw
      simp only [tuptovalAux]
      apply ih
      · simpa using hlen
      · exact fun z hz => hdig z (List.mem_cons_of_mem _ hz)
      · exact le_trans hpw (Nat.le_mul_of_pos_right _ (by omega))

theorem lex_nat_trichotomy :
    ∀ (l1 l2 : List Nat),
      List.Lex (· < ·) l1 l2 ∨ l1 = l2 ∨ List.Lex (· < ·) l2 l1 := by
  intro l1
  induction l1 with
  | nil =>
      intro l2
      cases l2 with
      | nil => exact Or.inr (Or.inl rfl)
      | cons y t => exact Or.inl List.Lex.nil
  | cons x t1 ih =>
      intro l2
      cases l2 with
      | nil => exact Or.inr (Or.inr List.Lex.nil)
      | cons y t2 =>
          rcases Nat.lt_trichotomy x y with hxy | hxy | hxy
          · exact Or.inl (List.Lex.rel hxy)
          · subst hxy
            rcases ih t2 with h | h | h
            · exact Or.inl (List.Lex.cons h)
            · exact Or.inr (Or.inl (by rw [h]))
            · exact Or.inr (Or.inr (List.Lex.cons h))
          · exact Or.inr (Or.inr (List.Lex.rel hxy))

/-! ## Claim C4 -/

/-- Claim C4: for a haystack of at most `L` elements sorted by plaintext,
`Oracle.partition` yields for each needle, in input order, a pair
`(needle, i)` with `i` in `[0, len(haystack)]` such that the decoded
haystack entry before position `i` is strictly below the decoded needle
and the one at position `i` is at least it; a needle whose plaintext
equals some haystack plaintext receives the index of the first such
entry (ties route left). -/
theorem c4_oracle_partition_correct {α β : Type} (dec : Nat → Nat) (L : Nat)
    (nkey : α → Nat) (haykey : β → Nat) (needles : List α)
    (haystack : List β) (hL : haystack.length ≤ L)
    (hs : List.Sorted (fun a b => dec (haykey a) ≤ dec (haykey b)) haystack) :
    ∃ out, Oracle.partition dec L nkey haykey needles haystack = .ok out ∧
      out.map Prod.fst = needles ∧
      ∀ n i, (n, i) ∈ out →
        i ≤ haystack.length ∧
        (0 < i →
          (haystack.map (fun b => dec (haykey b))).getD (i - 1) 0 <
            dec (nkey n)) ∧
        (i < haystack.length →
          dec (nkey n) ≤ (haystack.map (fun b => dec (haykey b))).getD i 0) ∧
        (∀ j, j < haystack.length →
          (haystack.map (fun b => dec (haykey b))).getD j 0 = dec (nkey n) →
          i ≤ j ∧
          (haystack.map (fun b => dec (haykey b))).getD i 0 = dec (nkey n)) := by
  set hd := haystack.map (fun b => dec (haykey b)) with hhd
  have hdsorted : List.Sorted (· ≤ ·) hd := by
    rw [hhd]
    exact (List.pairwise_map).2 hs
  have hlen : hd.length = haystack.length := by simp [hhd]
  have hsdhay : List.insertionSort (· ≤ ·) hd = hd :=
    hdsorted.insertionSort_eq
  refine ⟨needles.map (fun n => (n, bisl (· < ·) hd (dec (nkey n)))), ?_, ?_, ?_⟩
  · simp [Oracle.partition, massert, hsdhay, hhd, hL]
  · simp only [List.map_map]
    show List.map id needles = needles
    exact List.map_id needles
  · intro n i hmem
    obtain ⟨n0, hn0, heq⟩ := List.mem_map.1 hmem
    injection heq with h1 h2
    subst h1
    subst h2
    refine ⟨hlen ▸ bisl_le_length _ hd _, ?_, ?_, ?_⟩
    · intro hpos
      exact bisl_prefix_lt hd (dec (nkey n0)) _ (by omega)
    · intro hlt
      exact bisl_at_ge hd _ (by omega)
    · intro j hj hje
      obtain ⟨h1, h2⟩ := bisl_first_eq hd (dec (nkey n0)) hdsorted j
        (by omega) hje
      exact ⟨h1, h2⟩

/-- Witness for C4: `dec = id`, `L = 3`, haystack `[1,3,5]`, needle `[3]`. -/
theorem c4_witness :
    (([1, 3, 5] : List Nat).length ≤ 3 ∧
      List.Sorted (fun a b => id a ≤ id b) ([1, 3, 5] : List Nat)) ∧
    ∃ out, Oracle.partition id 3 id id ([3] : List Nat) [1, 3, 5] = .ok out ∧
      out.map Prod.fst = [3] :=
  ⟨⟨by decide, by decide⟩, by
    obtain ⟨out, h1, h2, _⟩ := c4_oracle_partition_correct id 3 id id
      [3] [1, 3, 5] (by decide) (by decide)
    exact ⟨out, h1, h2⟩⟩

/-! ## Counterexamples for claims C1, C2, C3 and C8 -/

/-- Claim C1, counterexample.  First part: after inserting `(5,2)` and
then `(5,1)` at the same key, the Cheater's lookup returns `1` — the
least `(plaintext, key, value)` triple at the probe position — not the
first value inserted (`2`).  Second part: on POPE with `L = 3`, after
inserting four pairs whose plaintexts are `3, 3, 7, 9`, looking up a key
of plaintext `3` can raise an AssertionError instead of returning the
inserted value: a pivot sample containing the duplicate plaintext twice
leaves an interior empty bucket, failing `assert all(bucket for bucket
in buckets)` (pope.py:185). -/
theorem c1_counterexample :
    ((((Cheater.init.insert id 5 2).insert id 5 1).lookup id 5).1 =
        some 1 ∧ (1 : Nat) ≠ 2) ∧
    Pope.lookup (fun c => c / 10) 3 5 [[0, 1, 2]]
      (Pope.insert (Pope.insert (Pope.insert (Pope.insert Pope.init
        30 1) 31 2) 70 3) 90 4) 30 = .fail :=
  ⟨⟨by simp [Cheater.lookup, Cheater.flush, Cheater.insert, Cheater.init,
      mergeTrip, bisl, tripLt, tripLe, List.insertionSort,
      List.orderedInsert], by decide⟩, rfl⟩

/-- Claim C2, counterexample: on a three-leaf POPE state (which
satisfies every structural invariant) with stored plaintexts `5, 15,
25` and `L = 2`, `range_search(25, 5)` returns the pair with plaintext
`15` — the middle subtree between the two endpoint leaves — although the
claimed multiset `{(k,v) : 25 ≤ dec k < 5}` is empty. -/
theorem c2_counterexample :
    Pope.range_search id 2 5 []
      (.pnode [10, 20] []
        [.pleaf [(5, 50)], .pleaf [(15, 150)], .pleaf [(25, 250)]])
      25 5 =
      .ok ([(15, 150)],
        .pnode [10, 20] []
          [.pleaf [(5, 50)], .pleaf [(15, 150)], .pleaf [(25, 250)]],
        []) ∧
    ¬(25 ≤ (15 : Nat) ∧ (15 : Nat) < 5) :=
  ⟨rfl, by decide⟩

/-- Claim C3, counterexample: the same operation sequence — insert
`(5,2)`, insert `(5,1)`, lookup `5` — applied to the Cheater and to
mOPE yields different lookup results: mOPE returns the first value `2`
stored at that key's encoding, the Cheater returns `1`. -/
theorem c3_counterexample :
    (Mope.insert Mope.init id 5 5 2 >>= fun m =>
      Mope.insert m id 5 5 1 >>= fun m2 =>
      Mope.lookup m2 id 5 5) =
      .ok (some 2,
        ⟨.mleaf [] [5] [some [1]], [1], [(1, [(5, 2), (5, 1)])]⟩) ∧
    ((((Cheater.init.insert id 5 2).insert id 5 1).lookup id 5).1 =
      some 1) ∧
    some (2 : Nat) ≠ some 1 :=
  ⟨rfl, by simp [Cheater.lookup, Cheater.flush, Cheater.insert,
    Cheater.init, mergeTrip, bisl, tripLt, tripLe, List.insertionSort,
    List.orderedInsert], by decide⟩

/-- Claim C8, counterexample: in a height-two POPE state with a pair of
plaintext `25` pending in the root buffer, `split([3])` flushes that
pair into the right internal child, which receives no search keys and
is not recursed into — after the split returns, that internal child is
still dirty (its buffer holds the pair), contradicting the claim that no
internal node anywhere is dirty. -/
theorem c8_counterexample :
    Pope.split id 2 5 []
      (.pnode [20] [(25, 99)]
        [.pnode [5] [] [.pleaf [(3, 30)], .pleaf [(7, 70)]],
         .pnode [25] [] [.pleaf [(22, 220)], .pleaf [(27, 270)]]])
      [3] true =
      .ok
        (.pnode [20] []
          [.pnode [5] [] [.pleaf [(3, 30)], .pleaf [(7, 70)]],
           .pnode [25] [(25, 99)] [.pleaf [(22, 220)], .pleaf [(27, 270)]]],
         [(3, [(3, 30)])], []) ∧
    internalBuffers
      (.pnode [20] []
        [.pnode [5] [] [.pleaf [(3, 30)], .pleaf [(7, 70)]],
         .pnode [25] [(25, 99)] [.pleaf [(22, 220)], .pleaf [(27, 270)]]]) =
      [[], [], [(25, 99)]] ∧
    ([(25, 99)] : List (Nat × Nat)) ≠ [] :=
  ⟨rfl, rfl, by decide⟩

/-! ## Claims C9 (counterexample) and C10 -/

/-- Claim C9, counterexample: on the empty mOPE index, `lookup` does not
return `None` — `LeafNode.encode` evaluates `self.encs[-1]` on the empty
encoding list and raises IndexError (`Res.fail`). -/
theorem c9_counterexample :
    Mope.size Mope.init = 0 ∧ Mope.lookup Mope.init id 5 7 = .fail :=
  ⟨rfl, rfl⟩

/-- Claim C10: `Mope.lookup` and `Mope.range_search` (encode with
`insert=False`) never modify the index: whenever they return, the state
they return — tree, sorted encodings and data map — is the input state. -/
theorem c10_mope_queries_pure (m : Mope) (dec : Nat → Nat) (L : Nat)
    (key key1 key2 : Nat) :
    (∀ r m2, Mope.lookup m dec L key = .ok (r, m2) → m2 = m) ∧
    (∀ res m2, Mope.range_search m dec L key1 key2 = .ok (res, m2) →
      m2 = m) := by
  constructor
  · intro r m2 h
    simp only [Mope.lookup, ok_bind_eq_ok] at h
    obtain ⟨⟨res, ind, found, m1⟩, he, h⟩ := h
    have hm1 : m1 = m := mope_encode_false_frame m dec L key _ he
    dsimp only at h
    have hm2 : m2 = m1 := by
      by_cases hf : found = true
      · rw [if_pos hf] at h
        cases hdg : dictGet m1.data res with
        | nil => rw [hdg] at h; exact absurd h (by simp)
        | cons p tl =>
            rw [hdg] at h
            injection h with hh
            exact (congrArg Prod.snd hh).symm
      · rw [if_neg hf] at h
        injection h with hh
        exact (congrArg Prod.snd hh).symm
    rw [hm2, hm1]
  · intro res m2 h
    simp only [Mope.range_search, ok_bind_eq_ok] at h
    obtain ⟨⟨r1, ind1, f1, m1⟩, he1, h⟩ := h
    obtain ⟨⟨r2, ind2, f2, mm⟩, he2, h⟩ := h
    have hm1 : m1 = m := mope_encode_false_frame m dec L key1 _ he1
    have hmm : mm = m1 := mope_encode_false_frame m1 dec L key2 _ he2
    injection h with hh
    have h2 := congrArg Prod.snd hh
    dsimp only at h2
    rw [← h2, hmm, hm1]

/-- Witness for C10 at a one-key index: looking up the stored key
returns its value and leaves the state untouched. -/
theorem c10_witness :
    Mope.lookup ⟨.mleaf [] [10] [some [1]], [1], [(1, [(10, 100)])]⟩
        id 5 10 =
      .ok (some 100,
        ⟨.mleaf [] [10] [some [1]], [1], [(1, [(10, 100)])]⟩) ∧
    (⟨.mleaf [] [10] [some [1]], [1], [(1, [(10, 100)])]⟩ : Mope) =
      ⟨.mleaf [] [10] [some [1]], [1], [(1, [(10, 100)])]⟩ :=
  ⟨rfl,
    (c10_mope_queries_pure
      ⟨.mleaf [] [10] [some [1]], [1], [(1, [(10, 100)])]⟩ id 5 10 0 0).1
      (some 100) _ rfl⟩

/-! ## Claims C6 and C7 -/

/-- Claim C6, counterexample: on the tuple `(1,0,0)` (all entries at most
`maxlen`), `Mope._tuptoval` does not return the Horner-style fold value
`v ← 0; for each x: v ← v * (maxlen+1) + x` claimed by the spec (the
source multiplies by a growing power, so it yields 125 where the Horner
fold yields 25). -/
theorem c6_counterexample :
    (∀ x ∈ ([1, 0, 0] : List Nat), x ≤ Node.maxlen) ∧
    Mope.tuptoval [1, 0, 0] ≠ hornerValSpec (Node.maxlen + 1) [1, 0, 0] := by
  constructor
  · decide
  · decide

/-- Claim C6 (amended): for every tuple, `Mope._tuptoval` returns the
base-`(maxlen+1)` Horner value of the tuple with `k` zeros inserted after
the digit at position `k` — i.e. digit `k` of an `m`-tuple is worth
`(maxlen+1) ^ ((k+1) + ⋯ + (m-1))`, not `(maxlen+1) ^ (m-1-k)`; the two
agree exactly on tuples of length at most 2. -/
theorem c6_tuptoval_eq_padded_horner (t : List Nat) :
    Mope.tuptoval t = hornerValSpec (Node.maxlen + 1) (tupPad t) := by
  cases t with
  | nil => rfl
  | cons x rest =>
      show tuptovalAux (Node.maxlen + 1) 0 1 (x :: rest) = _
      have h1 : (1 : Nat) * (Node.maxlen + 1) = (Node.maxlen + 1) ^ (0 + 1) := by
        ring
      calc tuptovalAux (Node.maxlen + 1) 0 1 (x :: rest)
          = tuptovalAux (Node.maxlen + 1) x ((Node.maxlen + 1) ^ (0 + 1))
              rest := by simp [tuptovalAux, h1]
        _ = hornerFrom (Node.maxlen + 1) x (padZeros 0 rest) :=
            tuptovalAux_eq_hornerFrom_padZeros _ _ _ _
        _ = hornerValSpec (Node.maxlen + 1) (tupPad (x :: rest)) := by
            simp [hornerValSpec, tupPad, hornerFrom]

/-- Claim C7: for equal-length tuples with all entries at most `maxlen`,
`Mope._tuptoval` is strictly monotone with respect to lexicographic
order: `t1 <lex t2` iff `tuptoval t1 < tuptoval t2`. -/
theorem c7_tuptoval_lex_strict_mono (t1 t2 : List Nat)
    (hlen : t1.length = t2.length)
    (h1 : ∀ x ∈ t1, x ≤ Node.maxlen) (h2 : ∀ x ∈ t2, x ≤ Node.maxlen) :
    List.Lex (· < ·) t1 t2 ↔ Mope.tuptoval t1 < Mope.tuptoval t2 := by
  constructor
  · intro hlex
    exact tuptovalAux_lt_of_lex t1 t2 0 1 hlex hlen h1 (by omega)
  · intro hval
    rcases lex_nat_trichotomy t1 t2 with h | h | h
    · exact h
    · subst h
      exact absurd hval (lt_irrefl _)
    · have hlt := tuptovalAux_lt_of_lex t2 t1 0 1 h hlen.symm h2 (by omega)
      exact absurd (lt_trans hval hlt) (lt_irrefl _)

/-- Witness for C7 at the concrete tuples `(0,1)` and `(1,0)`. -/
theorem c7_witness :
    (([0, 1] : List Nat).length = ([1, 0] : List Nat).length) ∧
    (List.Lex (· < ·) ([0, 1] : List Nat) [1, 0] ↔
      Mope.tuptoval [0, 1] < Mope.tuptoval [1, 0]) :=
  ⟨by decide, c7_tuptoval_lex_strict_mono [0, 1] [1, 0] (by decide)
    (by decide) (by decide)⟩

/-! ### POPE split routing lemmas -/

/-- `keyBucket` of a standard partition round: the search keys whose
routing index is `j`, in input order. -/
theorem keyBucket_char (f : Nat → Nat) (buf : List (Nat × Nat))
    (keys : List Nat) (j : Nat) :
    keyBucket ((buf.map (fun p => (p.1, some p.2)) ++
      keys.map (fun k => (k, (none : Option Nat)))).map
        (fun n => (n, f n.1))) j =
    keys.filter (fun k => f k = j) := by
  induction buf with
  | nil =>
      induction keys with
      | nil => rfl
      | cons k rest ih =>
          simp only [List.map_cons, List.map_nil, List.nil_append,
            keyBucket, List.filterMap_cons, List.filter_cons,
            List.filterMap_map] at *
          by_cases hfk : f k = j
          · simp [hfk, ih]
          · simp only [if_neg hfk]
            rw [if_neg (by simpa using hfk)]
            simpa using ih
  | cons p rest ih =>
      simpa [keyBucket, List.filterMap_cons, List.filterMap_map] using ih

/-- `pairBucket` of a standard partition round: the buffered pairs whose
routing index is `j`, in input order. -/
theorem pairBucket_char (f : Nat → Nat) (buf : List (Nat × Nat))
    (keys : List Nat) (j : Nat) :
    pairBucket ((buf.map (fun p => (p.1, some p.2)) ++
      keys.map (fun k => (k, (none : Option Nat)))).map
        (fun n => (n, f n.1))) j =
    buf.filter (fun p => f p.1 = j) := by
  induction buf with
  | nil =>
      induction keys with
      | nil => rfl
      | cons k rest ih =>
          simpa [pairBucket, List.filterMap_cons, List.filterMap_map]
            using ih
  | cons p rest ih =>
      simp only [List.map_cons, List.cons_append, pairBucket,
        List.filterMap_cons, List.filter_cons, List.filterMap_map] at *
      by_cases hfp : f p.1 = j
      · simp [hfp] at ih ⊢
        exact ih
      · simp only [if_neg hfp]
        rw [if_neg (by simpa using hfp)]
        simpa using ih

/-- Monotone-bucket decomposition: a list whose routing indices are
nondecreasing and below `n + 1` splits into the sub-`n` part followed by
the index-`n` part. -/
theorem filter_split_last {α : Type} (f : α → Nat) (n : Nat) :
    ∀ xs : List α, List.Pairwise (fun a b => f a ≤ f b) xs →
    (∀ x ∈ xs, f x < n + 1) →
    xs = xs.filter (fun x => f x < n) ++ xs.filter (fun x => f x = n) := by
  intro xs
  induction xs with
  | nil => intro _ _; rfl
  | cons x rest ih =>
      intro hpw hbnd
      have hx := hbnd x (List.mem_cons_self x rest)
      by_cases hxn : f x = n
      · have hall : ∀ y ∈ rest, f y = n := by
          intro y hy
          have h1 := (List.pairwise_cons.1 hpw).1 y hy
          have h2 := hbnd y (List.mem_cons_of_mem x hy)
          omega
        have hf1 : rest.filter (fun y => f y < n) = [] :=
          List.filter_eq_nil.2 (fun y hy => by
            simp only [decide_eq_true_eq]
            have := hall y hy; omega)
        have hf2 : rest.filter (fun y => f y = n) = rest :=
          List.filter_eq_self.2 (fun y hy => by
            simp [hall y hy])
        simp [List.filter_cons, hxn, hf1, hf2]
      · have hxlt : f x < n := by omega
        have ihr := ih (List.pairwise_cons.1 hpw).2
          (fun y hy => hbnd y (List.mem_cons_of_mem x hy))
        simp only [List.filter_cons, decide_eq_true_eq]
        rw [if_pos hxlt, if_neg hxn]
        simpa using ihr

/-- Stable bucketing: concatenating the buckets of a monotone routing in
index order reproduces the list. -/
theorem flatten_buckets {α : Type} (f : α → Nat) :
    ∀ (n : Nat) (xs : List α), List.Pairwise (fun a b => f a ≤ f b) xs →
    (∀ x ∈ xs, f x < n) →
    (((List.range n).map (fun j => xs.filter (fun x => f x = j))).flatten)
      = xs := by
  intro n
  induction n with
  | zero =>
      intro xs _ hbnd
      match xs with
      | [] => rfl
      | x :: _ => exact absurd (hbnd x (List.mem_cons_self _ _)) (by omega)
  | succ n ihn =>
      intro xs hpw hbnd
      rw [List.range_succ, List.map_append, List.flatten_append]
      have hys := ihn (xs.filter (fun x => f x < n))
        (hpw.sublist (List.filter_sublist xs))
        (fun x hx => by
          have := List.of_mem_filter hx
          simpa using this)
      have hcongr : (List.range n).map
          (fun j => xs.filter (fun x => f x = j)) =
          (List.range n).map
          (fun j => (xs.filter (fun x => f x < n)).filter
            (fun x => f x = j)) := by
        refine List.map_congr_left ?_
        intro j hj
        have hjn : j < n := List.mem_range.1 hj
        rw [List.filter_filter]
        refine (List.filter_congr ?_).symm
        intro x _
        by_cases hfx : f x = j
        · simp [hfx, hjn]
        · simp [hfx]
      rw [hcongr, hys]
      simp only [List.map_cons, List.map_nil, List.flatten_cons,
        List.flatten_nil, List.append_nil]
      exact (filter_split_last f n xs hpw hbnd).symm

theorem loOk_trans (lo : Option Nat) (a u : Nat) (h : loOk lo a = true)
    (hau : a < u) : loOk lo u = true := by
  cases lo with
  | none => rfl
  | some c => simp only [loOk, decide_eq_true_eq] at h ⊢; omega

theorem hiOk_trans (hi : Option Nat) (a u : Nat) (h : hiOk hi a = true)
    (hua : u ≤ a) : hiOk hi u = true := by
  cases hi with
  | none => rfl
  | some c => simp only [hiOk, decide_eq_true_eq] at h ⊢; omega

theorem pordL_length (dec : Nat → Nat) :
    ∀ (ss : List Nat) (lo hi : Option Nat) (cs : List PTree),
      pordL dec lo hi ss cs = true → cs.length = ss.length + 1 := by
  intro ss
  induction ss with
  | nil =>
      intro lo hi cs h
      match cs with
      | [] => exact absurd h (by simp [pordL])
      | [c] => rfl
      | c :: c2 :: cs => exact absurd h (by simp [pordL])
  | cons x ss ih =>
      intro lo hi cs h
      match cs with
      | [] => exact absurd h (by simp [pordL])
      | [c] => exact absurd h (by simp [pordL])
      | c :: c2 :: cs =>
          simp only [pordL, Bool.and_eq_true] at h
          have := ih (some (dec x)) hi (c2 :: cs) h.2
          simp only [List.length_cons] at this ⊢
          omega

mutual

/-- Every pair stored in a `pord`-valid subtree lies in its plaintext
interval. -/
theorem pord_bounded (dec : Nat → Nat) :
    ∀ (t : PTree) (lo hi : Option Nat), pord dec lo hi t = true →
    ∀ p ∈ PTree.traverse t,
      loOk lo (dec p.1) = true ∧ hiOk hi (dec p.1) = true := by
  intro t
  match t with
  | .pleaf buf =>
      intro lo hi h p hp
      simp only [pord, List.all_eq_true] at h
      have := h p hp
      simpa [Bool.and_eq_true] using this
  | .pnode s buf cs =>
      intro lo hi h p hp
      simp only [pord, Bool.and_eq_true, List.all_eq_true] at h
      rcases List.mem_append.1 hp with hb | hc
      · simpa [Bool.and_eq_true] using h.1 p hb
      · exact pordL_bounded dec cs s lo hi h.2 p hc

theorem pordL_bounded (dec : Nat → Nat) :
    ∀ (cs : List PTree) (ss : List Nat) (lo hi : Option Nat),
      pordL dec lo hi ss cs = true →
    ∀ p ∈ PTree.traverseL cs,
      loOk lo (dec p.1) = true ∧ hiOk hi (dec p.1) = true := by
  intro cs
  match cs with
  | [] =>
      intro ss lo hi h p hp
      exact absurd hp (by simp [PTree.traverseL])
  | [c] =>
      intro ss lo hi h p hp
      match ss with
      | [] =>
          simp only [PTree.traverseL, List.append_nil] at hp
          exact pord_bounded dec c lo hi (by simpa [pordL] using h) p hp
      | _ :: _ => exact absurd h (by simp [pordL])
  | c :: c2 :: cs =>
      intro ss lo hi h p hp
      match ss with
      | [] => exact absurd h (by simp [pordL])
      | x :: ss =>
          simp only [pordL, Bool.and_eq_true] at h
          obtain ⟨⟨⟨hxlo, hxhi⟩, hc⟩, htail⟩ := h
          rcases List.mem_append.1 hp with hpc | hprest
          · have hb := pord_bounded dec c lo (some (dec x)) hc p hpc
            refine ⟨hb.1, ?_⟩
            have hple : dec p.1 ≤ dec x := by
              simpa [hiOk, decide_eq_true_eq] using hb.2
            exact hiOk_trans hi (dec x) (dec p.1) hxhi hple
          · have hb := pordL_bounded dec (c2 :: cs) ss (some (dec x)) hi
              htail p hprest
            refine ⟨?_, hb.2⟩
            have hplt : dec x < dec p.1 := by
              simpa [loOk, decide_eq_true_eq] using hb.1
            exact loOk_trans lo (dec x) (dec p.1) hxlo hplt

end

/-- The pivot plaintexts of a `pord`-valid internal node strictly
increase, and all lie in the node's interval. -/
theorem pordL_pivots (dec : Nat → Nat) :
    ∀ (ss : List Nat) (lo hi : Option Nat) (cs : List PTree),
      pordL dec lo hi ss cs = true →
      List.Pairwise (fun a b => dec a < dec b) ss ∧
      ∀ x ∈ ss, loOk lo (dec x) = true ∧ hiOk hi (dec x) = true := by
  intro ss
  induction ss with
  | nil => intro lo hi cs h; exact ⟨List.Pairwise.nil, by simp⟩
  | cons x ss ih =>
      intro lo hi cs h
      match cs with
      | [] => exact absurd h (by simp [pordL])
      | [c] => exact absurd h (by simp [pordL])
      | c :: c2 :: cs =>
          simp only [pordL, Bool.and_eq_true] at h
          obtain ⟨⟨⟨hxlo, hxhi⟩, hc⟩, htail⟩ := h
          obtain ⟨hpw, hbnd⟩ := ih (some (dec x)) hi (c2 :: cs) htail
          have hlt : ∀ y ∈ ss, dec x < dec y := by
            intro y hy
            have := (hbnd y hy).1
            simpa [loOk, decide_eq_true_eq] using this
          refine ⟨List.pairwise_cons.2 ⟨hlt, hpw⟩, ?_⟩
          intro y hy
          rcases List.mem_cons.1 hy with rfl | hy2
          · exact ⟨hxlo, hxhi⟩
          · exact ⟨loOk_trans lo (dec x) (dec y) hxlo (hlt y hy2),
              (hbnd y hy2).2⟩

theorem traverse_get_mem :
    ∀ (cs : List PTree) (j : Nat) (hj : j < cs.length) (p : Nat × Nat),
      p ∈ PTree.traverse (cs.get ⟨j, hj⟩) → p ∈ PTree.traverseL cs := by
  intro cs
  induction cs with
  | nil => intro j hj; simp at hj
  | cons c rest ih =>
      intro j hj p hp
      match j with
      | 0 => exact List.mem_append.2 (Or.inl hp)
      | jj + 1 =>
          exact List.mem_append.2 (Or.inr
            (ih jj (by simpa using hj) p hp))

theorem traverseL_mem_get :
    ∀ (cs : List PTree) (p : Nat × Nat), p ∈ PTree.traverseL cs →
      ∃ j, ∃ hj : j < cs.length, p ∈ PTree.traverse (cs.get ⟨j, hj⟩) := by
  intro cs
  induction cs with
  | nil => intro p hp; simp [PTree.traverseL] at hp
  | cons c rest ih =>
      intro p hp
      rcases List.mem_append.1 hp with hc | hrest
      · exact ⟨0, by simp, hc⟩
      · obtain ⟨j, hj, hmem⟩ := ih p hrest
        exact ⟨j + 1, by simpa using hj, hmem⟩

/-- Routing uniqueness on a `pord`-valid node: a pair stored in child
`j` bisects to index `j` against the pivot plaintexts. -/
theorem pordL_route (dec : Nat → Nat) :
    ∀ (cs : List PTree) (ss : List Nat) (lo hi : Option Nat),
      pordL dec lo hi ss cs = true →
      ∀ (j : Nat) (hj : j < cs.length),
        ∀ p ∈ PTree.traverse (cs.get ⟨j, hj⟩),
          bisl (· < ·) (ss.map dec) (dec p.1) = j := by
  intro cs
  induction cs with
  | nil => intro ss lo hi h j hj; simp at hj
  | cons c rest ih =>
      intro ss lo hi h j hj p hp
      match rest, ss with
      | [], [] =>
          match j with
          | 0 => simp [bisl]
      | [], _ :: _ => exact absurd h (by simp [pordL])
      | c2 :: cs2, [] => exact absurd h (by simp [pordL])
      | c2 :: cs2, x :: ss2 =>
          simp only [pordL, Bool.and_eq_true] at h
          obtain ⟨⟨⟨hxlo, hxhi⟩, hc⟩, htail⟩ := h
          match j with
          | 0 =>
              have hb := pord_bounded dec c lo (some (dec x)) hc p hp
              have hle : dec p.1 ≤ dec x := by
                simpa [hiOk, decide_eq_true_eq] using hb.2
              simp only [List.map_cons, bisl]
              rw [if_neg (by omega)]
          | jj + 1 =>
              have hrec := ih ss2 (some (dec x)) hi htail jj
                (by simpa using hj) p hp
              have hmem : p ∈ PTree.traverseL (c2 :: cs2) :=
                traverse_get_mem (c2 :: cs2) jj (by simpa using hj) p hp
              have hb := pordL_bounded dec (c2 :: cs2) ss2 (some (dec x)) hi
                htail p hmem
              have hgt : dec x < dec p.1 := by
                simpa [loOk, decide_eq_true_eq] using hb.1
              simp only [List.map_cons, bisl]
              rw [if_pos hgt, hrec]

/-- Sorting the pivot plaintexts of a valid node is the identity. -/
theorem sorted_map_dec_insertionSort (dec : Nat → Nat) (ss : List Nat)
    (h : List.Pairwise (fun a b => dec a < dec b) ss) :
    List.insertionSort (· ≤ ·) (ss.map dec) = ss.map dec :=
  List.Sorted.insertionSort_eq
    (List.pairwise_map.2 (h.imp (fun hl => le_of_lt hl)))

/-- What the trailing-empty-bucket elimination loop
(`LeafNode.split`, pope.py:178-184) preserves: the concatenated bucket
and key-bucket contents, bucket/pivot membership, and the
matching-pairs-share-a-bucket property. -/
theorem trimBuckets_spec (dec : Nat → Nat) (buffer : List (Nat × Nat)) :
    ∀ (n : Nat) (buckets : List (List (Nat × Nat)))
      (kbs : List (List Nat)) (promoted : List Nat)
      (out : List (List (Nat × Nat)) × List (List Nat) × List Nat),
      trimBuckets n buckets kbs promoted = .ok out →
      kbs.length = buckets.length →
      out.1.flatten = buckets.flatten ∧
      out.2.1.flatten = kbs.flatten ∧
      (∀ b ∈ out.1, b ∈ buckets) ∧
      (∀ x ∈ out.2.2, x ∈ promoted) ∧
      ((∀ (j : Nat), ∀ k ∈ kbs.getD j [], ∀ p ∈ buffer,
          dec p.1 = dec k → p ∈ buckets.getD j []) →
        (∀ (j : Nat), ∀ k ∈ out.2.1.getD j [], ∀ p ∈ buffer,
          dec p.1 = dec k → p ∈ out.1.getD j [])) := by
  intro n
  induction n with
  | zero =>
      intro buckets kbs promoted out h
      exact absurd h (by simp [trimBuckets])
  | succ n ihn =>
      intro buckets kbs promoted out h hlen
      rw [trimBuckets] at h
      cases hgl : buckets.getLast? with
      | none => rw [hgl] at h; exact absurd h (by simp)
      | some last =>
          rw [hgl] at h
          dsimp only at h
          by_cases hle : last.isEmpty
          · rw [if_pos hle] at h
            cases hkl : kbs.getLast? with
            | none => rw [hkl] at h; dsimp only at h; exact absurd h (by simp)
            | some lk =>
                cases hkp : kbs.dropLast.getLast? with
                | none => rw [hkl, hkp] at h; dsimp only at h; exact absurd h (by simp)
                | some prev =>
                    rw [hkl, hkp] at h
                    dsimp only at h
                    by_cases hpe : promoted.isEmpty
                    · rw [if_pos hpe] at h; exact absurd h (by simp)
                    · rw [if_neg hpe] at h
                      have hlast : last = [] := List.isEmpty_iff.1 hle
                      have hbrep : buckets.dropLast ++ [last] = buckets :=
                        List.dropLast_append_getLast? last
                          (Option.mem_def.2 hgl)
                      have hkrep2 : kbs.dropLast ++ [lk] = kbs :=
                        List.dropLast_append_getLast? lk (Option.mem_def.2 hkl)
                      have hkrep1 : kbs.dropLast.dropLast ++ [prev] =
                          kbs.dropLast :=
                        List.dropLast_append_getLast? prev
                          (Option.mem_def.2 hkp)
                      set D := kbs.dropLast.dropLast with hD
                      set B := buckets.dropLast with hB
                      have hkfull : kbs = D ++ [prev] ++ [lk] := by
                        rw [hkrep1, hkrep2]
                      have hbfull : buckets = B ++ [[]] := by
                        rw [← hlast, hbrep]
                      have hlenD : kbs.length = D.length + 2 := by
                        rw [hkfull]; simp
                      have hlenB : buckets.length = B.length + 1 := by
                        rw [hbfull]; simp
                      have hlen2 : (D ++ [prev ++ lk]).length = B.length := by
                        simp only [List.length_append, List.length_cons,
                          List.length_nil]
                        omega
                      obtain ⟨ih1, ih2, ih3, ih4, ih5⟩ := ihn B
                        (D ++ [prev ++ lk]) promoted.dropLast out h hlen2
                      refine ⟨?_, ?_, ?_, ?_, ?_⟩
                      · rw [ih1, hbfull]; simp
                      · rw [ih2, hkfull]; simp
                      · intro b hb
                        rw [hbfull]
                        exact List.mem_append.2 (Or.inl (ih3 b hb))
                      · intro x hx
                        exact (List.dropLast_prefix promoted).sublist.mem
                          (ih4 x hx)
                      · intro hkm
                        refine ih5 ?_
                        intro j k hk p hp hdec
                        rcases Nat.lt_trichotomy j D.length with hj | hj | hj
                        · rw [List.getD_append D [prev ++ lk] [] j hj] at hk
                          have hk0 : k ∈ kbs.getD j [] := by
                            rw [hkfull,
                              List.getD_append (D ++ [prev]) [lk] [] j
                                (by simp; omega),
                              List.getD_append D [prev] [] j hj]
                            exact hk
                          have hp0 := hkm j k hk0 p hp hdec
                          rw [hbfull,
                            List.getD_append B [[]] [] j (by omega)] at hp0
                          exact hp0
                        · subst hj
                          rw [List.getD_append_right D [prev ++ lk] []
                              D.length le_rfl] at hk
                          simp only [Nat.sub_self, List.getD] at hk
                          rcases List.mem_append.1 (by simpa using hk)
                            with hkprev | hklk
                          · have hk0 : k ∈ kbs.getD D.length [] := by
                              rw [hkfull,
                                List.getD_append (D ++ [prev]) [lk] []
                                  D.length (by simp),
                                List.getD_append_right D [prev] []
                                  D.length le_rfl]
                              simpa using hkprev
                            have hp0 := hkm D.length k hk0 p hp hdec
                            rw [hbfull, List.getD_append B [[]] [] D.length
                              (by omega)] at hp0
                            exact hp0
                          · have hk0 : k ∈ kbs.getD (D.length + 1) [] := by
                              rw [hkfull, List.getD_append_right
                                (D ++ [prev]) [lk] [] (D.length + 1)
                                (by simp)]
                              simpa using hklk
                            have hp0 := hkm (D.length + 1) k hk0 p hp hdec
                            rw [hbfull, List.getD_append_right B [[]] []
                              (D.length + 1) (by omega)] at hp0
                            simp at hp0
                        · rw [List.getD_eq_default (D ++ [prev ++ lk]) [] 
                            (by simp; omega)] at hk
                          simp at hk
          · rw [if_neg hle] at h
            injection h with h2
            subst h2
            exact ⟨rfl, rfl, fun b hb => hb, fun x hx => hx, fun hkm => hkm⟩

theorem bisl_mono_nat (l : List Nat) :
    ∀ (u v : Nat), u ≤ v → bisl (· < ·) l u ≤ bisl (· < ·) l v := by
  induction l with
  | nil => intro u v _; simp [bisl]
  | cons a rest ih =>
      intro u v huv
      by_cases hau : a < u
      · simp only [bisl, if_pos hau, if_pos (by omega : a < v)]
        exact Nat.succ_le_succ (ih u v huv)
      · simp only [bisl, if_neg hau]
        omega

theorem getLastD_eq_getD {α : Type} :
    ∀ (l : List α) (d : α), l.getLastD d = l.getD (l.length - 1) d := by
  intro l d
  rw [List.getLastD_eq_getLast? d l]
  cases hgl : l.getLast? with
  | none =>
      have : l = [] := List.getLast?_eq_none_iff.1 hgl
      subst this
      rfl
  | some a =>
      have hrep : l.dropLast ++ [a] = l :=
        List.dropLast_append_getLast? a (Option.mem_def.2 hgl)
      rw [← hrep]
      rw [List.getD_append_right _ _ _ _ (by simp)]
      simp

theorem getLastD_mem {α : Type} :
    ∀ (l : List α) (d : α), l = [] ∨ l.getLastD d ∈ l := by
  intro l d
  rw [List.getLastD_eq_getLast? d l]
  cases hgl : l.getLast? with
  | none => exact Or.inl (List.getLast?_eq_none_iff.1 hgl)
  | some a =>
      right
      have hrep : l.dropLast ++ [a] = l :=
        List.dropLast_append_getLast? a (Option.mem_def.2 hgl)
      rw [← hrep]
      simp

theorem flatten_dropLast_getLastD {α : Type} :
    ∀ (l : List (List α)),
      l.dropLast.flatten ++ l.getLastD [] = l.flatten := by
  intro l
  rw [List.getLastD_eq_getLast? [] l]
  cases hgl : l.getLast? with
  | none =>
      have : l = [] := List.getLast?_eq_none_iff.1 hgl
      subst this
      rfl
  | some a =>
      have hrep : l.dropLast ++ [a] = l :=
        List.dropLast_append_getLast? a (Option.mem_def.2 hgl)
      conv_rhs => rw [← hrep]
      simp

theorem zip3_map_mid {α β γ : Type} :
    ∀ (A : List α) (K : List β) (P : List γ),
      A.length = K.length → K.length = P.length →
      (A.zip (K.zip P)).map (fun it => it.2.1) = K := by
  intro A
  induction A with
  | nil =>
      intro K P h1 _
      match K with
      | [] => rfl
  | cons a A ih =>
      intro K P h1 h2
      match K, P with
      | k :: K, p :: P =>
          simp only [List.zip_cons_cons, List.map_cons]
          rw [ih K P (by simpa using h1) (by simpa using h2)]

theorem zip3_mem_get {α β γ : Type} (A : List α) (K : List β) (P : List γ)
    (it : α × β × γ) (hmem : it ∈ A.zip (K.zip P)) :
    ∃ j, ∃ h1 : j < A.length, ∃ h2 : j < K.length, ∃ h3 : j < P.length,
      it = (A.get ⟨j, h1⟩, K.get ⟨j, h2⟩, P.get ⟨j, h3⟩) := by
  obtain ⟨j, hj, hget⟩ := List.mem_iff_getElem.1 hmem
  have hjA : j < A.length := by
    simp only [List.length_zip] at hj; omega
  have hjK : j < K.length := by
    simp only [List.length_zip] at hj; omega
  have hjP : j < P.length := by
    simp only [List.length_zip] at hj; omega
  refine ⟨j, hjA, hjK, hjP, ?_⟩
  rw [← hget]
  simp [List.getElem_zip]

theorem massert_ok_iff (b : Bool) (u : Unit) :
    massert b = .ok u ↔ b = true := by
  cases b <;> simp [massert]

/-- One partition round of `LeafNode.split` (pope.py:159-186): after
sampling, partitioning buffer and search keys against the sample, and
trimming trailing empty buckets, the key buckets concatenate to the
(sorted) search keys, every bucket holds only buffer pairs, every key
bucket is sorted, and all buffer pairs matching a key share the key's
bucket. -/
theorem leafSplit_round_facts (dec : Nat → Nat) (L : Nat)
    (buffer : List (Nat × Nat)) (keys : List Nat)
    (sampled : List (Nat × Nat)) (promoted : List Nat)
    (partitions : List ((Nat × Option Nat) × Nat))
    (hps : Oracle.partition_sort dec L (fun p => p.1) id
      (buffer.map (fun p => (p.1, some p.2)) ++
        keys.map (fun k => (k, (none : Option Nat))))
      (sampled.map (fun p => p.1)) = .ok (promoted, partitions))
    (hsorted : List.Pairwise (fun a b => dec a ≤ dec b) keys)
    (n0 : Nat) (buckets0 : List (List (Nat × Nat)))
    (kbs0 : List (List Nat))
    (hb : buckets0 =
      (List.range (promoted.length + 1)).map (pairBucket partitions))
    (hk : kbs0 =
      (List.range (promoted.length + 1)).map (keyBucket partitions))
    (b2 : List (List (Nat × Nat))) (k2 : List (List Nat)) (p2 : List Nat)
    (htrim : trimBuckets n0 buckets0 kbs0 promoted = .ok (b2, k2, p2)) :
    k2.flatten = keys ∧
    (∀ b ∈ b2, ∀ p ∈ b, p ∈ buffer) ∧
    (∀ e ∈ k2, List.Pairwise (fun a b => dec a ≤ dec b) e) ∧
    (∀ j, ∀ k ∈ k2.getD j [], ∀ p ∈ buffer, dec p.1 = dec k →
      p ∈ b2.getD j []) := by
  haveI : IsTotal Nat (fun a b => dec (id a) ≤ dec (id b)) :=
    ⟨fun a b => le_total _ _⟩
  haveI : IsTrans Nat (fun a b => dec (id a) ≤ dec (id b)) :=
    ⟨fun a b c hab hbc => le_trans hab hbc⟩
  simp only [Oracle.partition_sort, Oracle.partition, ok_bind_eq_ok] at hps
  obtain ⟨pr, ⟨⟨u, hmas, hpr⟩, heq⟩⟩ := hps
  injection heq with heq2
  injection heq2 with heqp heqr
  injection hpr with hpr2
  set sp := List.insertionSort (fun a b => dec (id a) ≤ dec (id b))
    (sampled.map (fun p => p.1)) with hsp
  have hpromsp : promoted = sp := heqp.symm
  have hsdsorted : List.Sorted (fun a b : Nat => a ≤ b)
      (sp.map (fun x => dec (id x))) := by
    refine List.pairwise_map.2 ?_
    exact List.sorted_insertionSort _ _
  have hsd : List.insertionSort (fun a b : Nat => a ≤ b)
      (sp.map (fun x => dec (id x))) = sp.map (fun x => dec (id x)) :=
    List.Sorted.insertionSort_eq hsdsorted
  rw [hsd] at hpr2
  set f : Nat → Nat :=
    fun c => bisl (· < ·) (sp.map (fun x => dec (id x))) (dec c) with hf
  have hpart : partitions =
      (buffer.map (fun p => (p.1, some p.2)) ++
        keys.map (fun k => (k, (none : Option Nat)))).map
        (fun n => (n, f n.1)) := by
    rw [← heqr, ← hpr2]
  have hnb : promoted.length + 1 = sp.length + 1 := by rw [hpromsp]
  have hkbsj : ∀ j, j < sp.length + 1 →
      kbs0.getD j [] = keys.filter (fun k => f k = j) := by
    intro j hj
    rw [hk, hnb]
    rw [List.getD_eq_getElem _ _ (by simpa using hj)]
    rw [List.getElem_map, List.getElem_range]
    rw [hpart]
    exact keyBucket_char f buffer keys j
  have hbktj : ∀ j, j < sp.length + 1 →
      buckets0.getD j [] = buffer.filter (fun p => f p.1 = j) := by
    intro j hj
    rw [hb, hnb]
    rw [List.getD_eq_getElem _ _ (by simpa using hj)]
    rw [List.getElem_map, List.getElem_range]
    rw [hpart]
    exact pairBucket_char f buffer keys j
  have hlen0 : kbs0.length = buckets0.length := by
    rw [hb, hk]; simp
  obtain ⟨t1, t2, t3, t4, t5⟩ :=
    trimBuckets_spec dec buffer n0 buckets0 kbs0 promoted (b2, k2, p2)
      htrim hlen0
  have hfbnd : ∀ k, f k < sp.length + 1 := by
    intro k
    rw [hf]
    simp only
    have := bisl_le_length (· < ·) (sp.map (fun x => dec (id x))) (dec k)
    simp only [List.length_map] at this
    omega
  have hkbflat : kbs0.flatten = keys := by
    rw [hk, hnb]
    have hcongr : (List.range (sp.length + 1)).map (keyBucket partitions) =
        (List.range (sp.length + 1)).map
          (fun j => keys.filter (fun k => f k = j)) := by
      refine List.map_congr_left ?_
      intro j _
      rw [hpart]
      exact keyBucket_char f buffer keys j
    rw [hcongr]
    refine flatten_buckets f (sp.length + 1) keys ?_ (fun k _ => hfbnd k)
    refine hsorted.imp ?_
    intro a b hab
    exact bisl_mono_nat _ _ _ hab
  have hflat : k2.flatten = keys := by rw [t2, hkbflat]
  refine ⟨hflat, ?_, ?_, ?_⟩
  · intro b hbmem p hp
    have hb0 : b ∈ buckets0 := t3 b hbmem
    rw [hb] at hb0
    obtain ⟨j, hjr, hbj⟩ := List.mem_map.1 hb0
    rw [← hbj, hpart, pairBucket_char f buffer keys j] at hp
    exact List.mem_of_mem_filter hp
  · intro e he
    refine hsorted.sublist ?_
    rw [← hflat]
    exact List.sublist_flatten_of_mem he
  · refine t5 ?_
    intro j k hkj p hp hdec
    by_cases hj : j < sp.length + 1
    · rw [hkbsj j hj] at hkj
      have hfk : f k = j := by
        have := List.of_mem_filter hkj
        simpa using this
      rw [hbktj j hj]
      refine List.mem_filter.2 ⟨hp, ?_⟩
      have : f p.1 = f k := by
        rw [hf]
        simp only
        rw [hdec]
      simp [this, hfk]
    · rw [List.getD_eq_default _ _ (by rw [hk, hnb]; simp; omega)] at hkj
      simp at hkj

/-- Assignment specification of `LeafNode.split` (pope.py:151-203): on
success in `main` mode with plaintext-sorted keys, the emitted
`(key, leaf buffer)` assignments cover the search keys in order, each
assigned buffer holds only pairs of the input buffer, and each assigned
buffer contains every input pair whose plaintext matches its key.  In
`buckets` mode the assignments come from the per-bucket recursion. -/
theorem leafSplitGo_spec (dec : Nat → Nat) (L : Nat) :
    ∀ (fuel : Nat) (inp : LSIn)
      (out : List (List (Nat × Nat) × Nat) × List (Nat × Nat) ×
        List (Nat × List (Nat × Nat)) × List (List Nat)),
      leafSplitGo dec L fuel inp = .ok out →
      (∀ rnd buffer keys, inp = .main rnd buffer keys →
        List.Pairwise (fun a b => dec a ≤ dec b) keys →
        out.2.2.1.map Prod.fst = keys ∧
        ∀ kl ∈ out.2.2.1,
          (∀ p ∈ kl.2, p ∈ buffer) ∧
          (∀ p ∈ buffer, dec p.1 = dec kl.1 → p ∈ kl.2)) ∧
      (∀ rnd items, inp = .buckets rnd items →
        (∀ it ∈ items, List.Pairwise (fun a b => dec a ≤ dec b) it.2.1) →
        out.2.2.1.map Prod.fst =
          (items.map (fun it => it.2.1)).flatten ∧
        ∀ kl ∈ out.2.2.1, ∃ it ∈ items, kl.1 ∈ it.2.1 ∧
          (∀ p ∈ kl.2, p ∈ it.1) ∧
          (∀ p ∈ it.1, dec p.1 = dec kl.1 → p ∈ kl.2)) := by
  intro fuel
  induction fuel with
  | zero => intro inp out h; exact absurd h (by simp [leafSplitGo])
  | succ fuel ih =>
      intro inp out h
      match inp with
      | .main rnd buffer keys =>
          refine ⟨?_, by intro r i heq; cases heq⟩
          intro rnd0 buffer0 keys0 heq hsorted
          cases heq
          simp only [leafSplitGo] at h
          split at h
          · rename_i hcond
            split at h
            · rename_i hke
              have hknil : keys = [] := List.isEmpty_iff.1 hke
              injection h with h2
              subst h2
              subst hknil
              exact ⟨rfl, by intro kl hkl; simp at hkl⟩
            · rw [ok_bind_eq_ok] at h
              obtain ⟨u, hm, h⟩ := h
              injection h with h2
              subst h2
              constructor
              · show (keys.map fun k => (k, buffer)).map Prod.fst = keys
                rw [List.map_map]
                have : (Prod.fst ∘ fun k : Nat => (k, buffer)) = id := rfl
                rw [this, List.map_id]
              · intro kl hkl
                simp only [List.mem_map] at hkl
                obtain ⟨k, hk, rfl⟩ := hkl
                exact ⟨fun p hp => hp, fun p hp _ => hp⟩
          · rename_i hcond
            cases rnd with
            | nil => exact absurd h (by simp)
            | cons idxs rnd1 =>
                rw [ok_bind_eq_ok] at h
                obtain ⟨sampled, hsam, h⟩ := h
                rw [ok_bind_eq_ok] at h
                obtain ⟨⟨promoted, partitions⟩, hps, h⟩ := h
                dsimp only at h
                rw [ok_bind_eq_ok] at h
                obtain ⟨⟨b2, k2, p2⟩, htrim, h⟩ := h
                dsimp only at h
                rw [ok_bind_eq_ok] at h
                obtain ⟨u1, hne, h⟩ := h
                rw [ok_bind_eq_ok] at h
                obtain ⟨u2, hlens, h⟩ := h
                rw [ok_bind_eq_ok] at h
                obtain ⟨⟨sibs, w1, asg1, rnd2⟩, hrec1, h⟩ := h
                dsimp only at h
                rw [ok_bind_eq_ok] at h
                obtain ⟨⟨sibs2, fbuf, asg2, rnd3⟩, hrec2, h⟩ := h
                dsimp only at h
                injection h with h2
                subst h2
                rw [massert_ok_iff] at hlens
                simp only [Bool.and_eq_true, beq_iff_eq] at hlens
                obtain ⟨hl1, hl2⟩ := hlens
                obtain ⟨hflat, hsub, hsortedk2, hkm⟩ :=
                  leafSplit_round_facts dec L buffer keys sampled promoted
                    partitions hps hsorted _ _ _ rfl rfl b2 k2 p2 htrim
                have hb2pos : 1 ≤ b2.length := by omega
                have hsorteditems : ∀ it ∈
                    b2.dropLast.zip (k2.dropLast.zip p2),
                    List.Pairwise (fun a b => dec a ≤ dec b) it.2.1 := by
                  intro it hit
                  obtain ⟨j, hj1, hj2, hj3, hiteq⟩ :=
                    zip3_mem_get _ _ _ it hit
                  have : it.2.1 = k2.dropLast.get ⟨j, hj2⟩ := by
                    rw [hiteq]
                  rw [this]
                  refine hsortedk2 _ ?_
                  exact (List.dropLast_prefix k2).sublist.mem
                    (List.get_mem _ _ _)
                have hitems := (ih (.buckets rnd1
                    (b2.dropLast.zip (k2.dropLast.zip p2)))
                    (sibs, w1, asg1, rnd2) hrec1).2 rnd1 _ rfl hsorteditems
                have hsortedlast : List.Pairwise (fun a b => dec a ≤ dec b)
                    (k2.getLastD []) := by
                  rcases getLastD_mem k2 [] with hnil | hmem
                  · rw [hnil]; simp [List.getLastD]
                  · exact hsortedk2 _ hmem
                have hlast := (ih (.main rnd2 (b2.getLastD [])
                    (k2.getLastD [])) (sibs2, fbuf, asg2, rnd3) hrec2).1
                    rnd2 _ _ rfl hsortedlast
                obtain ⟨hmap1, hent1⟩ := hitems
                obtain ⟨hmap2, hent2⟩ := hlast
                have hmid : (b2.dropLast.zip (k2.dropLast.zip p2)).map
                    (fun it => it.2.1) = k2.dropLast := by
                  refine zip3_map_mid _ _ _ ?_ ?_
                  · simp only [List.length_dropLast]; omega
                  · simp only [List.length_dropLast]; omega
                constructor
                · show (asg1 ++ asg2).map Prod.fst = keys
                  rw [List.map_append, hmap1, hmap2, hmid,
                    flatten_dropLast_getLastD, hflat]
                · intro kl hkl
                  rcases List.mem_append.1 hkl with hk1 | hk2
                  · obtain ⟨it, hit, hkmem, hsub1, hmatch1⟩ := hent1 kl hk1
                    obtain ⟨j, hj1, hj2, hj3, hiteq⟩ :=
                      zip3_mem_get _ _ _ it hit
                    have hit1 : it.1 = b2.dropLast.get ⟨j, hj1⟩ := by
                      rw [hiteq]
                    have hit2 : it.2.1 = k2.dropLast.get ⟨j, hj2⟩ := by
                      rw [hiteq]
                    constructor
                    · intro p hp
                      have hpb := hsub1 p hp
                      rw [hit1] at hpb
                      refine hsub _ ?_ p hpb
                      exact (List.dropLast_prefix b2).sublist.mem
                        (List.get_mem _ _ _)
                    · intro p hp hdec
                      have hkj : kl.1 ∈ k2.getD j [] := by
                        have hjk2 : j < k2.length := by
                          simp only [List.length_dropLast] at hj2; omega
                        rw [List.getD_eq_getElem _ _ hjk2]
                        rw [hit2] at hkmem
                        simpa [List.get_eq_getElem,
                          List.getElem_dropLast] using hkmem
                      have hpj := hkm j kl.1 hkj p hp hdec
                      refine hmatch1 p ?_ hdec
                      rw [hit1]
                      have hjb2 : j < b2.length := by
                        simp only [List.length_dropLast] at hj1; omega
                      rw [List.getD_eq_getElem _ _ hjb2] at hpj
                      simpa [List.get_eq_getElem,
                        List.getElem_dropLast] using hpj
                  · obtain ⟨hsub2, hmatch2⟩ := hent2 kl hk2
                    constructor
                    · intro p hp
                      have hpb := hsub2 p hp
                      rcases getLastD_mem b2 [] with hnil | hmem
                      · rw [hnil] at hpb; simp [List.getLastD] at hpb
                      · exact hsub _ hmem p hpb
                    · intro p hp hdec
                      have hkmem : kl.1 ∈ k2.getLastD [] := by
                        rw [← hmap2]
                        exact List.mem_map.2 ⟨kl, hk2, rfl⟩
                      have hkj : kl.1 ∈ k2.getD (k2.length - 1) [] := by
                        rw [← getLastD_eq_getD]
                        exact hkmem
                      have hpj := hkm (k2.length - 1) kl.1 hkj p hp hdec
                      refine hmatch2 p ?_ hdec
                      rw [getLastD_eq_getD]
                      have : b2.length - 1 = k2.length - 1 := by omega
                      rw [this]
                      exact hpj
      | .buckets rnd [] =>
          refine ⟨(by intro r b k heq; cases heq), ?_⟩
          intro rnd0 items0 heq hits
          cases heq
          simp only [leafSplitGo] at h
          injection h with h2
          subst h2
          exact ⟨by simp, by intro kl hkl; simp at hkl⟩
      | .buckets rnd ((bucket, bkeys, pkey) :: rest) =>
          refine ⟨(by intro r b k heq; cases heq), ?_⟩
          intro rnd0 items0 heq hits
          cases heq
          simp only [leafSplitGo] at h
          rw [ok_bind_eq_ok] at h
          obtain ⟨⟨entries, w, asg1, rnd2⟩, hbr, h⟩ := h
          dsimp only at h
          rw [ok_bind_eq_ok] at h
          obtain ⟨⟨entries2, w2, asg2, rnd3⟩, hrest, h⟩ := h
          dsimp only at h
          injection h with h2
          subst h2
          have hrestspec := (ih (.buckets rnd2 rest)
              (entries2, w2, asg2, rnd3) hrest).2 rnd2 rest rfl
              (fun it hit => hits it (List.mem_cons_of_mem _ hit))
          obtain ⟨hrmap, hrent⟩ := hrestspec
          split at hbr
          · rename_i hke
            have hbnil : bkeys = [] := List.isEmpty_iff.1 hke
            injection hbr with hbr2
            injection hbr2 with he1 hbr3
            injection hbr3 with he2 hbr4
            injection hbr4 with he3 he4
            subst he3
            constructor
            · show (([] : List (Nat × List (Nat × Nat))) ++ asg2).map
                Prod.fst = _
              simp only [List.nil_append, List.map_cons, List.flatten_cons,
                hbnil]
              rw [hrmap]
            · intro kl hkl
              show ∃ it ∈ (bucket, bkeys, pkey) :: rest, _
              rcases List.mem_append.1 hkl with hk1 | hk2
              · simp at hk1
              · obtain ⟨it, hit, hrest2⟩ := hrent kl hk2
                exact ⟨it, List.mem_cons_of_mem _ hit, hrest2⟩
          · rename_i hke
            rw [ok_bind_eq_ok] at hbr
            obtain ⟨⟨recSibs, recFinal, recAsg, rnd2x⟩, hrec, hbr⟩ := hbr
            dsimp only at hbr
            injection hbr with hbr2
            injection hbr2 with he1 hbr3
            injection hbr3 with he2 hbr4
            injection hbr4 with he3 he4
            subst he3
            subst he4
            have hmainspec := (ih (.main rnd bucket bkeys)
                (recSibs, recFinal, recAsg, rnd2x) hrec).1 rnd bucket bkeys
                rfl (hits (bucket, bkeys, pkey) (List.mem_cons_self _ _))
            obtain ⟨hmmap, hment⟩ := hmainspec
            constructor
            · show (recAsg ++ asg2).map Prod.fst = _
              rw [List.map_append, hmmap, hrmap]
              rfl
            · intro kl hkl
              show ∃ it ∈ (bucket, bkeys, pkey) :: rest, _
              rcases List.mem_append.1 hkl with hk1 | hk2
              · refine ⟨(bucket, bkeys, pkey), List.mem_cons_self _ _,
                  ?_, ?_, ?_⟩
                · rw [← hmmap]
                  exact List.mem_map.2 ⟨kl, hk1, rfl⟩
                · exact (hment kl hk1).1
                · exact (hment kl hk1).2
              · obtain ⟨it, hit, hrest2⟩ := hrent kl hk2
                exact ⟨it, List.mem_cons_of_mem _ hit, hrest2⟩

theorem flatten_range_shift {α : Type} (g : Nat → List α) :
    ∀ (n i : Nat),
      ((List.range (n + 1)).map (fun r => g (i + r))).flatten =
      g i ++ ((List.range n).map (fun r => g (i + 1 + r))).flatten := by
  intro n i
  rw [List.range_succ_eq_map]
  simp only [List.map_cons, List.map_map, List.flatten_cons, Nat.add_zero]
  congr 1
  congr 1
  refine List.map_congr_left ?_
  intro r _
  simp only [Function.comp]
  congr 1
  omega

theorem flatten_range_one {α : Type} (g : Nat → List α) (i : Nat) :
    ((List.range 1).map (fun r => g (i + r))).flatten = g i := by
  rw [show List.range 1 = [0] from by rw [List.range_succ]; rfl]
  simp

mutual

/-- Assignment specification of `InternalNode.split` (pope.py:329-361)
on an order-valid subtree: on success with plaintext-sorted keys, the
emitted `(key, leaf buffer)` assignments cover the keys in order, each
assigned buffer holds only pairs stored in the subtree or just flushed
into it, and each assigned buffer contains every such pair whose
plaintext matches its key. -/
theorem treeSplitN_spec (dec : Nat → Nat) (L : Nat) :
    ∀ (t : PTree) (fuel : Nat) (rnd : List (List Nat))
      (extra : List (Nat × Nat)) (keys : List Nat) (lo hi : Option Nat)
      (out : PTree × List (Nat × List (Nat × Nat)) × List (List Nat)),
      treeSplitN dec L fuel t rnd extra keys = .ok out →
      pord dec lo hi t = true →
      List.Pairwise (fun a b => dec a ≤ dec b) keys →
      out.2.1.map Prod.fst = keys ∧
      ∀ kl ∈ out.2.1,
        (∀ p ∈ kl.2, p ∈ PTree.traverse t ++ extra) ∧
        (∀ p ∈ PTree.traverse t ++ extra, dec p.1 = dec kl.1 →
          p ∈ kl.2) := by
  intro t
  match t with
  | .pleaf _ =>
      intro fuel rnd extra keys lo hi out h
      exact absurd h (by simp [treeSplitN])
  | .pnode sorted buffer cs =>
      intro fuel rnd extra keys lo hi out h hord hsorted
      simp only [treeSplitN, ok_bind_eq_ok] at h
      obtain ⟨u1, hkl, h⟩ := h
      obtain ⟨u2, hsl, h⟩ := h
      simp only [pord, Bool.and_eq_true] at hord
      obtain ⟨hbufb, hordL⟩ := hord
      split at h
      · rename_i hke
        have hknil : keys = [] := List.isEmpty_iff.1 hke
        injection h with h2
        subst h2
        subst hknil
        exact ⟨rfl, by intro kl hkl2; simp at hkl2⟩
      · rename_i hke
        rw [ok_bind_eq_ok] at h
        obtain ⟨u3, hcl, h⟩ := h
        rw [ok_bind_eq_ok] at h
        obtain ⟨partitions, hpart, h⟩ := h
        rw [ok_bind_eq_ok] at h
        obtain ⟨⟨cs2, sorted2, asg, rnd2⟩, hsc, h⟩ := h
        dsimp only at h
        injection h with h2
        subst h2
        rw [massert_ok_iff] at hcl
        simp only [beq_iff_eq] at hcl
        -- unfold the partition call
        simp only [Oracle.partition, ok_bind_eq_ok] at hpart
        obtain ⟨u4, hmassl, hpart⟩ := hpart
        have hpivs := pordL_pivots dec sorted lo hi cs hordL
        have hid : (fun x : Nat => dec (id x)) = fun x => dec x := rfl
        have hsd : List.insertionSort (fun a b : Nat => a ≤ b)
            (sorted.map (fun x => dec (id x))) = sorted.map dec := by
          rw [hid]
          exact sorted_map_dec_insertionSort dec sorted hpivs.1
        rw [hsd] at hpart
        injection hpart with hpart2
        set f : Nat → Nat :=
          fun c => bisl (· < ·) (sorted.map dec) (dec c) with hf
        have hpartval : partitions =
            ((buffer ++ extra).map (fun p => (p.1, some p.2)) ++
              keys.map (fun k => (k, (none : Option Nat)))).map
              (fun n => (n, f n.1)) := hpart2.symm
        have hkbj : ∀ j, keyBucket partitions j =
            keys.filter (fun k => f k = j) := by
          intro j
          rw [hpartval]
          exact keyBucket_char f (buffer ++ extra) keys j
        have hpbj : ∀ j, pairBucket partitions j =
            (buffer ++ extra).filter (fun p => f p.1 = j) := by
          intro j
          rw [hpartval]
          exact pairBucket_char f (buffer ++ extra) keys j
        have hsortb : ∀ j, List.Pairwise (fun a b => dec a ≤ dec b)
            (keyBucket partitions j) := by
          intro j
          rw [hkbj]
          exact hsorted.sublist (List.filter_sublist keys)
        have hmatch : ∀ j, ∀ k ∈ keyBucket partitions j,
            ∀ p ∈ buffer ++ extra, dec p.1 = dec k →
            p ∈ pairBucket partitions j := by
          intro j k hk p hp hdec
          rw [hkbj] at hk
          have hfk : f k = j := by simpa using List.of_mem_filter hk
          rw [hpbj]
          refine List.mem_filter.2 ⟨hp, ?_⟩
          have : f p.1 = f k := by
            rw [hf]; simp only; rw [hdec]
          simp [this, hfk]
        have hsubp : ∀ j, ∀ p ∈ pairBucket partitions j,
            p ∈ buffer ++ extra := by
          intro j p hp
          rw [hpbj] at hp
          exact List.mem_of_mem_filter hp
        have hcross : ∀ (r : Nat) (hr : r < cs.length),
            ∀ p ∈ PTree.traverse (cs.get ⟨r, hr⟩), ∀ j,
            ∀ k ∈ keyBucket partitions j, dec p.1 = dec k → j = 0 + r := by
          intro r hr p hp j k hk hdec
          have hroute := pordL_route dec cs sorted lo hi hordL r hr p hp
          rw [hkbj] at hk
          have hfk : f k = j := by simpa using List.of_mem_filter hk
          have hfp : f p.1 = f k := by
            rw [hf]; simp only; rw [hdec]
          rw [hf] at hfk hfp
          simp only at hfk hfp
          omega
        obtain ⟨cmap, centr⟩ := splitChildren_spec dec L cs fuel rnd 0
          sorted partitions (buffer ++ extra) lo hi
          (cs2, sorted2, asg, rnd2) hsc hordL hsortb hmatch hsubp hcross
        constructor
        · show asg.map Prod.fst = keys
          rw [cmap]
          have hcongr : (List.range cs.length).map
              (fun r => keyBucket partitions (0 + r)) =
              (List.range cs.length).map
              (fun r => keys.filter (fun k => f k = r)) := by
            refine List.map_congr_left ?_
            intro r _
            rw [Nat.zero_add, hkbj]
          rw [hcongr]
          refine flatten_buckets f cs.length keys ?_ ?_
          · exact hsorted.imp (fun hab => bisl_mono_nat _ _ _ hab)
          · intro k _
            rw [hf]
            simp only
            have h1 := bisl_le_length (· < ·) (sorted.map dec) (dec k)
            have h2 := pordL_length dec sorted lo hi cs hordL
            simp only [List.length_map] at h1
            omega
        · intro kl hklmem
          obtain ⟨hsubkl, r, hr, hkmem, hmc, hmp⟩ := centr kl hklmem
          constructor
          · intro p hp
            rcases hsubkl p hp with hpc | hpb
            · refine List.mem_append.2 (Or.inl ?_)
              show p ∈ buffer ++ PTree.traverseL cs
              exact List.mem_append.2 (Or.inr hpc)
            · rcases List.mem_append.1 hpb with hpbuf | hpe
              · refine List.mem_append.2 (Or.inl ?_)
                exact List.mem_append.2 (Or.inl hpbuf)
              · exact List.mem_append.2 (Or.inr hpe)
          · intro p hp hdec
            rcases List.mem_append.1 hp with hpt | hpe
            · rcases List.mem_append.1 hpt with hpbuf | hpc
              · refine hmp p ?_ hdec
                exact hmatch (0 + r) kl.1 hkmem p
                  (List.mem_append.2 (Or.inl hpbuf)) hdec
              · obtain ⟨r2, hr2, hpmem⟩ := traverseL_mem_get cs p hpc
                have := hcross r2 hr2 p hpmem (0 + r) kl.1 hkmem hdec
                have hrr : r2 = r := by omega
                subst hrr
                exact hmc p hpmem hdec
            · refine hmp p ?_ hdec
              exact hmatch (0 + r) kl.1 hkmem p
                (List.mem_append.2 (Or.inr hpe)) hdec

/-- Assignment specification of the child walk of `InternalNode.split`
(pope.py:352-359), relative to the absolute bucket offset `i`. -/
theorem splitChildren_spec (dec : Nat → Nat) (L : Nat) :
    ∀ (cs : List PTree) (fuel : Nat) (rnd : List (List Nat)) (i : Nat)
      (ss : List Nat) (partitions : List ((Nat × Option Nat) × Nat))
      (ALL : List (Nat × Nat)) (lo hi : Option Nat)
      (out : List PTree × List Nat × List (Nat × List (Nat × Nat)) ×
        List (List Nat)),
      splitChildren dec L fuel rnd i cs ss partitions = .ok out →
      pordL dec lo hi ss cs = true →
      (∀ j, List.Pairwise (fun a b => dec a ≤ dec b)
        (keyBucket partitions j)) →
      (∀ j, ∀ k ∈ keyBucket partitions j, ∀ p ∈ ALL,
        dec p.1 = dec k → p ∈ pairBucket partitions j) →
      (∀ j, ∀ p ∈ pairBucket partitions j, p ∈ ALL) →
      (∀ (r : Nat) (hr : r < cs.length),
        ∀ p ∈ PTree.traverse (cs.get ⟨r, hr⟩), ∀ j,
        ∀ k ∈ keyBucket partitions j, dec p.1 = dec k → j = i + r) →
      out.2.2.1.map Prod.fst =
        ((List.range cs.length).map
          (fun r => keyBucket partitions (i + r))).flatten ∧
      ∀ kl ∈ out.2.2.1,
        (∀ p ∈ kl.2, p ∈ PTree.traverseL cs ∨ p ∈ ALL) ∧
        ∃ r, ∃ hr : r < cs.length, kl.1 ∈ keyBucket partitions (i + r) ∧
          (∀ p ∈ PTree.traverse (cs.get ⟨r, hr⟩),
            dec p.1 = dec kl.1 → p ∈ kl.2) ∧
          (∀ p ∈ pairBucket partitions (i + r),
            dec p.1 = dec kl.1 → p ∈ kl.2) := by
  intro cs
  match cs with
  | [] =>
      intro fuel rnd i ss partitions ALL lo hi out h
      exact absurd h (by simp [splitChildren])
  | [c] =>
      intro fuel rnd i ss partitions ALL lo hi out h hordL hsortb hmatch
        hsubp hcross
      match ss with
      | _ :: _ => exact absurd h (by simp [splitChildren])
      | [] =>
          simp only [splitChildren, ok_bind_eq_ok] at h
          obtain ⟨⟨cseg, pivs, asg1, rnd2⟩, hbr, h⟩ := h
          dsimp only at h
          injection h with h2
          subst h2
          have hcord : pord dec lo hi c = true := by
            simpa [pordL] using hordL
          split at hbr
          · rename_i hkbe
            injection hbr with hbr2
            injection hbr2 with he1 hbr3
            injection hbr3 with he2 hbr4
            injection hbr4 with he3 he4
            subst he3
            have hkbnil : keyBucket partitions i = [] :=
              List.isEmpty_iff.1 hkbe
            refine ⟨?_, by intro kl hkl2; simp at hkl2⟩
            show ([] : List (Nat × List (Nat × Nat))).map Prod.fst =
              ((List.range 1).map
                (fun r => keyBucket partitions (i + r))).flatten
            rw [flatten_range_one, hkbnil]
            rfl
          · rename_i hkbe
            match c with
            | .pleaf cbuf =>
                rw [ok_bind_eq_ok] at hbr
                obtain ⟨⟨sibs, fbuf, asg, rndx⟩, hls, hbr⟩ := hbr
                dsimp only at hbr
                injection hbr with hbr2
                injection hbr2 with he1 hbr3
                injection hbr3 with he2 hbr4
                injection hbr4 with he3 he4
                subst he3
                obtain ⟨hmap, hent⟩ := (leafSplitGo_spec dec L fuel
                  (.main rnd (cbuf ++ pairBucket partitions i)
                    (keyBucket partitions i))
                  (sibs, fbuf, asg, rndx) hls).1 rnd _ _ rfl (hsortb i)
                constructor
                · show asg.map Prod.fst = ((List.range 1).map
                    (fun r => keyBucket partitions (i + r))).flatten
                  rw [flatten_range_one]
                  exact hmap
                · intro kl hklm
                  obtain ⟨hsubkl, hmkl⟩ := hent kl hklm
                  constructor
                  · intro p hp
                    rcases List.mem_append.1 (hsubkl p hp) with hpc | hpb
                    · left
                      show p ∈ PTree.traverse (.pleaf cbuf) ++
                        PTree.traverseL []
                      simp [PTree.traverse, PTree.traverseL, hpc]
                    · right
                      exact hsubp i p hpb
                  · refine ⟨0, by simp, ?_, ?_, ?_⟩
                    · rw [Nat.add_zero]
                      rw [← hmap]
                      exact List.mem_map.2 ⟨kl, hklm, rfl⟩
                    · intro p hp hdec
                      refine hmkl p ?_ hdec
                      exact List.mem_append.2 (Or.inl hp)
                    · intro p hp hdec
                      rw [Nat.add_zero] at hp
                      refine hmkl p ?_ hdec
                      exact List.mem_append.2 (Or.inr hp)
            | .pnode s2 b2 cs2 =>
                rw [ok_bind_eq_ok] at hbr
                obtain ⟨⟨cc, asg, rndx⟩, hts, hbr⟩ := hbr
                dsimp only at hbr
                injection hbr with hbr2
                injection hbr2 with he1 hbr3
                injection hbr3 with he2 hbr4
                injection hbr4 with he3 he4
                subst he3
                obtain ⟨hmap, hent⟩ := treeSplitN_spec dec L
                  (.pnode s2 b2 cs2) fuel rnd (pairBucket partitions i)
                  (keyBucket partitions i) lo hi (cc, asg, rndx) hts hcord
                  (hsortb i)
                constructor
                · show asg.map Prod.fst = ((List.range 1).map
                    (fun r => keyBucket partitions (i + r))).flatten
                  rw [flatten_range_one]
                  exact hmap
                · intro kl hklm
                  obtain ⟨hsubkl, hmkl⟩ := hent kl hklm
                  constructor
                  · intro p hp
                    rcases List.mem_append.1 (hsubkl p hp) with hpc | hpb
                    · left
                      show p ∈ PTree.traverse (.pnode s2 b2 cs2) ++
                        PTree.traverseL []
                      simpa [PTree.traverseL] using hpc
                    · right
                      exact hsubp i p hpb
                  · refine ⟨0, by simp, ?_, ?_, ?_⟩
                    · rw [Nat.add_zero]
                      rw [← hmap]
                      exact List.mem_map.2 ⟨kl, hklm, rfl⟩
                    · intro p hp hdec
                      refine hmkl p ?_ hdec
                      exact List.mem_append.2 (Or.inl hp)
                    · intro p hp hdec
                      rw [Nat.add_zero] at hp
                      refine hmkl p ?_ hdec
                      exact List.mem_append.2 (Or.inr hp)
  | c :: c2 :: csr =>
      intro fuel rnd i ss partitions ALL lo hi out h hordL hsortb hmatch
        hsubp hcross
      match ss with
      | [] => exact absurd h (by simp [splitChildren])
      | s :: ssr =>
          simp only [splitChildren, ok_bind_eq_ok] at h
          obtain ⟨⟨cseg, pivs, asg1, rnd2⟩, hbr, h⟩ := h
          dsimp only at h
          obtain ⟨⟨cs3, pivs2, asg2, rnd3⟩, hrest, h⟩ := h
          dsimp only at h
          injection h with h2
          subst h2
          simp only [pordL, Bool.and_eq_true] at hordL
          obtain ⟨⟨⟨hslo, hshi⟩, hcord⟩, htail⟩ := hordL
          have hcross2 : ∀ (r : Nat) (hr : r < (c2 :: csr).length),
              ∀ p ∈ PTree.traverse ((c2 :: csr).get ⟨r, hr⟩), ∀ j,
              ∀ k ∈ keyBucket partitions j, dec p.1 = dec k →
              j = (i + 1) + r := by
            intro r hr p hp j k hk hdec
            have := hcross (r + 1) (by simpa using hr) p hp j k hk hdec
            omega
          obtain ⟨hrmap, hrent⟩ := splitChildren_spec dec L (c2 :: csr)
            fuel rnd2 (i + 1) ssr partitions ALL (some (dec s)) hi
            (cs3, pivs2, asg2, rnd3) hrest htail hsortb hmatch hsubp
            hcross2
          have hheadfacts : asg1.map Prod.fst = keyBucket partitions i ∧
              ∀ kl ∈ asg1,
                (∀ p ∈ kl.2, p ∈ PTree.traverse c ∨ p ∈ ALL) ∧
                kl.1 ∈ keyBucket partitions i ∧
                (∀ p ∈ PTree.traverse c, dec p.1 = dec kl.1 → p ∈ kl.2) ∧
                (∀ p ∈ pairBucket partitions i, dec p.1 = dec kl.1 →
                  p ∈ kl.2) := by
            split at hbr
            · rename_i hkbe
              injection hbr with hbr2
              injection hbr2 with he1 hbr3
              injection hbr3 with he2 hbr4
              injection hbr4 with he3 he4
              subst he3
              have : keyBucket partitions i = [] :=
                List.isEmpty_iff.1 hkbe
              exact ⟨by rw [this]; rfl, by intro kl hkl2; simp at hkl2⟩
            · rename_i hkbe
              match c, hcord with
              | .pleaf cbuf, hcord =>
                  rw [ok_bind_eq_ok] at hbr
                  obtain ⟨⟨sibs, fbuf, asg, rndx⟩, hls, hbr⟩ := hbr
                  dsimp only at hbr
                  injection hbr with hbr2
                  injection hbr2 with he1 hbr3
                  injection hbr3 with he2 hbr4
                  injection hbr4 with he3 he4
                  subst he3
                  obtain ⟨hmap, hent⟩ := (leafSplitGo_spec dec L fuel
                    (.main rnd (cbuf ++ pairBucket partitions i)
                      (keyBucket partitions i))
                    (sibs, fbuf, asg, rndx) hls).1 rnd _ _ rfl (hsortb i)
                  refine ⟨hmap, ?_⟩
                  intro kl hklm
                  obtain ⟨hsubkl, hmkl⟩ := hent kl hklm
                  refine ⟨?_, ?_, ?_, ?_⟩
                  · intro p hp
                    rcases List.mem_append.1 (hsubkl p hp) with hpc | hpb
                    · exact Or.inl hpc
                    · exact Or.inr (hsubp i p hpb)
                  · rw [← hmap]
                    exact List.mem_map.2 ⟨kl, hklm, rfl⟩
                  · intro p hp hdec
                    exact hmkl p (List.mem_append.2 (Or.inl hp)) hdec
                  · intro p hp hdec
                    exact hmkl p (List.mem_append.2 (Or.inr hp)) hdec
              | .pnode sx bx csx, hcord =>
                  rw [ok_bind_eq_ok] at hbr
                  obtain ⟨⟨cc, asg, rndx⟩, hts, hbr⟩ := hbr
                  dsimp only at hbr
                  injection hbr with hbr2
                  injection hbr2 with he1 hbr3
                  injection hbr3 with he2 hbr4
                  injection hbr4 with he3 he4
                  subst he3
                  obtain ⟨hmap, hent⟩ := treeSplitN_spec dec L
                    (.pnode sx bx csx) fuel rnd (pairBucket partitions i)
                    (keyBucket partitions i) lo (some (dec s))
                    (cc, asg, rndx) hts hcord (hsortb i)
                  refine ⟨hmap, ?_⟩
                  intro kl hklm
                  obtain ⟨hsubkl, hmkl⟩ := hent kl hklm
                  refine ⟨?_, ?_, ?_, ?_⟩
                  · intro p hp
                    rcases List.mem_append.1 (hsubkl p hp) with hpc | hpb
                    · exact Or.inl hpc
                    · exact Or.inr (hsubp i p hpb)
                  · rw [← hmap]
                    exact List.mem_map.2 ⟨kl, hklm, rfl⟩
                  · intro p hp hdec
                    exact hmkl p (List.mem_append.2 (Or.inl hp)) hdec
                  · intro p hp hdec
                    exact hmkl p (List.mem_append.2 (Or.inr hp)) hdec
          obtain ⟨hhmap, hhent⟩ := hheadfacts
          constructor
          · show (asg1 ++ asg2).map Prod.fst = _
            rw [List.map_append, hhmap, hrmap]
            rw [show (c :: c2 :: csr).length = (c2 :: csr).length + 1 by
              rfl]
            rw [flatten_range_shift (keyBucket partitions)
              (c2 :: csr).length i]
          · intro kl hklm
            rcases List.mem_append.1 hklm with hk1 | hk2
            · obtain ⟨hsubkl, hkmem, hmc, hmp⟩ := hhent kl hk1
              constructor
              · intro p hp
                rcases hsubkl p hp with hpc | hpb
                · left
                  exact List.mem_append.2 (Or.inl hpc)
                · exact Or.inr hpb
              · refine ⟨0, by simp, ?_, ?_, ?_⟩
                · rw [Nat.add_zero]
                  exact hkmem
                · intro p hp hdec
                  exact hmc p hp hdec
                · intro p hp hdec
                  rw [Nat.add_zero] at hp
                  exact hmp p hp hdec
            · obtain ⟨hsubkl, r, hr, hkmem, hmc, hmp⟩ := hrent kl hk2
              constructor
              · intro p hp
                rcases hsubkl p hp with hpc | hpb
                · left
                  exact List.mem_append.2 (Or.inr hpc)
                · exact Or.inr hpb
              · refine ⟨r + 1, by simpa using hr, ?_, ?_, ?_⟩
                · rw [show i + (r + 1) = (i + 1) + r by omega]
                  exact hkmem
                · intro p hp hdec
                  exact hmc p hp hdec
                · intro p hp hdec
                  rw [show i + (r + 1) = (i + 1) + r by omega] at hp
                  exact hmp p hp hdec

end

/-- Assignment specification of the root call of `Pope.split`. -/
theorem popeSplitTop_spec (dec : Nat → Nat) (L : Nat) (fuel : Nat)
    (rnd : List (List Nat)) (t : PTree) (keys : List Nat)
    (out : PTree × List (Nat × List (Nat × Nat)) × List (List Nat))
    (h : popeSplitTop dec L fuel rnd t keys = .ok out)
    (hord : pord dec none none t = true)
    (hsorted : List.Pairwise (fun a b => dec a ≤ dec b) keys) :
    out.2.1.map Prod.fst = keys ∧
    ∀ kl ∈ out.2.1,
      (∀ p ∈ kl.2, p ∈ PTree.traverse t) ∧
      (∀ p ∈ PTree.traverse t, dec p.1 = dec kl.1 → p ∈ kl.2) := by
  match t with
  | .pleaf buf =>
      simp only [popeSplitTop, leafSplit, ok_bind_eq_ok] at h
      obtain ⟨⟨sibs, fbuf, asg, rnd2⟩, hls, h⟩ := h
      obtain ⟨hmap, hent⟩ := (leafSplitGo_spec dec L fuel
        (.main rnd buf keys) (sibs, fbuf, asg, rnd2) hls).1 rnd buf keys
        rfl hsorted
      dsimp only at h
      have hasg : out.2.1 = asg := by
        split at h <;> (injection h with h2; rw [← h2])
      rw [hasg]
      exact ⟨hmap, hent⟩
  | .pnode s b cs =>
      obtain ⟨hmap, hent⟩ := treeSplitN_spec dec L (.pnode s b cs) fuel
        rnd [] keys none none out h hord hsorted
      refine ⟨hmap, ?_⟩
      intro kl hkl
      have := hent kl hkl
      simpa using this

/-- Assignment specification of `Pope.split` called with in-order keys
(pope.py:35-50): the rebalance changes the tree but not the reported
`(key, leaf buffer)` assignments. -/
theorem popeSplit_spec (dec : Nat → Nat) (L : Nat) (fuel : Nat)
    (rnd : List (List Nat)) (t : PTree) (keys : List Nat)
    (out : PTree × List (Nat × List (Nat × Nat)) × List (List Nat))
    (h : Pope.split dec L fuel rnd t keys true = .ok out)
    (hord : pord dec none none t = true)
    (hsorted : List.Pairwise (fun a b => dec a ≤ dec b) keys) :
    out.2.1.map Prod.fst = keys ∧
    ∀ kl ∈ out.2.1,
      (∀ p ∈ kl.2, p ∈ PTree.traverse t) ∧
      (∀ p ∈ PTree.traverse t, dec p.1 = dec kl.1 → p ∈ kl.2) := by
  simp only [Pope.split, Bool.not_true, Bool.false_and,
    ok_bind_eq_ok] at h
  obtain ⟨u1, hkl, h⟩ := h
  obtain ⟨keys2, hks, h⟩ := h
  rw [if_neg (by simp)] at hks
  injection hks with hks2
  subst hks2
  obtain ⟨⟨t2, asg, rnd2⟩, hst, h⟩ := h
  obtain ⟨t3, hreb, h⟩ := h
  injection h with h2
  obtain ⟨hmap, hent⟩ := popeSplitTop_spec dec L fuel rnd t keys
    (t2, asg, rnd2) hst hord hsorted
  rw [← h2]
  exact ⟨hmap, hent⟩

/-- `LeafNode.lookup` (pope.py:120-124): returns a stored matching value
when a plaintext match exists in the buffer, `None` when none does. -/
theorem leafLookup_spec (dec : Nat → Nat) (L : Nat)
    (buf : List (Nat × Nat)) (key : Nat) (out : Option Nat)
    (h : leafLookup dec L buf key = .ok out) :
    ((∃ p ∈ buf, dec p.1 = dec key) →
      ∃ k0 v0, (k0, v0) ∈ buf ∧ dec k0 = dec key ∧ out = some v0) ∧
    ((∀ p ∈ buf, dec p.1 ≠ dec key) → out = none) := by
  simp only [leafLookup, ok_bind_eq_ok] at h
  obtain ⟨u1, hmas, h⟩ := h
  rw [massert_ok_iff] at hmas
  have hL : buf.length ≤ L := by simpa using hmas
  obtain ⟨ind, hfind, hvalid, hforce⟩ :=
    oracle_find_single dec L id (fun p : Nat × Nat => p.1) key buf (0, 0)
      hL
  rw [hfind] at h
  obtain ⟨res, hres, h⟩ := h
  injection hres with hres2
  subst hres2
  dsimp only at h
  constructor
  · rintro ⟨p, hp, hdec⟩
    have hind : 0 ≤ ind := hforce ⟨p, hp, by simpa using hdec⟩
    rw [if_pos hind] at h
    obtain ⟨hlt, hkey⟩ := hvalid hind
    injection h with h2
    refine ⟨(buf.getD ind.toNat (0, 0)).1, (buf.getD ind.toNat (0, 0)).2,
      ?_, ?_, ?_⟩
    · have := getD_mem_of_lt buf ind.toNat (0, 0) hlt
      simpa using this
    · simpa using hkey
    · rw [← h2]
  · intro habs
    by_cases hind : 0 ≤ ind
    · exfalso
      obtain ⟨hlt, hkey⟩ := hvalid hind
      refine habs (buf.getD ind.toNat (0, 0))
        (getD_mem_of_lt buf ind.toNat (0, 0) hlt) ?_
      simpa using hkey
    · rw [if_neg hind] at h
      injection h with h2
      rw [← h2]

/-- `Pope.lookup` (pope.py:52-55) on an order-valid tree: when it
completes, it returns a stored value whose key's plaintext matches when
one exists, and `None` when no stored pair matches. -/
theorem pope_lookup_spec (dec : Nat → Nat) (L : Nat) (fuel : Nat)
    (rnd : List (List Nat)) (t : PTree) (key : Nat)
    (out : Option Nat × PTree × List (List Nat))
    (h : Pope.lookup dec L fuel rnd t key = .ok out)
    (hord : pord dec none none t = true) :
    ((∃ p ∈ PTree.traverse t, dec p.1 = dec key) →
      ∃ k0 v0, (k0, v0) ∈ PTree.traverse t ∧ dec k0 = dec key ∧
        out.1 = some v0) ∧
    ((∀ p ∈ PTree.traverse t, dec p.1 ≠ dec key) → out.1 = none) := by
  simp only [Pope.lookup, ok_bind_eq_ok] at h
  obtain ⟨⟨t2, asg, rnd2⟩, hsp, h⟩ := h
  dsimp only at h
  obtain ⟨hmap, hent⟩ := popeSplit_spec dec L fuel rnd t [key]
    (t2, asg, rnd2) hsp hord (by simp)
  rcases asg with _ | ⟨⟨kk, lb⟩, _ | ⟨kl2, rest2⟩⟩
  · simp at hmap
  case intro.mk.mk.intro.intro.cons.mk.cons => simp at hmap
  case intro.mk.mk.intro.intro.cons.mk.nil =>
      have hkk : kk = key := by simpa using hmap
      subst hkk
      dsimp only at h
      cases hll : leafLookup dec L lb kk with
      | fail =>
          rw [hll] at h
          exact absurd h (by simp)
      | ok v =>
      rw [hll] at h
      injection h with h2
      obtain ⟨hsub, hmatch⟩ := hent (kk, lb) (List.mem_singleton.2 rfl)
      obtain ⟨hpresent, habsent⟩ := leafLookup_spec dec L lb kk v hll
      constructor
      · rintro ⟨p, hp, hdec⟩
        have hplb : p ∈ lb := hmatch p hp hdec
        obtain ⟨k0, v0, hk0, hd0, hv0⟩ := hpresent ⟨p, hplb, hdec⟩
        refine ⟨k0, v0, hsub (k0, v0) hk0, hd0, ?_⟩
        rw [← h2, ← hv0]
      · intro habs
        have : ∀ p ∈ lb, dec p.1 ≠ dec kk := by
          intro p hp
          exact habs p (hsub p hp)
        rw [← h2]
        simpa using habsent this

/-- `Node.find` (mope.py:135-140) reports `found` only when some node
key's plaintext matches. -/
theorem mfind_found (dec : Nat → Nat) (L : Nat) (keys : List Nat)
    (key : Nat) (ind : Nat)
    (h : mfind dec L keys key = .ok (ind, true)) :
    ∃ k0 ∈ keys, dec k0 = dec key := by
  have hL : keys.length ≤ L := by
    simp only [mfind, Oracle.find, ok_bind_eq_ok] at h
    obtain ⟨res, ⟨u, hm, hres⟩, h⟩ := h
    rw [massert_ok_iff] at hm
    simpa using hm
  obtain ⟨ind0, hfind, hvalid, hforce⟩ :=
    oracle_find_single dec L id id key keys 0 hL
  rw [mfind, hfind] at h
  simp only [bind_ok] at h
  by_cases h0 : ind0 ≥ 0
  · obtain ⟨hlt, hdec⟩ := hvalid h0
    exact ⟨keys.getD ind0.toNat 0, getD_mem_of_lt keys ind0.toNat 0 hlt,
      by simpa using hdec⟩
  · rw [if_neg h0] at h
    injection h with h2
    exact absurd (congrArg Prod.snd h2) (by simp)

mutual

/-- A non-inserting `Node.encode` (mope.py:168-190, 211-216) reports
`found` only when some key in the subtree has a matching plaintext. -/
theorem mencodeT_found_match (dec : Nat → Nat) (L : Nat) (key : Nat) :
    ∀ (t : MTree) (ups : List (List Nat × List Nat)) (r : MEnc),
      mencodeT dec L key false t ups = .ok r →
      ∀ t2 u e, r = .done t2 u e true →
      ∃ k0 ∈ mtreeKeys t, dec k0 = dec key := by
  intro t
  match t with
  | .mleaf pfx keys encs =>
      intro ups r hr t2 u e hdone
      simp only [mencodeT, Bool.false_and, ok_bind_eq_ok] at hr
      obtain ⟨⟨ind, found⟩, hfind, hr⟩ := hr
      simp only [if_neg (by simp : ¬(false = true))] at hr
      subst hdone
      split at hr
      · split at hr
        · rename_i e0 he0
          injection hr with h2
          injection h2 with h3 h4 h5 h6
          subst h6
          exact mfind_found dec L keys key ind hfind
        · exact absurd hr (by simp)
      · split at hr
        · rename_i he0
          injection hr with h2
          injection h2 with h3 h4 h5 h6
          subst h6
          exact mfind_found dec L keys key ind hfind
        · exact absurd hr (by simp)
  | .mnode pfx sfx keys encs cs =>
      intro ups r hr t2 u e hdone
      simp only [mencodeT, ok_bind_eq_ok] at hr
      obtain ⟨⟨ind, found⟩, hfind, hr⟩ := hr
      subst hdone
      split at hr
      · rename_i hfnd
        split at hr
        · rename_i e0 he0
          injection hr with h2
          injection h2 with h3 h4 h5 h6
          have : found = true := hfnd
          subst this
          obtain ⟨k0, hk0, hdk⟩ := mfind_found dec L keys key ind hfind
          exact ⟨k0, List.mem_append.2 (Or.inl hk0), hdk⟩
        · exact absurd hr (by simp)
      · rw [ok_bind_eq_ok] at hr
        obtain ⟨r0, hr0, hr⟩ := hr
        match r0, hr with
        | .done c2 u0 e0 f0, hr =>
            dsimp only at hr
            injection hr with h2
            injection h2 with h3 h4 h5 h6
            subst h6
            obtain ⟨k0, hk0, hdk⟩ :=
              mencodeChildAt_found_match dec L key ind cs ups
                (.done c2 u0 e0 true) hr0 c2 u0 e0 rfl
            exact ⟨k0, List.mem_append.2 (Or.inr hk0), hdk⟩
        | .burst lt pk pe rt u0, hr =>
            dsimp only at hr
            split at hr
            · injection hr with h2
              injection h2
            · rw [ok_bind_eq_ok] at hr
              obtain ⟨⟨encs3, cs3, u2, i⟩, hrec, hr⟩ := hr
              dsimp only at hr
              split at hr
              · injection hr with h2
                injection h2 with h3 h4 h5 h6
                exact absurd h6.symm (by simp)
              · exact absurd hr (by simp)

theorem mencodeChildAt_found_match (dec : Nat → Nat) (L : Nat)
    (key : Nat) :
    ∀ (ind : Nat) (cs : List MTree) (ups : List (List Nat × List Nat))
      (r : MEnc),
      mencodeChildAt dec L key false ind cs ups = .ok r →
      ∀ t2 u e, r = .done t2 u e true →
      ∃ k0 ∈ mtreeKeysL cs, dec k0 = dec key := by
  intro ind cs
  match ind, cs with
  | _, [] =>
      intro ups r hr
      exact absurd hr (by simp [mencodeChildAt])
  | 0, c :: rest =>
      intro ups r hr t2 u e hdone
      rw [show mencodeChildAt dec L key false 0 (c :: rest) ups =
        mencodeT dec L key false c ups from rfl] at hr
      obtain ⟨k0, hk0, hdk⟩ :=
        mencodeT_found_match dec L key c ups r hr t2 u e hdone
      exact ⟨k0, List.mem_append.2 (Or.inl hk0), hdk⟩
  | n + 1, c :: rest =>
      intro ups r hr t2 u e hdone
      rw [show mencodeChildAt dec L key false (n + 1) (c :: rest) ups =
        mencodeChildAt dec L key false n rest ups from rfl] at hr
      obtain ⟨k0, hk0, hdk⟩ :=
        mencodeChildAt_found_match dec L key n rest ups r hr t2 u e hdone
      exact ⟨k0, List.mem_append.2 (Or.inr hk0), hdk⟩

end

/-- `Mope.lookup` (mope.py:65-70): when it completes on a key whose
plaintext matches no key of the index tree, it returns `None`. -/
theorem mope_lookup_absent (m : Mope) (dec : Nat → Nat) (L : Nat)
    (key : Nat) (out : Option Nat × Mope)
    (h : Mope.lookup m dec L key = .ok out)
    (habs : ∀ k0 ∈ mtreeKeys m.tree, dec k0 ≠ dec key) :
    out.1 = none := by
  simp only [Mope.lookup, ok_bind_eq_ok] at h
  obtain ⟨⟨ekey, ind, found, m2⟩, henc, h⟩ := h
  dsimp only at h
  have hfound : found = false := by
    cases found with
    | false => rfl
    | true =>
        exfalso
        simp only [Mope.encode, ok_bind_eq_ok] at henc
        obtain ⟨u0, hchk, henc⟩ := henc
        obtain ⟨⟨t2, ups, restup, found2⟩, htop, henc⟩ := henc
        dsimp only [Bool.false_and] at henc
        rw [if_neg (by simp)] at henc
        rw [ok_bind_eq_ok] at henc
        obtain ⟨u1, hups, henc⟩ := henc
        rw [ok_bind_eq_ok] at henc
        obtain ⟨u2, hif, henc⟩ := henc
        rw [ok_bind_eq_ok] at henc
        obtain ⟨u3, hchk2, henc⟩ := henc
        injection henc with h2
        have hf2 : found2 = true := by
          have := congrArg (fun q => q.2.2.1) h2
          simpa using this
        simp only [treeEncodeTop, ok_bind_eq_ok] at htop
        obtain ⟨r, hrt, htop⟩ := htop
        match r, htop with
        | .done t3 u e f, htop =>
            dsimp only at htop
            injection htop with h3
            have hff : f = found2 := by
              have := congrArg (fun q => q.2.2.2) h3
              simpa using this
            obtain ⟨k0, hk0, hdk⟩ := mencodeT_found_match dec L key
              m.tree [] (.done t3 u e f) hrt t3 u e
              (by rw [hff, hf2])
            exact habs k0 hk0 hdk
        | .burst lt pk pe rt u, htop =>
            dsimp only at htop
            rw [ok_bind_eq_ok] at htop
            obtain ⟨⟨encs2, cs2, u2x, i⟩, hredo, htop⟩ := htop
            dsimp only at htop
            split at htop
            · injection htop with h3
              have : (false : Bool) = found2 := by
                have := congrArg (fun q => q.2.2.2) h3
                simpa using this
              rw [hf2] at this
              exact absurd this (by simp)
            · exact absurd htop (by simp)
  subst hfound
  rw [if_neg (by simp)] at h
  injection h with h2
  have := congrArg (fun q => q.1) h2
  simpa using this.symm

theorem cheater_insertMany_triples (dec : Nat → Nat) :
    ∀ (ps : List (Nat × Nat)) (s : Cheater),
      (Cheater.insertMany s dec ps).slst = s.slst ∧
      (Cheater.insertMany s dec ps).ulst =
        s.ulst ++ ps.map (fun p => (dec p.1, p.1, p.2)) := by
  intro ps
  induction ps with
  | nil => intro s; simp [Cheater.insertMany]
  | cons p rest ih =>
      intro s
      have hstep := ih (Cheater.insert s dec p.1 p.2)
      simp only [Cheater.insertMany, List.foldl_cons] at *
      refine ⟨hstep.1, ?_⟩
      rw [hstep.2]
      simp [Cheater.insert]

/-- Claim C9 (amended): a lookup for a key whose plaintext is absent
returns `None` rather than an error for the Cheater on every state, and
for POPE (on order-valid states) and mOPE whenever the lookup completes;
on the empty mOPE index `lookup` does not complete — `LeafNode.encode`
evaluates `self.encs[-1]` and raises IndexError, as the counterexample
shows. -/
theorem c9_absent_lookup_none (dec : Nat → Nat) (L : Nat) :
    (∀ (t : PTree) (key : Nat) (fuel : Nat) (rnd : List (List Nat))
      (out : Option Nat × PTree × List (List Nat)),
      pord dec none none t = true →
      Pope.lookup dec L fuel rnd t key = .ok out →
      (∀ p ∈ PTree.traverse t, dec p.1 ≠ dec key) →
      out.1 = none) ∧
    (∀ (s : Cheater) (key : Nat),
      (∀ tr ∈ s.slst ++ s.ulst, tr.1 ≠ dec key) →
      (Cheater.lookup s dec key).1 = none) ∧
    (∀ (m : Mope) (key : Nat) (out : Option Nat × Mope),
      Mope.lookup m dec L key = .ok out →
      (∀ k0 ∈ mtreeKeys m.tree, dec k0 ≠ dec key) →
      out.1 = none) := by
  refine ⟨?_, ?_, ?_⟩
  · intro t key fuel rnd out hord h habs
    exact (pope_lookup_spec dec L fuel rnd t key out h hord).2 habs
  · intro s key habs
    exact cheater_lookup_absent s dec key habs
  · intro m key out h habs
    exact mope_lookup_absent m dec L key out h habs

/-- Witness for C9 at concrete states of all three backends: one stored
pair with plaintext 3, looked up at a ciphertext with plaintext 4. -/
theorem c9_witness :
    pord (fun x => x / 10) none none (.pleaf [(30, 7)]) = true ∧
    Pope.lookup (fun x => x / 10) 3 1 [] (.pleaf [(30, 7)]) 41 =
      .ok (none, .pleaf [(30, 7)], []) ∧
    ((none : Option Nat), PTree.pleaf [(30, 7)],
      ([] : List (List Nat))).1 = none ∧
    (Cheater.lookup ⟨[], [(3, 30, 7)]⟩ (fun x => x / 10) 41).1 = none ∧
    Mope.lookup ⟨.mleaf [] [10] [some [1]], [1], [(1, [(10, 100)])]⟩
      (fun x => x / 10) 3 41 = .ok (none,
        ⟨.mleaf [] [10] [some [1]], [1], [(1, [(10, 100)])]⟩) ∧
    ((none : Option Nat), (⟨.mleaf [] [10] [some [1]], [1],
      [(1, [(10, 100)])]⟩ : Mope)).1 = none :=
  ⟨by decide, by rfl,
    (c9_absent_lookup_none (fun x => x / 10) 3).1
      (.pleaf [(30, 7)]) 41 1 [] (none, .pleaf [(30, 7)], [])
      (by decide) (by rfl) (by decide),
    (c9_absent_lookup_none (fun x => x / 10) 3).2.1 ⟨[], [(3, 30, 7)]⟩ 41
      (by decide),
    by rfl,
    (c9_absent_lookup_none (fun x => x / 10) 3).2.2
      ⟨.mleaf [] [10] [some [1]], [1], [(1, [(10, 100)])]⟩ 41
      (none, ⟨.mleaf [] [10] [some [1]], [1], [(1, [(10, 100)])]⟩)
      (by rfl) (by decide)⟩

/-! ### POPE shape lemmas (C5) -/

theorem pwfL_append (A B : List PTree) (d : Nat) :
    pwfL (A ++ B) d = (pwfL A d && pwfL B d) := by
  induction A with
  | nil => simp [pwfL]
  | cons c rest ih =>
      simp only [List.cons_append, pwfL, List.append_eq, ih,
        Bool.and_assoc]

theorem pwf_addPairs (t : PTree) (ps : List (Nat × Nat)) (d : Nat) :
    pwf (t.addPairs ps) d = pwf t d := by
  cases t <;> rfl

theorem pwfL_leaves (l : List (List (Nat × Nat))) :
    pwfL (l.map (fun e => PTree.pleaf e)) 0 = true := by
  induction l with
  | nil => rfl
  | cons x rest ih => simpa [pwfL, pwf] using ih

mutual

/-- `InternalNode.split` preserves structural well-formedness at the
same leaf depth; the child count can only grow. -/
theorem treeSplitN_pwf (dec : Nat → Nat) (L : Nat) :
    ∀ (t : PTree) (fuel : Nat) (rnd : List (List Nat))
      (extra : List (Nat × Nat)) (keys : List Nat) (d : Nat)
      (out : PTree × List (Nat × List (Nat × Nat)) × List (List Nat)),
      treeSplitN dec L fuel t rnd extra keys = .ok out →
      pwf t d = true →
      pwf out.1 d = true := by
  intro t
  match t with
  | .pleaf _ =>
      intro fuel rnd extra keys d out h
      exact absurd h (by simp [treeSplitN])
  | .pnode sorted buffer cs =>
      intro fuel rnd extra keys d out h hwf
      cases d with
      | zero => simp [pwf] at hwf
      | succ dd =>
          simp only [pwf, Bool.and_eq_true, beq_iff_eq,
            decide_eq_true_eq] at hwf
          obtain ⟨⟨hcnt, hpos⟩, hkids⟩ := hwf
          simp only [treeSplitN, ok_bind_eq_ok] at h
          obtain ⟨u1, hkl, h⟩ := h
          obtain ⟨u2, hsl, h⟩ := h
          split at h
          · injection h with h2
            rw [← h2]
            simp only [pwf, Bool.and_eq_true, beq_iff_eq,
              decide_eq_true_eq]
            exact ⟨⟨hcnt, hpos⟩, hkids⟩
          · rw [ok_bind_eq_ok] at h
            obtain ⟨u3, hcl, h⟩ := h
            rw [ok_bind_eq_ok] at h
            obtain ⟨partitions, hpart, h⟩ := h
            rw [ok_bind_eq_ok] at h
            obtain ⟨⟨cs2, sorted2, asg, rnd2⟩, hsc, h⟩ := h
            dsimp only at h
            injection h with h2
            rw [← h2]
            obtain ⟨hlen2, hgrow, hkids2⟩ := splitChildren_pwf dec L cs
              fuel rnd 0 sorted partitions dd
              (cs2, sorted2, asg, rnd2) hsc hkids
            simp only [pwf, Bool.and_eq_true, beq_iff_eq,
              decide_eq_true_eq]
            dsimp only at hlen2 hgrow hkids2
            refine ⟨⟨hlen2, ?_⟩, hkids2⟩
            omega

theorem splitChildren_pwf (dec : Nat → Nat) (L : Nat) :
    ∀ (cs : List PTree) (fuel : Nat) (rnd : List (List Nat)) (i : Nat)
      (ss : List Nat) (partitions : List ((Nat × Option Nat) × Nat))
      (dd : Nat)
      (out : List PTree × List Nat × List (Nat × List (Nat × Nat)) ×
        List (List Nat)),
      splitChildren dec L fuel rnd i cs ss partitions = .ok out →
      pwfL cs dd = true →
      out.1.length = out.2.1.length + 1 ∧
      cs.length ≤ out.1.length ∧
      pwfL out.1 dd = true := by
  intro cs
  match cs with
  | [] =>
      intro fuel rnd i ss partitions dd out h
      exact absurd h (by simp [splitChildren])
  | [c] =>
      intro fuel rnd i ss partitions dd out h hkids
      match ss with
      | _ :: _ => exact absurd h (by simp [splitChildren])
      | [] =>
          simp only [splitChildren, ok_bind_eq_ok] at h
          obtain ⟨⟨cseg, pivs, asg1, rnd2⟩, hbr, h⟩ := h
          dsimp only at h
          injection h with h2
          rw [← h2]
          simp only [pwfL, Bool.and_eq_true] at hkids
          obtain ⟨hc, -⟩ := hkids
          split at hbr
          · injection hbr with hbr2
            injection hbr2 with he1 hbr3
            injection hbr3 with he2 hbr4
            rw [← he1, ← he2]
            refine ⟨by simp, by simp, ?_⟩
            simp only [pwfL, Bool.and_eq_true]
            rw [pwf_addPairs]
            exact ⟨hc, trivial⟩
          · match c, hc with
            | .pleaf cbuf, hc =>
                have hdd : dd = 0 := by
                  simpa [pwf] using hc
                subst hdd
                rw [ok_bind_eq_ok] at hbr
                obtain ⟨⟨sibs, fbuf, asg, rndx⟩, hls, hbr⟩ := hbr
                dsimp only at hbr
                injection hbr with hbr2
                injection hbr2 with he1 hbr3
                injection hbr3 with he2 hbr4
                rw [← he1, ← he2]
                refine ⟨by simp, by simp, ?_⟩
                have : sibs.map (fun e => PTree.pleaf e.1) ++
                    [PTree.pleaf fbuf] =
                    (sibs.map (fun e => e.1) ++ [fbuf]).map
                      (fun e => PTree.pleaf e) := by
                  simp [List.map_map]
                rw [this]
                exact pwfL_leaves _
            | .pnode sx bx csx, hc =>
                rw [ok_bind_eq_ok] at hbr
                obtain ⟨⟨cc, asg, rndx⟩, hts, hbr⟩ := hbr
                dsimp only at hbr
                injection hbr with hbr2
                injection hbr2 with he1 hbr3
                injection hbr3 with he2 hbr4
                rw [← he1, ← he2]
                refine ⟨by simp, by simp, ?_⟩
                simp only [pwfL, Bool.and_eq_true]
                exact ⟨treeSplitN_pwf dec L (.pnode sx bx csx) fuel rnd
                  (pairBucket partitions i) (keyBucket partitions i) dd
                  (cc, asg, rndx) hts hc, trivial⟩
  | c :: c2 :: csr =>
      intro fuel rnd i ss partitions dd out h hkids
      match ss with
      | [] => exact absurd h (by simp [splitChildren])
      | s :: ssr =>
          simp only [splitChildren, ok_bind_eq_ok] at h
          obtain ⟨⟨cseg, pivs, asg1, rnd2⟩, hbr, h⟩ := h
          dsimp only at h
          obtain ⟨⟨cs3, pivs2, asg2, rnd3⟩, hrest, h⟩ := h
          dsimp only at h
          injection h with h2
          rw [← h2]
          simp only [pwfL, Bool.and_eq_true] at hkids
          obtain ⟨hc, hkrest⟩ := hkids
          have hkrest2 : pwfL (c2 :: csr) dd = true := by
            simp only [pwfL, Bool.and_eq_true]
            exact hkrest
          obtain ⟨hrl, hrg, hrw⟩ := splitChildren_pwf dec L (c2 :: csr)
            fuel rnd2 (i + 1) ssr partitions dd
            (cs3, pivs2, asg2, rnd3) hrest hkrest2
          dsimp only at hrl hrg hrw
          have hhead : cseg.length = pivs.length + 1 ∧
              pwfL cseg dd = true := by
            split at hbr
            · injection hbr with hbr2
              injection hbr2 with he1 hbr3
              injection hbr3 with he2 hbr4
              rw [← he1, ← he2]
              refine ⟨by simp, ?_⟩
              simp only [pwfL, Bool.and_eq_true]
              rw [pwf_addPairs]
              exact ⟨hc, trivial⟩
            · match c, hc with
              | .pleaf cbuf, hc =>
                  have hdd : dd = 0 := by
                    simpa [pwf] using hc
                  subst hdd
                  rw [ok_bind_eq_ok] at hbr
                  obtain ⟨⟨sibs, fbuf, asg, rndx⟩, hls, hbr⟩ := hbr
                  dsimp only at hbr
                  injection hbr with hbr2
                  injection hbr2 with he1 hbr3
                  injection hbr3 with he2 hbr4
                  rw [← he1, ← he2]
                  refine ⟨by simp, ?_⟩
                  have : sibs.map (fun e => PTree.pleaf e.1) ++
                      [PTree.pleaf fbuf] =
                      (sibs.map (fun e => e.1) ++ [fbuf]).map
                        (fun e => PTree.pleaf e) := by
                    simp [List.map_map]
                  rw [this]
                  exact pwfL_leaves _
              | .pnode sx bx csx, hc =>
                  rw [ok_bind_eq_ok] at hbr
                  obtain ⟨⟨cc, asg, rndx⟩, hts, hbr⟩ := hbr
                  dsimp only at hbr
                  injection hbr with hbr2
                  injection hbr2 with he1 hbr3
                  injection hbr3 with he2 hbr4
                  rw [← he1, ← he2]
                  refine ⟨by simp, ?_⟩
                  simp only [pwfL, Bool.and_eq_true]
                  exact ⟨treeSplitN_pwf dec L (.pnode sx bx csx) fuel rnd
                    (pairBucket partitions i) (keyBucket partitions i) dd
                    (cc, asg, rndx) hts hc, trivial⟩
          obtain ⟨hhl, hhw⟩ := hhead
          refine ⟨?_, ?_, ?_⟩
          · simp only [List.length_append, List.length_cons] at hrg ⊢
            omega
          · simp only [List.length_append, List.length_cons] at hrg ⊢
            omega
          · rw [pwfL_append, hhw, hrw]
            rfl

end

/-- The root split preserves structural well-formedness, deepening the
tree by one level exactly when a leaf root splits. -/
theorem popeSplitTop_pwf (dec : Nat → Nat) (L : Nat) (fuel : Nat)
    (rnd : List (List Nat)) (t : PTree) (keys : List Nat) (d : Nat)
    (out : PTree × List (Nat × List (Nat × Nat)) × List (List Nat))
    (h : popeSplitTop dec L fuel rnd t keys = .ok out)
    (hwf : pwf t d = true) :
    ∃ d2, pwf out.1 d2 = true := by
  match t with
  | .pleaf buf =>
      simp only [popeSplitTop, leafSplit, ok_bind_eq_ok] at h
      obtain ⟨⟨sibs, fbuf, asg, rnd2⟩, hls, h⟩ := h
      dsimp only at h
      split at h
      · injection h with h2
        rw [← h2]
        exact ⟨0, rfl⟩
      · rename_i hne
        injection h with h2
        rw [← h2]
        refine ⟨1, ?_⟩
        simp only [pwf, Bool.and_eq_true, beq_iff_eq, decide_eq_true_eq]
        refine ⟨⟨by simp, ?_⟩, ?_⟩
        · simp only [List.length_map]
          rcases sibs with _ | ⟨e, rest⟩
          · simp at hne
          · simp
        · have : sibs.map (fun e => PTree.pleaf e.1) ++
              [PTree.pleaf fbuf] =
              (sibs.map (fun e => e.1) ++ [fbuf]).map
                (fun e => PTree.pleaf e) := by
            simp [List.map_map]
          rw [this]
          exact pwfL_leaves _
  | .pnode s b cs =>
      exact ⟨d, treeSplitN_pwf dec L (.pnode s b cs) fuel rnd [] keys d
        out h hwf⟩

theorem pshapeL_append (L : Nat) (A B : List PTree) (d : Nat) :
    pshapeL L (A ++ B) d = (pshapeL L A d && pshapeL L B d) := by
  induction A with
  | nil => simp [pshapeL]
  | cons c rest ih =>
      simp only [List.cons_append, pshapeL, List.append_eq, ih,
        Bool.and_assoc]

theorem pshapeL_take_drop (L : Nat) (cs : List PTree) (d n : Nat)
    (h : pshapeL L cs d = true) :
    pshapeL L (cs.take n) d = true ∧ pshapeL L (cs.drop n) d = true := by
  have h0 := pshapeL_append L (cs.take n) (cs.drop n) d
  rw [List.take_append_drop] at h0
  rw [h] at h0
  have h2 : (pshapeL L (cs.take n) d && pshapeL L (cs.drop n) d)
      = true := h0.symm
  simp only [Bool.and_eq_true] at h2
  exact h2

theorem pshapeL_of_forall (L : Nat) (d : Nat) :
    ∀ (l : List PTree), (∀ c ∈ l, pshape L c false d = true) →
    pshapeL L l d = true := by
  intro l
  induction l with
  | nil => intro _; rfl
  | cons c rest ih =>
      intro hall
      simp only [pshapeL, Bool.and_eq_true]
      exact ⟨hall c (List.mem_cons_self _ _),
        ih (fun c hc => hall c (List.mem_cons_of_mem _ hc))⟩

mutual

theorem pshape_imp_pwf (L : Nat) :
    ∀ (t : PTree) (isRoot : Bool) (d : Nat),
      pshape L t isRoot d = true → pwf t d = true := by
  intro t
  match t with
  | .pleaf _ => intro isRoot d h; simpa [pshape, pwf] using h
  | .pnode s b cs =>
      intro isRoot d h
      cases d with
      | zero => simp [pshape] at h
      | succ dd =>
          simp only [pshape, Bool.and_eq_true] at h
          simp only [pwf, Bool.and_eq_true]
          refine ⟨⟨h.1.1.1, ?_⟩, pshapeL_imp_pwfL L cs dd h.2⟩
          have := h.1.1.2
          simp only [Bool.and_eq_true, decide_eq_true_eq] at this ⊢
          omega

theorem pshapeL_imp_pwfL (L : Nat) :
    ∀ (cs : List PTree) (d : Nat),
      pshapeL L cs d = true → pwfL cs d = true := by
  intro cs
  match cs with
  | [] => intro d _; rfl
  | c :: rest =>
      intro d h
      simp only [pshapeL, Bool.and_eq_true] at h
      simp only [pwfL, Bool.and_eq_true]
      exact ⟨pshape_imp_pwf L c false d h.1, pshapeL_imp_pwfL L rest d h.2⟩

end

/-- Structural description of `InternalNode.split_off(n)`
(pope.py:386-399). -/
theorem splitOff_spec (L n : Nat) (sorted : List Nat) (cs : List PTree)
    (out : (PTree × Nat) × List Nat × List PTree)
    (h : splitOff L n sorted cs = .ok out) :
    out.1.1 = .pnode (sorted.take n) [] (cs.take (n + 1)) ∧
    out.2.1 = sorted.drop (n + 1) ∧ out.2.2 = cs.drop (n + 1) ∧
    n < sorted.length ∧ n ≤ L := by
  simp only [splitOff, ok_bind_eq_ok] at h
  obtain ⟨u1, hm, h⟩ := h
  rw [massert_ok_iff] at hm
  cases hget : sorted.get? n with
  | none => rw [hget] at h; exact absurd h (by simp)
  | some sep =>
      rw [hget] at h
      injection h with h2
      have hlt : n < sorted.length := by
        have := List.get?_eq_some.1 hget
        exact this.1
      rw [← h2]
      exact ⟨rfl, rfl, rfl, hlt, by simpa using hm⟩

/-- The `while len(self.sorted) > 2L` loop of `rebalance`
(pope.py:377-378): bounds, child-count preservation, shape of the
split-off siblings, and the fact that a change implies the remainder
still exceeds `L`. -/
theorem rebalWhile_spec (L : Nat) (hL : 2 ≤ L) (dd : Nat) :
    ∀ (f : Nat) (sorted : List Nat) (cs : List PTree)
      (acc : List (PTree × Nat))
      (out : List (PTree × Nat) × List Nat × List PTree),
      rebalWhile L f sorted cs acc = .ok out →
      cs.length = sorted.length + 1 →
      pshapeL L cs dd = true →
      out.2.1.length ≤ 2 * L ∧
      out.2.2.length = out.2.1.length + 1 ∧
      pshapeL L out.2.2 dd = true ∧
      (∀ e ∈ out.1, e ∈ acc ∨ pshape L e.1 false (dd + 1) = true) ∧
      ((out.1 = acc ∧ out.2.1 = sorted) ∨ L < out.2.1.length) := by
  intro f
  induction f with
  | zero =>
      intro sorted cs acc out h
      exact absurd h (by simp [rebalWhile])
  | succ f ih =>
      intro sorted cs acc out h hcnt hsh
      rw [rebalWhile] at h
      split at h
      · rename_i hbig
        rw [ok_bind_eq_ok] at h
        obtain ⟨⟨⟨sib, sep⟩, s2, c2⟩, hso, h⟩ := h
        dsimp only at h
        obtain ⟨hsib, hs2, hc2, hnlt, hnle⟩ :=
          splitOff_spec L (L / 2) sorted cs (⟨sib, sep⟩, s2, c2) hso
        dsimp only at hsib hs2 hc2
        have hs2len : s2.length = sorted.length - (L / 2 + 1) := by
          rw [hs2]; simp
        have hc2len : c2.length = s2.length + 1 := by
          rw [hs2, hc2]
          simp only [List.length_drop]
          omega
        have hc2sh : pshapeL L c2 dd = true := by
          rw [hc2]
          exact (pshapeL_take_drop L cs dd (L / 2 + 1) hsh).2
        obtain ⟨ih1, ih2, ih3, ih4, ih5⟩ := ih s2 c2 (acc ++ [(sib, sep)])
          out h hc2len hc2sh
        have hsibsh : pshape L sib false (dd + 1) = true := by
          have htklen : (cs.take (L / 2 + 1)).length = L / 2 + 1 := by
            simp only [List.length_take]
            omega
          have hsklen : (sorted.take (L / 2)).length = L / 2 := by
            simp only [List.length_take]
            omega
          rw [hsib]
          simp only [pshape, Bool.and_eq_true, beq_iff_eq,
            decide_eq_true_eq, Bool.or_eq_true, Bool.false_or, htklen,
            hsklen]
          repeat' apply And.intro
          all_goals first
            | exact (pshapeL_take_drop L cs dd (L / 2 + 1) hsh).1
            | omega
            | trivial
        refine ⟨ih1, ih2, ih3, ?_, ?_⟩
        · intro e he
          rcases ih4 e he with hacc | hsh2
          · rcases List.mem_append.1 hacc with h1 | h1
            · exact Or.inl h1
            · right
              have : e = (sib, sep) := by simpa using h1
              rw [this]
              exact hsibsh
          · exact Or.inr hsh2
        · right
          rcases ih5 with ⟨heq1, heq2⟩ | hlt
          · rw [heq2, hs2len]
            omega
          · exact hlt
      · injection h with h2
        rename_i hnotbig
        rw [← h2]
        refine ⟨?_, hcnt, hsh, fun e he => Or.inl he, Or.inl ⟨rfl, rfl⟩⟩
        show sorted.length ≤ 2 * L
        omega

mutual

/-- `InternalNode.rebalance` establishes the POPE shape invariant: on a
structurally well-formed subtree it returns a tree satisfying the size
bounds everywhere (its own trailing asserts check the top node; the
split-off siblings satisfy them by the `split_off` arithmetic). -/
theorem rebalanceT_shape (L : Nat) (hL : 2 ≤ L) :
    ∀ (t : PTree) (isRoot : Bool) (d : Nat)
      (out : List (PTree × Nat) × PTree),
      rebalanceT L t isRoot = .ok out →
      pwf t d = true →
      pshape L out.2 isRoot d = true ∧
      (∀ e ∈ out.1, pshape L e.1 false d = true) := by
  intro t
  match t with
  | .pleaf buf =>
      intro isRoot d out h hwf
      simp only [rebalanceT] at h
      injection h with h2
      rw [← h2]
      exact ⟨by simpa [pwf, pshape] using hwf, by intro e he; simp at he⟩
  | .pnode sorted buffer cs =>
      intro isRoot d out h hwf
      cases d with
      | zero => simp [pwf] at hwf
      | succ dd =>
          simp only [pwf, Bool.and_eq_true, beq_iff_eq,
            decide_eq_true_eq] at hwf
          obtain ⟨⟨hcnt, hpos⟩, hkids⟩ := hwf
          simp only [rebalanceT, ok_bind_eq_ok] at h
          obtain ⟨⟨cs2, sorted2⟩, hrc, h⟩ := h
          dsimp only at h
          obtain ⟨⟨sibs, s3, c3⟩, hrw, h⟩ := h
          dsimp only at h
          obtain ⟨⟨sibs2, s4, c4⟩, hsel, h⟩ := h
          dsimp only at h
          obtain ⟨u1, hm1, h⟩ := h
          obtain ⟨u2, hm2, h⟩ := h
          injection h with h2
          rw [massert_ok_iff] at hm1 hm2
          simp only [Bool.and_eq_true, decide_eq_true_eq] at hm1
          obtain ⟨hcc, hkk⟩ := rebalanceChildren_shape L hL cs sorted dd
            (cs2, sorted2) hrc hkids hcnt
          dsimp only at hcc hkk
          obtain ⟨hw1, hw2, hw3, hw4, hw5⟩ := rebalWhile_spec L hL dd
            (sorted2.length + 1) sorted2 cs2 [] (sibs, s3, c3) hrw hcc hkk
          dsimp only at hw1 hw2 hw3 hw4 hw5
          have hfin : s4.length ≤ 2 * L ∧ c4.length = s4.length + 1 ∧
              pshapeL L c4 dd = true ∧
              (∀ e ∈ sibs2, e ∈ sibs ∨
                pshape L e.1 false (dd + 1) = true) := by
            split at hsel
            · rename_i hbig
              rw [ok_bind_eq_ok] at hsel
              obtain ⟨⟨sib, s4x, c4x⟩, hso, hsel⟩ := hsel
              dsimp only at hsel
              injection hsel with hsel2
              obtain ⟨hsib, hs4, hc4, hnlt, hnle⟩ :=
                splitOff_spec L (s3.length / 2) s3 c3 (sib, s4x, c4x) hso
              dsimp only at hsib hs4 hc4
              have he1 : sibs2 = sibs ++ [sib] := by
                have := congrArg (fun q => q.1) hsel2
                simpa using this.symm
              have he2 : s4 = s4x := by
                have := congrArg (fun q => q.2.1) hsel2
                simpa using this.symm
              have he3 : c4 = c4x := by
                have := congrArg (fun q => q.2.2) hsel2
                simpa using this.symm
              subst he2
              subst he3
              have hs4len : s4.length = s3.length - (s3.length / 2 + 1) := by
                rw [hs4]; simp
              have hc4len : c4.length =
                  c3.length - (s3.length / 2 + 1) := by
                rw [hc4]; simp
              have hsibsh : pshape L sib.1 false (dd + 1) = true := by
                have htklen : (c3.take (s3.length / 2 + 1)).length =
                    s3.length / 2 + 1 := by
                  simp only [List.length_take]
                  omega
                have hsklen : (s3.take (s3.length / 2)).length =
                    s3.length / 2 := by
                  simp only [List.length_take]
                  omega
                rw [hsib]
                simp only [pshape, Bool.and_eq_true, beq_iff_eq,
                  decide_eq_true_eq, Bool.or_eq_true, Bool.false_or,
                  htklen, hsklen]
                repeat' apply And.intro
                all_goals first
                  | exact (pshapeL_take_drop L c3 dd
                      (s3.length / 2 + 1) hw3).1
                  | omega
                  | trivial
              refine ⟨by omega, by omega, ?_, ?_⟩
              · rw [hc4]
                exact (pshapeL_take_drop L c3 dd (s3.length / 2 + 1)
                  hw3).2
              · intro e he
                rw [he1] at he
                rcases List.mem_append.1 he with h1 | h1
                · exact Or.inl h1
                · right
                  rcases List.mem_singleton.1 h1 with rfl
                  exact hsibsh
            · injection hsel with hsel2
              have he1 : sibs2 = sibs := by
                have := congrArg (fun q => q.1) hsel2
                simpa using this.symm
              have he2 : s4 = s3 := by
                have := congrArg (fun q => q.2.1) hsel2
                simpa using this.symm
              have he3 : c4 = c3 := by
                have := congrArg (fun q => q.2.2) hsel2
                simpa using this.symm
              subst he2
              subst he3
              rename_i hnotbig
              exact ⟨by omega, hw2, hw3,
                by rw [he1]; exact fun e he => Or.inl he⟩
          obtain ⟨hf1, hf2, hf3, hf4⟩ := hfin
          rw [← h2]
          constructor
          · simp only [pshape, Bool.and_eq_true, beq_iff_eq,
              decide_eq_true_eq]
            exact ⟨⟨⟨hf2, hm1.1, hm1.2⟩, hm2⟩, hf3⟩
          · intro e he
            rcases hf4 e he with h1 | h1
            · rcases hw4 e h1 with h2 | h2
              · simp at h2
              · exact h2
            · exact h1

theorem rebalanceChildren_shape (L : Nat) (hL : 2 ≤ L) :
    ∀ (cs : List PTree) (ss : List Nat) (d : Nat)
      (out : List PTree × List Nat),
      rebalanceChildren L cs ss = .ok out →
      pwfL cs d = true →
      cs.length = ss.length + 1 →
      out.1.length = out.2.length + 1 ∧
      pshapeL L out.1 d = true := by
  intro cs
  match cs with
  | [] =>
      intro ss d out h
      exact absurd h (by simp [rebalanceChildren])
  | [c] =>
      intro ss d out h hkids hcnt
      match ss with
      | _ :: _ => simp at hcnt
      | [] =>
          simp only [rebalanceChildren, ok_bind_eq_ok] at h
          obtain ⟨⟨sibs, c2⟩, hrt, h⟩ := h
          dsimp only at h
          injection h with h2
          rw [← h2]
          simp only [pwfL, Bool.and_eq_true] at hkids
          obtain ⟨hsh, hsibs⟩ := rebalanceT_shape L hL c false d
            (sibs, c2) hrt hkids.1
          refine ⟨by simp, ?_⟩
          rw [pshapeL_append]
          simp only [Bool.and_eq_true]
          constructor
          · refine pshapeL_of_forall L d _ ?_
            intro cc hcc
            obtain ⟨e, hemem, heq⟩ := List.mem_map.1 hcc
            rw [← heq]
            exact hsibs e hemem
          · simp only [pshapeL, Bool.and_eq_true]
            exact ⟨hsh, trivial⟩
  | c :: c2 :: csr =>
      intro ss d out h hkids hcnt
      match ss with
      | [] => simp at hcnt
      | s :: ssr =>
          simp only [rebalanceChildren, ok_bind_eq_ok] at h
          obtain ⟨⟨sibs, cc2⟩, hrt, h⟩ := h
          dsimp only at h
          obtain ⟨⟨csr2, pivs2⟩, hrest, h⟩ := h
          dsimp only at h
          injection h with h2
          rw [← h2]
          simp only [pwfL, Bool.and_eq_true] at hkids
          obtain ⟨hshc, hsibs⟩ := rebalanceT_shape L hL c false d
            (sibs, cc2) hrt hkids.1
          have hkrest : pwfL (c2 :: csr) d = true := by
            simp only [pwfL, Bool.and_eq_true]
            exact hkids.2
          obtain ⟨hrl, hrsh⟩ := rebalanceChildren_shape L hL (c2 :: csr)
            ssr d (csr2, pivs2) hrest hkrest (by simpa using hcnt)
          dsimp only at hrl hrsh
          refine ⟨?_, ?_⟩
          · simp only [List.length_append, List.length_cons,
              List.length_map]
            omega
          · rw [pshapeL_append]
            simp only [Bool.and_eq_true]
            constructor
            · refine pshapeL_of_forall L d _ ?_
              intro cc hcc
              obtain ⟨e, hemem, heq⟩ := List.mem_map.1 hcc
              rw [← heq]
              exact hsibs e hemem
            · simp only [pshapeL, Bool.and_eq_true]
              exact ⟨hshc, hrsh⟩

end

theorem pwfL_of_forall (d : Nat) :
    ∀ (l : List PTree), (∀ c ∈ l, pwf c d = true) →
    pwfL l d = true := by
  intro l
  induction l with
  | nil => intro _; rfl
  | cons c rest ih =>
      intro hall
      simp only [pwfL, Bool.and_eq_true]
      exact ⟨hall c (List.mem_cons_self _ _),
        ih (fun c hc => hall c (List.mem_cons_of_mem _ hc))⟩

/-- The root rebalance loop (pope.py:47-49 together with the root
growth of `split_off`) turns a structurally well-formed tree into one
satisfying the full shape invariant at some leaf depth. -/
theorem rebalanceRoot_shape (L : Nat) (hL : 2 ≤ L) :
    ∀ (f : Nat) (t : PTree) (d : Nat) (t3 : PTree),
      rebalanceRoot L f t = .ok t3 →
      pwf t d = true →
      ∃ d3, pshape L t3 true d3 = true := by
  intro f
  induction f with
  | zero => intro t d t3 h; exact absurd h (by simp [rebalanceRoot])
  | succ f ih =>
      intro t d t3 h hwf
      rw [rebalanceRoot] at h
      rw [ok_bind_eq_ok] at h
      obtain ⟨⟨sibs, t2⟩, hrt, h⟩ := h
      dsimp only at h
      obtain ⟨hsh, hsibs⟩ := rebalanceT_shape L hL t true d (sibs, t2)
        hrt hwf
      split at h
      · injection h with h2
        rw [← h2]
        exact ⟨d, hsh⟩
      · rename_i hemp
        refine ih _ (d + 1) t3 h ?_
        simp only [pwf, Bool.and_eq_true, beq_iff_eq, decide_eq_true_eq]
        refine ⟨⟨by simp, ?_⟩, ?_⟩
        · simp only [List.length_map]
          rcases sibs with _ | ⟨e, rest⟩
          · simp at hemp
          · simp
        · rw [pwfL_append]
          simp only [Bool.and_eq_true]
          constructor
          · refine pwfL_of_forall d _ ?_
            intro cc hcc
            obtain ⟨e, hemem, heq⟩ := List.mem_map.1 hcc
            rw [← heq]
            exact pshape_imp_pwf L e.1 false d (hsibs e hemem)
          · simp only [pwfL, Bool.and_eq_true]
            exact ⟨pshape_imp_pwf L t2 true d hsh, trivial⟩

/-- Claim C5: after a completed `Pope.split` (including the bottom-up
rebalance of pope.py:47-49), every internal node has one more child
than pivot, the root has between `1` and `L` pivots, every internal
node below the root has between `L/2` and `L` pivots, and all leaves
sit at one uniform depth — the `pshape` invariant.  Hypotheses: the
input tree is structurally well-formed (`pwf`, as every reachable tree
is) and the oracle block size satisfies `2 ≤ L` (for `L ≤ 1` the
`split_off(L/2)` arithmetic would shave off empty nodes). -/
theorem c5_split_shape (dec : Nat → Nat) (L : Nat) (fuel : Nat)
    (rnd : List (List Nat)) (t : PTree) (keys : List Nat) (io : Bool)
    (d : Nat)
    (out : PTree × List (Nat × List (Nat × Nat)) × List (List Nat))
    (hL : 2 ≤ L) (hwf : pwf t d = true)
    (h : Pope.split dec L fuel rnd t keys io = .ok out) :
    ∃ d2, pshape L out.1 true d2 = true := by
  simp only [Pope.split, ok_bind_eq_ok] at h
  obtain ⟨u1, hkl, h⟩ := h
  obtain ⟨keys2, hks, h⟩ := h
  obtain ⟨⟨t2, asg, rnd2⟩, hst, h⟩ := h
  obtain ⟨t3, hreb, h⟩ := h
  injection h with h2
  obtain ⟨d2, hwf2⟩ := popeSplitTop_pwf dec L fuel rnd t keys2 d
    (t2, asg, rnd2) hst hwf
  obtain ⟨d3, hsh3⟩ := rebalanceRoot_shape L hL (PTree.size t2 + 2) t2
    d2 t3 hreb hwf2
  rw [← h2]
  exact ⟨d3, hsh3⟩

/-- Witness for C5 at a concrete one-leaf split. -/
theorem c5_witness :
    (2 ≤ 3 ∧ pwf (.pleaf [(10, 1)]) 0 = true ∧
      Pope.split (fun x => x / 10) 3 1 [] (.pleaf [(10, 1)]) [25] true =
        .ok (.pleaf [(10, 1)], [(25, [(10, 1)])], [])) ∧
    ∃ d2, pshape 3 (PTree.pleaf [(10, 1)]) true d2 = true :=
  ⟨⟨by decide, by decide, by rfl⟩,
    c5_split_shape (fun x => x / 10) 3 1 [] (.pleaf [(10, 1)]) [25] true
      0 (.pleaf [(10, 1)], [(25, [(10, 1)])], []) (by decide) (by decide)
      (by rfl)⟩

/-! ### C8: which buffers a split flushes -/

theorem treeSplitN_root_clean (dec : Nat → Nat) (L : Nat) (fuel : Nat)
    (t : PTree) (rnd : List (List Nat)) (extra : List (Nat × Nat))
    (keys : List Nat)
    (out : PTree × List (Nat × List (Nat × Nat)) × List (List Nat))
    (h : treeSplitN dec L fuel t rnd extra keys = .ok out)
    (hk : keys ≠ []) :
    rootClean out.1 = true := by
  match t with
  | .pleaf _ => exact absurd h (by simp [treeSplitN])
  | .pnode sorted buffer cs =>
      simp only [treeSplitN, ok_bind_eq_ok] at h
      obtain ⟨u1, hkl, h⟩ := h
      obtain ⟨u2, hsl, h⟩ := h
      split at h
      · rename_i hke
        exact absurd (List.isEmpty_iff.1 hke) hk
      · rw [ok_bind_eq_ok] at h
        obtain ⟨u3, hcl, h⟩ := h
        rw [ok_bind_eq_ok] at h
        obtain ⟨partitions, hpart, h⟩ := h
        rw [ok_bind_eq_ok] at h
        obtain ⟨⟨cs2, sorted2, asg, rnd2⟩, hsc, h⟩ := h
        dsimp only at h
        injection h with h2
        rw [← h2]
        rfl

theorem popeSplitTop_root_clean (dec : Nat → Nat) (L : Nat) (fuel : Nat)
    (rnd : List (List Nat)) (t : PTree) (keys : List Nat)
    (out : PTree × List (Nat × List (Nat × Nat)) × List (List Nat))
    (h : popeSplitTop dec L fuel rnd t keys = .ok out)
    (hk : keys ≠ []) :
    rootClean out.1 = true := by
  match t with
  | .pleaf buf =>
      simp only [popeSplitTop, leafSplit, ok_bind_eq_ok] at h
      obtain ⟨⟨sibs, fbuf, asg, rnd2⟩, hls, h⟩ := h
      dsimp only at h
      split at h
      · injection h with h2
        rw [← h2]
        rfl
      · injection h with h2
        rw [← h2]
        rfl
  | .pnode s b cs =>
      exact treeSplitN_root_clean dec L fuel (.pnode s b cs) rnd [] keys
        out h hk

theorem rebalanceT_root_clean (L : Nat) (t : PTree) (isRoot : Bool)
    (out : List (PTree × Nat) × PTree)
    (h : rebalanceT L t isRoot = .ok out)
    (hc : rootClean t = true) :
    rootClean out.2 = true := by
  match t with
  | .pleaf buf =>
      simp only [rebalanceT] at h
      injection h with h2
      rw [← h2]
      rfl
  | .pnode sorted buffer cs =>
      simp only [rebalanceT, ok_bind_eq_ok] at h
      obtain ⟨⟨cs2, sorted2⟩, hrc, h⟩ := h
      dsimp only at h
      obtain ⟨⟨sibs, s3, c3⟩, hrw, h⟩ := h
      dsimp only at h
      obtain ⟨⟨sibs2, s4, c4⟩, hsel, h⟩ := h
      dsimp only at h
      obtain ⟨u1, hm1, h⟩ := h
      obtain ⟨u2, hm2, h⟩ := h
      injection h with h2
      rw [← h2]
      exact hc

theorem rebalanceRoot_root_clean (L : Nat) :
    ∀ (f : Nat) (t : PTree) (t3 : PTree),
      rebalanceRoot L f t = .ok t3 →
      rootClean t = true →
      rootClean t3 = true := by
  intro f
  induction f with
  | zero => intro t t3 h; exact absurd h (by simp [rebalanceRoot])
  | succ f ih =>
      intro t t3 h hc
      rw [rebalanceRoot] at h
      rw [ok_bind_eq_ok] at h
      obtain ⟨⟨sibs, t2⟩, hrt, h⟩ := h
      dsimp only at h
      split at h
      · injection h with h2
        rw [← h2]
        exact rebalanceT_root_clean L t true (sibs, t2) hrt hc
      · exact ih _ t3 h rfl

/-- Claim C8 (amended): a completed `Pope.split` on at least one search
key flushes every internal node it descends into at the moment of the
visit — in particular the root's buffer is empty when it returns — but
internal children that received buffered pairs during the partition and
had no search key routed to them are not recursed into and stay dirty,
as the counterexample shows. -/
theorem c8_split_root_flushed (dec : Nat → Nat) (L : Nat) (fuel : Nat)
    (rnd : List (List Nat)) (t : PTree) (keys : List Nat) (io : Bool)
    (out : PTree × List (Nat × List (Nat × Nat)) × List (List Nat))
    (h : Pope.split dec L fuel rnd t keys io = .ok out)
    (hk : keys ≠ []) :
    rootClean out.1 = true := by
  simp only [Pope.split, ok_bind_eq_ok] at h
  obtain ⟨u1, hkl, h⟩ := h
  obtain ⟨keys2, hks, h⟩ := h
  obtain ⟨⟨t2, asg, rnd2⟩, hst, h⟩ := h
  obtain ⟨t3, hreb, h⟩ := h
  injection h with h2
  have hk2 : keys2 ≠ [] := by
    split at hks
    · simp only [Oracle.sort, ok_bind_eq_ok] at hks
      obtain ⟨u2, hm, hks⟩ := hks
      injection hks with hks2
      intro hnil
      have hlen : keys2.length = keys.length := by
        rw [← hks2]
        exact List.length_insertionSort _ _
      rw [hnil] at hlen
      exact hk (List.eq_nil_of_length_eq_zero hlen.symm)
    · injection hks with hks2
      rw [← hks2]
      exact hk
  have hc2 := popeSplitTop_root_clean dec L fuel rnd t keys2
    (t2, asg, rnd2) hst hk2
  rw [← h2]
  exact rebalanceRoot_root_clean L (PTree.size t2 + 2) t2 t3 hreb hc2

theorem c8_witness :
    (Pope.split (fun x => x / 10) 3 3 []
        (.pnode [20] [(15, 2)] [.pleaf [(10, 1)], .pleaf [(25, 3)]])
        [12] true =
      .ok (.pnode [20] [] [.pleaf [(10, 1), (15, 2)], .pleaf [(25, 3)]],
        [(12, [(10, 1), (15, 2)])], []) ∧
      ([12] : List Nat) ≠ []) ∧
    rootClean
      (.pnode [20] [] [.pleaf [(10, 1), (15, 2)], .pleaf [(25, 3)]]) =
      true :=
  ⟨⟨by rfl, by simp⟩,
    c8_split_root_flushed (fun x => x / 10) 3 3 []
      (.pnode [20] [(15, 2)] [.pleaf [(10, 1)], .pleaf [(25, 3)]])
      [12] true
      (.pnode [20] [] [.pleaf [(10, 1), (15, 2)], .pleaf [(25, 3)]],
        [(12, [(10, 1), (15, 2)])], [])
      (by rfl) (by simp)⟩

/-! ### Order and content preservation of the POPE split -/

theorem chain_append (dec : Nat → Nat) (hi : Option Nat) :
    ∀ (A : List (List (Nat × Nat) × Nat)) (lo lo2 lo3 : Option Nat)
      (B : List (List (Nat × Nat) × Nat)),
      chain dec hi lo A lo2 → chain dec hi lo2 B lo3 →
      chain dec hi lo (A ++ B) lo3 := by
  intro A
  induction A with
  | nil =>
      intro lo lo2 lo3 B h1 h2
      cases h1
      exact h2
  | cons e A ih =>
      obtain ⟨b, piv⟩ := e
      intro lo lo2 lo3 B h1 h2
      obtain ⟨ha, hb, hc, hd⟩ := h1
      exact ⟨ha, hb, hc, ih _ _ _ B hd h2⟩

theorem chain_weaken (dec : Nat → Nat) (hi hi2 : Option Nat)
    (himp : ∀ v, hiOk hi v = true → hiOk hi2 v = true) :
    ∀ (A : List (List (Nat × Nat) × Nat)) (lo lo2 : Option Nat),
      chain dec hi lo A lo2 → chain dec hi2 lo A lo2 := by
  intro A
  induction A with
  | nil => intro lo lo2 h; exact h
  | cons e A ih =>
      obtain ⟨b, piv⟩ := e
      intro lo lo2 h
      obtain ⟨ha, hb, hc, hd⟩ := h
      exact ⟨ha, himp _ hb, hc, ih _ _ hd⟩

/-- Lower bounds only tighten along a sibling chain. -/
theorem chain_lo_mono (dec : Nat → Nat) (hi : Option Nat) :
    ∀ (A : List (List (Nat × Nat) × Nat)) (lo lo2 : Option Nat),
      chain dec hi lo A lo2 →
      ∀ x, loOk lo2 x = true → loOk lo x = true := by
  intro A
  induction A with
  | nil =>
      intro lo lo2 h x hx
      cases h
      exact hx
  | cons e A ih =>
      obtain ⟨b, piv⟩ := e
      intro lo lo2 h x hx
      obtain ⟨ha, hb, hc, hd⟩ := h
      have h2 := ih _ _ hd x hx
      have hlt : dec piv < x := by
        simpa [loOk, decide_eq_true_eq] using h2
      exact loOk_trans lo (dec piv) x ha hlt

theorem chainN_append (dec : Nat → Nat) (hi : Option Nat) :
    ∀ (A : List (PTree × Nat)) (lo lo2 lo3 : Option Nat)
      (B : List (PTree × Nat)),
      chainN dec hi lo A lo2 → chainN dec hi lo2 B lo3 →
      chainN dec hi lo (A ++ B) lo3 := by
  intro A
  induction A with
  | nil =>
      intro lo lo2 lo3 B h1 h2
      cases h1
      exact h2
  | cons e A ih =>
      obtain ⟨u, piv⟩ := e
      intro lo lo2 lo3 B h1 h2
      obtain ⟨ha, hb, hc, hd⟩ := h1
      exact ⟨ha, hb, hc, ih _ _ _ B hd h2⟩

theorem chainN_lo_mono (dec : Nat → Nat) (hi : Option Nat) :
    ∀ (A : List (PTree × Nat)) (lo lo2 : Option Nat),
      chainN dec hi lo A lo2 →
      ∀ x, loOk lo2 x = true → loOk lo x = true := by
  intro A
  induction A with
  | nil =>
      intro lo lo2 h x hx
      cases h
      exact hx
  | cons e A ih =>
      obtain ⟨u, piv⟩ := e
      intro lo lo2 h x hx
      obtain ⟨ha, hb, hc, hd⟩ := h
      have h2 := ih _ _ hd x hx
      have hlt : dec piv < x := by
        simpa [loOk, decide_eq_true_eq] using h2
      exact loOk_trans lo (dec piv) x ha hlt

/-- `pordL` extended on the left by one pivot and one child. -/
theorem pordL_cons (dec : Nat → Nat) (lo hi : Option Nat) (x : Nat)
    (c : PTree) (ss : List Nat) (cs : List PTree)
    (hx : loOk lo (dec x) = true ∧ hiOk hi (dec x) = true)
    (hc : pord dec lo (some (dec x)) c = true)
    (ht : pordL dec (some (dec x)) hi ss cs = true) :
    pordL dec lo hi (x :: ss) (c :: cs) = true := by
  match cs with
  | [] =>
      have := pordL_length dec ss (some (dec x)) hi [] ht
      simp at this
  | c2 :: cs2 =>
      simp only [pordL, Bool.and_eq_true]
      exact ⟨⟨⟨hx.1, hx.2⟩, hc⟩, ht⟩

/-- A chain of new sibling leaves followed by the final leaf forms a
valid pivot/child alternation. -/
theorem chain_pordL (dec : Nat → Nat) :
    ∀ (sibs : List (List (Nat × Nat) × Nat)) (lo hi lo2 : Option Nat)
      (fbuf : List (Nat × Nat)),
      chain dec hi lo sibs lo2 →
      (∀ p ∈ fbuf, loOk lo2 (dec p.1) = true ∧ hiOk hi (dec p.1) = true) →
      pordL dec lo hi (sibs.map Prod.snd)
        (sibs.map (fun e => PTree.pleaf e.1) ++ [PTree.pleaf fbuf]) =
        true := by
  intro sibs
  induction sibs with
  | nil =>
      intro lo hi lo2 fbuf hch hf
      cases hch
      show pord dec lo hi (.pleaf fbuf) = true
      simp only [pord, List.all_eq_true, Bool.and_eq_true]
      exact hf
  | cons e sibs ih =>
      obtain ⟨b, piv⟩ := e
      intro lo hi lo2 fbuf hch hf
      obtain ⟨h1, h2, h3, h4⟩ := hch
      refine pordL_cons dec lo hi piv _ _ _ ⟨h1, h2⟩ ?_ ?_
      · simp only [pord, List.all_eq_true, Bool.and_eq_true]
        intro p hp
        refine ⟨(h3 p hp).1, ?_⟩
        simp only [hiOk, decide_eq_true_eq]
        exact (h3 p hp).2
      · exact ih (some (dec piv)) hi lo2 fbuf h4 hf

/-- A chain of new sibling leaves spliced in before an existing
separator and tail. -/
theorem chain_pordL_cons (dec : Nat → Nat) :
    ∀ (sibs : List (List (Nat × Nat) × Nat)) (lo hi lo2 : Option Nat)
      (fbuf : List (Nat × Nat)) (s : Nat) (ss : List Nat)
      (cs : List PTree),
      chain dec (some (dec s)) lo sibs lo2 →
      (∀ p ∈ fbuf, loOk lo2 (dec p.1) = true ∧ dec p.1 ≤ dec s) →
      loOk lo2 (dec s) = true →
      hiOk hi (dec s) = true →
      pordL dec (some (dec s)) hi ss cs = true →
      pordL dec lo hi (sibs.map Prod.snd ++ s :: ss)
        (sibs.map (fun e => PTree.pleaf e.1) ++ PTree.pleaf fbuf :: cs) =
        true := by
  intro sibs
  induction sibs with
  | nil =>
      intro lo hi lo2 fbuf s ss cs hch hf hlos hshi ht
      cases hch
      refine pordL_cons dec lo hi s _ _ _ ⟨hlos, hshi⟩ ?_ ht
      simp only [pord, List.all_eq_true, Bool.and_eq_true]
      intro p hp
      refine ⟨(hf p hp).1, ?_⟩
      simp only [hiOk, decide_eq_true_eq]
      exact (hf p hp).2
  | cons e sibs ih =>
      obtain ⟨b, piv⟩ := e
      intro lo hi lo2 fbuf s ss cs hch hf hlos hshi ht
      obtain ⟨h1, h2, h3, h4⟩ := hch
      have hpivs : dec piv ≤ dec s := by
        simpa [hiOk, decide_eq_true_eq] using h2
      refine pordL_cons dec lo hi piv _ _ _
        ⟨h1, hiOk_trans hi (dec s) (dec piv) hshi hpivs⟩ ?_ ?_
      · simp only [pord, List.all_eq_true, Bool.and_eq_true]
        intro p hp
        refine ⟨(h3 p hp).1, ?_⟩
        simp only [hiOk, decide_eq_true_eq]
        exact (h3 p hp).2
      · exact ih (some (dec piv)) hi lo2 fbuf s ss cs h4 hf hlos hshi ht

/-- A chain of split-off internal siblings followed by the node that
remains forms a valid pivot/child alternation. -/
theorem chainN_pordL (dec : Nat → Nat) :
    ∀ (sibs : List (PTree × Nat)) (lo hi lo2 : Option Nat) (tl : PTree),
      chainN dec hi lo sibs lo2 →
      pord dec lo2 hi tl = true →
      pordL dec lo hi (sibs.map Prod.snd)
        (sibs.map Prod.fst ++ [tl]) = true := by
  intro sibs
  induction sibs with
  | nil =>
      intro lo hi lo2 tl hch htl
      cases hch
      show pord dec lo hi tl = true
      exact htl
  | cons e sibs ih =>
      obtain ⟨u, piv⟩ := e
      intro lo hi lo2 tl hch htl
      obtain ⟨h1, h2, h3, h4⟩ := hch
      exact pordL_cons dec lo hi piv _ _ _ ⟨h1, h2⟩ h3
        (ih (some (dec piv)) hi lo2 tl h4 htl)

/-- Split-off internal siblings spliced in before an existing separator
and tail. -/
theorem chainN_pordL_cons (dec : Nat → Nat) :
    ∀ (sibs : List (PTree × Nat)) (lo hi lo2 : Option Nat) (tl : PTree)
      (s : Nat) (ss : List Nat) (cs : List PTree),
      chainN dec (some (dec s)) lo sibs lo2 →
      pord dec lo2 (some (dec s)) tl = true →
      loOk lo2 (dec s) = true →
      hiOk hi (dec s) = true →
      pordL dec (some (dec s)) hi ss cs = true →
      pordL dec lo hi (sibs.map Prod.snd ++ s :: ss)
        (sibs.map Prod.fst ++ tl :: cs) = true := by
  intro sibs
  induction sibs with
  | nil =>
      intro lo hi lo2 tl s ss cs hch htl hlos hshi ht
      cases hch
      exact pordL_cons dec lo hi s _ _ _ ⟨hlos, hshi⟩ htl ht
  | cons e sibs ih =>
      obtain ⟨u, piv⟩ := e
      intro lo hi lo2 tl s ss cs hch htl hlos hshi ht
      obtain ⟨h1, h2, h3, h4⟩ := hch
      have hpivs : dec piv ≤ dec s := by
        simpa [hiOk, decide_eq_true_eq] using h2
      refine pordL_cons dec lo hi piv _ _ _
        ⟨h1, hiOk_trans hi (dec s) (dec piv) hshi hpivs⟩ h3 ?_
      exact ih (some (dec piv)) hi lo2 tl s ss cs h4 htl hlos hshi ht

theorem flatten_map_nil {α β : Type} (l : List β) :
    (l.map (fun _ => ([] : List α))).flatten = [] := by
  induction l with
  | nil => rfl
  | cons b l ih => simpa using ih

/-- Prepending one element to the bucket it routes to permutes the
flattened buckets by one cons. -/
theorem flatten_ite_cons_perm {α : Type} (x : α) (g : Nat → List α) :
    ∀ (n t : Nat), t < n →
      List.Perm
        (((List.range n).map
          (fun j => if t = j then x :: g j else g j)).flatten)
        (x :: ((List.range n).map g).flatten) := by
  intro n
  induction n with
  | zero => intro t ht; omega
  | succ n ih =>
      intro t ht
      rw [List.range_succ]
      by_cases htn : t = n
      · subst htn
        have hcongr : (List.range t).map
            (fun j => if t = j then x :: g j else g j) =
            (List.range t).map g := by
          refine List.map_congr_left ?_
          intro j hj
          rw [List.mem_range] at hj
          rw [if_neg (by omega)]
        simp only [List.map_append, List.flatten_append, hcongr,
          List.map_cons, List.map_nil, List.flatten_cons, List.flatten_nil,
          if_pos rfl]
        exact List.perm_middle.trans (by simp)
      · have ht2 : t < n := by omega
        simp only [List.map_append, List.flatten_append, List.map_cons,
          List.map_nil, List.flatten_cons, List.flatten_nil,
          if_neg htn]
        have := (ih t ht2).append_right (g n ++ [])
        refine this.trans ?_
        simp

/-- Routing a list into buckets by `f` and flattening permutes the
list. -/
theorem flatten_filter_perm {α : Type} (f : α → Nat) :
    ∀ (l : List α) (n : Nat), (∀ x ∈ l, f x < n) →
      List.Perm
        (((List.range n).map
          (fun j => l.filter (fun x => f x = j))).flatten) l := by
  intro l
  induction l with
  | nil =>
      intro n _
      have h1 : (List.range n).map
          (fun j => List.filter (fun x => decide (f x = j)) ([] : List α)) =
          (List.range n).map (fun _ => ([] : List α)) :=
        List.map_congr_left (fun j _ => by simp)
      rw [h1, flatten_map_nil]
  | cons a l ih =>
      intro n hf
      have hstep : (List.range n).map
          (fun j => List.filter (fun x => decide (f x = j)) (a :: l)) =
          (List.range n).map
          (fun j => if f a = j then
              a :: l.filter (fun x => decide (f x = j))
            else l.filter (fun x => decide (f x = j))) := by
        refine List.map_congr_left ?_
        intro j _
        by_cases hj : f a = j
        · rw [if_pos hj]
          simp [List.filter_cons, hj]
        · rw [if_neg hj]
          simp [List.filter_cons, hj]
      rw [hstep]
      refine (flatten_ite_cons_perm a _ n (f a)
        (hf a (List.mem_cons_self a l))).trans ?_
      exact (ih n (fun x hx => hf x (List.mem_cons_of_mem a hx))).cons a

/-- The trailing-empty-bucket elimination keeps prefixes: the surviving
buckets and pivots are initial segments of the originals. -/
theorem trimBuckets_take :
    ∀ (n : Nat) (buckets : List (List (Nat × Nat)))
      (kbs : List (List Nat)) (promoted : List Nat)
      (out : List (List (Nat × Nat)) × List (List Nat) × List Nat),
      trimBuckets n buckets kbs promoted = .ok out →
      buckets.length = promoted.length + 1 →
      out.1 = buckets.take out.1.length ∧
      out.2.2 = promoted.take out.2.2.length ∧
      out.1.length = out.2.2.length + 1 := by
  intro n
  induction n with
  | zero =>
      intro buckets kbs promoted out h
      exact absurd h (by simp [trimBuckets])
  | succ n ihn =>
      intro buckets kbs promoted out h hrel
      rw [trimBuckets] at h
      cases hgl : buckets.getLast? with
      | none => rw [hgl] at h; exact absurd h (by simp)
      | some last =>
          rw [hgl] at h
          dsimp only at h
          by_cases hle : last.isEmpty
          · rw [if_pos hle] at h
            cases hkl : kbs.getLast? with
            | none =>
                rw [hkl] at h
                dsimp only at h
                exact absurd h (by simp)
            | some lk =>
                cases hkp : kbs.dropLast.getLast? with
                | none =>
                    rw [hkl, hkp] at h
                    dsimp only at h
                    exact absurd h (by simp)
                | some prev =>
                    rw [hkl, hkp] at h
                    dsimp only at h
                    by_cases hpe : promoted.isEmpty
                    · rw [if_pos hpe] at h
                      exact absurd h (by simp)
                    · rw [if_neg hpe] at h
                      have hbne : buckets ≠ [] := by
                        intro hb
                        rw [hb] at hgl
                        simp at hgl
                      have hpne2 : promoted ≠ [] := by
                        intro hp
                        rw [hp] at hpe
                        simp at hpe
                      have hrel2 : buckets.dropLast.length =
                          promoted.dropLast.length + 1 := by
                        simp only [List.length_dropLast]
                        have h1 : 1 ≤ buckets.length :=
                          List.length_pos.2 hbne
                        have h2 : 1 ≤ promoted.length :=
                          List.length_pos.2 hpne2
                        omega
                      obtain ⟨t1, t2, t3⟩ := ihn buckets.dropLast _
                        promoted.dropLast out h hrel2
                      have hm1 : out.1.length ≤ buckets.dropLast.length := by
                        have := congrArg List.length t1
                        simp only [List.length_take] at this
                        omega
                      have hm2 : out.2.2.length ≤
                          promoted.dropLast.length := by
                        have := congrArg List.length t2
                        simp only [List.length_take] at this
                        omega
                      simp only [List.length_dropLast] at hm1 hm2
                      refine ⟨?_, ?_, t3⟩
                      · conv_lhs => rw [t1, List.dropLast_eq_take,
                          List.take_take]
                        congr 1
                        omega
                      · conv_lhs => rw [t2, List.dropLast_eq_take,
                          List.take_take]
                        congr 1
                        omega
          · rw [if_neg hle] at h
            injection h with h2
            subst h2
            exact ⟨(List.take_length buckets).symm,
              (List.take_length promoted).symm, hrel⟩

/-- A zip of three equal-length lists as an indexed range map. -/
theorem zip3_eq_range_map {α β γ : Type} (da : α) (db : β) (dc : γ) :
    ∀ (A : List α) (K : List β) (P : List γ),
      A.length = K.length → K.length = P.length →
      A.zip (K.zip P) = (List.range A.length).map
        (fun r => (A.getD r da, K.getD r db, P.getD r dc)) := by
  intro A
  induction A with
  | nil =>
      intro K P h1 h2
      rfl
  | cons a A ih =>
      intro K P h1 h2
      match K, P with
      | k :: K, p :: P =>
          have h1b : A.length = K.length := by simpa using h1
          have h2b : K.length = P.length := by simpa using h2
          have htail := ih K P h1b h2b
          show (a, k, p) :: A.zip (K.zip P) = _
          rw [htail]
          show _ = (List.range (A.length + 1)).map
            (fun r => ((a :: A).getD r da, (k :: K).getD r db,
              (p :: P).getD r dc))
          rw [List.range_succ_eq_map, List.map_cons, List.map_map]
          rw [List.cons.injEq]
          refine ⟨rfl, ?_⟩
          refine List.map_congr_left ?_
          intro r _
          rfl

/-- Builds the per-bucket item chain from indexed interval facts about
buckets and pivots. -/
theorem itemsChain_build (dec : Nat → Nat) (hi : Option Nat)
    (B : Nat → List (Nat × Nat)) (K : Nat → List Nat) (P : Nat → Nat) :
    ∀ (m i : Nat) (lo : Option Nat),
      (∀ r, i ≤ r → r < i + m →
        loOk (if r = i then lo else some (dec (P (r - 1)))) (dec (P r)) =
          true ∧
        hiOk hi (dec (P r)) = true ∧
        ∀ p ∈ B r,
          loOk (if r = i then lo else some (dec (P (r - 1)))) (dec p.1) =
            true ∧ dec p.1 ≤ dec (P r)) →
      itemsChain dec hi lo
        ((List.range m).map (fun r => (B (i + r), K (i + r), P (i + r))))
        (if m = 0 then lo else some (dec (P (i + m - 1)))) := by
  intro m
  induction m with
  | zero =>
      intro i lo hfacts
      show itemsChain dec hi lo [] lo
      rfl
  | succ m ih =>
      intro i lo hfacts
      rw [List.range_succ_eq_map]
      simp only [List.map_cons, List.map_map, Nat.add_zero]
      have hhead := hfacts i le_rfl (by omega)
      rw [if_pos rfl] at hhead
      obtain ⟨hh1, hh2, hh3⟩ := hhead
      refine ⟨hh1, hh2, hh3, ?_⟩
      have hshift : (List.range m).map
          (fun r => (B (i + Nat.succ r), K (i + Nat.succ r),
            P (i + Nat.succ r))) =
          (List.range m).map
          (fun r => (B ((i + 1) + r), K ((i + 1) + r), P ((i + 1) + r))) := by
        refine List.map_congr_left ?_
        intro r _
        have : i + Nat.succ r = (i + 1) + r := by omega
        rw [this]
      have hcomp : ((fun r => (B (i + r), K (i + r), P (i + r))) ∘
          Nat.succ) = fun r => (B (i + Nat.succ r), K (i + Nat.succ r),
            P (i + Nat.succ r)) := rfl
      rw [hcomp, hshift]
      have htail := ih (i + 1) (some (dec (P i))) ?_
      · have hend : (if Nat.succ m = 0 then lo
            else some (dec (P (i + Nat.succ m - 1)))) =
            (if m = 0 then some (dec (P i))
            else some (dec (P ((i + 1) + m - 1)))) := by
          by_cases hm : m = 0
          · subst hm
            have he2 : i + Nat.succ 0 - 1 = i := by omega
            rw [if_neg (Nat.succ_ne_zero 0), he2, if_pos rfl]
          · have he2 : i + Nat.succ m - 1 = (i + 1) + m - 1 := by omega
            rw [if_neg (Nat.succ_ne_zero m), he2, if_neg hm]
        rw [hend]
        exact htail
      · intro r hr1 hr2
        have hrfacts := hfacts r (by omega) (by omega)
        rw [if_neg (by omega)] at hrfacts
        by_cases hri : r = i + 1
        · subst hri
          have : i + 1 - 1 = i := by omega
          rw [this] at hrfacts
          rw [if_pos rfl]
          exact hrfacts
        · rw [if_neg hri]
          exact hrfacts

theorem getD_take_of_lt {α : Type} (l : List α) (n j : Nat) (d : α)
    (h : j < n) (h2 : j < l.length) :
    (l.take n).getD j d = l.getD j d := by
  have hlt : j < (l.take n).length := by
    simp only [List.length_take]
    omega
  rw [List.getD_eq_getElem _ _ hlt, List.getD_eq_getElem _ _ h2]
  simp [List.getElem_take]

theorem getD_map_dec (g : Nat → Nat) (l : List Nat) (j : Nat)
    (h : j < l.length) :
    (l.map g).getD j 0 = g (l.getD j 0) := by
  rw [List.getD_eq_getElem _ _ (by simpa using h),
    List.getD_eq_getElem _ _ h]
  simp

/-- Interval facts of one partition round of `LeafNode.split`: the
trimmed buckets and pivots form an item chain within the buffer's
interval, the final bucket lies above the last surviving pivot, and the
buckets together permute the buffer. -/
theorem leafSplit_round_ord (dec : Nat → Nat) (L : Nat)
    (buffer : List (Nat × Nat)) (keys : List Nat)
    (idxs : List Nat) (sampled : List (Nat × Nat)) (promoted : List Nat)
    (partitions : List ((Nat × Option Nat) × Nat))
    (lo hi : Option Nat)
    (hsam : sampleByIdx L idxs buffer = .ok sampled)
    (hps : Oracle.partition_sort dec L (fun p => p.1) id
      (buffer.map (fun p => (p.1, some p.2)) ++
        keys.map (fun k => (k, (none : Option Nat))))
      (sampled.map (fun p => p.1)) = .ok (promoted, partitions))
    (hbnd : ∀ p ∈ buffer, loOk lo (dec p.1) = true ∧
      hiOk hi (dec p.1) = true)
    (n0 : Nat) (buckets0 : List (List (Nat × Nat)))
    (kbs0 : List (List Nat))
    (hb : buckets0 =
      (List.range (promoted.length + 1)).map (pairBucket partitions))
    (hk : kbs0 =
      (List.range (promoted.length + 1)).map (keyBucket partitions))
    (b2 : List (List (Nat × Nat))) (k2 : List (List Nat)) (p2 : List Nat)
    (htrim : trimBuckets n0 buckets0 kbs0 promoted = .ok (b2, k2, p2))
    (hne : b2.all (fun b => !b.isEmpty) = true)
    (hkk : b2.length = k2.length) :
    ∃ lo2,
      itemsChain dec hi lo (b2.dropLast.zip (k2.dropLast.zip p2)) lo2 ∧
      (∀ p ∈ b2.getLastD [], loOk lo2 (dec p.1) = true ∧
        hiOk hi (dec p.1) = true) ∧
      List.Perm b2.flatten buffer := by
  haveI : IsTotal Nat (fun a b => dec (id a) ≤ dec (id b)) :=
    ⟨fun a b => le_total _ _⟩
  haveI : IsTrans Nat (fun a b => dec (id a) ≤ dec (id b)) :=
    ⟨fun a b c hab hbc => le_trans hab hbc⟩
  simp only [Oracle.partition_sort, Oracle.partition, ok_bind_eq_ok] at hps
  obtain ⟨pr, ⟨⟨u, hmas, hpr⟩, heq⟩⟩ := hps
  injection heq with heq2
  injection heq2 with heqp heqr
  injection hpr with hpr2
  set sp := List.insertionSort (fun a b => dec (id a) ≤ dec (id b))
    (sampled.map (fun p => p.1)) with hsp
  have hpromsp : promoted = sp := heqp.symm
  have hsdsorted : List.Sorted (fun a b : Nat => a ≤ b)
      (sp.map (fun x => dec (id x))) := by
    refine List.pairwise_map.2 ?_
    exact List.sorted_insertionSort _ _
  have hsd : List.insertionSort (fun a b : Nat => a ≤ b)
      (sp.map (fun x => dec (id x))) = sp.map (fun x => dec (id x)) :=
    List.Sorted.insertionSort_eq hsdsorted
  rw [hsd] at hpr2
  set f : Nat → Nat :=
    fun c => bisl (· < ·) (sp.map (fun x => dec (id x))) (dec c) with hf
  have hpart : partitions =
      (buffer.map (fun p => (p.1, some p.2)) ++
        keys.map (fun k => (k, (none : Option Nat)))).map
        (fun n => (n, f n.1)) := by
    rw [← heqr, ← hpr2]
  have hsmem : ∀ q ∈ sampled, q ∈ buffer := by
    intro q hq
    rw [sampleByIdx] at hsam
    split at hsam
    · rename_i hcond
      injection hsam with hs2
      rw [← hs2] at hq
      obtain ⟨i, hi, hgi⟩ := List.mem_map.1 hq
      rw [← hgi]
      exact getD_mem_of_lt buffer i (0, 0) (hcond.2.2 i hi)
    · exact absurd hsam (by simp)
  have hpivmem : ∀ x ∈ sp, ∃ q ∈ buffer, q.1 = x := by
    intro x hx
    have hx2 : x ∈ sampled.map (fun p => p.1) :=
      (List.perm_insertionSort _ _).mem_iff.1 (hsp ▸ hx)
    obtain ⟨q, hq, hqx⟩ := List.mem_map.1 hx2
    exact ⟨q, hsmem q hq, hqx⟩
  have hpivbnd : ∀ x ∈ sp, loOk lo (dec x) = true ∧
      hiOk hi (dec x) = true := by
    intro x hx
    obtain ⟨q, hq, hqx⟩ := hpivmem x hx
    have := hbnd q hq
    rw [hqx] at this
    exact this
  have hplen : promoted.length = sp.length := by rw [hpromsp]
  have hlen0 : buckets0.length = promoted.length + 1 := by
    rw [hb]; simp
  have hklen0 : kbs0.length = buckets0.length := by
    rw [hb, hk]; simp
  obtain ⟨ht1, ht2, ht3⟩ := trimBuckets_take n0 buckets0 kbs0 promoted
    (b2, k2, p2) htrim hlen0
  obtain ⟨tf1, tf2, tf3, tf4, tf5⟩ := trimBuckets_spec dec buffer n0
    buckets0 kbs0 promoted (b2, k2, p2) htrim hklen0
  dsimp only at ht1 ht2 ht3 tf1
  have hble : b2.length ≤ buckets0.length := by
    have := congrArg List.length ht1
    simp only [List.length_take] at this
    omega
  have hp2len : p2.length ≤ promoted.length := by
    have := congrArg List.length ht2
    simp only [List.length_take] at this
    omega
  have hbktj : ∀ j, j < promoted.length + 1 →
      buckets0.getD j [] = buffer.filter (fun p => f p.1 = j) := by
    intro j hj
    rw [hb]
    rw [List.getD_eq_getElem _ _ (by simpa using hj)]
    rw [List.getElem_map, List.getElem_range]
    rw [hpart]
    exact pairBucket_char f buffer keys j
  have hb2j : ∀ j, j < b2.length →
      b2.getD j [] = buffer.filter (fun p => f p.1 = j) := by
    intro j hj
    rw [ht1, getD_take_of_lt _ _ _ _ hj (by omega)]
    exact hbktj j (by omega)
  have hp2j : ∀ j, j < p2.length → p2.getD j 0 = promoted.getD j 0 := by
    intro j hj
    rw [ht2, getD_take_of_lt _ _ _ _ hj (by omega)]
  have hfmem : ∀ (j : Nat), ∀ p ∈ buffer.filter (fun p => f p.1 = j),
      p ∈ buffer ∧ f p.1 = j := by
    intro j p hp
    refine ⟨List.mem_of_mem_filter hp, ?_⟩
    have := List.of_mem_filter hp
    simpa using this
  have hlow : ∀ (j : Nat), 1 ≤ j →
      ∀ p ∈ buffer.filter (fun p => f p.1 = j),
      dec (promoted.getD (j - 1) 0) < dec p.1 := by
    intro j hj p hp
    obtain ⟨hpb, hpf⟩ := hfmem j p hp
    have hfp : bisl (· < ·) (sp.map (fun x => dec (id x))) (dec p.1) =
        j := by
      rw [hf] at hpf
      exact hpf
    have hjsp : j ≤ sp.length := by
      have := bisl_le_length (· < ·) (sp.map (fun x => dec (id x)))
        (dec p.1)
      rw [hfp] at this
      simpa using this
    have hlt := bisl_prefix_lt (sp.map (fun x => dec (id x))) (dec p.1)
      (j - 1) (by rw [hfp]; omega)
    have hgd : (sp.map (fun x => dec (id x))).getD (j - 1) 0 =
        dec (id (sp.getD (j - 1) 0)) :=
      getD_map_dec (fun x => dec (id x)) sp (j - 1) (by omega)
    rw [hgd] at hlt
    rw [hpromsp]
    exact hlt
  have hhigh : ∀ (j : Nat), j < sp.length →
      ∀ p ∈ buffer.filter (fun p => f p.1 = j),
      dec p.1 ≤ dec (promoted.getD j 0) := by
    intro j hjlen p hp
    obtain ⟨hpb, hpf⟩ := hfmem j p hp
    have hfp : bisl (· < ·) (sp.map (fun x => dec (id x))) (dec p.1) =
        j := by
      rw [hf] at hpf
      exact hpf
    have hge := bisl_at_ge (sp.map (fun x => dec (id x))) (dec p.1)
      (by rw [hfp]; simpa using hjlen)
    rw [hfp] at hge
    have hgd : (sp.map (fun x => dec (id x))).getD j 0 =
        dec (id (sp.getD j 0)) :=
      getD_map_dec (fun x => dec (id x)) sp j hjlen
    rw [hgd] at hge
    rw [hpromsp]
    exact hge
  have hb2ne : ∀ (j : Nat), j < b2.length → b2.getD j [] ≠ [] := by
    intro j hj
    have hmem : b2.getD j [] ∈ b2 := getD_mem_of_lt b2 j [] hj
    have := List.all_eq_true.1 hne _ hmem
    intro hnil
    rw [hnil] at this
    simp at this
  have hpivstep : ∀ (r : Nat), 1 ≤ r → r < p2.length →
      dec (promoted.getD (r - 1) 0) < dec (promoted.getD r 0) := by
    intro r h1 h2
    have hrb : r < b2.length := by omega
    obtain ⟨p, hp⟩ := List.exists_mem_of_ne_nil _ (hb2ne r hrb)
    rw [hb2j r hrb] at hp
    have hl2 := hlow r h1 p hp
    have hh2 := hhigh r (by omega) p hp
    omega
  have hfacts : ∀ r, 0 ≤ r → r < 0 + p2.length →
      loOk (if r = 0 then lo
        else some (dec (promoted.getD (r - 1) 0)))
        (dec (promoted.getD r 0)) = true ∧
      hiOk hi (dec (promoted.getD r 0)) = true ∧
      ∀ p ∈ buffer.filter (fun p => f p.1 = r),
        loOk (if r = 0 then lo
          else some (dec (promoted.getD (r - 1) 0))) (dec p.1) = true ∧
        dec p.1 ≤ dec (promoted.getD r 0) := by
    intro r _ hr
    have hrp : r < promoted.length := by omega
    have hpmem : promoted.getD r 0 ∈ sp := by
      rw [hpromsp]
      exact getD_mem_of_lt sp r 0 (by omega)
    refine ⟨?_, (hpivbnd _ hpmem).2, ?_⟩
    · by_cases hz : r = 0
      · subst hz
        rw [if_pos rfl]
        exact (hpivbnd _ hpmem).1
      · rw [if_neg hz]
        have := hpivstep r (by omega) (by omega)
        simp only [loOk, decide_eq_true_eq]
        exact this
    · intro p hp
      refine ⟨?_, hhigh r (by omega) p hp⟩
      by_cases hz : r = 0
      · subst hz
        rw [if_pos rfl]
        exact (hbnd p (hfmem 0 p hp).1).1
      · rw [if_neg hz]
        have := hlow r (by omega) p hp
        simp only [loOk, decide_eq_true_eq]
        exact this
  have hchain := itemsChain_build dec hi
    (fun r => buffer.filter (fun p => f p.1 = r))
    (fun r => k2.dropLast.getD r [])
    (fun r => promoted.getD r 0)
    p2.length 0 lo hfacts
  have hdrop1 : b2.dropLast.length = p2.length := by
    simp only [List.length_dropLast]
    omega
  have hdrop2 : k2.dropLast.length = p2.length := by
    simp only [List.length_dropLast]
    omega
  have hzip : b2.dropLast.zip (k2.dropLast.zip p2) =
      (List.range p2.length).map
        (fun r => (buffer.filter (fun p => f p.1 = (0 + r)),
          k2.dropLast.getD (0 + r) [],
          promoted.getD (0 + r) 0)) := by
    rw [zip3_eq_range_map [] [] 0 b2.dropLast k2.dropLast p2
      (by omega) (by omega)]
    rw [hdrop1]
    refine List.map_congr_left ?_
    intro r hr
    have hrlt : r < p2.length := List.mem_range.1 hr
    have he1 : b2.dropLast.getD r [] = b2.getD r [] := by
      rw [List.dropLast_eq_take]
      exact getD_take_of_lt b2 (b2.length - 1) r [] (by omega) (by omega)
    rw [he1, hb2j r (by omega), hp2j r hrlt]
    simp only [Nat.zero_add]
  refine ⟨(if p2.length = 0 then lo
    else some (dec (promoted.getD (0 + p2.length - 1) 0))), ?_, ?_, ?_⟩
  · rw [hzip]
    exact hchain
  · intro p hp
    have hlast : b2.getLastD [] = b2.getD (b2.length - 1) [] :=
      getLastD_eq_getD b2 []
    rw [hlast, hb2j (b2.length - 1) (by omega)] at hp
    refine ⟨?_, (hbnd p (hfmem _ p hp).1).2⟩
    by_cases hz : p2.length = 0
    · rw [if_pos hz]
      have hz2 : b2.length - 1 = 0 := by omega
      rw [hz2] at hp
      exact (hbnd p (hfmem 0 p hp).1).1
    · rw [if_neg hz]
      have hz2 : b2.length - 1 = p2.length := by omega
      rw [hz2] at hp
      have := hlow p2.length (by omega) p hp
      simp only [loOk, decide_eq_true_eq]
      have harg : 0 + p2.length - 1 = p2.length - 1 := by omega
      rw [harg]
      exact this
  · rw [tf1, hb]
    have hcongr : (List.range (promoted.length + 1)).map
        (pairBucket partitions) =
        (List.range (promoted.length + 1)).map
          (fun j => buffer.filter (fun p => f p.1 = j)) := by
      refine List.map_congr_left ?_
      intro j _
      rw [hpart]
      exact pairBucket_char f buffer keys j
    rw [hcongr]
    refine flatten_filter_perm (fun p => f p.1) buffer
      (promoted.length + 1) ?_
    intro x _
    have := bisl_le_length (· < ·) (sp.map (fun q => dec (id q)))
      (dec x.1)
    simp only [List.length_map] at this
    rw [hf]
    simp only
    omega

theorem loOk_trans_le (lo : Option Nat) (a b : Nat)
    (h : loOk lo a = true) (hab : a ≤ b) : loOk lo b = true := by
  cases lo with
  | none => rfl
  | some c => simp only [loOk, decide_eq_true_eq] at h ⊢; omega

theorem zip3_map_fst {α β γ : Type} :
    ∀ (A : List α) (K : List β) (P : List γ),
      A.length = K.length → K.length = P.length →
      (A.zip (K.zip P)).map (fun it => it.1) = A := by
  intro A
  induction A with
  | nil => intro K P h1 h2; rfl
  | cons a A ih =>
      intro K P h1 h2
      match K, P with
      | k :: K, p :: P =>
          simp only [List.zip_cons_cons, List.map_cons]
          rw [ih K P (by simpa using h1) (by simpa using h2)]

/-- Order and content specification of `LeafNode.split`
(pope.py:151-203): in `main` mode the new sibling leaves form an
interval chain within the buffer's bounds, the final buffer lies above
the chain's last pivot, and the sibling buffers plus the final buffer
permute the input buffer; in `buckets` mode the produced entries chain
across the items and permute the item buckets. -/
theorem leafSplitGo_ord (dec : Nat → Nat) (L : Nat) :
    ∀ (fuel : Nat) (inp : LSIn)
      (out : List (List (Nat × Nat) × Nat) × List (Nat × Nat) ×
        List (Nat × List (Nat × Nat)) × List (List Nat)),
      leafSplitGo dec L fuel inp = .ok out →
      (∀ rnd buffer keys, inp = .main rnd buffer keys →
        ∀ lo hi, (∀ p ∈ buffer, loOk lo (dec p.1) = true ∧
            hiOk hi (dec p.1) = true) →
        ∃ lo2, chain dec hi lo out.1 lo2 ∧
          (∀ p ∈ out.2.1, loOk lo2 (dec p.1) = true ∧
            hiOk hi (dec p.1) = true) ∧
          (out.2.1 = [] → out.1 = [] ∧ lo2 = lo) ∧
          List.Perm ((out.1.map Prod.fst).flatten ++ out.2.1) buffer) ∧
      (∀ rnd items, inp = .buckets rnd items →
        ∀ lo hi lo2, itemsChain dec hi lo items lo2 →
        chain dec hi lo out.1 lo2 ∧
        List.Perm ((out.1.map Prod.fst).flatten)
          ((items.map (fun it => it.1)).flatten)) := by
  intro fuel
  induction fuel with
  | zero => intro inp out h; exact absurd h (by simp [leafSplitGo])
  | succ fuel ih =>
      intro inp out h
      match inp with
      | .main rnd buffer keys =>
          refine ⟨?_, by intro r i heq; cases heq⟩
          intro rnd0 buffer0 keys0 heq lo hi hbnd
          cases heq
          simp only [leafSplitGo] at h
          split at h
          · split at h
            · injection h with h2
              subst h2
              refine ⟨lo, rfl, hbnd, fun _ => ⟨rfl, rfl⟩, by simp⟩
            · rw [ok_bind_eq_ok] at h
              obtain ⟨u, hm, h⟩ := h
              injection h with h2
              subst h2
              refine ⟨lo, rfl, hbnd, fun _ => ⟨rfl, rfl⟩, by simp⟩
          · rename_i hcond
            cases rnd with
            | nil => exact absurd h (by simp)
            | cons idxs rnd1 =>
                rw [ok_bind_eq_ok] at h
                obtain ⟨sampled, hsam, h⟩ := h
                rw [ok_bind_eq_ok] at h
                obtain ⟨⟨promoted, partitions⟩, hps, h⟩ := h
                dsimp only at h
                rw [ok_bind_eq_ok] at h
                obtain ⟨⟨b2, k2, p2⟩, htrim, h⟩ := h
                dsimp only at h
                rw [ok_bind_eq_ok] at h
                obtain ⟨u1, hne, h⟩ := h
                rw [ok_bind_eq_ok] at h
                obtain ⟨u2, hlens, h⟩ := h
                rw [ok_bind_eq_ok] at h
                obtain ⟨⟨sibs, w1, asg1, rnd2⟩, hrec1, h⟩ := h
                dsimp only at h
                rw [ok_bind_eq_ok] at h
                obtain ⟨⟨sibs2, fbuf, asg2, rnd3⟩, hrec2, h⟩ := h
                dsimp only at h
                injection h with h2
                subst h2
                rw [massert_ok_iff] at hne hlens
                simp only [Bool.and_eq_true, beq_iff_eq] at hlens
                obtain ⟨hl1, hl2⟩ := hlens
                obtain ⟨loM, hitems, hlastbnd, hpermB⟩ :=
                  leafSplit_round_ord dec L buffer keys idxs sampled
                    promoted partitions lo hi hsam hps hbnd _ _ _ rfl rfl
                    b2 k2 p2 htrim hne hl1
                obtain ⟨hchainE, hpermE⟩ :=
                  (ih (.buckets rnd1 (b2.dropLast.zip (k2.dropLast.zip p2)))
                    (sibs, w1, asg1, rnd2) hrec1).2 rnd1 _ rfl lo hi loM
                    hitems
                obtain ⟨lo2, hchain2, hfbnd, hemp2, hperm2⟩ :=
                  (ih (.main rnd2 (b2.getLastD []) (k2.getLastD []))
                    (sibs2, fbuf, asg2, rnd3) hrec2).1 rnd2 _ _ rfl loM hi
                    hlastbnd
                have hlastne : b2.getLastD [] ≠ [] := by
                  have hb2pos : 1 ≤ b2.length := by omega
                  rw [getLastD_eq_getD]
                  intro hnil
                  have hmem : b2.getD (b2.length - 1) [] ∈ b2 :=
                    getD_mem_of_lt b2 _ [] (by omega)
                  have := List.all_eq_true.1 hne _ hmem
                  rw [hnil] at this
                  simp at this
                refine ⟨lo2, ?_, hfbnd, ?_, ?_⟩
                · exact chain_append dec hi sibs lo loM lo2 sibs2
                    hchainE hchain2
                · intro hfnil
                  obtain ⟨hs2nil, _⟩ := hemp2 hfnil
                  rw [hfnil, hs2nil] at hperm2
                  simp only [List.map_nil, List.flatten_nil,
                    List.append_nil] at hperm2
                  exact absurd hperm2.symm.eq_nil hlastne
                · show List.Perm
                    (((sibs ++ sibs2).map Prod.fst).flatten ++ fbuf) buffer
                  rw [List.map_append, List.flatten_append,
                    List.append_assoc]
                  refine List.Perm.trans
                    (List.Perm.append hpermE hperm2) ?_
                  have hmid : (b2.dropLast.zip
                      (k2.dropLast.zip p2)).map (fun it => it.1) =
                      b2.dropLast := by
                    refine zip3_map_fst _ _ _ ?_ ?_
                    · simp only [List.length_dropLast]; omega
                    · simp only [List.length_dropLast]; omega
                  rw [hmid, flatten_dropLast_getLastD]
                  exact hpermB
      | .buckets rnd [] =>
          refine ⟨(by intro r b k heq; cases heq), ?_⟩
          intro rnd0 items0 heq lo hi lo2 hitems
          cases heq
          simp only [leafSplitGo] at h
          injection h with h2
          subst h2
          cases hitems
          exact ⟨rfl, by simp⟩
      | .buckets rnd ((bucket, bkeys, pkey) :: rest) =>
          refine ⟨(by intro r b k heq; cases heq), ?_⟩
          intro rnd0 items0 heq lo hi lo2 hitems
          cases heq
          obtain ⟨hi1, hi2, hi3, hitail⟩ := hitems
          simp only [leafSplitGo] at h
          rw [ok_bind_eq_ok] at h
          obtain ⟨⟨entries, w, asg1, rnd2⟩, hbr, h⟩ := h
          dsimp only at h
          rw [ok_bind_eq_ok] at h
          obtain ⟨⟨entries2, w2, asg2, rnd3⟩, hrest, h⟩ := h
          dsimp only at h
          injection h with h2
          subst h2
          obtain ⟨hchainR, hpermR⟩ :=
            (ih (.buckets rnd2 rest) (entries2, w2, asg2, rnd3) hrest).2
              rnd2 rest rfl (some (dec pkey)) hi lo2 hitail
          have hheadfacts :
              chain dec hi lo entries (some (dec pkey)) ∧
              List.Perm ((entries.map Prod.fst).flatten) bucket := by
            split at hbr
            · rename_i hke
              injection hbr with hbr2
              injection hbr2 with he1 hbr3
              injection hbr3 with he2 hbr4
              injection hbr4 with he3 he4
              subst he1
              refine ⟨⟨hi1, hi2, hi3, rfl⟩, ?_⟩
              simpa using List.Perm.refl bucket
            · rename_i hke
              rw [ok_bind_eq_ok] at hbr
              obtain ⟨⟨recSibs, recFinal, recAsg, rnd2x⟩, hrec, hbr⟩ := hbr
              dsimp only at hbr
              injection hbr with hbr2
              injection hbr2 with he1 hbr3
              injection hbr3 with he2 hbr4
              injection hbr4 with he3 he4
              subst he1
              have hbbnd : ∀ p ∈ bucket, loOk lo (dec p.1) = true ∧
                  hiOk (some (dec pkey)) (dec p.1) = true := by
                intro p hp
                refine ⟨(hi3 p hp).1, ?_⟩
                simp only [hiOk, decide_eq_true_eq]
                exact (hi3 p hp).2
              obtain ⟨lo3, hchain3, hfb3, hemp3, hperm3⟩ :=
                (ih (.main rnd bucket bkeys)
                  (recSibs, recFinal, recAsg, rnd2x) hrec).1 rnd _ _ rfl
                  lo (some (dec pkey)) hbbnd
              have hchainW : chain dec hi lo recSibs lo3 :=
                chain_weaken dec (some (dec pkey)) hi
                  (fun v hv => hiOk_trans hi (dec pkey) v hi2
                    (by simpa [hiOk, decide_eq_true_eq] using hv))
                  recSibs lo lo3 hchain3
              have hlopk : loOk lo3 (dec pkey) = true := by
                cases hfe : recFinal with
                | nil =>
                    obtain ⟨hs3, hl3⟩ := hemp3 hfe
                    rw [hl3]
                    exact hi1
                | cons q qs =>
                    have hq := hfb3 q
                      (by rw [hfe]; exact List.mem_cons_self q qs)
                    refine loOk_trans_le lo3 (dec q.1) (dec pkey) hq.1 ?_
                    simpa [hiOk, decide_eq_true_eq] using hq.2
              have hstep : chain dec hi lo3 [(recFinal, pkey)]
                  (some (dec pkey)) := by
                refine ⟨hlopk, hi2, ?_, rfl⟩
                intro p hp
                refine ⟨(hfb3 p hp).1, ?_⟩
                simpa [hiOk, decide_eq_true_eq] using (hfb3 p hp).2
              refine ⟨chain_append dec hi recSibs lo lo3 (some (dec pkey))
                [(recFinal, pkey)] hchainW hstep, ?_⟩
              show List.Perm
                (((recSibs ++ [(recFinal, pkey)]).map Prod.fst).flatten)
                bucket
              rw [List.map_append, List.flatten_append]
              simpa using hperm3
          obtain ⟨hchainH, hpermH⟩ := hheadfacts
          constructor
          · exact chain_append dec hi entries lo (some (dec pkey)) lo2
              entries2 hchainH hchainR
          · show List.Perm (((entries ++ entries2).map Prod.fst).flatten) _
            rw [List.map_append, List.flatten_append]
            simp only [List.map_cons, List.flatten_cons]
            exact List.Perm.append hpermH hpermR

theorem perm_mid4 {α : Type} (A B C D : List α) :
    List.Perm ((A ++ B) ++ (C ++ D)) ((A ++ C) ++ (B ++ D)) := by
  rw [List.append_assoc, List.append_assoc]
  refine List.Perm.append_left A ?_
  rw [← List.append_assoc, ← List.append_assoc]
  exact List.perm_append_comm.append_right D

theorem traverseL_append :
    ∀ (A B : List PTree),
      PTree.traverseL (A ++ B) =
        PTree.traverseL A ++ PTree.traverseL B := by
  intro A B
  induction A with
  | nil => rfl
  | cons c A ih =>
      show PTree.traverse c ++ PTree.traverseL (A ++ B) = _
      rw [ih, ← List.append_assoc]
      rfl

theorem traverse_addPairs (t : PTree) (ps : List (Nat × Nat)) :
    List.Perm (PTree.traverse (t.addPairs ps))
      (PTree.traverse t ++ ps) := by
  match t with
  | .pleaf buf => exact List.Perm.refl _
  | .pnode s buf cs =>
      show List.Perm ((buf ++ ps) ++ PTree.traverseL cs)
        ((buf ++ PTree.traverseL cs) ++ ps)
      rw [List.append_assoc, List.append_assoc]
      exact List.Perm.append_left buf List.perm_append_comm

theorem traverseL_pleaf_map :
    ∀ (sibs : List (List (Nat × Nat) × Nat)),
      PTree.traverseL (sibs.map (fun e => PTree.pleaf e.1)) =
        (sibs.map Prod.fst).flatten := by
  intro sibs
  induction sibs with
  | nil => rfl
  | cons e sibs ih =>
      show e.1 ++ PTree.traverseL (sibs.map (fun e => PTree.pleaf e.1)) = _
      rw [ih]
      rfl

theorem pord_addPairs (dec : Nat → Nat) (t : PTree)
    (ps : List (Nat × Nat)) (lo hi : Option Nat)
    (h : pord dec lo hi t = true)
    (hps : ∀ p ∈ ps, loOk lo (dec p.1) = true ∧
      hiOk hi (dec p.1) = true) :
    pord dec lo hi (t.addPairs ps) = true := by
  match t with
  | .pleaf buf =>
      simp only [PTree.addPairs, pord, List.all_eq_true,
        Bool.and_eq_true] at h ⊢
      intro p hp
      rcases List.mem_append.1 hp with h1 | h2
      · exact h p h1
      · exact hps p h2
  | .pnode s buf cs =>
      simp only [PTree.addPairs, pord, Bool.and_eq_true,
        List.all_eq_true] at h ⊢
      refine ⟨?_, h.2⟩
      intro p hp
      rcases List.mem_append.1 hp with h1 | h2
      · exact h.1 p h1
      · exact hps p h2

mutual

/-- Order and content preservation of `InternalNode.split`: on an
order-valid subtree with in-interval flushed pairs, the split's result
is order-valid on the same interval and its content is the old content
plus the flushed pairs. -/
theorem treeSplitN_ord (dec : Nat → Nat) (L : Nat) :
    ∀ (t : PTree) (fuel : Nat) (rnd : List (List Nat))
      (extra : List (Nat × Nat)) (keys : List Nat) (lo hi : Option Nat)
      (out : PTree × List (Nat × List (Nat × Nat)) × List (List Nat)),
      treeSplitN dec L fuel t rnd extra keys = .ok out →
      pord dec lo hi t = true →
      (∀ p ∈ extra, loOk lo (dec p.1) = true ∧
        hiOk hi (dec p.1) = true) →
      pord dec lo hi out.1 = true ∧
      List.Perm (PTree.traverse out.1) (PTree.traverse t ++ extra) := by
  intro t
  match t with
  | .pleaf _ =>
      intro fuel rnd extra keys lo hi out h
      exact absurd h (by simp [treeSplitN])
  | .pnode sorted buffer cs =>
      intro fuel rnd extra keys lo hi out h hord hextra
      simp only [treeSplitN, ok_bind_eq_ok] at h
      obtain ⟨u1, hkl, h⟩ := h
      obtain ⟨u2, hsl, h⟩ := h
      simp only [pord, Bool.and_eq_true, List.all_eq_true] at hord
      obtain ⟨hbufb, hordL⟩ := hord
      have hbe : ∀ p ∈ buffer ++ extra, loOk lo (dec p.1) = true ∧
          hiOk hi (dec p.1) = true := by
        intro p hp
        rcases List.mem_append.1 hp with h1 | h2
        · have := hbufb p h1
          simpa [Bool.and_eq_true] using this
        · exact hextra p h2
      split at h
      · injection h with h2
        subst h2
        constructor
        · simp only [pord, Bool.and_eq_true, List.all_eq_true]
          refine ⟨?_, hordL⟩
          intro p hp
          have := hbe p hp
          simp [Bool.and_eq_true, this.1, this.2]
        · show List.Perm ((buffer ++ extra) ++ PTree.traverseL cs)
            ((buffer ++ PTree.traverseL cs) ++ extra)
          rw [List.append_assoc, List.append_assoc]
          exact List.Perm.append_left buffer List.perm_append_comm
      · rw [ok_bind_eq_ok] at h
        obtain ⟨u3, hcl, h⟩ := h
        rw [ok_bind_eq_ok] at h
        obtain ⟨partitions, hpart, h⟩ := h
        rw [ok_bind_eq_ok] at h
        obtain ⟨⟨cs2, sorted2, asg, rnd2⟩, hsc, h⟩ := h
        dsimp only at h
        injection h with h2
        subst h2
        rw [massert_ok_iff] at hcl
        simp only [beq_iff_eq] at hcl
        simp only [Oracle.partition, ok_bind_eq_ok] at hpart
        obtain ⟨u4, hmassl, hpart⟩ := hpart
        have hpivs := pordL_pivots dec sorted lo hi cs hordL
        have hid : (fun x : Nat => dec (id x)) = fun x => dec x := rfl
        have hsd : List.insertionSort (fun a b : Nat => a ≤ b)
            (sorted.map (fun x => dec (id x))) = sorted.map dec := by
          rw [hid]
          exact sorted_map_dec_insertionSort dec sorted hpivs.1
        rw [hsd] at hpart
        injection hpart with hpart2
        set f : Nat → Nat :=
          fun c => bisl (· < ·) (sorted.map dec) (dec c) with hf
        have hpartval : partitions =
            ((buffer ++ extra).map (fun p => (p.1, some p.2)) ++
              keys.map (fun k => (k, (none : Option Nat)))).map
              (fun n => (n, f n.1)) := hpart2.symm
        have hpbj : ∀ j, pairBucket partitions j =
            (buffer ++ extra).filter (fun p => f p.1 = j) := by
          intro j
          rw [hpartval]
          exact pairBucket_char f (buffer ++ extra) keys j
        have hcslen : cs.length = sorted.length + 1 :=
          pordL_length dec sorted lo hi cs hordL
        have hbuck : ∀ (r : Nat), r < cs.length →
            ∀ p ∈ pairBucket partitions (0 + r),
              loOk (if r = 0 then lo
                else some (dec (sorted.getD (r - 1) 0))) (dec p.1) =
                true ∧
              hiOk (if r < sorted.length then
                some (dec (sorted.getD r 0)) else hi) (dec p.1) =
                true := by
          intro r hr p hp
          rw [Nat.zero_add, hpbj r] at hp
          have hpmem : p ∈ buffer ++ extra :=
            List.mem_of_mem_filter hp
          have hpf : f p.1 = r := by
            have := List.of_mem_filter hp
            simpa using this
          have hfp : bisl (· < ·) (sorted.map dec) (dec p.1) = r := by
            rw [hf] at hpf
            exact hpf
          constructor
          · by_cases hz : r = 0
            · subst hz
              rw [if_pos rfl]
              exact (hbe p hpmem).1
            · rw [if_neg hz]
              have hlt := bisl_prefix_lt (sorted.map dec) (dec p.1)
                (r - 1) (by rw [hfp]; omega)
              have hrlen : r ≤ sorted.length := by
                have := bisl_le_length (· < ·) (sorted.map dec) (dec p.1)
                rw [hfp] at this
                simpa using this
              have hgd : (sorted.map dec).getD (r - 1) 0 =
                  dec (sorted.getD (r - 1) 0) :=
                getD_map_dec dec sorted (r - 1) (by omega)
              rw [hgd] at hlt
              simp only [loOk, decide_eq_true_eq]
              exact hlt
          · by_cases hr2 : r < sorted.length
            · rw [if_pos hr2]
              have hge := bisl_at_ge (sorted.map dec) (dec p.1)
                (by rw [hfp]; simpa using hr2)
              rw [hfp] at hge
              have hgd : (sorted.map dec).getD r 0 =
                  dec (sorted.getD r 0) :=
                getD_map_dec dec sorted r hr2
              rw [hgd] at hge
              simp only [hiOk, decide_eq_true_eq]
              exact hge
            · rw [if_neg hr2]
              exact (hbe p hpmem).2
        obtain ⟨cord, cperm⟩ := splitChildren_ord dec L cs fuel rnd 0
          sorted partitions lo hi (cs2, sorted2, asg, rnd2) hsc hordL
          hbuck
        constructor
        · show pord dec lo hi (.pnode sorted2 [] cs2) = true
          simp only [pord, Bool.and_eq_true, List.all_eq_true]
          exact ⟨by intro p hp; simp at hp, cord⟩
        · show List.Perm (PTree.traverse (.pnode sorted2 [] cs2))
            ((buffer ++ PTree.traverseL cs) ++ extra)
          have hstep1 : PTree.traverse (.pnode sorted2 [] cs2) =
              PTree.traverseL cs2 := rfl
          rw [hstep1]
          refine cperm.trans ?_
          have hcongr : (List.range cs.length).map
              (fun r => pairBucket partitions (0 + r)) =
              (List.range cs.length).map
                (fun j => (buffer ++ extra).filter (fun p => f p.1 = j))
              := by
            refine List.map_congr_left ?_
            intro r _
            rw [Nat.zero_add, hpbj r]
          rw [hcongr]
          have hbperm : List.Perm
              (((List.range cs.length).map
                (fun j => (buffer ++ extra).filter
                  (fun p => f p.1 = j))).flatten)
              (buffer ++ extra) := by
            refine flatten_filter_perm (fun p => f p.1) (buffer ++ extra)
              cs.length ?_
            intro x _
            have := bisl_le_length (· < ·) (sorted.map dec) (dec x.1)
            simp only [List.length_map] at this
            rw [hf]
            simp only
            omega
          refine (List.Perm.append_left (PTree.traverseL cs)
            hbperm).trans ?_
          rw [← List.append_assoc]
          refine List.Perm.append_right extra ?_
          exact List.perm_append_comm

/-- Order and content preservation of the child walk of
`InternalNode.split`, relative to the absolute bucket offset `i`. -/
theorem splitChildren_ord (dec : Nat → Nat) (L : Nat) :
    ∀ (cs : List PTree) (fuel : Nat) (rnd : List (List Nat)) (i : Nat)
      (ss : List Nat) (partitions : List ((Nat × Option Nat) × Nat))
      (lo hi : Option Nat)
      (out : List PTree × List Nat × List (Nat × List (Nat × Nat)) ×
        List (List Nat)),
      splitChildren dec L fuel rnd i cs ss partitions = .ok out →
      pordL dec lo hi ss cs = true →
      (∀ (r : Nat), r < cs.length →
        ∀ p ∈ pairBucket partitions (i + r),
          loOk (if r = 0 then lo else some (dec (ss.getD (r - 1) 0)))
            (dec p.1) = true ∧
          hiOk (if r < ss.length then some (dec (ss.getD r 0)) else hi)
            (dec p.1) = true) →
      pordL dec lo hi out.2.1 out.1 = true ∧
      List.Perm (PTree.traverseL out.1)
        (PTree.traverseL cs ++
          ((List.range cs.length).map
            (fun r => pairBucket partitions (i + r))).flatten) := by
  intro cs
  match cs with
  | [] =>
      intro fuel rnd i ss partitions lo hi out h
      exact absurd h (by simp [splitChildren])
  | [c] =>
      intro fuel rnd i ss partitions lo hi out h hordL hbuck
      match ss with
      | _ :: _ => exact absurd h (by simp [splitChildren])
      | [] =>
          simp only [splitChildren, ok_bind_eq_ok] at h
          obtain ⟨⟨cseg, pivs, asg1, rnd2⟩, hbr, h⟩ := h
          dsimp only at h
          injection h with h2
          subst h2
          have hcord : pord dec lo hi c = true := by
            simpa [pordL] using hordL
          have hbuck0 := hbuck 0 (by simp)
          rw [if_pos rfl, if_neg (by simp)] at hbuck0
          rw [Nat.add_zero] at hbuck0
          have hgoalbuck : ((List.range 1).map
              (fun r => pairBucket partitions (i + r))).flatten =
              pairBucket partitions i :=
            flatten_range_one (fun j => pairBucket partitions j) i
          split at hbr
          · rename_i hkbe
            injection hbr with hbr2
            injection hbr2 with he1 hbr3
            injection hbr3 with he2 hbr4
            injection hbr4 with he3 he4
            subst he1
            subst he2
            constructor
            · show pordL dec lo hi [] [c.addPairs (pairBucket partitions i)]
                = true
              show pord dec lo hi (c.addPairs (pairBucket partitions i)) =
                true
              exact pord_addPairs dec c _ lo hi hcord hbuck0
            · show List.Perm
                (PTree.traverse (c.addPairs (pairBucket partitions i)) ++
                  ([] : List (Nat × Nat)))
                (PTree.traverse c ++ ([] : List (Nat × Nat)) ++
                  ((List.range ([c] : List PTree).length).map
                    (fun r => pairBucket partitions (i + r))).flatten)
              simp only [List.length_cons, List.length_nil, Nat.zero_add,
                hgoalbuck, List.append_nil]
              exact traverse_addPairs c _
          · rename_i hkbe
            match c, hcord with
            | .pleaf cbuf, hcord =>
                rw [ok_bind_eq_ok] at hbr
                obtain ⟨⟨sibs, fbuf, asg, rndx⟩, hls, hbr⟩ := hbr
                dsimp only at hbr
                injection hbr with hbr2
                injection hbr2 with he1 hbr3
                injection hbr3 with he2 hbr4
                injection hbr4 with he3 he4
                subst he1
                subst he2
                have hcb : ∀ p ∈ cbuf ++ pairBucket partitions i,
                    loOk lo (dec p.1) = true ∧ hiOk hi (dec p.1) =
                      true := by
                  intro p hp
                  rcases List.mem_append.1 hp with h1 | h2
                  · have := hcord
                    simp only [pord, List.all_eq_true,
                      Bool.and_eq_true] at this
                    exact this p h1
                  · exact hbuck0 p h2
                obtain ⟨lo2, hchain, hfb, hemp, hperm⟩ :=
                  (leafSplitGo_ord dec L fuel
                    (.main rnd (cbuf ++ pairBucket partitions i)
                      (keyBucket partitions i))
                    (sibs, fbuf, asg, rndx) hls).1 rnd _ _ rfl lo hi hcb
                constructor
                · exact chain_pordL dec sibs lo hi lo2 fbuf hchain hfb
                · rw [traverseL_append, traverseL_pleaf_map]
                  show List.Perm ((sibs.map Prod.fst).flatten ++
                    (fbuf ++ ([] : List (Nat × Nat))))
                    (cbuf ++ ([] : List (Nat × Nat)) ++
                      ((List.range
                        ([PTree.pleaf cbuf] : List PTree).length).map
                        (fun r => pairBucket partitions (i + r))).flatten)
                  simp only [List.length_cons, List.length_nil,
                    Nat.zero_add, hgoalbuck, List.append_nil]
                  exact hperm
            | .pnode sx bx csx, hcord =>
                rw [ok_bind_eq_ok] at hbr
                obtain ⟨⟨cc, asg, rndx⟩, hts, hbr⟩ := hbr
                dsimp only at hbr
                injection hbr with hbr2
                injection hbr2 with he1 hbr3
                injection hbr3 with he2 hbr4
                injection hbr4 with he3 he4
                subst he1
                subst he2
                obtain ⟨hocc, hpcc⟩ := treeSplitN_ord dec L
                  (.pnode sx bx csx) fuel rnd (pairBucket partitions i)
                  (keyBucket partitions i) lo hi (cc, asg, rndx) hts hcord
                  hbuck0
                constructor
                · show pordL dec lo hi [] [cc] = true
                  show pord dec lo hi cc = true
                  exact hocc
                · show List.Perm
                    (PTree.traverse cc ++ ([] : List (Nat × Nat)))
                    (PTree.traverse (.pnode sx bx csx) ++
                      ([] : List (Nat × Nat)) ++
                      ((List.range
                        ([PTree.pnode sx bx csx] : List PTree).length).map
                        (fun r => pairBucket partitions (i + r))).flatten)
                  simp only [List.length_cons, List.length_nil,
                    Nat.zero_add, hgoalbuck, List.append_nil]
                  exact hpcc
  | c :: c2 :: csr =>
      intro fuel rnd i ss partitions lo hi out h hordL hbuck
      match ss with
      | [] => exact absurd h (by simp [splitChildren])
      | s :: ssr =>
          simp only [splitChildren, ok_bind_eq_ok] at h
          obtain ⟨⟨cseg, pivs, asg1, rnd2⟩, hbr, h⟩ := h
          dsimp only at h
          obtain ⟨⟨cs3, pivs2, asg2, rnd3⟩, hrest, h⟩ := h
          dsimp only at h
          injection h with h2
          subst h2
          simp only [pordL, Bool.and_eq_true] at hordL
          obtain ⟨⟨⟨hslo, hshi⟩, hcord⟩, htail⟩ := hordL
          have hbuck0 := hbuck 0 (by simp)
          rw [if_pos rfl, if_pos (by simp)] at hbuck0
          rw [Nat.add_zero] at hbuck0
          have hs0 : (s :: ssr).getD 0 0 = s := rfl
          rw [hs0] at hbuck0
          have hbucktail : ∀ (r : Nat), r < (c2 :: csr).length →
              ∀ p ∈ pairBucket partitions ((i + 1) + r),
                loOk (if r = 0 then some (dec s)
                  else some (dec (ssr.getD (r - 1) 0))) (dec p.1) =
                  true ∧
                hiOk (if r < ssr.length then
                  some (dec (ssr.getD r 0)) else hi) (dec p.1) =
                  true := by
            intro r hr p hp
            have harg : (i + 1) + r = i + (r + 1) := by omega
            rw [harg] at hp
            have := hbuck (r + 1) (by simpa using hr) p hp
            rw [if_neg (by omega)] at this
            constructor
            · by_cases hz : r = 0
              · subst hz
                rw [if_pos rfl]
                have harg2 : (1 : Nat) - 1 = 0 := rfl
                rw [harg2, hs0] at this
                exact this.1
              · rw [if_neg hz]
                have harg2 : r + 1 - 1 = (r - 1) + 1 := by omega
                rw [harg2, List.getD_cons_succ] at this
                exact this.1
            · by_cases hr2 : r < ssr.length
              · rw [if_pos hr2]
                rw [if_pos (by simp; omega), List.getD_cons_succ] at this
                exact this.2
              · rw [if_neg hr2]
                rw [if_neg (by simp; omega)] at this
                exact this.2
          obtain ⟨rord, rperm⟩ := splitChildren_ord dec L (c2 :: csr)
            fuel rnd2 (i + 1) ssr partitions (some (dec s)) hi
            (cs3, pivs2, asg2, rnd3) hrest htail hbucktail
          have hheadbuck : ∀ p ∈ pairBucket partitions i,
              loOk lo (dec p.1) = true ∧
              hiOk (some (dec s)) (dec p.1) = true := hbuck0
          have hheadfacts :
              pordL dec lo hi (pivs ++ s :: pivs2) (cseg ++ cs3) = true ∧
              List.Perm (PTree.traverseL cseg)
                (PTree.traverse c ++ pairBucket partitions i) := by
            split at hbr
            · rename_i hkbe
              injection hbr with hbr2
              injection hbr2 with he1 hbr3
              injection hbr3 with he2 hbr4
              injection hbr4 with he3 he4
              subst he1
              subst he2
              constructor
              · show pordL dec lo hi ([] ++ s :: pivs2) _ = true
                show pordL dec lo hi (s :: pivs2)
                  (c.addPairs (pairBucket partitions i) :: cs3) = true
                refine pordL_cons dec lo hi s _ _ _ ⟨hslo, hshi⟩ ?_ rord
                exact pord_addPairs dec c _ lo (some (dec s)) hcord
                  hheadbuck
              · show List.Perm
                  (PTree.traverse (c.addPairs (pairBucket partitions i)) ++
                    ([] : List (Nat × Nat))) _
                rw [List.append_nil]
                exact traverse_addPairs c _
            · rename_i hkbe
              match c, hcord with
              | .pleaf cbuf, hcord =>
                  rw [ok_bind_eq_ok] at hbr
                  obtain ⟨⟨sibs, fbuf, asg, rndx⟩, hls, hbr⟩ := hbr
                  dsimp only at hbr
                  injection hbr with hbr2
                  injection hbr2 with he1 hbr3
                  injection hbr3 with he2 hbr4
                  injection hbr4 with he3 he4
                  subst he1
                  subst he2
                  have hcb : ∀ p ∈ cbuf ++ pairBucket partitions i,
                      loOk lo (dec p.1) = true ∧
                      hiOk (some (dec s)) (dec p.1) = true := by
                    intro p hp
                    rcases List.mem_append.1 hp with h1 | h2
                    · have := hcord
                      simp only [pord, List.all_eq_true,
                        Bool.and_eq_true] at this
                      exact this p h1
                    · exact hheadbuck p h2
                  obtain ⟨lo2, hchain, hfb, hemp, hperm⟩ :=
                    (leafSplitGo_ord dec L fuel
                      (.main rnd (cbuf ++ pairBucket partitions i)
                        (keyBucket partitions i))
                      (sibs, fbuf, asg, rndx) hls).1 rnd _ _ rfl lo
                      (some (dec s)) hcb
                  have hfb2 : ∀ p ∈ fbuf, loOk lo2 (dec p.1) = true ∧
                      dec p.1 ≤ dec s := by
                    intro p hp
                    refine ⟨(hfb p hp).1, ?_⟩
                    simpa [hiOk, decide_eq_true_eq] using (hfb p hp).2
                  have hlos2 : loOk lo2 (dec s) = true := by
                    cases hfe : fbuf with
                    | nil =>
                        obtain ⟨hs3, hl3⟩ := hemp hfe
                        rw [hl3]
                        exact hslo
                    | cons q qs =>
                        have hq := hfb2 q
                          (by rw [hfe]; exact List.mem_cons_self q qs)
                        exact loOk_trans_le lo2 (dec q.1) (dec s) hq.1
                          hq.2
                  constructor
                  · have hassoc : (sibs.map (fun e => PTree.pleaf e.1) ++
                        [PTree.pleaf fbuf]) ++ cs3 =
                        sibs.map (fun e => PTree.pleaf e.1) ++
                          PTree.pleaf fbuf :: cs3 := by
                      rw [List.append_assoc]
                      rfl
                    rw [hassoc]
                    exact chain_pordL_cons dec sibs lo hi lo2 fbuf s
                      pivs2 cs3 hchain hfb2 hlos2 hshi rord
                  · rw [traverseL_append, traverseL_pleaf_map]
                    show List.Perm ((sibs.map Prod.fst).flatten ++
                      (fbuf ++ ([] : List (Nat × Nat)))) _
                    rw [List.append_nil]
                    exact hperm
              | .pnode sx bx csx, hcord =>
                  rw [ok_bind_eq_ok] at hbr
                  obtain ⟨⟨cc, asg, rndx⟩, hts, hbr⟩ := hbr
                  dsimp only at hbr
                  injection hbr with hbr2
                  injection hbr2 with he1 hbr3
                  injection hbr3 with he2 hbr4
                  injection hbr4 with he3 he4
                  subst he1
                  subst he2
                  obtain ⟨hocc, hpcc⟩ := treeSplitN_ord dec L
                    (.pnode sx bx csx) fuel rnd (pairBucket partitions i)
                    (keyBucket partitions i) lo (some (dec s))
                    (cc, asg, rndx) hts hcord hheadbuck
                  constructor
                  · show pordL dec lo hi ([] ++ s :: pivs2) _ = true
                    show pordL dec lo hi (s :: pivs2) (cc :: cs3) = true
                    exact pordL_cons dec lo hi s _ _ _ ⟨hslo, hshi⟩ hocc
                      rord
                  · show List.Perm
                      (PTree.traverse cc ++ ([] : List (Nat × Nat))) _
                    rw [List.append_nil]
                    exact hpcc
          obtain ⟨hhord, hhperm⟩ := hheadfacts
          constructor
          · exact hhord
          · show List.Perm (PTree.traverseL (cseg ++ cs3)) _
            rw [traverseL_append]
            refine (List.Perm.append hhperm rperm).trans ?_
            have hlen : (c :: c2 :: csr).length =
                (c2 :: csr).length + 1 := rfl
            rw [hlen, flatten_range_shift
              (fun j => pairBucket partitions j) (c2 :: csr).length i]
            have hshape : PTree.traverseL (c :: c2 :: csr) =
                PTree.traverse c ++ PTree.traverseL (c2 :: csr) := rfl
            rw [hshape]
            exact perm_mid4 (PTree.traverse c) (pairBucket partitions i)
              (PTree.traverseL (c2 :: csr))
              (((List.range (c2 :: csr).length).map
                (fun r => pairBucket partitions (i + 1 + r))).flatten)

end

/-- Order and content preservation of the root call of `Pope.split`. -/
theorem popeSplitTop_ord (dec : Nat → Nat) (L : Nat) (fuel : Nat)
    (rnd : List (List Nat)) (t : PTree) (keys : List Nat)
    (out : PTree × List (Nat × List (Nat × Nat)) × List (List Nat))
    (h : popeSplitTop dec L fuel rnd t keys = .ok out)
    (hord : pord dec none none t = true) :
    pord dec none none out.1 = true ∧
    List.Perm (PTree.traverse out.1) (PTree.traverse t) := by
  match t with
  | .pleaf buf =>
      simp only [popeSplitTop, leafSplit, ok_bind_eq_ok] at h
      obtain ⟨⟨sibs, fbuf, asg, rnd2⟩, hls, h⟩ := h
      dsimp only at h
      have hbnd : ∀ p ∈ buf, loOk none (dec p.1) = true ∧
          hiOk none (dec p.1) = true := by
        intro p _
        exact ⟨rfl, rfl⟩
      obtain ⟨lo2, hchain, hfb, hemp, hperm⟩ :=
        (leafSplitGo_ord dec L fuel (.main rnd buf keys)
          (sibs, fbuf, asg, rnd2) hls).1 rnd _ _ rfl none none hbnd
      split at h
      · rename_i hse
        have hsnil : sibs = [] := List.isEmpty_iff.1 hse
        injection h with h2
        subst h2
        constructor
        · show pord dec none none (.pleaf fbuf) = true
          simp only [pord, List.all_eq_true, Bool.and_eq_true]
          intro p hp
          exact ⟨rfl, (hfb p hp).2⟩
        · show List.Perm fbuf buf
          rw [hsnil] at hperm
          simpa using hperm
      · injection h with h2
        subst h2
        constructor
        · show pord dec none none (.pnode (sibs.map (fun e => e.2)) []
            (sibs.map (fun e => PTree.pleaf e.1) ++ [.pleaf fbuf])) = true
          simp only [pord, Bool.and_eq_true, List.all_eq_true]
          refine ⟨by intro p hp; simp at hp, ?_⟩
          exact chain_pordL dec sibs none none lo2 fbuf hchain hfb
        · show List.Perm (PTree.traverse (.pnode _ [] _)) buf
          have hstep : PTree.traverse (.pnode (sibs.map (fun e => e.2)) []
              (sibs.map (fun e => PTree.pleaf e.1) ++ [.pleaf fbuf])) =
              PTree.traverseL
                (sibs.map (fun e => PTree.pleaf e.1) ++ [.pleaf fbuf]) :=
            rfl
          rw [hstep, traverseL_append, traverseL_pleaf_map]
          show List.Perm ((sibs.map Prod.fst).flatten ++
            (fbuf ++ ([] : List (Nat × Nat)))) buf
          rw [List.append_nil]
          exact hperm
  | .pnode s b cs =>
      have := treeSplitN_ord dec L (.pnode s b cs) fuel rnd [] keys
        none none out h hord (by intro p hp; simp at hp)
      refine ⟨this.1, ?_⟩
      refine this.2.trans ?_
      simp

theorem pactL_mem :
    ∀ (L : Nat) (cs : List PTree), pactL L cs = true →
      ∀ c ∈ cs, (pact L c || psq L c) = true := by
  intro L cs
  induction cs with
  | nil => intro _ c hc; simp at hc
  | cons c0 cs ih =>
      intro h c hc
      simp only [pactL, Bool.and_eq_true] at h
      rcases List.mem_cons.1 hc with rfl | hc2
      · exact h.1
      · exact ih h.2 c hc2

theorem pactL_of_forall :
    ∀ (L : Nat) (cs : List PTree),
      (∀ c ∈ cs, (pact L c || psq L c) = true) → pactL L cs = true := by
  intro L cs
  induction cs with
  | nil => intro _; rfl
  | cons c0 cs ih =>
      intro h
      simp only [pactL, Bool.and_eq_true]
      exact ⟨h c0 (List.mem_cons_self _ _),
        ih (fun c hc => h c (List.mem_cons_of_mem _ hc))⟩

theorem psqL_mem :
    ∀ (L : Nat) (cs : List PTree), psqL L cs = true →
      ∀ c ∈ cs, psq L c = true := by
  intro L cs
  induction cs with
  | nil => intro _ c hc; simp at hc
  | cons c0 cs ih =>
      intro h c hc
      simp only [psqL, Bool.and_eq_true] at h
      rcases List.mem_cons.1 hc with rfl | hc2
      · exact h.1
      · exact ih h.2 c hc2

theorem traverseL_map_fst :
    ∀ (sibs : List (PTree × Nat)),
      PTree.traverseL (sibs.map Prod.fst) =
        (sibs.map (fun e => PTree.traverse e.1)).flatten := by
  intro sibs
  induction sibs with
  | nil => rfl
  | cons e sibs ih =>
      show PTree.traverse e.1 ++ PTree.traverseL (sibs.map Prod.fst) = _
      rw [ih]
      rfl

mutual

/-- `rebalance` is the identity on a subtree that already satisfies the
non-root size bounds everywhere. -/
theorem rebalanceT_noop (L : Nat) (hL : 2 ≤ L) :
    ∀ (t : PTree) (isRoot : Bool), psq L t = true →
      rebalanceT L t isRoot = .ok ([], t) := by
  intro t
  match t with
  | .pleaf buf => intro isRoot _; rfl
  | .pnode s buf cs =>
      intro isRoot h
      simp only [psq, Bool.and_eq_true, beq_iff_eq,
        decide_eq_true_eq] at h
      obtain ⟨⟨hcnt, hlo2, hhi2⟩, hkids⟩ := h
      simp only [rebalanceT]
      rw [rebalanceChildren_noop L hL cs s hkids hcnt]
      simp only [bind_ok]
      rw [rebalWhile]
      rw [if_neg (by omega)]
      simp only [bind_ok]
      rw [if_neg (by omega)]
      simp only [bind_ok]
      have hm1 : (decide (1 ≤ s.length) && decide (s.length ≤ L)) =
          true := by
        simp only [Bool.and_eq_true, decide_eq_true_eq]
        omega
      rw [hm1]
      simp only [massert_true, bind_ok]
      have hm2 : (isRoot || decide (L / 2 ≤ s.length)) = true := by
        cases isRoot
        · simp only [Bool.false_or, decide_eq_true_eq]
          omega
        · rfl
      rw [hm2]
      simp only [massert_true, bind_ok]

/-- `rebalance` is the identity on a child list that already satisfies
the bounds. -/
theorem rebalanceChildren_noop (L : Nat) (hL : 2 ≤ L) :
    ∀ (cs : List PTree) (ss : List Nat), psqL L cs = true →
      cs.length = ss.length + 1 →
      rebalanceChildren L cs ss = .ok (cs, ss) := by
  intro cs
  match cs with
  | [] => intro ss _ hcnt; simp at hcnt
  | [c] =>
      intro ss h hcnt
      match ss with
      | [] =>
          simp only [psqL, Bool.and_eq_true] at h
          simp only [rebalanceChildren]
          rw [rebalanceT_noop L hL c false h.1]
          simp only [bind_ok]
          rfl
  | c :: c2 :: csr =>
      intro ss h hcnt
      match ss with
      | s :: ssr =>
          simp only [psqL, Bool.and_eq_true] at h
          simp only [rebalanceChildren]
          rw [rebalanceT_noop L hL c false h.1]
          simp only [bind_ok]
          rw [rebalanceChildren_noop L hL (c2 :: csr) ssr
            (by simp only [psqL, Bool.and_eq_true]; exact h.2)
            (by simpa using hcnt)]
          simp only [bind_ok]
          rfl

end

/-- Splitting a valid pivot/child alternation at pivot `n`. -/
theorem pordL_split (dec : Nat → Nat) :
    ∀ (n : Nat) (ss : List Nat) (cs : List PTree) (lo hi : Option Nat),
      pordL dec lo hi ss cs = true → n < ss.length →
      pordL dec lo (some (dec (ss.getD n 0))) (ss.take n)
        (cs.take (n + 1)) = true ∧
      loOk lo (dec (ss.getD n 0)) = true ∧
      hiOk hi (dec (ss.getD n 0)) = true ∧
      pordL dec (some (dec (ss.getD n 0))) hi (ss.drop (n + 1))
        (cs.drop (n + 1)) = true := by
  intro n
  induction n with
  | zero =>
      intro ss cs lo hi h hlen
      match ss, cs with
      | x :: ssr, [] => exact absurd h (by simp [pordL])
      | x :: ssr, [c] => exact absurd h (by simp [pordL])
      | x :: ssr, c :: c2 :: csr =>
          simp only [pordL, Bool.and_eq_true] at h
          obtain ⟨⟨⟨hxlo, hxhi⟩, hc⟩, htail⟩ := h
          exact ⟨hc, hxlo, hxhi, htail⟩
  | succ n ih =>
      intro ss cs lo hi h hlen
      match ss, cs with
      | x :: ssr, [] => exact absurd h (by simp [pordL])
      | x :: ssr, [c] => exact absurd h (by simp [pordL])
      | x :: ssr, c :: c2 :: csr =>
          simp only [pordL, Bool.and_eq_true] at h
          obtain ⟨⟨⟨hxlo, hxhi⟩, hc⟩, htail⟩ := h
          obtain ⟨ih1, ih2, ih3, ih4⟩ := ih ssr (c2 :: csr)
            (some (dec x)) hi htail (by simpa using hlen)
          refine ⟨?_, ?_, ih3, ih4⟩
          · show pordL dec lo (some (dec (ssr.getD n 0)))
              (x :: ssr.take n) (c :: (c2 :: csr).take (n + 1)) = true
            refine pordL_cons dec lo _ x c _ _ ⟨hxlo, ?_⟩ hc ih1
            have hlt : dec x < dec (ssr.getD n 0) := by
              simpa [loOk, decide_eq_true_eq] using ih2
            simp only [hiOk, decide_eq_true_eq]
            omega
          · have hlt : dec x < dec (ssr.getD n 0) := by
              simpa [loOk, decide_eq_true_eq] using ih2
            exact loOk_trans lo (dec x) _ hxlo hlt

/-- Order and content facts of `InternalNode.split_off`. -/
theorem splitOff_ord (dec : Nat → Nat) (L n : Nat) (sorted : List Nat)
    (cs : List PTree) (lo hi : Option Nat)
    (out : (PTree × Nat) × List Nat × List PTree)
    (h : splitOff L n sorted cs = .ok out)
    (hord : pordL dec lo hi sorted cs = true) :
    pord dec lo (some (dec out.1.2)) out.1.1 = true ∧
    loOk lo (dec out.1.2) = true ∧ hiOk hi (dec out.1.2) = true ∧
    pordL dec (some (dec out.1.2)) hi out.2.1 out.2.2 = true ∧
    PTree.traverse out.1.1 ++ PTree.traverseL out.2.2 =
      PTree.traverseL cs := by
  simp only [splitOff, ok_bind_eq_ok] at h
  obtain ⟨u, hm, h⟩ := h
  cases hg : sorted.get? n with
  | none => rw [hg] at h; exact absurd h (by simp)
  | some sep =>
      rw [hg] at h
      injection h with h2
      subst h2
      have hlen : n < sorted.length := by
        by_contra hc
        rw [List.get?_eq_none.2 (by omega)] at hg
        cases hg
      have hsep : sorted.getD n 0 = sep := by
        have hgg : sorted.get ⟨n, hlen⟩ = sep := by
          have h3 := List.get?_eq_get hlen
          rw [h3] at hg
          exact Option.some.inj hg
        rw [List.getD_eq_getElem _ _ hlen]
        exact hgg
      obtain ⟨s1, s2, s3, s4⟩ := pordL_split dec n sorted cs lo hi hord
        hlen
      rw [hsep] at s1 s2 s3 s4
      refine ⟨?_, s2, s3, s4, ?_⟩
      · show pord dec lo (some (dec sep))
          (.pnode (sorted.take n) [] (cs.take (n + 1))) = true
        simp only [pord, Bool.and_eq_true, List.all_eq_true]
        exact ⟨by intro p hp; simp at hp, s1⟩
      · show PTree.traverseL (cs.take (n + 1)) ++
          PTree.traverseL (cs.drop (n + 1)) = PTree.traverseL cs
        rw [← traverseL_append, List.take_append_drop]

/-- Order and content preservation of the `while` loop of
`rebalance`. -/
theorem rebalWhile_ord (dec : Nat → Nat) (L : Nat) (hL : 2 ≤ L) :
    ∀ (f : Nat) (sorted : List Nat) (cs : List PTree)
      (acc : List (PTree × Nat)) (lo hi lo0 : Option Nat)
      (out : List (PTree × Nat) × List Nat × List PTree),
      rebalWhile L f sorted cs acc = .ok out →
      pordL dec lo hi sorted cs = true →
      chainN dec hi lo0 acc lo →
      (∀ e ∈ acc, pact L e.1 = true) →
      pactL L cs = true →
      ∃ lo2, chainN dec hi lo0 out.1 lo2 ∧
        pordL dec lo2 hi out.2.1 out.2.2 = true ∧
        (acc.map (fun e => PTree.traverse e.1)).flatten ++
          PTree.traverseL cs =
        (out.1.map (fun e => PTree.traverse e.1)).flatten ++
          PTree.traverseL out.2.2 ∧
        (∀ e ∈ out.1, pact L e.1 = true) ∧
        pactL L out.2.2 = true ∧
        acc.length ≤ out.1.length ∧
        (out.1 = acc → lo2 = lo) := by
  intro f
  induction f with
  | zero =>
      intro sorted cs acc lo hi lo0 out h
      exact absurd h (by simp [rebalWhile])
  | succ f ih =>
      intro sorted cs acc lo hi lo0 out h hord hchain hacc hkids
      rw [rebalWhile] at h
      split at h
      · rename_i hbig
        rw [ok_bind_eq_ok] at h
        obtain ⟨⟨⟨sib, sep⟩, s2, c2⟩, hso, h⟩ := h
        dsimp only at h
        obtain ⟨o1, o2, o3, o4, o5⟩ := splitOff_ord dec L (L / 2) sorted
          cs lo hi ((sib, sep), s2, c2) hso hord
        dsimp only at o1 o2 o3 o4 o5
        have hl2 : L / 2 < sorted.length := by omega
        have hsibpact : pact L sib = true := by
          have hsib : sib = .pnode (sorted.take (L / 2)) []
              (cs.take (L / 2 + 1)) := by
            simp only [splitOff, ok_bind_eq_ok] at hso
            obtain ⟨u, hm, hso⟩ := hso
            cases hg : sorted.get? (L / 2) with
            | none => rw [hg] at hso; exact absurd hso (by simp)
            | some sep2 =>
                rw [hg] at hso
                injection hso with hso2
                have h1 := congrArg Prod.fst hso2
                have := congrArg Prod.fst h1
                exact this.symm
          rw [hsib]
          have hclen : cs.length = sorted.length + 1 :=
            pordL_length dec sorted lo hi cs hord
          simp only [pact, Bool.and_eq_true, beq_iff_eq,
            decide_eq_true_eq, List.isEmpty_iff]
          repeat' apply And.intro
          all_goals first
            | rfl
            | (simp only [List.length_take]; omega)
            | (refine pactL_of_forall L _ ?_
               intro c hc
               exact pactL_mem L cs hkids c
                 ((List.take_sublist _ _).mem hc))
            | trivial
        have hc2pact : pactL L c2 = true := by
          have hc2 : c2 = cs.drop (L / 2 + 1) := by
            simp only [splitOff, ok_bind_eq_ok] at hso
            obtain ⟨u, hm, hso⟩ := hso
            cases hg : sorted.get? (L / 2) with
            | none => rw [hg] at hso; exact absurd hso (by simp)
            | some sep2 =>
                rw [hg] at hso
                injection hso with hso2
                have h1 := congrArg Prod.snd hso2
                have := congrArg Prod.snd h1
                exact this.symm
          rw [hc2]
          refine pactL_of_forall L _ ?_
          intro c hc
          exact pactL_mem L cs hkids c ((List.drop_sublist _ _).mem hc)
        have hchain2 : chainN dec hi lo0 (acc ++ [(sib, sep)])
            (some (dec sep)) :=
          chainN_append dec hi acc lo0 lo (some (dec sep)) [(sib, sep)]
            hchain ⟨o2, o3, o1, rfl⟩
        have hacc2 : ∀ e ∈ acc ++ [(sib, sep)], pact L e.1 = true := by
          intro e he
          rcases List.mem_append.1 he with h1 | h2
          · exact hacc e h1
          · rcases List.mem_cons.1 h2 with rfl | h3
            · exact hsibpact
            · simp at h3
        obtain ⟨lo2, r1, r2, r3, r4, r5, r6, r7⟩ := ih s2 c2
          (acc ++ [(sib, sep)]) (some (dec sep)) hi lo0 out h o4 hchain2
          hacc2 hc2pact
        have hlenacc : (acc ++ [(sib, sep)]).length = acc.length + 1 := by
          simp
        refine ⟨lo2, r1, r2, ?_, r4, r5, by omega, ?_⟩
        · rw [← r3]
          rw [List.map_append, List.flatten_append, List.append_assoc]
          congr 1
          show PTree.traverseL cs =
            (PTree.traverse sib ++ ([] : List (Nat × Nat))) ++
              PTree.traverseL c2
          rw [List.append_nil]
          exact o5.symm
        · intro heq
          exfalso
          have hlen1 := congrArg List.length heq
          omega
      · injection h with h2
        subst h2
        exact ⟨lo, hchain, hord, rfl, hacc, hkids, le_rfl, fun _ => rfl⟩

theorem splitOff_struct (L n : Nat) (sorted : List Nat)
    (cs : List PTree) (out : (PTree × Nat) × List Nat × List PTree)
    (h : splitOff L n sorted cs = .ok out) :
    out.1.1 = .pnode (sorted.take n) [] (cs.take (n + 1)) ∧
    out.2.1 = sorted.drop (n + 1) ∧ out.2.2 = cs.drop (n + 1) ∧
    n < sorted.length := by
  simp only [splitOff, ok_bind_eq_ok] at h
  obtain ⟨u, hm, h⟩ := h
  cases hg : sorted.get? n with
  | none => rw [hg] at h; exact absurd h (by simp)
  | some sep =>
      rw [hg] at h
      injection h with h2
      subst h2
      refine ⟨rfl, rfl, rfl, ?_⟩
      by_contra hc
      rw [List.get?_eq_none.2 (by omega)] at hg
      cases hg

theorem splitOff_pact (dec : Nat → Nat) (L n : Nat) (sorted : List Nat)
    (cs : List PTree) (lo hi : Option Nat)
    (out : (PTree × Nat) × List Nat × List PTree)
    (h : splitOff L n sorted cs = .ok out)
    (hord : pordL dec lo hi sorted cs = true)
    (hkids : pactL L cs = true) (hn : 1 ≤ n) :
    pact L out.1.1 = true ∧ pactL L out.2.2 = true := by
  obtain ⟨e1, e2, e3, hlen⟩ := splitOff_struct L n sorted cs out h
  have hclen : cs.length = sorted.length + 1 :=
    pordL_length dec sorted lo hi cs hord
  constructor
  · rw [e1]
    simp only [pact, Bool.and_eq_true, beq_iff_eq, decide_eq_true_eq,
      List.isEmpty_iff]
    repeat' apply And.intro
    all_goals first
      | rfl
      | (simp only [List.length_take]; omega)
      | (refine pactL_of_forall L _ ?_
         intro c hc
         exact pactL_mem L cs hkids c ((List.take_sublist _ _).mem hc))
      | trivial
  · rw [e3]
    refine pactL_of_forall L _ ?_
    intro c hc
    exact pactL_mem L cs hkids c ((List.drop_sublist _ _).mem hc)

theorem chainN_weaken (dec : Nat → Nat) (hi hi2 : Option Nat)
    (himp : ∀ v, hiOk hi v = true → hiOk hi2 v = true) :
    ∀ (A : List (PTree × Nat)) (lo lo2 : Option Nat),
      chainN dec hi lo A lo2 → chainN dec hi2 lo A lo2 := by
  intro A
  induction A with
  | nil => intro lo lo2 h; exact h
  | cons e A ih =>
      obtain ⟨u, piv⟩ := e
      intro lo lo2 h
      obtain ⟨ha, hb, hc, hd⟩ := h
      exact ⟨ha, himp _ hb, hc, ih _ _ hd⟩

mutual

/-- Order and content preservation of the global `rebalance` pass over a
post-split subtree: its new left siblings form an interval chain below
the node that remains, the content is unchanged, and the post-split
shape classification is maintained. -/
theorem rebalanceT_ord (dec : Nat → Nat) (L : Nat) (hL : 2 ≤ L) :
    ∀ (t : PTree) (isRoot : Bool) (out : List (PTree × Nat) × PTree)
      (lo hi : Option Nat),
      rebalanceT L t isRoot = .ok out →
      pord dec lo hi t = true →
      (pact L t || psq L t) = true →
      ∃ lo2, chainN dec hi lo out.1 lo2 ∧
        pord dec lo2 hi out.2 = true ∧
        (out.1 = [] → lo2 = lo) ∧
        (out.1 ≠ [] → ∃ w, loOk lo2 w = true ∧ hiOk hi w = true) ∧
        (out.1.map (fun e => PTree.traverse e.1)).flatten ++
          PTree.traverse out.2 = PTree.traverse t ∧
        (pact L out.2 || psq L out.2) = true ∧
        (∀ e ∈ out.1, pact L e.1 = true) := by
  intro t
  match t with
  | .pleaf buf =>
      intro isRoot out lo hi h hord hps
      have heq : rebalanceT L (.pleaf buf) isRoot =
          .ok ([], .pleaf buf) := rfl
      rw [heq] at h
      injection h with h2
      subst h2
      exact ⟨lo, rfl, hord, fun _ => rfl, fun hne => absurd rfl hne,
        rfl, by rfl, by intro e he; simp at he⟩
  | .pnode sorted buffer cs =>
      intro isRoot out lo hi h hord hps
      simp only [Bool.or_eq_true] at hps
      rcases hps with hpact | hpsq
      · simp only [pact, Bool.and_eq_true, beq_iff_eq,
          decide_eq_true_eq, List.isEmpty_iff] at hpact
        obtain ⟨⟨⟨hbe, hcnt⟩, hs1⟩, hkids⟩ := hpact
        subst hbe
        simp only [pord, Bool.and_eq_true, List.all_eq_true] at hord
        obtain ⟨-, hordL⟩ := hord
        simp only [rebalanceT, ok_bind_eq_ok] at h
        obtain ⟨⟨cs2, sorted2⟩, hrc, h⟩ := h
        dsimp only at h
        obtain ⟨⟨sibsW, s3, c3⟩, hrw, h⟩ := h
        dsimp only at h
        obtain ⟨⟨sibs2, s4, c4⟩, hfin, h⟩ := h
        dsimp only at h
        obtain ⟨u1, hm1, h⟩ := h
        obtain ⟨u2, hm2, h⟩ := h
        injection h with h2
        subst h2
        rw [massert_ok_iff] at hm1
        simp only [Bool.and_eq_true, decide_eq_true_eq] at hm1
        obtain ⟨co, cc, ck⟩ := rebalanceChildren_ord dec L hL cs sorted
          (cs2, sorted2) lo hi hrc hordL hkids
        dsimp only at co cc ck
        obtain ⟨loW, w1, w2, w3, w4, w5, w6, w7⟩ := rebalWhile_ord dec L
          hL (sorted2.length + 1) sorted2 cs2 [] lo hi lo
          (sibsW, s3, c3) hrw co rfl (by intro e he; simp at he) ck
        dsimp only at w1 w2 w3 w4 w5 w6 w7
        simp only [List.map_nil, List.flatten_nil, List.nil_append] at w3
        have hfinfacts :
            ∃ lo2, chainN dec hi lo sibs2 lo2 ∧
              pordL dec lo2 hi s4 c4 = true ∧
              (sibs2.map (fun e => PTree.traverse e.1)).flatten ++
                PTree.traverseL c4 = PTree.traverseL cs2 ∧
              (∀ e ∈ sibs2, pact L e.1 = true) ∧
              pactL L c4 = true ∧
              (sibs2 = [] → lo2 = lo) := by
          split at hfin
          · rename_i hbig
            rw [ok_bind_eq_ok] at hfin
            obtain ⟨⟨sib, s4x, c4x⟩, hso, hfin⟩ := hfin
            dsimp only at hfin
            injection hfin with hf2
            injection hf2 with hf3 hf4
            injection hf4 with hf5 hf6
            subst hf3
            subst hf5
            subst hf6
            obtain ⟨o1, o2, o3, o4, o5⟩ := splitOff_ord dec L
              (s3.length / 2) s3 c3 loW hi (sib, s4x, c4x) hso w2
            obtain ⟨hsp, hcp⟩ := splitOff_pact dec L (s3.length / 2) s3
              c3 loW hi (sib, s4x, c4x) hso w2 w5 (by omega)
            refine ⟨some (dec sib.2), ?_, o4, ?_, ?_, hcp, ?_⟩
            · refine chainN_append dec hi sibsW lo loW _ [sib] w1 ?_
              exact ⟨o2, o3, o1, rfl⟩
            · rw [List.map_append, List.flatten_append,
                List.append_assoc]
              rw [w3]
              congr 1
              show (PTree.traverse sib.1 ++ ([] : List (Nat × Nat))) ++
                PTree.traverseL c4x = _
              rw [List.append_nil]
              exact o5
            · intro e he
              rcases List.mem_append.1 he with h1 | h2
              · exact w4 e h1
              · rcases List.mem_cons.1 h2 with rfl | h3
                · exact hsp
                · simp at h3
            · intro hnil
              exact absurd (congrArg List.length hnil) (by simp)
          · injection hfin with hf2
            injection hf2 with hf3 hf4
            injection hf4 with hf5 hf6
            subst hf3
            subst hf5
            subst hf6
            exact ⟨loW, w1, w2, w3.symm, w4, w5, w7⟩
        obtain ⟨lo2, f1, f2, f3, f4, f5, f6⟩ := hfinfacts
        have hc4cnt : c4.length = s4.length + 1 :=
          pordL_length dec s4 lo2 hi c4 f2
        refine ⟨lo2, f1, ?_, f6, ?_, ?_, ?_, f4⟩
        · show pord dec lo2 hi (.pnode s4 [] c4) = true
          simp only [pord, Bool.and_eq_true, List.all_eq_true]
          exact ⟨by intro p hp; simp at hp, f2⟩
        · intro _
          have hs4ne : 0 < s4.length := by omega
          have hx : s4.getD 0 0 ∈ s4 := getD_mem_of_lt s4 0 0 hs4ne
          have := (pordL_pivots dec s4 lo2 hi c4 f2).2 _ hx
          exact ⟨dec (s4.getD 0 0), this.1, this.2⟩
        · show (sibs2.map (fun e => PTree.traverse e.1)).flatten ++
            ([] ++ PTree.traverseL c4) = [] ++ PTree.traverseL cs
          simp only [List.nil_append]
          rw [f3, cc]
        · rw [Bool.or_eq_true]
          refine Or.inl ?_
          simp only [pact, Bool.and_eq_true, beq_iff_eq,
            decide_eq_true_eq, List.isEmpty_iff]
          repeat' apply And.intro
          all_goals first | trivial | exact hc4cnt | omega | exact f5
      · have hnoop := rebalanceT_noop L hL (.pnode sorted buffer cs)
          isRoot hpsq
        rw [hnoop] at h
        injection h with h2
        subst h2
        exact ⟨lo, rfl, hord, fun _ => rfl, fun hne => absurd rfl hne,
          rfl, by rw [Bool.or_eq_true]; exact Or.inr hpsq,
          by intro e he; simp at he⟩

/-- Order and content preservation of the bottom-up rebalance of a
child list. -/
theorem rebalanceChildren_ord (dec : Nat → Nat) (L : Nat) (hL : 2 ≤ L) :
    ∀ (cs : List PTree) (ss : List Nat) (out : List PTree × List Nat)
      (lo hi : Option Nat),
      rebalanceChildren L cs ss = .ok out →
      pordL dec lo hi ss cs = true →
      pactL L cs = true →
      pordL dec lo hi out.2 out.1 = true ∧
      PTree.traverseL out.1 = PTree.traverseL cs ∧
      pactL L out.1 = true := by
  intro cs
  match cs with
  | [] =>
      intro ss out lo hi h
      exact absurd h (by simp [rebalanceChildren])
  | [c] =>
      intro ss out lo hi h hordL hkids
      match ss with
      | _ :: _ => exact absurd h (by simp [rebalanceChildren])
      | [] =>
          simp only [rebalanceChildren, ok_bind_eq_ok] at h
          obtain ⟨⟨sibs, c2⟩, hrt, h⟩ := h
          dsimp only at h
          injection h with h2
          subst h2
          have hcord : pord dec lo hi c = true := by
            simpa [pordL] using hordL
          have hcact : (pact L c || psq L c) = true :=
            pactL_mem L [c] hkids c (List.mem_cons_self _ _)
          obtain ⟨lo2, r1, r2, r3, r4, r5, r6, r7⟩ :=
            rebalanceT_ord dec L hL c false (sibs, c2) lo hi hrt hcord
              hcact
          dsimp only at r1 r2 r3 r4 r5 r6 r7
          refine ⟨?_, ?_, ?_⟩
          · show pordL dec lo hi (sibs.map Prod.snd)
              (sibs.map Prod.fst ++ [c2]) = true
            exact chainN_pordL dec sibs lo hi lo2 c2 r1 r2
          · show PTree.traverseL (sibs.map Prod.fst ++ [c2]) = _
            rw [traverseL_append, traverseL_map_fst]
            show _ ++ (PTree.traverse c2 ++ ([] : List (Nat × Nat))) =
              PTree.traverse c ++ ([] : List (Nat × Nat))
            rw [List.append_nil, List.append_nil]
            exact r5
          · refine pactL_of_forall L _ ?_
            intro cx hcx
            rcases List.mem_append.1 hcx with h1 | h2
            · obtain ⟨e, he, heq⟩ := List.mem_map.1 h1
              rw [← heq, Bool.or_eq_true]
              exact Or.inl (r7 e he)
            · rcases List.mem_cons.1 h2 with rfl | h3
              · exact r6
              · simp at h3
  | c :: c2 :: csr =>
      intro ss out lo hi h hordL hkids
      match ss with
      | [] => exact absurd h (by simp [rebalanceChildren])
      | s :: ssr =>
          simp only [rebalanceChildren, ok_bind_eq_ok] at h
          obtain ⟨⟨sibs, cc2⟩, hrt, h⟩ := h
          dsimp only at h
          obtain ⟨⟨cs3, pivs2⟩, hrest, h⟩ := h
          dsimp only at h
          injection h with h2
          subst h2
          simp only [pordL, Bool.and_eq_true] at hordL
          obtain ⟨⟨⟨hslo, hshi⟩, hcord⟩, htail⟩ := hordL
          simp only [pactL, Bool.and_eq_true] at hkids
          obtain ⟨lo2, r1, r2, r3, r4, r5, r6, r7⟩ :=
            rebalanceT_ord dec L hL c false (sibs, cc2) lo
              (some (dec s)) hrt hcord hkids.1
          dsimp only at r1 r2 r3 r4 r5 r6 r7
          obtain ⟨t1, t2, t3⟩ := rebalanceChildren_ord dec L hL
            (c2 :: csr) ssr (cs3, pivs2) (some (dec s)) hi hrest htail
            (by simp only [pactL, Bool.and_eq_true]; exact hkids.2)
          dsimp only at t1 t2 t3
          have hlos2 : loOk lo2 (dec s) = true := by
            cases hse : sibs with
            | nil =>
                rw [r3 hse]
                exact hslo
            | cons e es =>
                obtain ⟨w, hw1, hw2⟩ := r4 (by rw [hse]; simp)
                refine loOk_trans_le lo2 w (dec s) hw1 ?_
                simpa [hiOk, decide_eq_true_eq] using hw2
          refine ⟨?_, ?_, ?_⟩
          · show pordL dec lo hi (sibs.map Prod.snd ++ s :: pivs2)
              (sibs.map Prod.fst ++ cc2 :: cs3) = true
            exact chainN_pordL_cons dec sibs lo hi lo2 cc2 s pivs2 cs3
              r1 r2 hlos2 hshi t1
          · show PTree.traverseL (sibs.map Prod.fst ++ cc2 :: cs3) = _
            rw [traverseL_append, traverseL_map_fst]
            show _ ++ (PTree.traverse cc2 ++ PTree.traverseL cs3) = _
            rw [t2]
            show _ = PTree.traverse c ++ PTree.traverseL (c2 :: csr)
            rw [← List.append_assoc, r5]
          · refine pactL_of_forall L _ ?_
            intro cx hcx
            rcases List.mem_append.1 hcx with h1 | h2
            · obtain ⟨e, he, heq⟩ := List.mem_map.1 h1
              rw [← heq, Bool.or_eq_true]
              exact Or.inl (r7 e he)
            · rcases List.mem_cons.1 h2 with rfl | h3
              · exact r6
              · exact pactL_mem L cs3 t3 cx h3

end

/-- Order and content preservation of the full root rebalance. -/
theorem rebalanceRoot_ord (dec : Nat → Nat) (L : Nat) (hL : 2 ≤ L) :
    ∀ (f : Nat) (t t3 : PTree), rebalanceRoot L f t = .ok t3 →
      pord dec none none t = true →
      (pact L t || psq L t) = true →
      pord dec none none t3 = true ∧
      PTree.traverse t3 = PTree.traverse t := by
  intro f
  induction f with
  | zero => intro t t3 h; exact absurd h (by simp [rebalanceRoot])
  | succ f ih =>
      intro t t3 h hord hact
      rw [rebalanceRoot] at h
      rw [ok_bind_eq_ok] at h
      obtain ⟨⟨sibs, t2⟩, hrt, h⟩ := h
      dsimp only at h
      obtain ⟨lo2, r1, r2, r3, r4, r5, r6, r7⟩ :=
        rebalanceT_ord dec L hL t true (sibs, t2) none none hrt hord hact
      dsimp only at r1 r2 r3 r4 r5 r6 r7
      split at h
      · rename_i hse
        have hsnil : sibs = [] := List.isEmpty_iff.1 hse
        injection h with h2
        subst h2
        rw [r3 hsnil] at r2
        refine ⟨r2, ?_⟩
        rw [← r5, hsnil]
        simp
      · rename_i hse
        have hsne : sibs ≠ [] := by
          intro hx
          rw [hx] at hse
          simp at hse
        have hroot : pord dec none none
            (.pnode (sibs.map (fun e => e.2)) []
              (sibs.map (fun e => e.1) ++ [t2])) = true := by
          simp only [pord, Bool.and_eq_true, List.all_eq_true]
          refine ⟨by intro p hp; simp at hp, ?_⟩
          exact chainN_pordL dec sibs none none lo2 t2 r1 r2
        have hrootact : (pact L (.pnode (sibs.map (fun e => e.2)) []
            (sibs.map (fun e => e.1) ++ [t2])) ||
            psq L (.pnode (sibs.map (fun e => e.2)) []
              (sibs.map (fun e => e.1) ++ [t2]))) = true := by
          rw [Bool.or_eq_true]
          refine Or.inl ?_
          simp only [pact, Bool.and_eq_true, beq_iff_eq,
            decide_eq_true_eq, List.isEmpty_iff]
          repeat' apply And.intro
          all_goals first
            | trivial
            | (cases sibs with
               | nil => exact absurd rfl hsne
               | cons a l => simp)
            | (refine pactL_of_forall L _ ?_
               intro cx hcx
               rcases List.mem_append.1 hcx with h1 | h2
               · obtain ⟨e, he, heq⟩ := List.mem_map.1 h1
                 rw [← heq, Bool.or_eq_true]
                 exact Or.inl (r7 e he)
               · rcases List.mem_cons.1 h2 with rfl | h3
                 · exact r6
                 · simp at h3)
        obtain ⟨h1, h2⟩ := ih _ t3 h hroot hrootact
        refine ⟨h1, ?_⟩
        rw [h2]
        show PTree.traverseL (sibs.map (fun e => e.1) ++ [t2]) = _
        rw [traverseL_append]
        have hmap : PTree.traverseL (sibs.map (fun e => e.1)) =
            (sibs.map (fun e => PTree.traverse e.1)).flatten :=
          traverseL_map_fst sibs
        rw [hmap]
        show _ ++ (PTree.traverse t2 ++ ([] : List (Nat × Nat))) = _
        rw [List.append_nil]
        exact r5

theorem pshapeL_mem (L : Nat) :
    ∀ (cs : List PTree) (d : Nat), pshapeL L cs d = true →
      ∀ c ∈ cs, pshape L c false d = true := by
  intro cs
  induction cs with
  | nil => intro d _ c hc; simp at hc
  | cons c0 rest ih =>
      intro d h c hc
      simp only [pshapeL, Bool.and_eq_true] at h
      rcases List.mem_cons.1 hc with rfl | h2
      · exact h.1
      · exact ih d h.2 c h2

mutual

/-- Shape bounds below the root imply the untouched-subtree
classification. -/
theorem pshape_imp_psq (L : Nat) :
    ∀ (t : PTree) (d : Nat), pshape L t false d = true →
      psq L t = true := by
  intro t
  match t with
  | .pleaf _ => intro d _; rfl
  | .pnode s buf cs =>
      intro d h
      match d with
      | 0 => exact absurd h (by simp [pshape])
      | dd + 1 =>
          simp only [pshape, Bool.and_eq_true, beq_iff_eq,
            decide_eq_true_eq, Bool.false_or] at h
          obtain ⟨⟨⟨hcnt, h1, h2⟩, h3⟩, hkids⟩ := h
          simp only [psq, Bool.and_eq_true, beq_iff_eq,
            decide_eq_true_eq]
          exact ⟨⟨hcnt, h3, h2⟩, pshapeL_imp_psqL L cs dd hkids⟩

theorem pshapeL_imp_psqL (L : Nat) :
    ∀ (cs : List PTree) (d : Nat), pshapeL L cs d = true →
      psqL L cs = true := by
  intro cs
  match cs with
  | [] => intro d _; rfl
  | c :: rest =>
      intro d h
      simp only [pshapeL, Bool.and_eq_true] at h
      simp only [psqL, Bool.and_eq_true]
      exact ⟨pshape_imp_psq L c d h.1, pshapeL_imp_psqL L rest d h.2⟩

end

theorem psq_addPairs (L : Nat) (t : PTree) (ps : List (Nat × Nat))
    (h : psq L t = true) : psq L (t.addPairs ps) = true := by
  match t with
  | .pleaf _ => rfl
  | .pnode s buf cs => exact h

mutual

/-- A completed split on a shape-valid subtree with at least one search
key leaves an `pact` node: flushed buffer, and each child either split
again (`pact`) or untouched up to flushed pairs (`psq`). -/
theorem treeSplitN_pact (dec : Nat → Nat) (L : Nat) :
    ∀ (t : PTree) (fuel : Nat) (rnd : List (List Nat))
      (extra : List (Nat × Nat)) (keys : List Nat) (isRoot : Bool)
      (d : Nat)
      (out : PTree × List (Nat × List (Nat × Nat)) × List (List Nat)),
      treeSplitN dec L fuel t rnd extra keys = .ok out →
      pshape L t isRoot d = true →
      keys ≠ [] →
      pact L out.1 = true := by
  intro t
  match t with
  | .pleaf _ =>
      intro fuel rnd extra keys isRoot d out h
      exact absurd h (by simp [treeSplitN])
  | .pnode sorted buffer cs =>
      intro fuel rnd extra keys isRoot d out h hshape hkne
      have hkids : ∀ c ∈ cs, ∃ dd, pshape L c false dd = true := by
        match d with
        | 0 => exact absurd hshape (by simp [pshape])
        | dd + 1 =>
            intro c hc
            simp only [pshape, Bool.and_eq_true] at hshape
            exact ⟨dd, pshapeL_mem L cs dd hshape.2 c hc⟩
      simp only [treeSplitN, ok_bind_eq_ok] at h
      obtain ⟨u1, hkl, h⟩ := h
      obtain ⟨u2, hsl, h⟩ := h
      split at h
      · rename_i hke
        exact absurd (List.isEmpty_iff.1 hke) hkne
      · rw [ok_bind_eq_ok] at h
        obtain ⟨u3, hcl, h⟩ := h
        rw [ok_bind_eq_ok] at h
        obtain ⟨partitions, hpart, h⟩ := h
        rw [ok_bind_eq_ok] at h
        obtain ⟨⟨cs2, sorted2, asg, rnd2⟩, hsc, h⟩ := h
        dsimp only at h
        injection h with h2
        subst h2
        rw [massert_ok_iff] at hsl hcl
        simp only [Bool.and_eq_true, decide_eq_true_eq,
          beq_iff_eq] at hsl hcl
        obtain ⟨p1, p2, p3⟩ := splitChildren_pact dec L cs fuel rnd 0
          sorted partitions (cs2, sorted2, asg, rnd2) hsc hkids
        dsimp only at p1 p2 p3
        simp only [pact, Bool.and_eq_true, beq_iff_eq,
          decide_eq_true_eq]
        exact ⟨⟨⟨rfl, p2⟩, by omega⟩, p1⟩

theorem splitChildren_pact (dec : Nat → Nat) (L : Nat) :
    ∀ (cs : List PTree) (fuel : Nat) (rnd : List (List Nat)) (i : Nat)
      (ss : List Nat) (partitions : List ((Nat × Option Nat) × Nat))
      (out : List PTree × List Nat × List (Nat × List (Nat × Nat)) ×
        List (List Nat)),
      splitChildren dec L fuel rnd i cs ss partitions = .ok out →
      (∀ c ∈ cs, ∃ dd, pshape L c false dd = true) →
      pactL L out.1 = true ∧
      out.1.length = out.2.1.length + 1 ∧
      cs.length ≤ out.1.length := by
  intro cs
  match cs with
  | [] =>
      intro fuel rnd i ss partitions out h
      exact absurd h (by simp [splitChildren])
  | [c] =>
      intro fuel rnd i ss partitions out h hkids
      match ss with
      | _ :: _ => exact absurd h (by simp [splitChildren])
      | [] =>
          simp only [splitChildren, ok_bind_eq_ok] at h
          obtain ⟨⟨cseg, pivs, asg1, rnd2⟩, hbr, h⟩ := h
          dsimp only at h
          injection h with h2
          subst h2
          obtain ⟨dd, hc⟩ := hkids c (List.mem_cons_self _ _)
          split at hbr
          · injection hbr with hbr2
            injection hbr2 with he1 hbr3
            injection hbr3 with he2 hbr4
            injection hbr4 with he3 he4
            subst he1
            subst he2
            refine ⟨?_, rfl, by simp⟩
            refine pactL_of_forall L _ ?_
            intro cx hcx
            rcases List.mem_cons.1 hcx with rfl | h3
            · rw [Bool.or_eq_true]
              exact Or.inr (psq_addPairs L c _ (pshape_imp_psq L c dd hc))
            · simp at h3
          · match c, hc with
            | .pleaf cbuf, hc =>
                rw [ok_bind_eq_ok] at hbr
                obtain ⟨⟨sibs, fbuf, asg, rndx⟩, hls, hbr⟩ := hbr
                dsimp only at hbr
                injection hbr with hbr2
                injection hbr2 with he1 hbr3
                injection hbr3 with he2 hbr4
                subst he1
                subst he2
                refine ⟨?_, by simp, by simp⟩
                refine pactL_of_forall L _ ?_
                intro cx hcx
                rcases List.mem_append.1 hcx with h1 | h2
                · obtain ⟨e, he, heq⟩ := List.mem_map.1 h1
                  rw [← heq]
                  rfl
                · rcases List.mem_cons.1 h2 with rfl | h3
                  · rfl
                  · simp at h3
            | .pnode sx bx csx, hc =>
                rw [ok_bind_eq_ok] at hbr
                obtain ⟨⟨cc, asg, rndx⟩, hts, hbr⟩ := hbr
                dsimp only at hbr
                injection hbr with hbr2
                injection hbr2 with he1 hbr3
                injection hbr3 with he2 hbr4
                subst he1
                subst he2
                have hkne : keyBucket partitions i ≠ [] := by
                  rename_i hkbe
                  intro hx
                  rw [hx] at hkbe
                  simp at hkbe
                have hcact := treeSplitN_pact dec L (.pnode sx bx csx)
                  fuel rnd (pairBucket partitions i)
                  (keyBucket partitions i) false dd (cc, asg, rndx) hts
                  hc hkne
                refine ⟨?_, rfl, by simp⟩
                refine pactL_of_forall L _ ?_
                intro cx hcx
                rcases List.mem_cons.1 hcx with rfl | h3
                · rw [Bool.or_eq_true]
                  exact Or.inl hcact
                · simp at h3
  | c :: c2 :: csr =>
      intro fuel rnd i ss partitions out h hkids
      match ss with
      | [] => exact absurd h (by simp [splitChildren])
      | s :: ssr =>
          simp only [splitChildren, ok_bind_eq_ok] at h
          obtain ⟨⟨cseg, pivs, asg1, rnd2⟩, hbr, h⟩ := h
          dsimp only at h
          obtain ⟨⟨cs3, pivs2, asg2, rnd3⟩, hrest, h⟩ := h
          dsimp only at h
          injection h with h2
          subst h2
          obtain ⟨dd, hc⟩ := hkids c (List.mem_cons_self _ _)
          obtain ⟨t1, t2, t3⟩ := splitChildren_pact dec L (c2 :: csr)
            fuel rnd2 (i + 1) ssr partitions
            (cs3, pivs2, asg2, rnd3) hrest
            (fun cx hcx => hkids cx (List.mem_cons_of_mem _ hcx))
          dsimp only at t1 t2 t3
          have hheadfacts : pactL L cseg = true ∧
              cseg.length = pivs.length + 1 ∧ 1 ≤ cseg.length := by
            split at hbr
            · injection hbr with hbr2
              injection hbr2 with he1 hbr3
              injection hbr3 with he2 hbr4
              subst he1
              subst he2
              refine ⟨?_, rfl, by simp⟩
              refine pactL_of_forall L _ ?_
              intro cx hcx
              rcases List.mem_cons.1 hcx with rfl | h3
              · rw [Bool.or_eq_true]
                exact Or.inr
                  (psq_addPairs L c _ (pshape_imp_psq L c dd hc))
              · simp at h3
            · match c, hc with
              | .pleaf cbuf, hc =>
                  rw [ok_bind_eq_ok] at hbr
                  obtain ⟨⟨sibs, fbuf, asg, rndx⟩, hls, hbr⟩ := hbr
                  dsimp only at hbr
                  injection hbr with hbr2
                  injection hbr2 with he1 hbr3
                  injection hbr3 with he2 hbr4
                  subst he1
                  subst he2
                  refine ⟨?_, by simp, by simp⟩
                  refine pactL_of_forall L _ ?_
                  intro cx hcx
                  rcases List.mem_append.1 hcx with h1 | h2
                  · obtain ⟨e, he, heq⟩ := List.mem_map.1 h1
                    rw [← heq]
                    rfl
                  · rcases List.mem_cons.1 h2 with rfl | h3
                    · rfl
                    · simp at h3
              | .pnode sx bx csx, hc =>
                  rw [ok_bind_eq_ok] at hbr
                  obtain ⟨⟨cc, asg, rndx⟩, hts, hbr⟩ := hbr
                  dsimp only at hbr
                  injection hbr with hbr2
                  injection hbr2 with he1 hbr3
                  injection hbr3 with he2 hbr4
                  subst he1
                  subst he2
                  have hkne : keyBucket partitions i ≠ [] := by
                    rename_i hkbe
                    intro hx
                    rw [hx] at hkbe
                    simp at hkbe
                  have hcact := treeSplitN_pact dec L (.pnode sx bx csx)
                    fuel rnd (pairBucket partitions i)
                    (keyBucket partitions i) false dd (cc, asg, rndx)
                    hts hc hkne
                  refine ⟨?_, rfl, by simp⟩
                  refine pactL_of_forall L _ ?_
                  intro cx hcx
                  rcases List.mem_cons.1 hcx with rfl | h3
                  · rw [Bool.or_eq_true]
                    exact Or.inl hcact
                  · simp at h3
          obtain ⟨q1, q2, q3⟩ := hheadfacts
          simp only [List.length_cons] at t3
          refine ⟨?_, ?_, ?_⟩
          · refine pactL_of_forall L _ ?_
            intro cx hcx
            rcases List.mem_append.1 hcx with h1 | h2
            · exact pactL_mem L cseg q1 cx h1
            · exact pactL_mem L cs3 t1 cx h2
          · simp only [List.length_append, List.length_cons]
            omega
          · simp only [List.length_append, List.length_cons]
            omega

end

theorem cleanIn_pleaf (dec : Nat → Nat) (w : Nat) (lo hi : Option Nat)
    (b : List (Nat × Nat)) : cleanIn dec w lo hi (.pleaf b) := trivial

theorem cleanInL_cons (dec : Nat → Nat) (w : Nat)
    (lo hi : Option Nat) (x : Nat) (ss : List Nat) (c : PTree)
    (cs : List PTree)
    (h1 : cleanIn dec w lo (some (dec x)) c)
    (h2 : cleanInL dec w (some (dec x)) hi ss cs) :
    cleanInL dec w lo hi (x :: ss) (c :: cs) := by
  match cs with
  | [] => exact trivial
  | c2 :: cs2 => exact ⟨h1, h2⟩

mutual

/-- A subtree whose plaintext interval misses `w` is vacuously clean for
`w`: no node inside has an interval containing `w`. -/
theorem cleanIn_of_out (dec : Nat → Nat) (w : Nat) :
    ∀ (t : PTree) (lo hi : Option Nat), pord dec lo hi t = true →
      ¬(loOk lo w = true ∧ hiOk hi w = true) →
      cleanIn dec w lo hi t := by
  intro t
  match t with
  | .pleaf b => intro lo hi _ _; exact trivial
  | .pnode s buf cs =>
      intro lo hi hord hout
      simp only [pord, Bool.and_eq_true, List.all_eq_true] at hord
      exact ⟨fun hw => absurd hw hout,
        cleanInL_of_out dec w cs s lo hi hord.2 hout⟩

theorem cleanInL_of_out (dec : Nat → Nat) (w : Nat) :
    ∀ (cs : List PTree) (ss : List Nat) (lo hi : Option Nat),
      pordL dec lo hi ss cs = true →
      ¬(loOk lo w = true ∧ hiOk hi w = true) →
      cleanInL dec w lo hi ss cs := by
  intro cs
  match cs with
  | [] =>
      intro ss lo hi h
      match ss with
      | [] => simp [pordL] at h
      | _ :: _ => simp [pordL] at h
  | [c] =>
      intro ss lo hi h hout
      match ss with
      | [] =>
          exact cleanIn_of_out dec w c lo hi (by simpa [pordL] using h)
            hout
      | _ :: _ => simp [pordL] at h
  | c :: c2 :: cs2 =>
      intro ss lo hi h hout
      match ss with
      | [] => simp [pordL] at h
      | x :: ss2 =>
          simp only [pordL, Bool.and_eq_true] at h
          obtain ⟨⟨⟨hxlo, hxhi⟩, hc⟩, htail⟩ := h
          have hout1 : ¬(loOk lo w = true ∧
              hiOk (some (dec x)) w = true) := by
            intro hcon
            obtain ⟨h1, h2⟩ := hcon
            have hwx : w ≤ dec x := by
              simpa [hiOk, decide_eq_true_eq] using h2
            exact hout ⟨h1, hiOk_trans hi (dec x) w hxhi hwx⟩
          have hout2 : ¬(loOk (some (dec x)) w = true ∧
              hiOk hi w = true) := by
            intro hcon
            obtain ⟨h1, h2⟩ := hcon
            have hxw : dec x < w := by
              simpa [loOk, decide_eq_true_eq] using h1
            exact hout ⟨loOk_trans lo (dec x) w hxlo hxw, h2⟩
          exact ⟨cleanIn_of_out dec w c lo (some (dec x)) hc hout1,
            cleanInL_of_out dec w (c2 :: cs2) ss2 (some (dec x)) hi
              htail hout2⟩

end

theorem cleanInL_pleaf_last (dec : Nat → Nat) (w : Nat) (hi : Option Nat)
    (fbuf : List (Nat × Nat)) :
    ∀ (sibs : List (List (Nat × Nat) × Nat)) (lo : Option Nat),
      cleanInL dec w lo hi (sibs.map (fun e => e.2))
        (sibs.map (fun e => PTree.pleaf e.1) ++ [PTree.pleaf fbuf]) := by
  intro sibs
  induction sibs with
  | nil => intro lo; exact trivial
  | cons e rest ih =>
      intro lo
      simp only [List.map_cons, List.cons_append]
      exact cleanInL_cons dec w lo hi e.2 _ _ _ trivial
        (ih (some (dec e.2)))

theorem cleanInL_cons_leaf (dec : Nat → Nat) (w : Nat)
    (lo hi : Option Nat) (s : Nat) (pivs2 : List Nat)
    (fbuf : List (Nat × Nat)) (cs3 : List PTree)
    (h : cleanInL dec w (some (dec s)) hi pivs2 cs3) :
    cleanInL dec w lo hi (s :: pivs2) (PTree.pleaf fbuf :: cs3) := by
  match cs3 with
  | [] => exact trivial
  | c :: cs4 => exact ⟨trivial, h⟩

theorem cleanInL_pleaf_chain (dec : Nat → Nat) (w : Nat)
    (hi : Option Nat) (s : Nat) (pivs2 : List Nat)
    (fbuf : List (Nat × Nat)) (cs3 : List PTree) :
    ∀ (sibs : List (List (Nat × Nat) × Nat)) (lo : Option Nat),
      cleanInL dec w (some (dec s)) hi pivs2 cs3 →
      cleanInL dec w lo hi (sibs.map (fun e => e.2) ++ s :: pivs2)
        (sibs.map (fun e => PTree.pleaf e.1) ++
          PTree.pleaf fbuf :: cs3) := by
  intro sibs
  induction sibs with
  | nil =>
      intro lo h
      simp only [List.map_nil, List.nil_append]
      exact cleanInL_cons_leaf dec w lo hi s pivs2 fbuf cs3 h
  | cons e rest ih =>
      intro lo h
      simp only [List.map_cons, List.cons_append]
      exact cleanInL_cons dec w lo hi e.2 _ _ _ trivial
        (ih (some (dec e.2)) h)

mutual

/-- A completed `InternalNode.split` is clean for each search key's
plaintext: every internal node of the result whose interval contains the
plaintext has an empty buffer (the split descended into exactly those
nodes and flushed them). -/
theorem treeSplitN_clean (dec : Nat → Nat) (L : Nat) :
    ∀ (t : PTree) (fuel : Nat) (rnd : List (List Nat))
      (extra : List (Nat × Nat)) (keys : List Nat) (k : Nat)
      (lo hi : Option Nat)
      (out : PTree × List (Nat × List (Nat × Nat)) × List (List Nat)),
      treeSplitN dec L fuel t rnd extra keys = .ok out →
      pord dec lo hi t = true →
      (∀ p ∈ extra, loOk lo (dec p.1) = true ∧
        hiOk hi (dec p.1) = true) →
      k ∈ keys →
      cleanIn dec (dec k) lo hi out.1 := by
  intro t
  match t with
  | .pleaf _ =>
      intro fuel rnd extra keys k lo hi out h
      exact absurd h (by simp [treeSplitN])
  | .pnode sorted buffer cs =>
      intro fuel rnd extra keys k lo hi out h hord hextra hk
      simp only [treeSplitN, ok_bind_eq_ok] at h
      obtain ⟨u1, hkl, h⟩ := h
      obtain ⟨u2, hsl, h⟩ := h
      simp only [pord, Bool.and_eq_true, List.all_eq_true] at hord
      obtain ⟨hbufb, hordL⟩ := hord
      have hbe : ∀ p ∈ buffer ++ extra, loOk lo (dec p.1) = true ∧
          hiOk hi (dec p.1) = true := by
        intro p hp
        rcases List.mem_append.1 hp with h1 | h2
        · have := hbufb p h1
          simpa [Bool.and_eq_true] using this
        · exact hextra p h2
      split at h
      · rename_i hke
        have := List.isEmpty_iff.1 hke
        rw [this] at hk
        simp at hk
      · rw [ok_bind_eq_ok] at h
        obtain ⟨u3, hcl, h⟩ := h
        rw [ok_bind_eq_ok] at h
        obtain ⟨partitions, hpart, h⟩ := h
        rw [ok_bind_eq_ok] at h
        obtain ⟨⟨cs2, sorted2, asg, rnd2⟩, hsc, h⟩ := h
        dsimp only at h
        injection h with h2
        subst h2
        rw [massert_ok_iff] at hcl
        simp only [beq_iff_eq] at hcl
        simp only [Oracle.partition, ok_bind_eq_ok] at hpart
        obtain ⟨u4, hmassl, hpart⟩ := hpart
        have hpivs := pordL_pivots dec sorted lo hi cs hordL
        have hid : (fun x : Nat => dec (id x)) = fun x => dec x := rfl
        have hsd : List.insertionSort (fun a b : Nat => a ≤ b)
            (sorted.map (fun x => dec (id x))) = sorted.map dec := by
          rw [hid]
          exact sorted_map_dec_insertionSort dec sorted hpivs.1
        rw [hsd] at hpart
        injection hpart with hpart2
        set f : Nat → Nat :=
          fun c => bisl (· < ·) (sorted.map dec) (dec c) with hf
        have hpartval : partitions =
            ((buffer ++ extra).map (fun p => (p.1, some p.2)) ++
              keys.map (fun k => (k, (none : Option Nat)))).map
              (fun n => (n, f n.1)) := hpart2.symm
        have hpbj : ∀ j, pairBucket partitions j =
            (buffer ++ extra).filter (fun p => f p.1 = j) := by
          intro j
          rw [hpartval]
          exact pairBucket_char f (buffer ++ extra) keys j
        have hcslen : cs.length = sorted.length + 1 :=
          pordL_length dec sorted lo hi cs hordL
        have hbuck : ∀ (r : Nat), r < cs.length →
            ∀ p ∈ pairBucket partitions (0 + r),
              loOk (if r = 0 then lo
                else some (dec (sorted.getD (r - 1) 0))) (dec p.1) =
                true ∧
              hiOk (if r < sorted.length then
                some (dec (sorted.getD r 0)) else hi) (dec p.1) =
                true := by
          intro r hr p hp
          rw [Nat.zero_add, hpbj r] at hp
          have hpmem : p ∈ buffer ++ extra :=
            List.mem_of_mem_filter hp
          have hpf : f p.1 = r := by
            have := List.of_mem_filter hp
            simpa using this
          have hfp : bisl (· < ·) (sorted.map dec) (dec p.1) = r := by
            rw [hf] at hpf
            exact hpf
          constructor
          · by_cases hz : r = 0
            · subst hz
              rw [if_pos rfl]
              exact (hbe p hpmem).1
            · rw [if_neg hz]
              have hlt := bisl_prefix_lt (sorted.map dec) (dec p.1)
                (r - 1) (by rw [hfp]; omega)
              have hrlen : r ≤ sorted.length := by
                have := bisl_le_length (· < ·) (sorted.map dec) (dec p.1)
                rw [hfp] at this
                simpa using this
              have hgd : (sorted.map dec).getD (r - 1) 0 =
                  dec (sorted.getD (r - 1) 0) :=
                getD_map_dec dec sorted (r - 1) (by omega)
              rw [hgd] at hlt
              simp only [loOk, decide_eq_true_eq]
              exact hlt
          · by_cases hr2 : r < sorted.length
            · rw [if_pos hr2]
              have hge := bisl_at_ge (sorted.map dec) (dec p.1)
                (by rw [hfp]; simpa using hr2)
              rw [hfp] at hge
              have hgd : (sorted.map dec).getD r 0 =
                  dec (sorted.getD r 0) :=
                getD_map_dec dec sorted r hr2
              rw [hgd] at hge
              simp only [hiOk, decide_eq_true_eq]
              exact hge
            · rw [if_neg hr2]
              exact (hbe p hpmem).2
        have hfk : f k = bisl (· < ·) (sorted.map dec) (dec k) := by
          rw [hf]
        have hkmem : k ∈ keyBucket partitions (f k) := by
          rw [hpartval, keyBucket_char f (buffer ++ extra) keys (f k)]
          refine List.mem_filter.2 ⟨hk, ?_⟩
          simp
        have hfklen : f k ≤ sorted.length := by
          have := bisl_le_length (· < ·) (sorted.map dec) (dec k)
          rw [← hfk] at this
          simpa using this
        have hsortedm : List.Sorted (· ≤ ·) (sorted.map dec) := by
          have hp2 : List.Pairwise (· < ·) (sorted.map dec) :=
            List.pairwise_map.2 hpivs.1
          exact hp2.imp Nat.le_of_lt
        have hwk : ∀ (r : Nat), r < cs.length → 0 + r ≠ f k →
            ¬(loOk (if r = 0 then lo
                else some (dec (sorted.getD (r - 1) 0))) (dec k) =
                true ∧
              hiOk (if r < sorted.length then
                some (dec (sorted.getD r 0)) else hi) (dec k) =
                true) := by
          intro r hr hne hcon
          obtain ⟨hclo, hchi⟩ := hcon
          rw [Nat.zero_add] at hne
          rcases Nat.lt_or_ge r (f k) with hlt | hge
          · have hrlen : r < sorted.length := by omega
            rw [if_pos hrlen] at hchi
            have hpl := bisl_prefix_lt (sorted.map dec) (dec k) r
              (by rw [← hfk]; exact hlt)
            rw [getD_map_dec dec sorted r hrlen] at hpl
            have hchi2 : dec k ≤ dec (sorted.getD r 0) := by
              simpa [hiOk, decide_eq_true_eq] using hchi
            omega
          · have hrgt : f k < r := by omega
            have hrz : r ≠ 0 := by omega
            rw [if_neg hrz] at hclo
            have hr1len : r - 1 < sorted.length := by omega
            have hfklt : f k < sorted.length := by omega
            have hge1 := bisl_at_ge (sorted.map dec) (dec k)
              (by rw [← hfk]; simpa using hfklt)
            rw [← hfk, getD_map_dec dec sorted (f k) hfklt] at hge1
            have hmono := sorted_getD_mono (· ≤ ·) (sorted.map dec)
              hsortedm 0 (f k) (r - 1) (by omega)
              (by simpa using hr1len)
            have hlem : dec (sorted.getD (f k) 0) ≤
                dec (sorted.getD (r - 1) 0) := by
              rcases hmono with he | hle
              · rw [he]
              · rw [getD_map_dec dec sorted (f k) hfklt,
                  getD_map_dec dec sorted (r - 1) hr1len] at hle
                exact hle
            have hlo2 : dec (sorted.getD (r - 1) 0) < dec k := by
              simpa [loOk, decide_eq_true_eq] using hclo
            omega
        have hclean := splitChildren_clean dec L cs fuel rnd 0
          sorted partitions lo hi k (f k) (cs2, sorted2, asg, rnd2)
          hsc hordL hbuck hkmem hwk
        exact ⟨fun hw => rfl, hclean⟩

/-- Cleanliness of the child walk of `InternalNode.split` for a key
routed to absolute bucket `jk`: children other than the routed one lie
in intervals missing the key's plaintext, and the routed child was
either split recursively or is a fresh leaf. -/
theorem splitChildren_clean (dec : Nat → Nat) (L : Nat) :
    ∀ (cs : List PTree) (fuel : Nat) (rnd : List (List Nat)) (i : Nat)
      (ss : List Nat) (partitions : List ((Nat × Option Nat) × Nat))
      (lo hi : Option Nat) (k : Nat) (jk : Nat)
      (out : List PTree × List Nat × List (Nat × List (Nat × Nat)) ×
        List (List Nat)),
      splitChildren dec L fuel rnd i cs ss partitions = .ok out →
      pordL dec lo hi ss cs = true →
      (∀ (r : Nat), r < cs.length →
        ∀ p ∈ pairBucket partitions (i + r),
          loOk (if r = 0 then lo else some (dec (ss.getD (r - 1) 0)))
            (dec p.1) = true ∧
          hiOk (if r < ss.length then some (dec (ss.getD r 0)) else hi)
            (dec p.1) = true) →
      k ∈ keyBucket partitions jk →
      (∀ (r : Nat), r < cs.length → i + r ≠ jk →
        ¬(loOk (if r = 0 then lo else some (dec (ss.getD (r - 1) 0)))
            (dec k) = true ∧
          hiOk (if r < ss.length then some (dec (ss.getD r 0)) else hi)
            (dec k) = true)) →
      cleanInL dec (dec k) lo hi out.2.1 out.1 := by
  intro cs
  match cs with
  | [] =>
      intro fuel rnd i ss partitions lo hi k jk out h
      exact absurd h (by simp [splitChildren])
  | [c] =>
      intro fuel rnd i ss partitions lo hi k jk out h hordL hbuck hkmem
        hwk
      match ss with
      | _ :: _ => exact absurd h (by simp [splitChildren])
      | [] =>
          simp only [splitChildren, ok_bind_eq_ok] at h
          obtain ⟨⟨cseg, pivs, asg1, rnd2⟩, hbr, h⟩ := h
          dsimp only at h
          injection h with h2
          subst h2
          have hcord : pord dec lo hi c = true := by
            simpa [pordL] using hordL
          have hbuck0 := hbuck 0 (by simp)
          rw [if_pos rfl, if_neg (by simp)] at hbuck0
          rw [Nat.add_zero] at hbuck0
          have hwk0 : i ≠ jk →
              ¬(loOk lo (dec k) = true ∧ hiOk hi (dec k) = true) := by
            intro hne
            have := hwk 0 (by simp) (by omega)
            rw [if_pos rfl, if_neg (by simp)] at this
            exact this
          split at hbr
          · rename_i hkbe
            injection hbr with hbr2
            injection hbr2 with he1 hbr3
            injection hbr3 with he2 hbr4
            subst he1
            subst he2
            show cleanInL dec (dec k) lo hi []
              [c.addPairs (pairBucket partitions i)]
            show cleanIn dec (dec k) lo hi
              (c.addPairs (pairBucket partitions i))
            by_cases hij : i = jk
            · rw [← hij] at hkmem
              rw [List.isEmpty_iff.1 hkbe] at hkmem
              simp at hkmem
            · exact cleanIn_of_out dec (dec k) _ lo hi
                (pord_addPairs dec c _ lo hi hcord hbuck0) (hwk0 hij)
          · rename_i hkbe
            match c, hcord with
            | .pleaf cbuf, hcord =>
                rw [ok_bind_eq_ok] at hbr
                obtain ⟨⟨sibs, fbuf, asg, rndx⟩, hls, hbr⟩ := hbr
                dsimp only at hbr
                injection hbr with hbr2
                injection hbr2 with he1 hbr3
                injection hbr3 with he2 hbr4
                subst he1
                subst he2
                exact cleanInL_pleaf_last dec (dec k) hi fbuf sibs lo
            | .pnode sx bx csx, hcord =>
                rw [ok_bind_eq_ok] at hbr
                obtain ⟨⟨cc, asg, rndx⟩, hts, hbr⟩ := hbr
                dsimp only at hbr
                injection hbr with hbr2
                injection hbr2 with he1 hbr3
                injection hbr3 with he2 hbr4
                subst he1
                subst he2
                show cleanInL dec (dec k) lo hi [] [cc]
                show cleanIn dec (dec k) lo hi cc
                by_cases hij : i = jk
                · rw [← hij] at hkmem
                  exact treeSplitN_clean dec L (.pnode sx bx csx) fuel
                    rnd (pairBucket partitions i)
                    (keyBucket partitions i) k lo hi (cc, asg, rndx)
                    hts hcord hbuck0 hkmem
                · have hocc := (treeSplitN_ord dec L (.pnode sx bx csx)
                    fuel rnd (pairBucket partitions i)
                    (keyBucket partitions i) lo hi (cc, asg, rndx) hts
                    hcord hbuck0).1
                  exact cleanIn_of_out dec (dec k) cc lo hi hocc
                    (hwk0 hij)
  | c :: c2 :: csr =>
      intro fuel rnd i ss partitions lo hi k jk out h hordL hbuck hkmem
        hwk
      match ss with
      | [] => exact absurd h (by simp [splitChildren])
      | s :: ssr =>
          simp only [splitChildren, ok_bind_eq_ok] at h
          obtain ⟨⟨cseg, pivs, asg1, rnd2⟩, hbr, h⟩ := h
          dsimp only at h
          obtain ⟨⟨cs3, pivs2, asg2, rnd3⟩, hrest, h⟩ := h
          dsimp only at h
          injection h with h2
          subst h2
          simp only [pordL, Bool.and_eq_true] at hordL
          obtain ⟨⟨⟨hslo, hshi⟩, hcord⟩, htail⟩ := hordL
          have hbuck0 := hbuck 0 (by simp)
          rw [if_pos rfl, if_pos (by simp)] at hbuck0
          rw [Nat.add_zero] at hbuck0
          have hs0 : (s :: ssr).getD 0 0 = s := rfl
          rw [hs0] at hbuck0
          have hwk0 : i ≠ jk →
              ¬(loOk lo (dec k) = true ∧
                hiOk (some (dec s)) (dec k) = true) := by
            intro hne
            have := hwk 0 (by simp) (by omega)
            rw [if_pos rfl, if_pos (by simp), hs0] at this
            exact this
          have hbucktail : ∀ (r : Nat), r < (c2 :: csr).length →
              ∀ p ∈ pairBucket partitions ((i + 1) + r),
                loOk (if r = 0 then some (dec s)
                  else some (dec (ssr.getD (r - 1) 0))) (dec p.1) =
                  true ∧
                hiOk (if r < ssr.length then
                  some (dec (ssr.getD r 0)) else hi) (dec p.1) =
                  true := by
            intro r hr p hp
            have harg : (i + 1) + r = i + (r + 1) := by omega
            rw [harg] at hp
            have := hbuck (r + 1) (by simpa using hr) p hp
            rw [if_neg (by omega)] at this
            constructor
            · by_cases hz : r = 0
              · subst hz
                rw [if_pos rfl]
                have harg2 : (1 : Nat) - 1 = 0 := rfl
                rw [harg2, hs0] at this
                exact this.1
              · rw [if_neg hz]
                have harg2 : r + 1 - 1 = (r - 1) + 1 := by omega
                rw [harg2, List.getD_cons_succ] at this
                exact this.1
            · by_cases hr2 : r < ssr.length
              · rw [if_pos hr2]
                rw [if_pos (by simp; omega), List.getD_cons_succ] at this
                exact this.2
              · rw [if_neg hr2]
                rw [if_neg (by simp; omega)] at this
                exact this.2
          have hwktail : ∀ (r : Nat), r < (c2 :: csr).length →
              (i + 1) + r ≠ jk →
              ¬(loOk (if r = 0 then some (dec s)
                  else some (dec (ssr.getD (r - 1) 0))) (dec k) =
                  true ∧
                hiOk (if r < ssr.length then
                  some (dec (ssr.getD r 0)) else hi) (dec k) =
                  true) := by
            intro r hr hne hcon
            have harg : (i + 1) + r = i + (r + 1) := by omega
            have hx := hwk (r + 1) (by simpa using hr) (by omega)
            rw [if_neg (by omega)] at hx
            refine hx ?_
            obtain ⟨hclo, hchi⟩ := hcon
            constructor
            · by_cases hz : r = 0
              · subst hz
                rw [if_pos rfl] at hclo
                have harg2 : (1 : Nat) - 1 = 0 := rfl
                rw [harg2, hs0]
                exact hclo
              · rw [if_neg hz] at hclo
                have harg2 : r + 1 - 1 = (r - 1) + 1 := by omega
                rw [harg2, List.getD_cons_succ]
                exact hclo
            · by_cases hr2 : r < ssr.length
              · rw [if_pos hr2] at hchi
                rw [if_pos (by simp; omega), List.getD_cons_succ]
                exact hchi
              · rw [if_neg hr2] at hchi
                rw [if_neg (by simp; omega)]
                exact hchi
          have rtail := splitChildren_clean dec L (c2 :: csr) fuel rnd2
            (i + 1) ssr partitions (some (dec s)) hi k jk
            (cs3, pivs2, asg2, rnd3) hrest htail hbucktail hkmem hwktail
          show cleanInL dec (dec k) lo hi (pivs ++ s :: pivs2)
            (cseg ++ cs3)
          split at hbr
          · rename_i hkbe
            injection hbr with hbr2
            injection hbr2 with he1 hbr3
            injection hbr3 with he2 hbr4
            subst he1
            subst he2
            show cleanInL dec (dec k) lo hi ([] ++ s :: pivs2) _
            show cleanInL dec (dec k) lo hi (s :: pivs2)
              (c.addPairs (pairBucket partitions i) :: cs3)
            refine cleanInL_cons dec (dec k) lo hi s pivs2 _ cs3 ?_ rtail
            by_cases hij : i = jk
            · rw [← hij] at hkmem
              rw [List.isEmpty_iff.1 hkbe] at hkmem
              simp at hkmem
            · exact cleanIn_of_out dec (dec k) _ lo (some (dec s))
                (pord_addPairs dec c _ lo (some (dec s)) hcord hbuck0)
                (hwk0 hij)
          · rename_i hkbe
            match c, hcord with
            | .pleaf cbuf, hcord =>
                rw [ok_bind_eq_ok] at hbr
                obtain ⟨⟨sibs, fbuf, asg, rndx⟩, hls, hbr⟩ := hbr
                dsimp only at hbr
                injection hbr with hbr2
                injection hbr2 with he1 hbr3
                injection hbr3 with he2 hbr4
                subst he1
                subst he2
                have hassoc : (sibs.map (fun e => PTree.pleaf e.1) ++
                    [PTree.pleaf fbuf]) ++ cs3 =
                    sibs.map (fun e => PTree.pleaf e.1) ++
                      PTree.pleaf fbuf :: cs3 := by
                  rw [List.append_assoc]
                  rfl
                rw [hassoc]
                exact cleanInL_pleaf_chain dec (dec k) hi s pivs2 fbuf
                  cs3 sibs lo rtail
            | .pnode sx bx csx, hcord =>
                rw [ok_bind_eq_ok] at hbr
                obtain ⟨⟨cc, asg, rndx⟩, hts, hbr⟩ := hbr
                dsimp only at hbr
                injection hbr with hbr2
                injection hbr2 with he1 hbr3
                injection hbr3 with he2 hbr4
                subst he1
                subst he2
                show cleanInL dec (dec k) lo hi ([] ++ s :: pivs2) _
                show cleanInL dec (dec k) lo hi (s :: pivs2)
                  (cc :: cs3)
                refine cleanInL_cons dec (dec k) lo hi s pivs2 cc cs3
                  ?_ rtail
                by_cases hij : i = jk
                · rw [← hij] at hkmem
                  exact treeSplitN_clean dec L (.pnode sx bx csx) fuel
                    rnd (pairBucket partitions i)
                    (keyBucket partitions i) k lo (some (dec s))
                    (cc, asg, rndx) hts hcord hbuck0 hkmem
                · have hocc := (treeSplitN_ord dec L (.pnode sx bx csx)
                    fuel rnd (pairBucket partitions i)
                    (keyBucket partitions i) lo (some (dec s))
                    (cc, asg, rndx) hts hcord hbuck0).1
                  exact cleanIn_of_out dec (dec k) cc lo (some (dec s))
                    hocc (hwk0 hij)

end

/-- Cleanliness of the root call of `Pope.split` for each search key's
plaintext. -/
theorem popeSplitTop_clean (dec : Nat → Nat) (L : Nat) (fuel : Nat)
    (rnd : List (List Nat)) (t : PTree) (keys : List Nat) (k : Nat)
    (out : PTree × List (Nat × List (Nat × Nat)) × List (List Nat))
    (h : popeSplitTop dec L fuel rnd t keys = .ok out)
    (hord : pord dec none none t = true) (hk : k ∈ keys) :
    cleanIn dec (dec k) none none out.1 := by
  match t with
  | .pleaf buf =>
      simp only [popeSplitTop, leafSplit, ok_bind_eq_ok] at h
      obtain ⟨⟨sibs, fbuf, asg, rnd2⟩, hls, h⟩ := h
      dsimp only at h
      split at h
      · injection h with h2
        subst h2
        exact trivial
      · injection h with h2
        subst h2
        exact ⟨fun hw => rfl,
          cleanInL_pleaf_last dec (dec k) none fbuf sibs none⟩
  | .pnode s b cs =>
      exact treeSplitN_clean dec L (.pnode s b cs) fuel rnd [] keys k
        none none out h hord (by intro p hp; simp at hp) hk

theorem cleanInL_split (dec : Nat → Nat) (w : Nat) :
    ∀ (n : Nat) (ss : List Nat) (cs : List PTree) (lo hi : Option Nat),
      pordL dec lo hi ss cs = true →
      cleanInL dec w lo hi ss cs → n < ss.length →
      cleanInL dec w lo (some (dec (ss.getD n 0))) (ss.take n)
        (cs.take (n + 1)) ∧
      cleanInL dec w (some (dec (ss.getD n 0))) hi (ss.drop (n + 1))
        (cs.drop (n + 1)) := by
  intro n
  induction n with
  | zero =>
      intro ss cs lo hi h hcl hlen
      match ss, cs with
      | x :: ssr, [] => exact absurd h (by simp [pordL])
      | x :: ssr, [c] => exact absurd h (by simp [pordL])
      | x :: ssr, c :: c2 :: csr => exact ⟨hcl.1, hcl.2⟩
  | succ n ih =>
      intro ss cs lo hi h hcl hlen
      match ss, cs with
      | x :: ssr, [] => exact absurd h (by simp [pordL])
      | x :: ssr, [c] => exact absurd h (by simp [pordL])
      | x :: ssr, c :: c2 :: csr =>
          simp only [pordL, Bool.and_eq_true] at h
          obtain ⟨⟨⟨hxlo, hxhi⟩, hc⟩, htail⟩ := h
          obtain ⟨ih1, ih2⟩ := ih ssr (c2 :: csr) (some (dec x)) hi
            htail hcl.2 (by simpa using hlen)
          refine ⟨?_, ?_⟩
          · show cleanInL dec w lo
              (some (dec ((x :: ssr).getD (n + 1) 0)))
              (x :: ssr.take n) (c :: (c2 :: csr).take (n + 1))
            rw [List.getD_cons_succ]
            exact cleanInL_cons dec w lo _ x _ c _ hcl.1 ih1
          · show cleanInL dec w
              (some (dec ((x :: ssr).getD (n + 1) 0))) hi
              (ssr.drop (n + 1)) ((c2 :: csr).drop (n + 1))
            rw [List.getD_cons_succ]
            exact ih2

theorem splitOff_clean (dec : Nat → Nat) (w : Nat) (L n : Nat)
    (sorted : List Nat) (cs : List PTree) (lo hi : Option Nat)
    (out : (PTree × Nat) × List Nat × List PTree)
    (h : splitOff L n sorted cs = .ok out)
    (hord : pordL dec lo hi sorted cs = true)
    (hcl : cleanInL dec w lo hi sorted cs) :
    cleanIn dec w lo (some (dec out.1.2)) out.1.1 ∧
    cleanInL dec w (some (dec out.1.2)) hi out.2.1 out.2.2 := by
  simp only [splitOff, ok_bind_eq_ok] at h
  obtain ⟨u, hm, h⟩ := h
  cases hg : sorted.get? n with
  | none => rw [hg] at h; exact absurd h (by simp)
  | some sep =>
      rw [hg] at h
      injection h with h2
      subst h2
      have hlen : n < sorted.length := by
        by_contra hc
        rw [List.get?_eq_none.2 (by omega)] at hg
        cases hg
      have hsep : sorted.getD n 0 = sep := by
        have hgg : sorted.get ⟨n, hlen⟩ = sep := by
          have h3 := List.get?_eq_get hlen
          rw [h3] at hg
          exact Option.some.inj hg
        rw [List.getD_eq_getElem _ _ hlen]
        exact hgg
      obtain ⟨s1, s2⟩ := cleanInL_split dec w n sorted cs lo hi hord hcl
        hlen
      rw [hsep] at s1 s2
      exact ⟨⟨fun _ => rfl, s1⟩, s2⟩

theorem chainLo_append (dec : Nat → Nat) (lo : Option Nat)
    (A : List (PTree × Nat)) (e : PTree × Nat) :
    chainLo dec lo (A ++ [e]) = some (dec e.2) := by
  simp [chainLo, List.foldl_append]

theorem chainClean_append (dec : Nat → Nat) (w : Nat) :
    ∀ (A : List (PTree × Nat)) (lo : Option Nat)
      (B : List (PTree × Nat)),
      chainClean dec w lo A →
      chainClean dec w (chainLo dec lo A) B →
      chainClean dec w lo (A ++ B) := by
  intro A
  induction A with
  | nil => intro lo B _ hB; exact hB
  | cons e rest ih =>
      obtain ⟨u, piv⟩ := e
      intro lo B hA hB
      exact ⟨hA.1, ih (some (dec piv)) B hA.2 hB⟩

theorem chainClean_cleanInL (dec : Nat → Nat) (w : Nat)
    (hi : Option Nat) :
    ∀ (sibs : List (PTree × Nat)) (lo : Option Nat) (c2 : PTree),
      chainClean dec w lo sibs →
      cleanIn dec w (chainLo dec lo sibs) hi c2 →
      cleanInL dec w lo hi (sibs.map (fun e => e.2))
        (sibs.map (fun e => e.1) ++ [c2]) := by
  intro sibs
  induction sibs with
  | nil => intro lo c2 _ hc; exact hc
  | cons e rest ih =>
      obtain ⟨u, piv⟩ := e
      intro lo c2 hA hc
      simp only [List.map_cons, List.cons_append]
      exact cleanInL_cons dec w lo hi piv _ u _ hA.1
        (ih (some (dec piv)) c2 hA.2 hc)

theorem chainClean_cleanInL_cons (dec : Nat → Nat) (w : Nat)
    (hi : Option Nat) :
    ∀ (sibs : List (PTree × Nat)) (lo : Option Nat) (cc2 : PTree)
      (s : Nat) (ss : List Nat) (cs : List PTree),
      chainClean dec w lo sibs →
      cleanIn dec w (chainLo dec lo sibs) (some (dec s)) cc2 →
      cleanInL dec w (some (dec s)) hi ss cs →
      cleanInL dec w lo hi (sibs.map (fun e => e.2) ++ s :: ss)
        (sibs.map (fun e => e.1) ++ cc2 :: cs) := by
  intro sibs
  induction sibs with
  | nil =>
      intro lo cc2 s ss cs _ hc ht
      simp only [List.map_nil, List.nil_append]
      exact cleanInL_cons dec w lo hi s ss cc2 cs hc ht
  | cons e rest ih =>
      obtain ⟨u, piv⟩ := e
      intro lo cc2 s ss cs hA hc ht
      simp only [List.map_cons, List.cons_append]
      exact cleanInL_cons dec w lo hi piv _ u _ hA.1
        (ih (some (dec piv)) cc2 s ss cs hA.2 hc ht)

/-- Cleanliness preservation through the `while` loop of `rebalance`. -/
theorem rebalWhile_clean (dec : Nat → Nat) (w : Nat) (L : Nat) :
    ∀ (f : Nat) (sorted : List Nat) (cs : List PTree)
      (acc : List (PTree × Nat)) (lo hi lo0 : Option Nat)
      (out : List (PTree × Nat) × List Nat × List PTree),
      rebalWhile L f sorted cs acc = .ok out →
      pordL dec lo hi sorted cs = true →
      cleanInL dec w lo hi sorted cs →
      chainClean dec w lo0 acc →
      chainLo dec lo0 acc = lo →
      chainClean dec w lo0 out.1 ∧
      cleanInL dec w (chainLo dec lo0 out.1) hi out.2.1 out.2.2 := by
  intro f
  induction f with
  | zero =>
      intro sorted cs acc lo hi lo0 out h
      exact absurd h (by simp [rebalWhile])
  | succ f ih =>
      intro sorted cs acc lo hi lo0 out h hord hcl hacc hlo
      rw [rebalWhile] at h
      split at h
      · rename_i hbig
        rw [ok_bind_eq_ok] at h
        obtain ⟨⟨⟨sib, sep⟩, s2, c2⟩, hso, h⟩ := h
        dsimp only at h
        obtain ⟨o1, o2, o3, o4, o5⟩ := splitOff_ord dec L (L / 2) sorted
          cs lo hi ((sib, sep), s2, c2) hso hord
        dsimp only at o4
        obtain ⟨q1, q2⟩ := splitOff_clean dec w L (L / 2) sorted cs lo
          hi ((sib, sep), s2, c2) hso hord hcl
        dsimp only at q1 q2
        have hacc2 : chainClean dec w lo0 (acc ++ [(sib, sep)]) := by
          refine chainClean_append dec w acc lo0 [(sib, sep)] hacc ?_
          rw [hlo]
          exact ⟨q1, trivial⟩
        have hlo2 : chainLo dec lo0 (acc ++ [(sib, sep)]) =
            some (dec sep) := chainLo_append dec lo0 acc (sib, sep)
        exact ih s2 c2 (acc ++ [(sib, sep)]) (some (dec sep)) hi lo0 out
          h o4 q2 hacc2 hlo2
      · injection h with h2
        subst h2
        refine ⟨hacc, ?_⟩
        rw [hlo]
        exact hcl

theorem chainN_chainLo (dec : Nat → Nat) (hi : Option Nat) :
    ∀ (A : List (PTree × Nat)) (lo0 lo2 : Option Nat),
      chainN dec hi lo0 A lo2 → chainLo dec lo0 A = lo2 := by
  intro A
  induction A with
  | nil => intro lo0 lo2 h; exact h.symm
  | cons e rest ih =>
      obtain ⟨u, piv⟩ := e
      intro lo0 lo2 h
      exact ih (some (dec piv)) lo2 h.2.2.2

mutual

/-- Cleanliness preservation through the global `rebalance` pass: the
split-off siblings are clean for `w` at their chain intervals and the
remaining node is clean at its narrowed interval. -/
theorem rebalanceT_clean (dec : Nat → Nat) (w : Nat) (L : Nat)
    (hL : 2 ≤ L) :
    ∀ (t : PTree) (isRoot : Bool) (out : List (PTree × Nat) × PTree)
      (lo hi : Option Nat),
      rebalanceT L t isRoot = .ok out →
      pord dec lo hi t = true →
      (pact L t || psq L t) = true →
      cleanIn dec w lo hi t →
      chainClean dec w lo out.1 ∧
      cleanIn dec w (chainLo dec lo out.1) hi out.2 := by
  intro t
  match t with
  | .pleaf buf =>
      intro isRoot out lo hi h hord hps hcl
      have heq : rebalanceT L (.pleaf buf) isRoot =
          .ok ([], .pleaf buf) := rfl
      rw [heq] at h
      injection h with h2
      subst h2
      exact ⟨trivial, trivial⟩
  | .pnode sorted buffer cs =>
      intro isRoot out lo hi h hord hps hcl
      simp only [Bool.or_eq_true] at hps
      rcases hps with hpact | hpsq
      · simp only [pact, Bool.and_eq_true, beq_iff_eq,
          decide_eq_true_eq, List.isEmpty_iff] at hpact
        obtain ⟨⟨⟨hbe, hcnt⟩, hs1⟩, hkids⟩ := hpact
        subst hbe
        simp only [pord, Bool.and_eq_true, List.all_eq_true] at hord
        obtain ⟨-, hordL⟩ := hord
        simp only [rebalanceT, ok_bind_eq_ok] at h
        obtain ⟨⟨cs2, sorted2⟩, hrc, h⟩ := h
        dsimp only at h
        obtain ⟨⟨sibsW, s3, c3⟩, hrw, h⟩ := h
        dsimp only at h
        obtain ⟨⟨sibs2, s4, c4⟩, hfin, h⟩ := h
        dsimp only at h
        obtain ⟨u1, hm1, h⟩ := h
        obtain ⟨u2, hm2, h⟩ := h
        injection h with h2
        subst h2
        obtain ⟨co, cc, ck⟩ := rebalanceChildren_ord dec L hL cs sorted
          (cs2, sorted2) lo hi hrc hordL hkids
        dsimp only at co cc ck
        have hclch := rebalanceChildren_clean dec w L hL cs sorted
          (cs2, sorted2) lo hi hrc hordL hkids hcl.2
        dsimp only at hclch
        obtain ⟨loW, w1, w2, w3, w4, w5, w6, w7⟩ := rebalWhile_ord dec L
          hL (sorted2.length + 1) sorted2 cs2 [] lo hi lo
          (sibsW, s3, c3) hrw co rfl (by intro e he; simp at he) ck
        dsimp only at w1 w2
        obtain ⟨v1, v2⟩ := rebalWhile_clean dec w L
          (sorted2.length + 1) sorted2 cs2 [] lo hi lo
          (sibsW, s3, c3) hrw co hclch trivial rfl
        dsimp only at v1 v2
        have hloWeq : chainLo dec lo sibsW = loW :=
          chainN_chainLo dec hi sibsW lo loW w1
        rw [hloWeq] at v2
        have hfinfacts :
            chainClean dec w lo sibs2 ∧
            cleanInL dec w (chainLo dec lo sibs2) hi s4 c4 := by
          split at hfin
          · rename_i hbig
            rw [ok_bind_eq_ok] at hfin
            obtain ⟨⟨sib, s4x, c4x⟩, hso, hfin⟩ := hfin
            dsimp only at hfin
            injection hfin with hf2
            injection hf2 with hf3 hf4
            injection hf4 with hf5 hf6
            subst hf3
            subst hf5
            subst hf6
            obtain ⟨q1, q2⟩ := splitOff_clean dec w L (s3.length / 2)
              s3 c3 loW hi (sib, s4x, c4x) hso w2 v2
            dsimp only at q1 q2
            refine ⟨?_, ?_⟩
            · refine chainClean_append dec w sibsW lo [sib] v1 ?_
              rw [hloWeq]
              exact ⟨q1, trivial⟩
            · rw [chainLo_append dec lo sibsW sib]
              exact q2
          · injection hfin with hf2
            injection hf2 with hf3 hf4
            injection hf4 with hf5 hf6
            subst hf3
            subst hf5
            subst hf6
            rw [hloWeq]
            exact ⟨v1, v2⟩
        exact ⟨hfinfacts.1, fun _ => rfl, hfinfacts.2⟩
      · have hnoop := rebalanceT_noop L hL (.pnode sorted buffer cs)
          isRoot hpsq
        rw [hnoop] at h
        injection h with h2
        subst h2
        exact ⟨trivial, hcl⟩

theorem rebalanceChildren_clean (dec : Nat → Nat) (w : Nat) (L : Nat)
    (hL : 2 ≤ L) :
    ∀ (cs : List PTree) (ss : List Nat) (out : List PTree × List Nat)
      (lo hi : Option Nat),
      rebalanceChildren L cs ss = .ok out →
      pordL dec lo hi ss cs = true →
      pactL L cs = true →
      cleanInL dec w lo hi ss cs →
      cleanInL dec w lo hi out.2 out.1 := by
  intro cs
  match cs with
  | [] =>
      intro ss out lo hi h
      exact absurd h (by simp [rebalanceChildren])
  | [c] =>
      intro ss out lo hi h hordL hkids hcl
      match ss with
      | _ :: _ => exact absurd h (by simp [rebalanceChildren])
      | [] =>
          simp only [rebalanceChildren, ok_bind_eq_ok] at h
          obtain ⟨⟨sibs, c2⟩, hrt, h⟩ := h
          dsimp only at h
          injection h with h2
          subst h2
          have hcord : pord dec lo hi c = true := by
            simpa [pordL] using hordL
          have hcact : (pact L c || psq L c) = true :=
            pactL_mem L [c] hkids c (List.mem_cons_self _ _)
          have hccl : cleanIn dec w lo hi c := hcl
          obtain ⟨v1, v2⟩ := rebalanceT_clean dec w L hL c false
            (sibs, c2) lo hi hrt hcord hcact hccl
          dsimp only at v1 v2
          exact chainClean_cleanInL dec w hi sibs lo c2 v1 v2
  | c :: c2 :: csr =>
      intro ss out lo hi h hordL hkids hcl
      match ss with
      | [] => exact absurd h (by simp [rebalanceChildren])
      | s :: ssr =>
          simp only [rebalanceChildren, ok_bind_eq_ok] at h
          obtain ⟨⟨sibs, cc2⟩, hrt, h⟩ := h
          dsimp only at h
          obtain ⟨⟨cs3, pivs2⟩, hrest, h⟩ := h
          dsimp only at h
          injection h with h2
          subst h2
          simp only [pordL, Bool.and_eq_true] at hordL
          obtain ⟨⟨⟨hslo, hshi⟩, hcord⟩, htail⟩ := hordL
          simp only [pactL, Bool.and_eq_true] at hkids
          obtain ⟨v1, v2⟩ := rebalanceT_clean dec w L hL c false
            (sibs, cc2) lo (some (dec s)) hrt hcord hkids.1 hcl.1
          dsimp only at v1 v2
          have ht := rebalanceChildren_clean dec w L hL (c2 :: csr) ssr
            (cs3, pivs2) (some (dec s)) hi hrest htail
            (by simp only [pactL, Bool.and_eq_true]; exact hkids.2)
            hcl.2
          dsimp only at ht
          exact chainClean_cleanInL_cons dec w hi sibs lo cc2 s pivs2
            cs3 v1 v2 ht

end

/-- Cleanliness preservation through the full root rebalance. -/
theorem rebalanceRoot_clean (dec : Nat → Nat) (w : Nat) (L : Nat)
    (hL : 2 ≤ L) :
    ∀ (f : Nat) (t t3 : PTree), rebalanceRoot L f t = .ok t3 →
      pord dec none none t = true →
      (pact L t || psq L t) = true →
      cleanIn dec w none none t →
      cleanIn dec w none none t3 := by
  intro f
  induction f with
  | zero => intro t t3 h; exact absurd h (by simp [rebalanceRoot])
  | succ f ih =>
      intro t t3 h hord hact hcl
      rw [rebalanceRoot] at h
      rw [ok_bind_eq_ok] at h
      obtain ⟨⟨sibs, t2⟩, hrt, h⟩ := h
      dsimp only at h
      obtain ⟨lo2, r1, r2, r3, r4, r5, r6, r7⟩ :=
        rebalanceT_ord dec L hL t true (sibs, t2) none none hrt hord hact
      dsimp only at r1 r2 r3 r4 r5 r6 r7
      obtain ⟨v1, v2⟩ := rebalanceT_clean dec w L hL t true (sibs, t2)
        none none hrt hord hact hcl
      dsimp only at v1 v2
      split at h
      · rename_i hse
        have hsnil : sibs = [] := List.isEmpty_iff.1 hse
        injection h with h2
        subst h2
        rw [hsnil] at v2
        exact v2
      · rename_i hse
        have hsne : sibs ≠ [] := by
          intro hx
          rw [hx] at hse
          simp at hse
        have hroot : pord dec none none
            (.pnode (sibs.map (fun e => e.2)) []
              (sibs.map (fun e => e.1) ++ [t2])) = true := by
          simp only [pord, Bool.and_eq_true, List.all_eq_true]
          refine ⟨by intro p hp; simp at hp, ?_⟩
          exact chainN_pordL dec sibs none none lo2 t2 r1 r2
        have hrootact : (pact L (.pnode (sibs.map (fun e => e.2)) []
            (sibs.map (fun e => e.1) ++ [t2])) ||
            psq L (.pnode (sibs.map (fun e => e.2)) []
              (sibs.map (fun e => e.1) ++ [t2]))) = true := by
          rw [Bool.or_eq_true]
          refine Or.inl ?_
          simp only [pact, Bool.and_eq_true, beq_iff_eq,
            decide_eq_true_eq, List.isEmpty_iff]
          repeat' apply And.intro
          all_goals first
            | trivial
            | (cases sibs with
               | nil => exact absurd rfl hsne
               | cons a l => simp)
            | (refine pactL_of_forall L _ ?_
               intro cx hcx
               rcases List.mem_append.1 hcx with h1 | h2
               · obtain ⟨e, he, heq⟩ := List.mem_map.1 h1
                 rw [← heq, Bool.or_eq_true]
                 exact Or.inl (r7 e he)
               · rcases List.mem_cons.1 h2 with rfl | h3
                 · exact r6
                 · simp at h3)
        have hrootcl : cleanIn dec w none none
            (.pnode (sibs.map (fun e => e.2)) []
              (sibs.map (fun e => e.1) ++ [t2])) :=
          ⟨fun _ => rfl, chainClean_cleanInL dec w none sibs none t2 v1
            v2⟩
        exact ih _ t3 h hroot hrootact hrootcl

/-- The root split of a shape-valid tree with at least one search key
produces an `pact` root. -/
theorem popeSplitTop_pact (dec : Nat → Nat) (L : Nat) (fuel : Nat)
    (rnd : List (List Nat)) (t : PTree) (keys : List Nat) (d : Nat)
    (out : PTree × List (Nat × List (Nat × Nat)) × List (List Nat))
    (h : popeSplitTop dec L fuel rnd t keys = .ok out)
    (hshape : pshape L t true d = true)
    (hkne : keys ≠ []) :
    pact L out.1 = true := by
  match t with
  | .pleaf buf =>
      simp only [popeSplitTop, leafSplit, ok_bind_eq_ok] at h
      obtain ⟨⟨sibs, fbuf, asg, rnd2⟩, hls, h⟩ := h
      dsimp only at h
      split at h
      · injection h with h2
        rw [← h2]
        rfl
      · rename_i hne
        have hsne : sibs ≠ [] := by
          intro hx
          rw [hx] at hne
          simp at hne
        injection h with h2
        rw [← h2]
        simp only [pact, Bool.and_eq_true, beq_iff_eq,
          decide_eq_true_eq, List.isEmpty_iff]
        repeat' apply And.intro
        all_goals first
          | trivial
          | (cases sibs with
             | nil => exact absurd rfl hsne
             | cons a l => simp)
          | (refine pactL_of_forall L _ ?_
             intro cx hcx
             rcases List.mem_append.1 hcx with h1 | h2
             · obtain ⟨e, he, heq⟩ := List.mem_map.1 h1
               rw [← heq]
               rfl
             · rcases List.mem_cons.1 h2 with rfl | h3
               · rfl
               · simp at h3)
  | .pnode s b cs =>
      exact treeSplitN_pact dec L (.pnode s b cs) fuel rnd [] keys true
        d out h hshape hkne

/-- The facts a completed `Pope.split` on in-order keys establishes on
an order- and shape-valid tree: order and content are preserved, the
result satisfies the shape invariant at some uniform leaf depth, and
the routing path of every search key's plaintext runs through empty
buffers only. -/
theorem pope_split_facts (dec : Nat → Nat) (L : Nat) (fuel : Nat)
    (rnd : List (List Nat)) (t : PTree) (keys : List Nat) (d : Nat)
    (out : PTree × List (Nat × List (Nat × Nat)) × List (List Nat))
    (hL : 2 ≤ L)
    (h : Pope.split dec L fuel rnd t keys true = .ok out)
    (hord : pord dec none none t = true)
    (hshape : pshape L t true d = true)
    (hkne : keys ≠ []) :
    pord dec none none out.1 = true ∧
    List.Perm (PTree.traverse out.1) (PTree.traverse t) ∧
    (∀ k ∈ keys, cleanIn dec (dec k) none none out.1) ∧
    (∃ d2, pshape L out.1 true d2 = true) := by
  simp only [Pope.split, Bool.not_true, Bool.false_and,
    ok_bind_eq_ok] at h
  obtain ⟨u1, hkl, h⟩ := h
  obtain ⟨keys2, hks, h⟩ := h
  rw [if_neg (by simp)] at hks
  injection hks with hks2
  subst hks2
  obtain ⟨⟨t2, asg, rnd2⟩, hst, h⟩ := h
  obtain ⟨t3, hreb, h⟩ := h
  injection h with h2
  obtain ⟨hord2, hperm2⟩ := popeSplitTop_ord dec L fuel rnd t keys
    (t2, asg, rnd2) hst hord
  dsimp only at hord2 hperm2
  have hpact2 : pact L t2 = true := popeSplitTop_pact dec L fuel rnd t
    keys d (t2, asg, rnd2) hst hshape hkne
  have hactor : (pact L t2 || psq L t2) = true := by
    rw [Bool.or_eq_true]
    exact Or.inl hpact2
  obtain ⟨hord3, htrav3⟩ := rebalanceRoot_ord dec L hL
    (PTree.size t2 + 2) t2 t3 hreb hord2 hactor
  obtain ⟨d2, hwf2⟩ := popeSplitTop_pwf dec L fuel rnd t keys d
    (t2, asg, rnd2) hst (pshape_imp_pwf L t true d hshape)
  obtain ⟨d3, hsh3⟩ := rebalanceRoot_shape L hL (PTree.size t2 + 2) t2
    d2 t3 hreb hwf2
  rw [← h2]
  refine ⟨hord3, ?_, ?_, ⟨d3, hsh3⟩⟩
  · rw [htrav3]
    exact hperm2
  · intro k hk
    have hcl2 : cleanIn dec (dec k) none none t2 :=
      popeSplitTop_clean dec L fuel rnd t keys k (t2, asg, rnd2) hst
        hord hk
    exact rebalanceRoot_clean dec (dec k) L hL (PTree.size t2 + 2) t2
      t3 hreb hord2 hactor hcl2

theorem pwfL_mem :
    ∀ (cs : List PTree) (d : Nat), pwfL cs d = true →
      ∀ c ∈ cs, pwf c d = true := by
  intro cs
  induction cs with
  | nil => intro d _ c hc; simp at hc
  | cons c0 rest ih =>
      intro d h c hc
      simp only [pwfL, Bool.and_eq_true] at h
      rcases List.mem_cons.1 hc with rfl | h2
      · exact h.1
      · exact ih d h.2 c h2

/-- On a `pord`-valid node the pivots are already sorted, so the
partition routing is a plain left bisect over the pivot plaintexts. -/
theorem routeIdx_eq (dec : Nat → Nat) (ss : List Nat)
    (lo hi : Option Nat) (cs : List PTree)
    (h : pordL dec lo hi ss cs = true) (k : Nat) :
    routeIdx dec ss k = bisl (· < ·) (ss.map dec) (dec k) := by
  simp only [routeIdx]
  rw [sorted_map_dec_insertionSort dec ss
    (pordL_pivots dec ss lo hi cs h).1]

/-- The interval of child `j` in a `pord`-valid pivot/child
alternation. -/
theorem pordL_child (dec : Nat → Nat) :
    ∀ (cs : List PTree) (ss : List Nat) (lo hi : Option Nat),
      pordL dec lo hi ss cs = true →
      ∀ j, j < cs.length →
        pord dec (if j = 0 then lo else some (dec (ss.getD (j - 1) 0)))
          (if j < ss.length then some (dec (ss.getD j 0)) else hi)
          (cs.getD j (.pleaf [])) = true := by
  intro cs
  induction cs with
  | nil => intro ss lo hi h j hj; simp at hj
  | cons c rest ih =>
      intro ss lo hi h j hj
      match rest, ss with
      | [], [] =>
          match j, hj with
          | 0, _ =>
              rw [if_pos rfl, if_neg (by simp)]
              simpa [pordL] using h
      | [], _ :: _ => exact absurd h (by simp [pordL])
      | c2 :: cs2, [] => exact absurd h (by simp [pordL])
      | c2 :: cs2, x :: ss2 =>
          simp only [pordL, Bool.and_eq_true] at h
          obtain ⟨⟨⟨hxlo, hxhi⟩, hc⟩, htail⟩ := h
          match j with
          | 0 =>
              rw [if_pos rfl, if_pos (by simp)]
              exact hc
          | jj + 1 =>
              have hrec := ih ss2 (some (dec x)) hi htail jj
                (by simpa using hj)
              have hgoallo : (if jj + 1 = 0 then lo
                  else some (dec ((x :: ss2).getD (jj + 1 - 1) 0))) =
                  (if jj = 0 then some (dec x)
                   else some (dec (ss2.getD (jj - 1) 0))) := by
                rw [if_neg (by omega)]
                by_cases hz : jj = 0
                · subst hz
                  rw [if_pos rfl]
                  rfl
                · rw [if_neg hz]
                  have he : jj + 1 - 1 = (jj - 1) + 1 := by omega
                  rw [he, List.getD_cons_succ]
              have hgoalhi : (if jj + 1 < (x :: ss2).length then
                  some (dec ((x :: ss2).getD (jj + 1) 0)) else hi) =
                  (if jj < ss2.length then some (dec (ss2.getD jj 0))
                   else hi) := by
                by_cases h2 : jj < ss2.length
                · rw [if_pos (by simp; omega), if_pos h2,
                    List.getD_cons_succ]
                · rw [if_neg (by simp; omega), if_neg h2]
              rw [hgoallo, hgoalhi]
              show pord dec _ _ ((c2 :: cs2).getD jj (.pleaf [])) = true
              exact hrec

/-- Cleanliness of child `j` at its interval. -/
theorem cleanInL_child (dec : Nat → Nat) (w : Nat) :
    ∀ (cs : List PTree) (ss : List Nat) (lo hi : Option Nat),
      pordL dec lo hi ss cs = true →
      cleanInL dec w lo hi ss cs →
      ∀ j, j < cs.length →
        cleanIn dec w
          (if j = 0 then lo else some (dec (ss.getD (j - 1) 0)))
          (if j < ss.length then some (dec (ss.getD j 0)) else hi)
          (cs.getD j (.pleaf [])) := by
  intro cs
  induction cs with
  | nil => intro ss lo hi h hcl j hj; simp at hj
  | cons c rest ih =>
      intro ss lo hi h hcl j hj
      match rest, ss with
      | [], [] =>
          match j, hj with
          | 0, _ =>
              rw [if_pos rfl, if_neg (by simp)]
              exact hcl
      | [], _ :: _ => exact absurd h (by simp [pordL])
      | c2 :: cs2, [] => exact absurd h (by simp [pordL])
      | c2 :: cs2, x :: ss2 =>
          simp only [pordL, Bool.and_eq_true] at h
          obtain ⟨⟨⟨hxlo, hxhi⟩, hc⟩, htail⟩ := h
          match j with
          | 0 =>
              rw [if_pos rfl, if_pos (by simp)]
              exact hcl.1
          | jj + 1 =>
              have hrec := ih ss2 (some (dec x)) hi htail hcl.2 jj
                (by simpa using hj)
              have hgoallo : (if jj + 1 = 0 then lo
                  else some (dec ((x :: ss2).getD (jj + 1 - 1) 0))) =
                  (if jj = 0 then some (dec x)
                   else some (dec (ss2.getD (jj - 1) 0))) := by
                rw [if_neg (by omega)]
                by_cases hz : jj = 0
                · subst hz
                  rw [if_pos rfl]
                  rfl
                · rw [if_neg hz]
                  have he : jj + 1 - 1 = (jj - 1) + 1 := by omega
                  rw [he, List.getD_cons_succ]
              have hgoalhi : (if jj + 1 < (x :: ss2).length then
                  some (dec ((x :: ss2).getD (jj + 1) 0)) else hi) =
                  (if jj < ss2.length then some (dec (ss2.getD jj 0))
                   else hi) := by
                by_cases h2 : jj < ss2.length
                · rw [if_pos (by simp; omega), if_pos h2,
                    List.getD_cons_succ]
                · rw [if_neg (by simp; omega), if_neg h2]
              rw [hgoallo, hgoalhi]
              show cleanIn dec w _ _ ((c2 :: cs2).getD jj (.pleaf []))
              exact hrec

theorem pathOfL_getD (dec : Nat → Nat) :
    ∀ (cs : List PTree) (i : Nat) (k : Nat), i < cs.length →
      pathOfL dec cs i k = pathOf dec (cs.getD i (.pleaf [])) k := by
  intro cs
  induction cs with
  | nil => intro i k hi; simp at hi
  | cons c rest ih =>
      intro i k hi
      match i with
      | 0 => rfl
      | ii + 1 =>
          show pathOfL dec rest ii k = _
          rw [ih ii k (by simpa using hi)]
          rfl

theorem subtreeAt_nil (t : PTree) : subtreeAt t [] = some t := by
  cases t <;> rfl

theorem subtreeAt_cons (s : List Nat) (b : List (Nat × Nat))
    (cs : List PTree) (i : Nat) (p : List Nat) (hi : i < cs.length) :
    subtreeAt (.pnode s b cs) (i :: p) =
      subtreeAt (cs.getD i (.pleaf [])) p := by
  simp only [subtreeAt]
  rw [List.get?_eq_get hi]
  simp only [List.getD_eq_getElem _ _ hi, List.get_eq_getElem]

/-- The routing path of a key's plaintext through an order- and
shape-valid, route-clean tree: it has the uniform leaf depth as its
length, passes only through flushed internal nodes whose intervals
contain the plaintext, follows the bisect routing at every level, and
ends at a leaf whose interval contains the plaintext. -/
theorem path_facts (dec : Nat → Nat) (k : Nat) :
    ∀ (d : Nat) (t : PTree) (lo hi : Option Nat),
      pord dec lo hi t = true → pwf t d = true →
      loOk lo (dec k) = true → hiOk hi (dec k) = true →
      cleanIn dec (dec k) lo hi t →
      (pathOf dec t k).length = d ∧
      (∀ dd, dd < d → ∃ s : List Nat, ∃ cs : List PTree,
        ∃ lo2 hi2 : Option Nat,
        subtreeAt t ((pathOf dec t k).take dd) =
          some (.pnode s [] cs) ∧
        pordL dec lo2 hi2 s cs = true ∧
        1 ≤ s.length ∧
        loOk lo2 (dec k) = true ∧ hiOk hi2 (dec k) = true ∧
        (pathOf dec t k).getD dd 0 = routeIdx dec s k ∧
        subtreeAt t ((pathOf dec t k).take (dd + 1)) =
          some (cs.getD (routeIdx dec s k) (.pleaf []))) ∧
      (∃ lb : List (Nat × Nat), ∃ lo2 hi2 : Option Nat,
        subtreeAt t (pathOf dec t k) = some (.pleaf lb) ∧
        pord dec lo2 hi2 (.pleaf lb) = true ∧
        loOk lo2 (dec k) = true ∧ hiOk hi2 (dec k) = true) := by
  intro d
  induction d with
  | zero =>
      intro t lo hi hord hwf hklo hkhi hcl
      match t with
      | .pleaf buf =>
          refine ⟨rfl, by intro dd hdd; omega, ?_⟩
          exact ⟨buf, lo, hi, rfl, hord, hklo, hkhi⟩
      | .pnode s b cs => simp [pwf] at hwf
  | succ d ih =>
      intro t lo hi hord hwf hklo hkhi hcl
      match t with
      | .pleaf buf => simp [pwf] at hwf
      | .pnode s b cs =>
          simp only [pwf, Bool.and_eq_true, beq_iff_eq,
            decide_eq_true_eq] at hwf
          obtain ⟨⟨hcnt, hs1⟩, hkidswf⟩ := hwf
          simp only [pord, Bool.and_eq_true, List.all_eq_true] at hord
          obtain ⟨hbufb, hordL⟩ := hord
          obtain ⟨himp, hclL⟩ := hcl
          have hbe : b = [] := himp ⟨hklo, hkhi⟩
          subst hbe
          have hroute : routeIdx dec s k =
              bisl (· < ·) (s.map dec) (dec k) :=
            routeIdx_eq dec s lo hi cs hordL k
          have hilt : routeIdx dec s k < cs.length := by
            have := bisl_le_length (· < ·) (s.map dec) (dec k)
            rw [← hroute] at this
            simp only [List.length_map] at this
            omega
          have hpath : pathOf dec (.pnode s [] cs) k =
              routeIdx dec s k ::
                pathOf dec (cs.getD (routeIdx dec s k) (.pleaf [])) k := by
            simp only [pathOf]
            rw [pathOfL_getD dec cs (routeIdx dec s k) k hilt]
          have hcord := pordL_child dec cs s lo hi hordL
            (routeIdx dec s k) hilt
          have hccl := cleanInL_child dec (dec k) cs s lo hi hordL hclL
            (routeIdx dec s k) hilt
          have hcwf : pwf (cs.getD (routeIdx dec s k) (.pleaf [])) d =
              true :=
            pwfL_mem cs d hkidswf _ (getD_mem_of_lt cs _ _ hilt)
          have hclo2 : loOk (if routeIdx dec s k = 0 then lo
              else some (dec (s.getD (routeIdx dec s k - 1) 0)))
              (dec k) = true := by
            by_cases hz : routeIdx dec s k = 0
            · rw [if_pos hz]
              exact hklo
            · rw [if_neg hz]
              have hlt := bisl_prefix_lt (s.map dec) (dec k)
                (routeIdx dec s k - 1) (by rw [← hroute]; omega)
              have hrlen : routeIdx dec s k - 1 < s.length := by omega
              rw [getD_map_dec dec s _ hrlen] at hlt
              simp only [loOk, decide_eq_true_eq]
              exact hlt
          have hchi2 : hiOk (if routeIdx dec s k < s.length then
              some (dec (s.getD (routeIdx dec s k) 0)) else hi)
              (dec k) = true := by
            by_cases h2 : routeIdx dec s k < s.length
            · rw [if_pos h2]
              have hge := bisl_at_ge (s.map dec) (dec k)
                (by rw [← hroute]; simpa using h2)
              rw [← hroute, getD_map_dec dec s _ h2] at hge
              simp only [hiOk, decide_eq_true_eq]
              exact hge
            · rw [if_neg h2]
              exact hkhi
          obtain ⟨ihlen, ihb, ihc⟩ := ih
            (cs.getD (routeIdx dec s k) (.pleaf [])) _ _ hcord hcwf
            hclo2 hchi2 hccl
          have hsub : ∀ (p : List Nat),
              subtreeAt (.pnode s [] cs) (routeIdx dec s k :: p) =
                subtreeAt (cs.getD (routeIdx dec s k) (.pleaf [])) p :=
            fun p => subtreeAt_cons s [] cs (routeIdx dec s k) p hilt
          refine ⟨?_, ?_, ?_⟩
          · rw [hpath]
            simp only [List.length_cons, ihlen]
          · intro dd hdd
            match dd with
            | 0 =>
                refine ⟨s, cs, lo, hi, ?_, hordL, hs1, hklo, hkhi, ?_,
                  ?_⟩
                · rw [List.take_zero]
                  rfl
                · rw [hpath]
                  rfl
                · rw [hpath]
                  show subtreeAt (.pnode s [] cs)
                    (routeIdx dec s k :: List.take 0 _) = _
                  rw [List.take_zero, hsub]
                  exact subtreeAt_nil _
            | dd + 1 =>
                obtain ⟨s2, cs2, lo3, hi3, e1, e2, e3, e4, e5, e6, e7⟩ :=
                  ihb dd (by omega)
                refine ⟨s2, cs2, lo3, hi3, ?_, e2, e3, e4, e5, ?_, ?_⟩
                · rw [hpath, List.take_succ_cons, hsub]
                  exact e1
                · rw [hpath, List.getD_cons_succ]
                  exact e6
                · rw [hpath, List.take_succ_cons, hsub]
                  exact e7
          · obtain ⟨lb, lo3, hi3, e1, e2, e3, e4⟩ := ihc
            refine ⟨lb, lo3, hi3, ?_, e2, e3, e4⟩
            rw [hpath, hsub]
            exact e1

theorem sorted_take_bisl (dec : Nat → Nat) (x : Nat) :
    ∀ (l : List (Nat × Nat)),
      List.Sorted (fun p q : Nat × Nat => dec p.1 ≤ dec q.1) l →
      (∀ p ∈ l.take (bisl (· < ·) (l.map (fun q => dec q.1)) x),
        dec p.1 < x) ∧
      (∀ p ∈ l.drop (bisl (· < ·) (l.map (fun q => dec q.1)) x),
        x ≤ dec p.1) := by
  intro l
  induction l with
  | nil =>
      intro _
      exact ⟨by intro p hp; simp at hp, by intro p hp; simp at hp⟩
  | cons a rest ih =>
      intro hs
      have hstail : List.Sorted
          (fun p q : Nat × Nat => dec p.1 ≤ dec q.1) rest := hs.of_cons
      have hhead : ∀ q ∈ rest, dec a.1 ≤ dec q.1 :=
        List.rel_of_sorted_cons hs
      simp only [List.map_cons, bisl]
      by_cases hax : dec a.1 < x
      · rw [if_pos hax]
        obtain ⟨ih1, ih2⟩ := ih hstail
        constructor
        · intro p hp
          rw [List.take_succ_cons] at hp
          rcases List.mem_cons.1 hp with rfl | h2
          · exact hax
          · exact ih1 p h2
        · intro p hp
          rw [List.drop_succ_cons] at hp
          exact ih2 p hp
      · rw [if_neg hax]
        constructor
        · intro p hp
          simp at hp
        · intro p hp
          rw [List.drop_zero] at hp
          rcases List.mem_cons.1 hp with rfl | h2
          · omega
          · have := hhead p h2
            omega

theorem sorted_drop_filter (dec : Nat → Nat) (x : Nat)
    (l : List (Nat × Nat))
    (hs : List.Sorted (fun p q : Nat × Nat => dec p.1 ≤ dec q.1) l) :
    l.drop (bisl (· < ·) (l.map (fun q => dec q.1)) x) =
      l.filter (fun p => decide (x ≤ dec p.1)) := by
  obtain ⟨h1, h2⟩ := sorted_take_bisl dec x l hs
  have hsplit : l.filter (fun p => decide (x ≤ dec p.1)) =
      (l.take (bisl (· < ·) (l.map (fun q => dec q.1)) x)).filter
        (fun p => decide (x ≤ dec p.1)) ++
      (l.drop (bisl (· < ·) (l.map (fun q => dec q.1)) x)).filter
        (fun p => decide (x ≤ dec p.1)) := by
    rw [← List.filter_append, List.take_append_drop]
  have hnil : (l.take (bisl (· < ·) (l.map (fun q => dec q.1)) x)).filter
      (fun p => decide (x ≤ dec p.1)) = [] := by
    refine List.filter_eq_nil_iff.2 ?_
    intro p hp
    simp only [decide_eq_true_eq]
    have := h1 p hp
    omega
  have hself : (l.drop (bisl (· < ·) (l.map (fun q => dec q.1)) x)).filter
      (fun p => decide (x ≤ dec p.1)) =
      l.drop (bisl (· < ·) (l.map (fun q => dec q.1)) x) := by
    refine List.filter_eq_self.2 ?_
    intro p hp
    simp only [decide_eq_true_eq]
    exact h2 p hp
  rw [hsplit, hnil, hself, List.nil_append]

theorem sorted_take_filter (dec : Nat → Nat) (x : Nat)
    (l : List (Nat × Nat))
    (hs : List.Sorted (fun p q : Nat × Nat => dec p.1 ≤ dec q.1) l) :
    l.take (bisl (· < ·) (l.map (fun q => dec q.1)) x) =
      l.filter (fun p => decide (dec p.1 < x)) := by
  obtain ⟨h1, h2⟩ := sorted_take_bisl dec x l hs
  have hsplit : l.filter (fun p => decide (dec p.1 < x)) =
      (l.take (bisl (· < ·) (l.map (fun q => dec q.1)) x)).filter
        (fun p => decide (dec p.1 < x)) ++
      (l.drop (bisl (· < ·) (l.map (fun q => dec q.1)) x)).filter
        (fun p => decide (dec p.1 < x)) := by
    rw [← List.filter_append, List.take_append_drop]
  have hself : (l.take (bisl (· < ·) (l.map (fun q => dec q.1)) x)).filter
      (fun p => decide (dec p.1 < x)) =
      l.take (bisl (· < ·) (l.map (fun q => dec q.1)) x) := by
    refine List.filter_eq_self.2 ?_
    intro p hp
    simp only [decide_eq_true_eq]
    exact h1 p hp
  have hnil : (l.drop (bisl (· < ·) (l.map (fun q => dec q.1)) x)).filter
      (fun p => decide (dec p.1 < x)) = [] := by
    refine List.filter_eq_nil_iff.2 ?_
    intro p hp
    simp only [decide_eq_true_eq]
    have := h2 p hp
    omega
  rw [hsplit, hself, hnil, List.append_nil]

/-- `LeafNode.range_right(key1)` returns exactly the buffer pairs with
plaintext at least the key's, as a permutation (the slice is sorted). -/
theorem leafRangeRight_spec (dec : Nat → Nat) (L : Nat)
    (buf : List (Nat × Nat)) (k1 : Nat) (out : List (Nat × Nat))
    (h : leafRangeRight dec L buf k1 = .ok out) :
    List.Perm out (buf.filter (fun p => decide (dec k1 ≤ dec p.1))) := by
  haveI : IsTotal (Nat × Nat) (fun a b : Nat × Nat => dec a.1 ≤ dec b.1) :=
    ⟨fun a b => le_total _ _⟩
  haveI : IsTrans (Nat × Nat) (fun a b : Nat × Nat => dec a.1 ≤ dec b.1) :=
    ⟨fun a b c hab hbc => le_trans hab hbc⟩
  simp only [leafRangeRight, Oracle.partition_sort, Oracle.partition,
    ok_bind_eq_ok] at h
  obtain ⟨u1, hm1, h⟩ := h
  obtain ⟨⟨shay, prt⟩, hps, h⟩ := h
  obtain ⟨pr0, hm2, hps⟩ := hps
  injection hps with hps2
  injection hps2 with hshay hprt
  obtain ⟨u3, hm3, hmap2⟩ := hm2
  injection hmap2 with hmap3
  set sl := List.insertionSort
    (fun a b : Nat × Nat => dec a.1 ≤ dec b.1) buf with hsl
  have hsorted : List.Sorted
      (fun p q : Nat × Nat => dec p.1 ≤ dec q.1) sl :=
    List.sorted_insertionSort _ buf
  have hmsorted : List.Sorted (· ≤ ·) (sl.map (fun q => dec q.1)) :=
    List.pairwise_map.2 hsorted
  have hsd : List.insertionSort (· ≤ ·) (sl.map (fun x => dec x.1)) =
      sl.map (fun q => dec q.1) := hmsorted.insertionSort_eq
  rw [← hshay] at h
  rw [hsd] at hmap3
  rw [← hprt, ← hmap3] at h
  simp only [List.map_cons, List.map_nil, id_eq] at h
  injection h with h2
  subst h2
  rw [sorted_drop_filter dec (dec k1) sl hsorted]
  exact (List.perm_insertionSort _ buf).filter _

/-- `LeafNode.range_left(key2)` returns exactly the buffer pairs with
plaintext strictly below the key's. -/
theorem leafRangeLeft_spec (dec : Nat → Nat) (L : Nat)
    (buf : List (Nat × Nat)) (k2 : Nat) (out : List (Nat × Nat))
    (h : leafRangeLeft dec L buf k2 = .ok out) :
    List.Perm out (buf.filter (fun p => decide (dec p.1 < dec k2))) := by
  haveI : IsTotal (Nat × Nat) (fun a b : Nat × Nat => dec a.1 ≤ dec b.1) :=
    ⟨fun a b => le_total _ _⟩
  haveI : IsTrans (Nat × Nat) (fun a b : Nat × Nat => dec a.1 ≤ dec b.1) :=
    ⟨fun a b c hab hbc => le_trans hab hbc⟩
  simp only [leafRangeLeft, Oracle.partition_sort, Oracle.partition,
    ok_bind_eq_ok] at h
  obtain ⟨u1, hm1, h⟩ := h
  obtain ⟨⟨shay, prt⟩, hps, h⟩ := h
  obtain ⟨pr0, hm2, hps⟩ := hps
  injection hps with hps2
  injection hps2 with hshay hprt
  obtain ⟨u3, hm3, hmap2⟩ := hm2
  injection hmap2 with hmap3
  set sl := List.insertionSort
    (fun a b : Nat × Nat => dec a.1 ≤ dec b.1) buf with hsl
  have hsorted : List.Sorted
      (fun p q : Nat × Nat => dec p.1 ≤ dec q.1) sl :=
    List.sorted_insertionSort _ buf
  have hmsorted : List.Sorted (· ≤ ·) (sl.map (fun q => dec q.1)) :=
    List.pairwise_map.2 hsorted
  have hsd : List.insertionSort (· ≤ ·) (sl.map (fun x => dec x.1)) =
      sl.map (fun q => dec q.1) := hmsorted.insertionSort_eq
  rw [← hshay] at h
  rw [hsd] at hmap3
  rw [← hprt, ← hmap3] at h
  simp only [List.map_cons, List.map_nil, id_eq] at h
  injection h with h2
  subst h2
  rw [sorted_take_filter dec (dec k2) sl hsorted]
  exact (List.perm_insertionSort _ buf).filter _

/-- `LeafNode.range_search(key1, key2)` with in-order keys returns
exactly the buffer pairs in the plaintext window `[dec key1, dec key2)`. -/
theorem leafRangeSearch_spec (dec : Nat → Nat) (L : Nat)
    (buf : List (Nat × Nat)) (k1 k2 : Nat) (out : List (Nat × Nat))
    (hw : dec k1 ≤ dec k2)
    (h : leafRangeSearch dec L buf k1 k2 = .ok out) :
    List.Perm out (buf.filter (fun p =>
      decide (dec k1 ≤ dec p.1) && decide (dec p.1 < dec k2))) := by
  haveI : IsTotal (Nat × Nat) (fun a b : Nat × Nat => dec a.1 ≤ dec b.1) :=
    ⟨fun a b => le_total _ _⟩
  haveI : IsTrans (Nat × Nat) (fun a b : Nat × Nat => dec a.1 ≤ dec b.1) :=
    ⟨fun a b c hab hbc => le_trans hab hbc⟩
  simp only [leafRangeSearch, Oracle.partition_sort, Oracle.partition,
    ok_bind_eq_ok] at h
  obtain ⟨u1, hm1, h⟩ := h
  obtain ⟨⟨shay, prt⟩, hps, h⟩ := h
  obtain ⟨pr0, hm2, hps⟩ := hps
  injection hps with hps2
  injection hps2 with hshay hprt
  obtain ⟨u3, hm3, hmap2⟩ := hm2
  injection hmap2 with hmap3
  set sl := List.insertionSort
    (fun a b : Nat × Nat => dec a.1 ≤ dec b.1) buf with hsl
  have hsorted : List.Sorted
      (fun p q : Nat × Nat => dec p.1 ≤ dec q.1) sl :=
    List.sorted_insertionSort _ buf
  have hmsorted : List.Sorted (· ≤ ·) (sl.map (fun q => dec q.1)) :=
    List.pairwise_map.2 hsorted
  have hsd : List.insertionSort (· ≤ ·) (sl.map (fun x => dec x.1)) =
      sl.map (fun q => dec q.1) := hmsorted.insertionSort_eq
  rw [← hshay] at h
  rw [hsd] at hmap3
  rw [← hprt, ← hmap3] at h
  simp only [List.map_cons, List.map_nil, id_eq] at h
  injection h with h2
  subst h2
  set i1 := bisl (· < ·) (sl.map (fun q => dec q.1)) (dec k1) with hi1
  set i2 := bisl (· < ·) (sl.map (fun q => dec q.1)) (dec k2) with hi2
  have hile : i1 ≤ i2 := bisl_mono_nat _ (dec k1) (dec k2) hw
  obtain ⟨hk1take, hk1drop⟩ := sorted_take_bisl dec (dec k1) sl hsorted
  obtain ⟨hk2take, hk2drop⟩ := sorted_take_bisl dec (dec k2) sl hsorted
  have hrep : (sl.drop i1).take (i2 - i1) = (sl.take i2).drop i1 := by
    rw [List.take_drop i1 (i2 - i1) sl]
    have he : i1 + (i2 - i1) = i2 := by omega
    rw [he]
  have hdecomp : sl = sl.take i1 ++ ((sl.take i2).drop i1 ++
      sl.drop i2) := by
    rw [← List.append_assoc]
    have h1 : (sl.take i2).take i1 = sl.take i1 := by
      rw [List.take_take]
      have : min i1 i2 = i1 := by omega
      rw [this]
    conv_lhs => rw [← List.take_append_drop i2 sl,
      ← List.take_append_drop i1 (sl.take i2)]
    rw [h1]
  have hgoalf : sl.filter (fun p =>
      decide (dec k1 ≤ dec p.1) && decide (dec p.1 < dec k2)) =
      (sl.take i2).drop i1 := by
    conv_lhs => rw [hdecomp]
    rw [List.filter_append, List.filter_append]
    have hn1 : (sl.take i1).filter (fun p =>
        decide (dec k1 ≤ dec p.1) && decide (dec p.1 < dec k2)) = [] := by
      refine List.filter_eq_nil_iff.2 ?_
      intro p hp
      simp only [Bool.and_eq_true, decide_eq_true_eq, not_and]
      intro hc1
      have := hk1take p hp
      omega
    have hn2 : (sl.drop i2).filter (fun p =>
        decide (dec k1 ≤ dec p.1) && decide (dec p.1 < dec k2)) = [] := by
      refine List.filter_eq_nil_iff.2 ?_
      intro p hp
      simp only [Bool.and_eq_true, decide_eq_true_eq, not_and]
      intro hc1
      have := hk2drop p hp
      omega
    have hs2 : ((sl.take i2).drop i1).filter (fun p =>
        decide (dec k1 ≤ dec p.1) && decide (dec p.1 < dec k2)) =
        (sl.take i2).drop i1 := by
      refine List.filter_eq_self.2 ?_
      intro p hp
      simp only [Bool.and_eq_true, decide_eq_true_eq]
      constructor
      · refine hk1drop p ?_
        rw [← hrep] at hp
        exact (List.take_sublist _ _).mem hp
      · refine hk2take p ?_
        exact (List.drop_sublist _ _).mem hp
    rw [hn1, hn2, hs2, List.nil_append, List.append_nil]
  rw [hrep, ← hgoalf]
  exact (List.perm_insertionSort _ buf).filter _

theorem traverseL_decomp :
    ∀ (cs : List PTree) (j : Nat), j < cs.length →
      PTree.traverseL cs =
        PTree.traverseL (cs.take j) ++
        (PTree.traverse (cs.getD j (.pleaf [])) ++
          PTree.traverseL (cs.drop (j + 1))) := by
  intro cs j hj
  conv_lhs => rw [← List.take_append_drop j cs]
  rw [traverseL_append, List.drop_eq_getElem_cons hj,
    ← List.getD_eq_getElem cs (.pleaf []) hj]
  rfl

theorem getD_drop_add (cs : List PTree) (m n : Nat)
    (h : m + n < cs.length) :
    (cs.drop m).getD n (.pleaf []) = cs.getD (m + n) (.pleaf []) := by
  have h2 : n < (cs.drop m).length := by
    simp only [List.length_drop]
    omega
  rw [List.getD_eq_getElem _ _ h2, List.getD_eq_getElem _ _ h]
  exact List.getElem_drop ..

/-- `InternalNode.range_right` on an empty-buffered route node: the
window pairs of the node are the window pairs of the route child plus
everything to its right (which lies in the window wholesale). -/
theorem collectRight_level (dec : Nat → Nat) (L : Nat) (T : PTree)
    (k1 k2 : Nat) (p1 : List Nat) (dd : Nat) (s : List Nat)
    (cs : List PTree) (lo2 hi2 : Option Nat) (out : List (Nat × Nat))
    (hsub : subtreeAt T (p1.take dd) = some (.pnode s [] cs))
    (hgd : p1.getD dd 0 = routeIdx dec s k1)
    (hordL : pordL dec lo2 hi2 s cs = true)
    (hne : dd ≠ p1.length)
    (h : collectRight dec L T p1 k1 dd = .ok out)
    (hlt2 : ∀ p ∈ PTree.traverseL cs, dec p.1 < dec k2) :
    (PTree.traverseL cs).filter (fun p =>
        decide (dec k1 ≤ dec p.1) && decide (dec p.1 < dec k2)) =
      (PTree.traverse (cs.getD (routeIdx dec s k1) (.pleaf []))).filter
        (fun p => decide (dec k1 ≤ dec p.1) &&
          decide (dec p.1 < dec k2)) ++ out := by
  simp only [collectRight, hsub] at h
  rw [if_neg hne] at h
  simp only [List.isEmpty_nil, massert_true, bind_ok] at h
  injection h with h2
  have hroute : routeIdx dec s k1 =
      bisl (· < ·) (s.map dec) (dec k1) :=
    routeIdx_eq dec s lo2 hi2 cs hordL k1
  have hclen : cs.length = s.length + 1 :=
    pordL_length dec s lo2 hi2 cs hordL
  have hile : routeIdx dec s k1 ≤ s.length := by
    have := bisl_le_length (· < ·) (s.map dec) (dec k1)
    rw [← hroute] at this
    simpa using this
  have hic : routeIdx dec s k1 < cs.length := by omega
  set i := routeIdx dec s k1 with hidef
  have hdecomp := traverseL_decomp cs i hic
  rw [hdecomp, List.filter_append, List.filter_append]
  have hA : (PTree.traverseL (cs.take i)).filter (fun p =>
      decide (dec k1 ≤ dec p.1) && decide (dec p.1 < dec k2)) = [] := by
    by_cases hz : i = 0
    · rw [hz, List.take_zero]
      rfl
    · refine List.filter_eq_nil_iff.2 ?_
      intro p hp
      obtain ⟨s1, s2, s3, s4⟩ := pordL_split dec (i - 1) s cs lo2 hi2
        hordL (by omega)
      have he : i - 1 + 1 = i := by omega
      rw [he] at s1
      have hb := pordL_bounded dec (cs.take i) (s.take (i - 1)) lo2
        (some (dec (s.getD (i - 1) 0))) s1 p hp
      have hple : dec p.1 ≤ dec (s.getD (i - 1) 0) := by
        simpa [hiOk, decide_eq_true_eq] using hb.2
      have hlt := bisl_prefix_lt (s.map dec) (dec k1) (i - 1)
        (by rw [← hroute]; omega)
      rw [getD_map_dec dec s (i - 1) (by omega)] at hlt
      simp only [Bool.and_eq_true, decide_eq_true_eq, not_and]
      intro hc1
      omega
  have hC : (PTree.traverseL (cs.drop (i + 1))).filter (fun p =>
      decide (dec k1 ≤ dec p.1) && decide (dec p.1 < dec k2)) =
      PTree.traverseL (cs.drop (i + 1)) := by
    by_cases hilen : i < s.length
    · refine List.filter_eq_self.2 ?_
      intro p hp
      obtain ⟨s1, s2, s3, s4⟩ := pordL_split dec i s cs lo2 hi2 hordL
        hilen
      have hb := pordL_bounded dec (cs.drop (i + 1)) (s.drop (i + 1))
        (some (dec (s.getD i 0))) hi2 s4 p hp
      have hpgt : dec (s.getD i 0) < dec p.1 := by
        simpa [loOk, decide_eq_true_eq] using hb.1
      have hge := bisl_at_ge (s.map dec) (dec k1)
        (by rw [← hroute]; simpa using hilen)
      rw [← hroute, getD_map_dec dec s i hilen] at hge
      have hmem : p ∈ PTree.traverseL cs := by
        rw [hdecomp]
        exact List.mem_append.2 (Or.inr (List.mem_append.2 (Or.inr hp)))
      have := hlt2 p hmem
      simp only [Bool.and_eq_true, decide_eq_true_eq]
      omega
    · have hdnil : cs.drop (i + 1) = [] :=
        List.drop_eq_nil_of_le (by omega)
      rw [hdnil]
      rfl
  rw [hA, hC, List.nil_append]
  rw [← h2, hgd]

/-- `InternalNode.range_left` on an empty-buffered route node. -/
theorem collectLeft_level (dec : Nat → Nat) (L : Nat) (T : PTree)
    (k1 k2 : Nat) (p2 : List Nat) (dd : Nat) (s : List Nat)
    (cs : List PTree) (lo2 hi2 : Option Nat) (out : List (Nat × Nat))
    (hsub : subtreeAt T (p2.take dd) = some (.pnode s [] cs))
    (hgd : p2.getD dd 0 = routeIdx dec s k2)
    (hordL : pordL dec lo2 hi2 s cs = true)
    (hne : dd ≠ p2.length)
    (h : collectLeft dec L T p2 k2 dd = .ok out)
    (hge1 : ∀ p ∈ PTree.traverseL cs, dec k1 ≤ dec p.1) :
    (PTree.traverseL cs).filter (fun p =>
        decide (dec k1 ≤ dec p.1) && decide (dec p.1 < dec k2)) =
      out ++ (PTree.traverse
        (cs.getD (routeIdx dec s k2) (.pleaf []))).filter
        (fun p => decide (dec k1 ≤ dec p.1) &&
          decide (dec p.1 < dec k2)) := by
  simp only [collectLeft, hsub] at h
  rw [if_neg hne] at h
  simp only [List.isEmpty_nil, massert_true, bind_ok] at h
  injection h with h2
  have hroute : routeIdx dec s k2 =
      bisl (· < ·) (s.map dec) (dec k2) :=
    routeIdx_eq dec s lo2 hi2 cs hordL k2
  have hclen : cs.length = s.length + 1 :=
    pordL_length dec s lo2 hi2 cs hordL
  have hile : routeIdx dec s k2 ≤ s.length := by
    have := bisl_le_length (· < ·) (s.map dec) (dec k2)
    rw [← hroute] at this
    simpa using this
  have hic : routeIdx dec s k2 < cs.length := by omega
  set i := routeIdx dec s k2 with hidef
  have hdecomp := traverseL_decomp cs i hic
  rw [hdecomp, List.filter_append, List.filter_append]
  have hA : (PTree.traverseL (cs.take i)).filter (fun p =>
      decide (dec k1 ≤ dec p.1) && decide (dec p.1 < dec k2)) =
      PTree.traverseL (cs.take i) := by
    by_cases hz : i = 0
    · rw [hz, List.take_zero]
      rfl
    · refine List.filter_eq_self.2 ?_
      intro p hp
      obtain ⟨s1, s2, s3, s4⟩ := pordL_split dec (i - 1) s cs lo2 hi2
        hordL (by omega)
      have he : i - 1 + 1 = i := by omega
      rw [he] at s1
      have hb := pordL_bounded dec (cs.take i) (s.take (i - 1)) lo2
        (some (dec (s.getD (i - 1) 0))) s1 p hp
      have hple : dec p.1 ≤ dec (s.getD (i - 1) 0) := by
        simpa [hiOk, decide_eq_true_eq] using hb.2
      have hlt := bisl_prefix_lt (s.map dec) (dec k2) (i - 1)
        (by rw [← hroute]; omega)
      rw [getD_map_dec dec s (i - 1) (by omega)] at hlt
      have hmem : p ∈ PTree.traverseL cs := by
        rw [hdecomp]
        exact List.mem_append.2 (Or.inl hp)
      have := hge1 p hmem
      simp only [Bool.and_eq_true, decide_eq_true_eq]
      omega
  have hC : (PTree.traverseL (cs.drop (i + 1))).filter (fun p =>
      decide (dec k1 ≤ dec p.1) && decide (dec p.1 < dec k2)) = [] := by
    by_cases hilen : i < s.length
    · refine List.filter_eq_nil_iff.2 ?_
      intro p hp
      obtain ⟨s1, s2, s3, s4⟩ := pordL_split dec i s cs lo2 hi2 hordL
        hilen
      have hb := pordL_bounded dec (cs.drop (i + 1)) (s.drop (i + 1))
        (some (dec (s.getD i 0))) hi2 s4 p hp
      have hpgt : dec (s.getD i 0) < dec p.1 := by
        simpa [loOk, decide_eq_true_eq] using hb.1
      have hge := bisl_at_ge (s.map dec) (dec k2)
        (by rw [← hroute]; simpa using hilen)
      rw [← hroute, getD_map_dec dec s i hilen] at hge
      simp only [Bool.and_eq_true, decide_eq_true_eq, not_and]
      intro hc1
      omega
    · have hdnil : cs.drop (i + 1) = [] :=
        List.drop_eq_nil_of_le (by omega)
      rw [hdnil]
      rfl
  rw [hA, hC, List.append_nil]
  rw [← h2, hgd]

/-- The lowest common ancestor level of `InternalNode.range_search`:
window pairs of the node are the route child of `key1`, the children
strictly between the two routes (wholesale), and the route child of
`key2`. -/
theorem lca_level (dec : Nat → Nat) (k1 k2 : Nat) (s : List Nat)
    (cs : List PTree) (lo2 hi2 : Option Nat)
    (hordL : pordL dec lo2 hi2 s cs = true)
    (hilt : routeIdx dec s k1 < routeIdx dec s k2) :
    (PTree.traverseL cs).filter (fun p =>
        decide (dec k1 ≤ dec p.1) && decide (dec p.1 < dec k2)) =
      (PTree.traverse
        (cs.getD (routeIdx dec s k1) (.pleaf []))).filter
        (fun p => decide (dec k1 ≤ dec p.1) &&
          decide (dec p.1 < dec k2)) ++
      (PTree.traverseL
        ((cs.take (routeIdx dec s k2)).drop (routeIdx dec s k1 + 1)) ++
       (PTree.traverse
         (cs.getD (routeIdx dec s k2) (.pleaf []))).filter
         (fun p => decide (dec k1 ≤ dec p.1) &&
           decide (dec p.1 < dec k2))) := by
  have hroute1 : routeIdx dec s k1 =
      bisl (· < ·) (s.map dec) (dec k1) :=
    routeIdx_eq dec s lo2 hi2 cs hordL k1
  have hroute2 : routeIdx dec s k2 =
      bisl (· < ·) (s.map dec) (dec k2) :=
    routeIdx_eq dec s lo2 hi2 cs hordL k2
  have hclen : cs.length = s.length + 1 :=
    pordL_length dec s lo2 hi2 cs hordL
  have hile2 : routeIdx dec s k2 ≤ s.length := by
    have := bisl_le_length (· < ·) (s.map dec) (dec k2)
    rw [← hroute2] at this
    simpa using this
  set i1 := routeIdx dec s k1 with hi1def
  set i2 := routeIdx dec s k2 with hi2def
  have hi1len : i1 < s.length := by omega
  have hic1 : i1 < cs.length := by omega
  have hic2 : i2 < cs.length := by omega
  have hdecomp := traverseL_decomp cs i1 hic1
  have hj2 : i1 + 1 + (i2 - i1 - 1) = i2 := by omega
  have hreldecomp := traverseL_decomp (cs.drop (i1 + 1)) (i2 - i1 - 1)
    (by simp only [List.length_drop]; omega)
  have hgetmid : (cs.drop (i1 + 1)).getD (i2 - i1 - 1) (.pleaf []) =
      cs.getD i2 (.pleaf []) := by
    rw [getD_drop_add cs (i1 + 1) (i2 - i1 - 1) (by omega), hj2]
  have htakemid : (cs.drop (i1 + 1)).take (i2 - i1 - 1) =
      (cs.take i2).drop (i1 + 1) := by
    rw [List.take_drop (i1 + 1) (i2 - i1 - 1) cs, hj2]
  have hdropmid : (cs.drop (i1 + 1)).drop (i2 - i1 - 1 + 1) =
      cs.drop (i2 + 1) := by
    rw [List.drop_drop]
    have he : i1 + 1 + (i2 - i1 - 1 + 1) = i2 + 1 := by omega
    rw [he]
  rw [hgetmid, htakemid, hdropmid] at hreldecomp
  rw [hdecomp, List.filter_append, List.filter_append, hreldecomp,
    List.filter_append, List.filter_append]
  have hA1 : (PTree.traverseL (cs.take i1)).filter (fun p =>
      decide (dec k1 ≤ dec p.1) && decide (dec p.1 < dec k2)) = [] := by
    by_cases hz : i1 = 0
    · rw [hz, List.take_zero]
      rfl
    · refine List.filter_eq_nil_iff.2 ?_
      intro p hp
      obtain ⟨s1, s2, s3, s4⟩ := pordL_split dec (i1 - 1) s cs lo2 hi2
        hordL (by omega)
      have he : i1 - 1 + 1 = i1 := by omega
      rw [he] at s1
      have hb := pordL_bounded dec (cs.take i1) (s.take (i1 - 1)) lo2
        (some (dec (s.getD (i1 - 1) 0))) s1 p hp
      have hple : dec p.1 ≤ dec (s.getD (i1 - 1) 0) := by
        simpa [hiOk, decide_eq_true_eq] using hb.2
      have hlt := bisl_prefix_lt (s.map dec) (dec k1) (i1 - 1)
        (by rw [← hroute1]; omega)
      rw [getD_map_dec dec s (i1 - 1) (by omega)] at hlt
      simp only [Bool.and_eq_true, decide_eq_true_eq, not_and]
      intro hc1
      omega
  have hmid : (PTree.traverseL ((cs.take i2).drop (i1 + 1))).filter
      (fun p => decide (dec k1 ≤ dec p.1) &&
        decide (dec p.1 < dec k2)) =
      PTree.traverseL ((cs.take i2).drop (i1 + 1)) := by
    refine List.filter_eq_self.2 ?_
    intro p hp
    obtain ⟨s1, s2, s3, s4⟩ := pordL_split dec i1 s cs lo2 hi2 hordL
      hi1len
    have hmem1 : p ∈ PTree.traverseL (cs.drop (i1 + 1)) := by
      rw [← htakemid] at hp
      rw [hreldecomp, ← htakemid]
      exact List.mem_append.2 (Or.inl hp)
    have hb1 := pordL_bounded dec (cs.drop (i1 + 1)) (s.drop (i1 + 1))
      (some (dec (s.getD i1 0))) hi2 s4 p hmem1
    have hpgt : dec (s.getD i1 0) < dec p.1 := by
      simpa [loOk, decide_eq_true_eq] using hb1.1
    have hge := bisl_at_ge (s.map dec) (dec k1)
      (by rw [← hroute1]; simpa using hi1len)
    rw [← hroute1, getD_map_dec dec s i1 hi1len] at hge
    obtain ⟨t1, t2, t3, t4⟩ := pordL_split dec (i2 - 1) s cs lo2 hi2
      hordL (by omega)
    have he2 : i2 - 1 + 1 = i2 := by omega
    rw [he2] at t1
    have hmem2 : p ∈ PTree.traverseL (cs.take i2) := by
      have hsplit2 : PTree.traverseL (cs.take i2) =
          PTree.traverseL ((cs.take i2).take (i1 + 1)) ++
          PTree.traverseL ((cs.take i2).drop (i1 + 1)) := by
        conv_lhs => rw [← List.take_append_drop (i1 + 1) (cs.take i2)]
        rw [traverseL_append]
      rw [hsplit2]
      exact List.mem_append.2 (Or.inr hp)
    have hb2 := pordL_bounded dec (cs.take i2) (s.take (i2 - 1)) lo2
      (some (dec (s.getD (i2 - 1) 0))) t1 p hmem2
    have hple : dec p.1 ≤ dec (s.getD (i2 - 1) 0) := by
      simpa [hiOk, decide_eq_true_eq] using hb2.2
    have hlt := bisl_prefix_lt (s.map dec) (dec k2) (i2 - 1)
      (by rw [← hroute2]; omega)
    rw [getD_map_dec dec s (i2 - 1) (by omega)] at hlt
    simp only [Bool.and_eq_true, decide_eq_true_eq]
    omega
  have hC2 : (PTree.traverseL (cs.drop (i2 + 1))).filter (fun p =>
      decide (dec k1 ≤ dec p.1) && decide (dec p.1 < dec k2)) = [] := by
    by_cases hilen2 : i2 < s.length
    · refine List.filter_eq_nil_iff.2 ?_
      intro p hp
      obtain ⟨s1, s2, s3, s4⟩ := pordL_split dec i2 s cs lo2 hi2 hordL
        hilen2
      have hb := pordL_bounded dec (cs.drop (i2 + 1)) (s.drop (i2 + 1))
        (some (dec (s.getD i2 0))) hi2 s4 p hp
      have hpgt : dec (s.getD i2 0) < dec p.1 := by
        simpa [loOk, decide_eq_true_eq] using hb.1
      have hge := bisl_at_ge (s.map dec) (dec k2)
        (by rw [← hroute2]; simpa using hilen2)
      rw [← hroute2, getD_map_dec dec s i2 hilen2] at hge
      simp only [Bool.and_eq_true, decide_eq_true_eq, not_and]
      intro hc1
      omega
    · have hdnil : cs.drop (i2 + 1) = [] :=
        List.drop_eq_nil_of_le (by omega)
      rw [hdnil]
      rfl
  rw [hA1, hmid, hC2, List.nil_append, List.append_nil]

/-- A level strictly above the lowest common ancestor: both keys route
to the same child, which alone meets the window. -/
theorem shared_level (dec : Nat → Nat) (k1 k2 : Nat) (s : List Nat)
    (cs : List PTree) (lo2 hi2 : Option Nat)
    (hordL : pordL dec lo2 hi2 s cs = true)
    (heq : routeIdx dec s k1 = routeIdx dec s k2) :
    (PTree.traverseL cs).filter (fun p =>
        decide (dec k1 ≤ dec p.1) && decide (dec p.1 < dec k2)) =
      (PTree.traverse
        (cs.getD (routeIdx dec s k1) (.pleaf []))).filter
        (fun p => decide (dec k1 ≤ dec p.1) &&
          decide (dec p.1 < dec k2)) := by
  have hroute1 : routeIdx dec s k1 =
      bisl (· < ·) (s.map dec) (dec k1) :=
    routeIdx_eq dec s lo2 hi2 cs hordL k1
  have hroute2 : routeIdx dec s k2 =
      bisl (· < ·) (s.map dec) (dec k2) :=
    routeIdx_eq dec s lo2 hi2 cs hordL k2
  have hclen : cs.length = s.length + 1 :=
    pordL_length dec s lo2 hi2 cs hordL
  have hile : routeIdx dec s k1 ≤ s.length := by
    have := bisl_le_length (· < ·) (s.map dec) (dec k1)
    rw [← hroute1] at this
    simpa using this
  set i := routeIdx dec s k1 with hidef
  have hic : i < cs.length := by omega
  have hdecomp := traverseL_decomp cs i hic
  rw [hdecomp, List.filter_append, List.filter_append]
  have hA : (PTree.traverseL (cs.take i)).filter (fun p =>
      decide (dec k1 ≤ dec p.1) && decide (dec p.1 < dec k2)) = [] := by
    by_cases hz : i = 0
    · rw [hz, List.take_zero]
      rfl
    · refine List.filter_eq_nil_iff.2 ?_
      intro p hp
      obtain ⟨s1, s2, s3, s4⟩ := pordL_split dec (i - 1) s cs lo2 hi2
        hordL (by omega)
      have he : i - 1 + 1 = i := by omega
      rw [he] at s1
      have hb := pordL_bounded dec (cs.take i) (s.take (i - 1)) lo2
        (some (dec (s.getD (i - 1) 0))) s1 p hp
      have hple : dec p.1 ≤ dec (s.getD (i - 1) 0) := by
        simpa [hiOk, decide_eq_true_eq] using hb.2
      have hlt := bisl_prefix_lt (s.map dec) (dec k1) (i - 1)
        (by rw [← hroute1]; omega)
      rw [getD_map_dec dec s (i - 1) (by omega)] at hlt
      simp only [Bool.and_eq_true, decide_eq_true_eq, not_and]
      intro hc1
      omega
  have hC : (PTree.traverseL (cs.drop (i + 1))).filter (fun p =>
      decide (dec k1 ≤ dec p.1) && decide (dec p.1 < dec k2)) = [] := by
    by_cases hilen : i < s.length
    · refine List.filter_eq_nil_iff.2 ?_
      intro p hp
      obtain ⟨s1, s2, s3, s4⟩ := pordL_split dec i s cs lo2 hi2 hordL
        hilen
      have hb := pordL_bounded dec (cs.drop (i + 1)) (s.drop (i + 1))
        (some (dec (s.getD i 0))) hi2 s4 p hp
      have hpgt : dec (s.getD i 0) < dec p.1 := by
        simpa [loOk, decide_eq_true_eq] using hb.1
      have hge := bisl_at_ge (s.map dec) (dec k2)
        (by rw [← hroute2, ← heq, hidef]; simpa using hilen)
      rw [← hroute2, ← heq, hidef, getD_map_dec dec s i hilen] at hge
      simp only [Bool.and_eq_true, decide_eq_true_eq, not_and]
      intro hc1
      omega
    · have hdnil : cs.drop (i + 1) = [] :=
        List.drop_eq_nil_of_le (by omega)
      rw [hdnil]
      rfl
  rw [hA, hC, List.nil_append, List.append_nil]

theorem take_prefix_eq {α : Type} (l1 l2 : List α) (A n : Nat)
    (hle : n ≤ A) (h : l1.take A = l2.take A) :
    l1.take n = l2.take n := by
  have h2 := congrArg (List.take n) h
  rwa [List.take_take, List.take_take, Nat.min_eq_left hle] at h2

theorem getD_eq_of_take_eq (l1 l2 : List Nat) (n A : Nat) (hlt : A < n)
    (hA1 : A < l1.length) (hA2 : A < l2.length)
    (h : l1.take n = l2.take n) : l1.getD A 0 = l2.getD A 0 := by
  have h1 : (l1.take n).getD A 0 = l1.getD A 0 :=
    getD_take_of_lt l1 n A 0 hlt hA1
  have h2 : (l2.take n).getD A 0 = l2.getD A 0 :=
    getD_take_of_lt l2 n A 0 hlt hA2
  rw [← h1, ← h2, h]

theorem first_diff :
    ∀ (l1 l2 : List Nat), l1.length = l2.length → l1 ≠ l2 →
      ∃ A, A < l1.length ∧ l1.take A = l2.take A ∧
        l1.getD A 0 ≠ l2.getD A 0 := by
  intro l1
  induction l1 with
  | nil =>
      intro l2 hlen hne
      match l2 with
      | [] => exact absurd rfl hne
      | _ :: _ => simp at hlen
  | cons a r1 ih =>
      intro l2 hlen hne
      match l2 with
      | [] => simp at hlen
      | b :: r2 =>
          by_cases hab : a = b
          · subst hab
            have hne2 : r1 ≠ r2 := by
              intro hx
              rw [hx] at hne
              exact hne rfl
            obtain ⟨A, h1, h2, h3⟩ := ih r2 (by simpa using hlen) hne2
            refine ⟨A + 1, by simpa using h1, ?_, by simpa using h3⟩
            simp only [List.take_succ_cons, h2]
          · exact ⟨0, by simp, rfl, by simpa using hab⟩

/-- Stepping one level down the routing path only shrinks the visible
content. -/
theorem subAt_mem_step (dec : Nat → Nat) (k : Nat) (d0 : Nat)
    (T : PTree)
    (hord : pord dec none none T = true) (hwf : pwf T d0 = true)
    (hcl : cleanIn dec (dec k) none none T) (dd : Nat) (hdd : dd < d0) :
    ∀ p, p ∈ PTree.traverse (subAt T (pathOf dec T k) (dd + 1)) →
      p ∈ PTree.traverse (subAt T (pathOf dec T k) dd) := by
  obtain ⟨hlen, hb, hc⟩ := path_facts dec k d0 T none none hord hwf rfl
    rfl hcl
  obtain ⟨s, cs, lo2, hi2, e1, e2, e3, e4, e5, e6, e7⟩ := hb dd hdd
  intro p hp
  have hile : routeIdx dec s k ≤ s.length := by
    have := bisl_le_length (· < ·) (s.map dec) (dec k)
    rw [← routeIdx_eq dec s lo2 hi2 cs e2 k] at this
    simpa using this
  have hclen : cs.length = s.length + 1 :=
    pordL_length dec s lo2 hi2 cs e2
  have hic : routeIdx dec s k < cs.length := by omega
  rw [subAt, e7] at hp
  rw [subAt, e1]
  show p ∈ PTree.traverse (.pnode s [] cs)
  show p ∈ [] ++ PTree.traverseL cs
  rw [List.nil_append]
  have hget : cs.getD (routeIdx dec s k) (.pleaf []) =
      cs.get ⟨routeIdx dec s k, hic⟩ := by
    rw [List.getD_eq_getElem _ _ hic]
    rfl
  rw [hget] at hp
  exact traverse_get_mem cs (routeIdx dec s k) hic p hp

theorem subAt_mem_le (dec : Nat → Nat) (k : Nat) (d0 : Nat) (T : PTree)
    (hord : pord dec none none T = true) (hwf : pwf T d0 = true)
    (hcl : cleanIn dec (dec k) none none T) :
    ∀ (m dd : Nat), dd + m ≤ d0 →
      ∀ p, p ∈ PTree.traverse (subAt T (pathOf dec T k) (dd + m)) →
        p ∈ PTree.traverse (subAt T (pathOf dec T k) dd) := by
  intro m
  induction m with
  | zero => intro dd _ p hp; exact hp
  | succ m ih =>
      intro dd hle p hp
      have hstep := subAt_mem_step dec k d0 T hord hwf hcl (dd + m)
        (by omega) p (by
          have he : dd + m + 1 = dd + (m + 1) := by omega
          rw [he]
          exact hp)
      exact ih dd (by omega) p hstep

/-- Above the lowest common ancestor the window pairs of the whole tree
are exactly those of the shared route node. -/
theorem shared_prefix_filter (dec : Nat → Nat) (T : PTree)
    (k1 k2 : Nat) (d0 : Nat)
    (hord : pord dec none none T = true) (hwf : pwf T d0 = true)
    (hcl1 : cleanIn dec (dec k1) none none T)
    (hcl2 : cleanIn dec (dec k2) none none T) :
    ∀ A2, A2 ≤ d0 →
      (pathOf dec T k1).take A2 = (pathOf dec T k2).take A2 →
      winF dec k1 k2 (PTree.traverse T) =
        winF dec k1 k2
          (PTree.traverse (subAt T (pathOf dec T k1) A2)) := by
  obtain ⟨hlen1, hb1, hc1⟩ := path_facts dec k1 d0 T none none hord hwf
    rfl rfl hcl1
  obtain ⟨hlen2, hb2, hc2⟩ := path_facts dec k2 d0 T none none hord hwf
    rfl rfl hcl2
  intro A2
  induction A2 with
  | zero =>
      intro _ _
      rw [subAt, List.take_zero, subtreeAt_nil]
      rfl
  | succ A2 ih =>
      intro hle htake
      have htakeA2 : (pathOf dec T k1).take A2 =
          (pathOf dec T k2).take A2 :=
        take_prefix_eq _ _ (A2 + 1) A2 (by omega) htake
      have hprev := ih (by omega) htakeA2
      obtain ⟨s, cs, lo2, hi2, e1, e2, e3, e4, e5, e6, e7⟩ :=
        hb1 A2 (by omega)
      obtain ⟨s2, cs2, lo3, hi3, f1, f2, f3, f4, f5, f6, f7⟩ :=
        hb2 A2 (by omega)
      rw [← htakeA2] at f1
      rw [e1] at f1
      injection f1 with f1b
      injection f1b with fs fb fcs
      subst fs
      subst fcs
      have hgdeq : (pathOf dec T k1).getD A2 0 =
          (pathOf dec T k2).getD A2 0 :=
        getD_eq_of_take_eq _ _ (A2 + 1) A2 (by omega)
          (by omega) (by rw [hlen2]; omega) htake
      have hreq : routeIdx dec s k1 = routeIdx dec s k2 := by
        rw [← e6, ← f6, hgdeq]
      rw [hprev]
      have hnode : winF dec k1 k2
          (PTree.traverse (subAt T (pathOf dec T k1) A2)) =
          winF dec k1 k2 (PTree.traverseL cs) := by
        rw [subAt, e1]
        rfl
      rw [hnode]
      have hlevel := shared_level dec k1 k2 s cs lo2 hi2 e2 hreq
      show _ = winF dec k1 k2 (PTree.traverse
        ((subtreeAt T ((pathOf dec T k1).take (A2 + 1))).getD
          (.pleaf [])))
      rw [e7]
      exact hlevel

/-- The climbing walk of `Pope.range_search` below the lowest common
ancestor: the collected results, together with the window pairs of the
two subtrees not yet collected, are exactly the window pairs of the
ancestor's subtree. -/
theorem walkLevels_spec (dec : Nat → Nat) (L : Nat) (T : PTree)
    (k1 k2 : Nat) (d0 A : Nat)
    (hord : pord dec none none T = true) (hwf : pwf T d0 = true)
    (hcl1 : cleanIn dec (dec k1) none none T)
    (hcl2 : cleanIn dec (dec k2) none none T)
    (hA : A < d0)
    (htakeA : (pathOf dec T k1).take A = (pathOf dec T k2).take A)
    (hgdA : (pathOf dec T k1).getD A 0 ≠ (pathOf dec T k2).getD A 0)
    (hw12 : dec k1 ≤ dec k2)
    (hlt1 : ∀ p ∈ PTree.traverse (subAt T (pathOf dec T k1) (A + 1)),
      dec p.1 < dec k2)
    (hge2 : ∀ p ∈ PTree.traverse (subAt T (pathOf dec T k2) (A + 1)),
      dec k1 ≤ dec p.1) :
    ∀ dd res, A < dd → dd ≤ d0 →
      walkLevels dec L T k1 k2 (pathOf dec T k1) (pathOf dec T k2) dd =
        .ok res →
      (dd = d0 → List.Perm res
        (winF dec k1 k2
          (PTree.traverse (subAt T (pathOf dec T k1) A)))) ∧
      (dd < d0 → List.Perm
        (res ++ (winF dec k1 k2
            (PTree.traverse (subAt T (pathOf dec T k1) (dd + 1))) ++
          winF dec k1 k2
            (PTree.traverse (subAt T (pathOf dec T k2) (dd + 1)))))
        (winF dec k1 k2
          (PTree.traverse (subAt T (pathOf dec T k1) A)))) := by
  obtain ⟨hlen1, hb1, hc1⟩ := path_facts dec k1 d0 T none none hord hwf
    rfl rfl hcl1
  obtain ⟨hlen2, hb2, hc2⟩ := path_facts dec k2 d0 T none none hord hwf
    rfl rfl hcl2
  have htkne : ∀ n, A < n →
      (pathOf dec T k1).take n ≠ (pathOf dec T k2).take n := by
    intro n hn hcon
    exact hgdA (getD_eq_of_take_eq _ _ n A hn (by rw [hlen1]; omega)
      (by rw [hlen2]; omega) hcon)
  obtain ⟨sA, csA, loA, hiA, eA1, eA2, eA3, eA4, eA5, eA6, eA7⟩ :=
    hb1 A hA
  obtain ⟨sB, csB, loB, hiB, fA1, fA2, fA3, fA4, fA5, fA6, fA7⟩ :=
    hb2 A hA
  rw [← htakeA] at fA1
  rw [eA1] at fA1
  injection fA1 with fA1b
  injection fA1b with gs gb gcs
  subst gs
  subst gcs
  have hi12 : routeIdx dec sA k1 < routeIdx dec sA k2 := by
    have hle : routeIdx dec sA k1 ≤ routeIdx dec sA k2 := by
      rw [routeIdx_eq dec sA loA hiA csA eA2 k1,
        routeIdx_eq dec sA loA hiA csA eA2 k2]
      exact bisl_mono_nat _ _ _ hw12
    rcases Nat.lt_or_ge (routeIdx dec sA k1) (routeIdx dec sA k2)
      with h | h
    · exact h
    · exfalso
      apply hgdA
      rw [eA6, fA6]
      omega
  have hDA : winF dec k1 k2
      (PTree.traverse (subAt T (pathOf dec T k1) A)) =
      winF dec k1 k2
        (PTree.traverse (subAt T (pathOf dec T k1) (A + 1))) ++
      (PTree.traverseL ((csA.take ((pathOf dec T k2).getD A 0)).drop
        ((pathOf dec T k1).getD A 0 + 1)) ++
       winF dec k1 k2
         (PTree.traverse (subAt T (pathOf dec T k2) (A + 1)))) := by
    have ha : PTree.traverse (subAt T (pathOf dec T k1) A) =
        PTree.traverseL csA := by
      simp only [subAt]
      rw [eA1, Option.getD_some]
      rfl
    have hb : subAt T (pathOf dec T k1) (A + 1) =
        csA.getD (routeIdx dec sA k1) (.pleaf []) := by
      simp only [subAt]
      rw [eA7, Option.getD_some]
    have hc : subAt T (pathOf dec T k2) (A + 1) =
        csA.getD (routeIdx dec sA k2) (.pleaf []) := by
      simp only [subAt]
      rw [fA7, Option.getD_some]
    rw [ha, hb, hc, eA6, fA6]
    exact lca_level dec k1 k2 sA csA loA hiA eA2 hi12
  have hltnode : ∀ dd, A + 1 ≤ dd → dd ≤ d0 →
      ∀ p ∈ PTree.traverse (subAt T (pathOf dec T k1) dd),
        dec p.1 < dec k2 := by
    intro dd h1 h2 p hp
    refine hlt1 p ?_
    have he : dd = (A + 1) + (dd - A - 1) := by omega
    rw [he] at hp
    exact subAt_mem_le dec k1 d0 T hord hwf hcl1 (dd - A - 1) (A + 1)
      (by omega) p hp
  have hgenode : ∀ dd, A + 1 ≤ dd → dd ≤ d0 →
      ∀ p ∈ PTree.traverse (subAt T (pathOf dec T k2) dd),
        dec k1 ≤ dec p.1 := by
    intro dd h1 h2 p hp
    refine hge2 p ?_
    have he : dd = (A + 1) + (dd - A - 1) := by omega
    rw [he] at hp
    exact subAt_mem_le dec k2 d0 T hord hwf hcl2 (dd - A - 1) (A + 1)
      (by omega) p hp
  intro dd
  induction dd with
  | zero =>
      intro res h1
      exact absurd h1 (by omega)
  | succ e ihe =>
      intro res hAd hdle h
      rw [walkLevels] at h
      split at h
      · rename_i hcond
        exact absurd (by simpa using hcond) (htkne (e + 1) (by omega))
      · rw [ok_bind_eq_ok] at h
        obtain ⟨r1, hcr, h⟩ := h
        rw [ok_bind_eq_ok] at h
        obtain ⟨r2, hclf, h⟩ := h
        rw [ok_bind_eq_ok] at h
        obtain ⟨rest, hrest, h⟩ := h
        injection h with h2
        subst h2
        by_cases hd0 : e + 1 = d0
        · -- leaf level
          obtain ⟨lb1, loL1, hiL1, m1, m2, m3, m4⟩ := hc1
          obtain ⟨lb2, loL2, hiL2, n1, n2, n3, n4⟩ := hc2
          have htf1 : (pathOf dec T k1).take (e + 1) =
              pathOf dec T k1 := by
            rw [hd0, ← hlen1, List.take_length]
          have htf2 : (pathOf dec T k2).take (e + 1) =
              pathOf dec T k2 := by
            rw [hd0, ← hlen2, List.take_length]
          simp only [collectRight, htf1, m1] at hcr
          rw [if_pos (by rw [hlen1]; omega)] at hcr
          simp only [collectLeft, htf2, n1] at hclf
          rw [if_pos (by rw [hlen2]; omega)] at hclf
          have hr1 := leafRangeRight_spec dec L lb1 k1 r1 hcr
          have hr2 := leafRangeLeft_spec dec L lb2 k2 r2 hclf
          have hsubeq1 : subAt T (pathOf dec T k1) (e + 1) =
              .pleaf lb1 := by
            simp only [subAt]
            rw [htf1, m1, Option.getD_some]
          have hsubeq2 : subAt T (pathOf dec T k2) (e + 1) =
              .pleaf lb2 := by
            simp only [subAt]
            rw [htf2, n1, Option.getD_some]
          have hlb1w : ∀ p ∈ lb1, dec p.1 < dec k2 := by
            intro p hp
            refine hltnode (e + 1) (by omega) (by omega) p ?_
            rw [hsubeq1]
            exact hp
          have hlb2w : ∀ p ∈ lb2, dec k1 ≤ dec p.1 := by
            intro p hp
            refine hgenode (e + 1) (by omega) (by omega) p ?_
            rw [hsubeq2]
            exact hp
          have hfeq1 : lb1.filter (fun p => decide (dec k1 ≤ dec p.1)) =
              winF dec k1 k2 lb1 := by
            simp only [winF]
            refine List.filter_congr ?_
            intro p hp
            have := hlb1w p hp
            simp [this]
          have hfeq2 : lb2.filter (fun p => decide (dec p.1 < dec k2)) =
              winF dec k1 k2 lb2 := by
            simp only [winF]
            refine List.filter_congr ?_
            intro p hp
            have := hlb2w p hp
            simp [this]
          have hr1w : List.Perm r1 (winF dec k1 k2 lb1) :=
            hfeq1 ▸ hr1
          have hr2w : List.Perm r2 (winF dec k1 k2 lb2) :=
            hfeq2 ▸ hr2
          have hD1leaf : winF dec k1 k2
              (PTree.traverse (subAt T (pathOf dec T k1) (e + 1))) =
              winF dec k1 k2 lb1 := by
            rw [hsubeq1]
            rfl
          have hD2leaf : winF dec k1 k2
              (PTree.traverse (subAt T (pathOf dec T k2) (e + 1))) =
              winF dec k1 k2 lb2 := by
            rw [hsubeq2]
            rfl
          split at hrest
          · rename_i hcond2
            have heA : e = A := by
              by_contra hne
              exact htkne e (by omega) (by simpa using hcond2)
            subst heA
            rw [eA1] at hrest
            simp only [List.isEmpty_nil, massert_true, bind_ok] at hrest
            injection hrest with hrest2
            subst hrest2
            refine ⟨fun _ => ?_, fun hlt => absurd hlt (by omega)⟩
            refine List.Perm.trans (List.Perm.append
              (List.Perm.append hr1w hr2w) (List.Perm.refl _)) ?_
            rw [hDA, hD1leaf, hD2leaf]
            rw [← Multiset.coe_eq_coe]
            simp only [← Multiset.coe_add]
            abel
          · rename_i hcond2
            have heA : A < e := by
              rcases Nat.lt_or_ge A e with h | h
              · exact h
              · exfalso
                have he : A = e := by omega
                refine hcond2 ?_
                rw [← he]
                simp [htakeA]
            obtain ⟨ih1, ih2⟩ := ihe rest (by omega) (by omega) hrest
            have ihlt := ih2 (by omega)
            rw [hD1leaf, hD2leaf] at ihlt
            refine ⟨fun _ => ?_, fun hlt => absurd hlt (by omega)⟩
            refine List.Perm.trans (List.Perm.append
              (List.Perm.append hr1w hr2w) (List.Perm.refl _)) ?_
            refine List.Perm.trans ?_ ihlt
            rw [← Multiset.coe_eq_coe]
            simp only [← Multiset.coe_add]
            abel
        · -- internal level
          have hintlt : e + 1 < d0 := by omega
          obtain ⟨s1, cs1, lo1, hi1, g1, g2, g3, g4, g5, g6, g7⟩ :=
            hb1 (e + 1) hintlt
          obtain ⟨s2, cs2, lo2x, hi2x, j1, j2, j3, j4, j5, j6, j7⟩ :=
            hb2 (e + 1) hintlt
          have hnode1 : PTree.traverse (subAt T (pathOf dec T k1)
              (e + 1)) = PTree.traverseL cs1 := by
            simp only [subAt]
            rw [g1, Option.getD_some]
            rfl
          have hnode2 : PTree.traverse (subAt T (pathOf dec T k2)
              (e + 1)) = PTree.traverseL cs2 := by
            simp only [subAt]
            rw [j1, Option.getD_some]
            rfl
          have hr1lvl := collectRight_level dec L T k1 k2
            (pathOf dec T k1) (e + 1) s1 cs1 lo1 hi1 r1 g1 g6 g2
            (by rw [hlen1]; omega) hcr
            (by
              intro p hp
              refine hltnode (e + 1) (by omega) (by omega) p ?_
              rw [hnode1]
              exact hp)
          have hr2lvl := collectLeft_level dec L T k1 k2
            (pathOf dec T k2) (e + 1) s2 cs2 lo2x hi2x r2 j1 j6 j2
            (by rw [hlen2]; omega) hclf
            (by
              intro p hp
              refine hgenode (e + 1) (by omega) (by omega) p ?_
              rw [hnode2]
              exact hp)
          have hD1 : winF dec k1 k2
              (PTree.traverse (subAt T (pathOf dec T k1) (e + 1))) =
              winF dec k1 k2 (PTree.traverse
                (subAt T (pathOf dec T k1) (e + 1 + 1))) ++ r1 := by
            have hbch : subAt T (pathOf dec T k1) (e + 1 + 1) =
                cs1.getD (routeIdx dec s1 k1) (.pleaf []) := by
              simp only [subAt]
              rw [g7, Option.getD_some]
            rw [hnode1, hbch]
            exact hr1lvl
          have hD2 : winF dec k1 k2
              (PTree.traverse (subAt T (pathOf dec T k2) (e + 1))) =
              r2 ++ winF dec k1 k2 (PTree.traverse
                (subAt T (pathOf dec T k2) (e + 1 + 1))) := by
            have hbch : subAt T (pathOf dec T k2) (e + 1 + 1) =
                cs2.getD (routeIdx dec s2 k2) (.pleaf []) := by
              simp only [subAt]
              rw [j7, Option.getD_some]
            rw [hnode2, hbch]
            exact hr2lvl
          split at hrest
          · rename_i hcond2
            have heA : e = A := by
              by_contra hne
              exact htkne e (by omega) (by simpa using hcond2)
            subst heA
            rw [eA1] at hrest
            simp only [List.isEmpty_nil, massert_true, bind_ok] at hrest
            injection hrest with hrest2
            subst hrest2
            refine ⟨fun heq => absurd heq (by omega), fun _ => ?_⟩
            rw [hDA, hD1, hD2]
            rw [← Multiset.coe_eq_coe]
            simp only [← Multiset.coe_add]
            abel
          · rename_i hcond2
            have heA : A < e := by
              rcases Nat.lt_or_ge A e with h | h
              · exact h
              · exfalso
                have he : A = e := by omega
                refine hcond2 ?_
                rw [← he]
                simp [htakeA]
            obtain ⟨ih1, ih2⟩ := ihe rest (by omega) (by omega) hrest
            have ihlt := ih2 (by omega)
            rw [hD1, hD2] at ihlt
            refine ⟨fun heq => absurd heq (by omega), fun _ => ?_⟩
            refine List.Perm.trans ?_ ihlt
            rw [← Multiset.coe_eq_coe]
            simp only [← Multiset.coe_add]
            abel

/-- The walk when both keys route to the same leaf: a single leaf
slice. -/
theorem walkLevels_spec_eq (dec : Nat → Nat) (L : Nat) (T : PTree)
    (k1 k2 : Nat) (d0 : Nat)
    (hord : pord dec none none T = true) (hwf : pwf T d0 = true)
    (hcl1 : cleanIn dec (dec k1) none none T)
    (hcl2 : cleanIn dec (dec k2) none none T)
    (hw12 : dec k1 ≤ dec k2)
    (heq : pathOf dec T k1 = pathOf dec T k2)
    (res : List (Nat × Nat))
    (h : walkLevels dec L T k1 k2 (pathOf dec T k1) (pathOf dec T k2)
      (pathOf dec T k1).length = .ok res) :
    List.Perm res (winF dec k1 k2 (PTree.traverse T)) := by
  obtain ⟨hlen1, hb1, hc1⟩ := path_facts dec k1 d0 T none none hord hwf
    rfl rfl hcl1
  obtain ⟨lb, loL, hiL, m1, m2, m3, m4⟩ := hc1
  have hshared := shared_prefix_filter dec T k1 k2 d0 hord hwf hcl1
    hcl2 d0 le_rfl (by rw [heq])
  have hsubq : subAt T (pathOf dec T k1) d0 = .pleaf lb := by
    simp only [subAt]
    rw [← hlen1, List.take_length, m1, Option.getD_some]
  rw [hsubq] at hshared
  have hres : leafRangeSearch dec L lb k1 k2 = .ok res := by
    cases hn : (pathOf dec T k1).length with
    | zero =>
        rw [hn] at h
        rw [walkLevels] at h
        split at h
        · rw [m1] at h
          exact h
        · rename_i hcond
          exact absurd (by rw [heq]; simp) hcond
    | succ e =>
        rw [hn] at h
        rw [walkLevels] at h
        split at h
        · split at h
          · rename_i x buf hsceq
            rw [m1] at hsceq
            injection hsceq with hsceq2
            injection hsceq2 with hbuf
            subst hbuf
            exact h
          · rename_i hcond3
            exact absurd m1 (hcond3 lb)
        · rename_i hcond
          exact absurd (by rw [heq]; simp) hcond
  have hperm := leafRangeSearch_spec dec L lb k1 k2 res hw12 hres
  rw [hshared]
  exact hperm

/-- `Pope.range_search` on an order- and shape-valid tree with in-order
plaintexts returns exactly the stored pairs in the half-open window. -/
theorem pope_range_search_spec (dec : Nat → Nat) (L : Nat) (fuel : Nat)
    (rnd : List (List Nat)) (t : PTree) (k1 k2 : Nat) (d : Nat)
    (out : List (Nat × Nat) × PTree × List (List Nat))
    (hL : 2 ≤ L)
    (hord : pord dec none none t = true)
    (hshape : pshape L t true d = true)
    (hw12 : dec k1 ≤ dec k2)
    (h : Pope.range_search dec L fuel rnd t k1 k2 = .ok out) :
    List.Perm out.1 ((PTree.traverse t).filter (fun p =>
      decide (dec k1 ≤ dec p.1) && decide (dec p.1 < dec k2))) := by
  simp only [Pope.range_search, ok_bind_eq_ok] at h
  obtain ⟨⟨t2, asg, rnd2⟩, hsp, h⟩ := h
  dsimp only at h
  obtain ⟨hmap, hent⟩ := popeSplit_spec dec L fuel rnd t [k1, k2]
    (t2, asg, rnd2) hsp hord (by simp [hw12])
  obtain ⟨ho2, hperm2, hclean2, d2, hshape2⟩ := pope_split_facts dec L
    fuel rnd t [k1, k2] d (t2, asg, rnd2) hL hsp hord hshape
    (by simp)
  dsimp only at ho2 hperm2 hclean2 hshape2
  have hwf2 : pwf t2 d2 = true := pshape_imp_pwf L t2 true d2 hshape2
  have hcl1 : cleanIn dec (dec k1) none none t2 :=
    hclean2 k1 (by simp)
  have hcl2 : cleanIn dec (dec k2) none none t2 :=
    hclean2 k2 (by simp)
  rcases asg with _ | ⟨⟨ka, lba⟩, _ | ⟨⟨kb, lbb⟩, _ | _⟩⟩
  · simp at hmap
  · simp at hmap
  case _ =>
      have hka : ka = k1 := by
        have := congrArg (fun l => l.getD 0 0) hmap
        simpa using this
      have hkb : kb = k2 := by
        have := congrArg (fun l => l.getD 1 0) hmap
        simpa using this
      rw [hka] at h
      rw [hkb] at h
      dsimp only at h
      rw [ok_bind_eq_ok] at h
      obtain ⟨res, hwalk, h⟩ := h
      injection h with h2
      rw [← h2]
      dsimp only
      have hfilterp : List.Perm
          ((PTree.traverse t2).filter (fun p =>
            decide (dec k1 ≤ dec p.1) && decide (dec p.1 < dec k2)))
          ((PTree.traverse t).filter (fun p =>
            decide (dec k1 ≤ dec p.1) && decide (dec p.1 < dec k2))) :=
        hperm2.filter _
  -- two cases on path equality
      obtain ⟨hlen1, hb1, hc1⟩ := path_facts dec k1 d2 t2 none none ho2
        hwf2 rfl rfl hcl1
      obtain ⟨hlen2, hb2, hc2⟩ := path_facts dec k2 d2 t2 none none ho2
        hwf2 rfl rfl hcl2
      by_cases hpq : pathOf dec t2 k1 = pathOf dec t2 k2
      · have := walkLevels_spec_eq dec L t2 k1 k2 d2 ho2 hwf2 hcl1 hcl2
          hw12 hpq res hwalk
        refine this.trans ?_
        exact hfilterp
      · obtain ⟨A, hAlt, htakeA, hgdA⟩ := first_diff
          (pathOf dec t2 k1) (pathOf dec t2 k2)
          (by rw [hlen1, hlen2]) hpq
        rw [hlen1] at hAlt
        obtain ⟨sA, csA, loA, hiA, e1, e2, e3, e4, e5, e6, e7⟩ :=
          hb1 A hAlt
        obtain ⟨sB, csB, loB, hiB, f1, f2, f3, f4, f5, f6, f7⟩ :=
          hb2 A hAlt
        rw [← htakeA] at f1
        rw [e1] at f1
        injection f1 with f1b
        injection f1b with gs gb gcs
        subst gs
        subst gcs
        have hroute1 : routeIdx dec sA k1 =
            bisl (· < ·) (sA.map dec) (dec k1) :=
          routeIdx_eq dec sA loA hiA csA e2 k1
        have hroute2 : routeIdx dec sA k2 =
            bisl (· < ·) (sA.map dec) (dec k2) :=
          routeIdx_eq dec sA loA hiA csA e2 k2
        have hi12 : routeIdx dec sA k1 < routeIdx dec sA k2 := by
          have hle : routeIdx dec sA k1 ≤ routeIdx dec sA k2 := by
            rw [hroute1, hroute2]
            exact bisl_mono_nat _ _ _ hw12
          rcases Nat.lt_or_ge (routeIdx dec sA k1)
            (routeIdx dec sA k2) with hx | hx
          · exact hx
          · exfalso
            apply hgdA
            rw [e6, f6]
            omega
        have hclen : csA.length = sA.length + 1 :=
          pordL_length dec sA loA hiA csA e2
        have hile2 : routeIdx dec sA k2 ≤ sA.length := by
          have := bisl_le_length (· < ·) (sA.map dec) (dec k2)
          rw [← hroute2] at this
          simpa using this
        have hi1len : routeIdx dec sA k1 < sA.length := by omega
        have hsortedm : List.Sorted (· ≤ ·) (sA.map dec) := by
          have hp2 : List.Pairwise (· < ·) (sA.map dec) :=
            List.pairwise_map.2 (pordL_pivots dec sA loA hiA csA e2).1
          exact hp2.imp Nat.le_of_lt
        have hlt1 : ∀ p ∈ PTree.traverse
            (subAt t2 (pathOf dec t2 k1) (A + 1)),
            dec p.1 < dec k2 := by
          intro p hp
          have hsubeq : subAt t2 (pathOf dec t2 k1) (A + 1) =
              csA.getD (routeIdx dec sA k1) (.pleaf []) := by
            simp only [subAt]
            rw [e7, Option.getD_some]
          rw [hsubeq] at hp
          have hcord := pordL_child dec csA sA loA hiA e2
            (routeIdx dec sA k1) (by omega)
          rw [if_pos hi1len] at hcord
          have hb := pord_bounded dec _ _ _ hcord p hp
          have hple : dec p.1 ≤ dec (sA.getD (routeIdx dec sA k1) 0) :=
            by simpa [hiOk, decide_eq_true_eq] using hb.2
          have hlt := bisl_prefix_lt (sA.map dec) (dec k2)
            (routeIdx dec sA k1) (by rw [← hroute2]; omega)
          rw [getD_map_dec dec sA _ hi1len] at hlt
          omega
        have hge2 : ∀ p ∈ PTree.traverse
            (subAt t2 (pathOf dec t2 k2) (A + 1)),
            dec k1 ≤ dec p.1 := by
          intro p hp
          have hsubeq : subAt t2 (pathOf dec t2 k2) (A + 1) =
              csA.getD (routeIdx dec sA k2) (.pleaf []) := by
            simp only [subAt]
            rw [f7, Option.getD_some]
          rw [hsubeq] at hp
          have hcord := pordL_child dec csA sA loA hiA e2
            (routeIdx dec sA k2) (by omega)
          rw [if_neg (by omega)] at hcord
          have hb := pord_bounded dec _ _ _ hcord p hp
          have hpgt : dec (sA.getD (routeIdx dec sA k2 - 1) 0) <
              dec p.1 := by
            simpa [loOk, decide_eq_true_eq] using hb.1
          have hge := bisl_at_ge (sA.map dec) (dec k1)
            (by rw [← hroute1]; simpa using hi1len)
          rw [← hroute1, getD_map_dec dec sA _ hi1len] at hge
          have hmono := sorted_getD_mono (· ≤ ·) (sA.map dec) hsortedm
            0 (routeIdx dec sA k1) (routeIdx dec sA k2 - 1) (by omega)
            (by simp; omega)
          have hlem : dec (sA.getD (routeIdx dec sA k1) 0) ≤
              dec (sA.getD (routeIdx dec sA k2 - 1) 0) := by
            rcases hmono with he | hle
            · rw [he]
            · rw [getD_map_dec dec sA _ hi1len,
                getD_map_dec dec sA _ (by omega)] at hle
              exact hle
          omega
        have hwalkspec := walkLevels_spec dec L t2 k1 k2 d2 A ho2 hwf2
          hcl1 hcl2 hAlt htakeA hgdA hw12 hlt1 hge2
          (pathOf dec t2 k1).length res (by omega) (by omega) hwalk
        have hres := hwalkspec.1 (by rw [hlen1])
        have hshared := shared_prefix_filter dec t2 k1 k2 d2 ho2 hwf2
          hcl1 hcl2 A (by omega) htakeA
        have hres2 : List.Perm res
            (winF dec k1 k2 (PTree.traverse t2)) := by
          rw [hshared]
          exact hres
        exact hres2.trans hfilterp
  case _ => simp at hmap
